import Mathlib

/-!
# Event storage, time surfaces and the multi-stream slicer of `dv-processing/core`

A shallow embedding of `dv::PartialEventData` (the shard), `dv::AddressableEventStorage` (the
event store), `dv::TimeSurfaceBase` and `dv::SpeedInvariantTimeSurfaceBase` of `core.hpp`, and
of `dv::MultiStreamSlicer` of `multi_stream_slicer.hpp`.

* Event packets live in a heap of buffers that shards reference through a handle
  (`std::shared_ptr<EventPacketType>`); copying a shard or a store copies handles, never buffers.
* `std::vector` iterators are positions: an iterator is the index it points at, and an
  `erase`/`insert` leaves the position of an iterator untouched.
* `size_t` arithmetic on caller-supplied indices wraps modulo `2 ^ 64`.
* Timestamps and durations (`int64_t`, microseconds) are integers, which the model does not
  wrap: the only arithmetic of the store on them, `getHighestTime() - duration` in
  `retainDuration`, stays inside `int64_t` whenever neither the timestamps nor the duration
  are negative; the slicer adds 1 to a timestamp and subtracts a duration from one.  The sum
  `getHighestTime() + 1` of the time round trip is formed in `int64_t` (`int64_add`), where
  the largest timestamp overflows.
* `elements.insert(end, first, last)` appends the records of `first .. last` as they are
  before the call, also when the range lies in the packet that grows.
* A C++ exception is an `Err`; an access outside a `std::vector` (undefined behaviour in C++)
  is reported as `Err.undefinedBehaviour`.
* The cells of a time surface are integers; conversions to an integral type are modular
  (`IntegralType.static_cast`).
* `dv::StreamSlicer` (`stream_slicer.hpp`) is not among the sources: the slicer takes its main
  slicer as a parameter `StreamSlicer`, and `specSlicer` is a main slicer written from the
  specification, for the sample runs.  The internal callbacks that the main slicer invokes
  inside `accept` are run when it returns; they do not touch the main slicer.  A call of a
  callback of the user is recorded as a `Delivery`.
-/

namespace dv

/-! ## Errors, events, heap -/

/-- The ways a call can fail.  `orderViolation` is the `std::out_of_range` thrown by
`push_back`/`add` ("Tried adding event ... out of order"), `rangeError` is `std::range_error`,
`outOfRange` the `std::out_of_range` of `erase`/`at`, `invalidArgument` is
`std::invalid_argument`, `runtimeError` is `dv::exceptions::RuntimeError`;
`undefinedBehaviour` marks an access outside a vector. -/
inductive Err where
  | orderViolation
  | rangeError
  | outOfRange
  | invalidArgument
  | undefinedBehaviour
  | runtimeError
  deriving DecidableEq, Repr

/-- An addressable event: `dv::Event` (timestamp, x, y, polarity). -/
structure Event where
  timestamp : Int
  x : Int
  y : Int
  polarity : Bool
  deriving DecidableEq, Repr

/-- The value of `SIZE_MAX + 1` on the 64-bit targets of the library. -/
def SIZE_MOD : Nat := 18446744073709551616

/-- Addition of two `size_t` values. -/
def addSz (a b : Nat) : Nat := (a + b) % SIZE_MOD

/-- Subtraction of two `size_t` values. -/
def subSz (a b : Nat) : Nat := (a + (SIZE_MOD - b % SIZE_MOD)) % SIZE_MOD

/-- The event packets that are alive, by handle, and the next unused handle
(`std::make_shared<EventPacketType>()` returns a handle no live shard holds). -/
structure Heap where
  packets : Nat → List Event
  next : Nat

/-- A heap without packets. -/
def Heap.empty : Heap := ⟨fun _ => [], 0⟩

/-- Allocation of an empty packet: `std::make_shared<EventPacketType>()`. -/
def Heap.alloc (h : Heap) : Nat × Heap :=
  (h.next, ⟨fun b => if b = h.next then [] else h.packets b, h.next + 1⟩)

/-- Insertion of `es` at the end of packet `b`: `elements.emplace_back` / `elements.insert(end, ..)`. -/
def Heap.append (h : Heap) (b : Nat) (es : List Event) : Heap :=
  ⟨fun k => if k = b then h.packets b ++ es else h.packets k, h.next⟩

/-! ## Binary search (`std::lower_bound`, `std::upper_bound`) -/

/-- The loop of `std::lower_bound` over positions `first .. first + len`: `pred i` is the
comparison of the element at position `i` against the searched value.  `len` at least halves
in every round, so `fuel = len` rounds always suffice. -/
def boundLoop (pred : Nat → Bool) : Nat → Nat → Nat → Nat
  | 0, first, _ => first
  | fuel + 1, first, len =>
    if len = 0 then first
    else
      let half := len / 2
      if pred (first + half) then boundLoop pred fuel (first + half + 1) (len - half - 1)
      else boundLoop pred fuel first half

/-- Position returned by `std::lower_bound(begin, end, value, comp)` on a range of `n` elements,
with `pred i = comp(range[i], value)`. -/
def lower_bound (pred : Nat → Bool) (n : Nat) : Nat := boundLoop pred n 0 n

/-- Position returned by `std::upper_bound(v.begin(), v.end(), value)` on a vector of numbers:
the same loop, advancing while `!(value < v[i])`. -/
def upper_bound (v : List Nat) (value : Nat) : Nat :=
  boundLoop (fun i => !decide (value < v.getD i 0)) v.length 0 v.length

/-- Position returned by `std::lower_bound(v.begin(), v.end(), value)` on a vector of numbers. -/
def lower_bound_nat (v : List Nat) (value : Nat) : Nat :=
  lower_bound (fun i => decide (v.getD i 0 < value)) v.length

/-- Checked form of `v[i]` on a `std::vector`: outside the vector the read is undefined. -/
def vecGet {α : Type} (v : List α) (i : Nat) : Except Err α :=
  match v[i]? with
  | some a => .ok a
  | none => .error .undefinedBehaviour

/-- Checked form of `v.back()`. -/
def vecBack {α : Type} (v : List α) : Except Err α :=
  match v.getLast? with
  | some a => .ok a
  | none => .error .undefinedBehaviour

/-- The loop `for (i = lo; i < hi; i++) out.emplace_back(v[i])`. -/
def copyRange {α : Type} (v : List α) (lo hi : Nat) : Except Err (List α) :=
  if hi ≤ lo then .ok []
  else if hi ≤ v.length then .ok ((v.drop lo).take (hi - lo))
  else .error .undefinedBehaviour

/-! ## `PartialEventData`: the shard -/

/-- The shard `PartialEventData`.  `data` is the handle held by `data_` (and by
`modifiableDataPtr_` when the shard does not reference const data). -/
structure PartialEventData where
  referencesConstData : Bool
  start : Nat
  length : Nat
  capacity : Nat
  lowestTime : Int
  highestTime : Int
  data : Nat
  deriving DecidableEq, Repr

namespace PartialEventData

/-- The constructor `PartialEventData(capacity)`: a fresh packet, owned alone. -/
def create (h : Heap) (capacity : Nat) : Heap × PartialEventData :=
  let (b, h1) := h.alloc
  (h1, ⟨false, 0, 0, capacity, 0, 0, b⟩)

/-- The buffer `data_->elements`. -/
def elements (h : Heap) (p : PartialEventData) : List Event := h.packets p.data

/-- Timestamp of `(data_->elements)[i]`; every read the shard makes is inside the buffer as
long as the window `start .. start + length` is. -/
def timeAt (h : Heap) (p : PartialEventData) (i : Nat) : Int :=
  match (p.elements h)[i]? with
  | some e => e.timestamp
  | none => 0

/-- The records `begin() .. end()` of the shard, in order. -/
def window (h : Heap) (p : PartialEventData) : List Event :=
  ((p.elements h).drop p.start).take p.length

/-- The method `iteratorAtTime(time)` as an offset from `begin()`: `std::lower_bound` with
`EventTimeComparator`, i.e. the first record whose timestamp is not below `time`. -/
def iteratorAtTime (h : Heap) (p : PartialEventData) (time : Int) : Nat :=
  lower_bound (fun i => decide (p.timeAt h (p.start + i) < time)) p.length

/-- The method `sliceFront(number)`. -/
def sliceFront (h : Heap) (p : PartialEventData) (number : Nat) : Except Err PartialEventData :=
  if number > p.length then .error .rangeError
  else
    let start := p.start + number
    let length := p.length - number
    .ok { p with
      start := start
      length := length
      lowestTime := if length = 0 then 0 else p.timeAt h start }

/-- The method `sliceBack(number)`. -/
def sliceBack (h : Heap) (p : PartialEventData) (number : Nat) : Except Err PartialEventData :=
  if number > p.length then .error .rangeError
  else
    let length := p.length - number
    .ok { p with
      length := length
      highestTime := if length = 0 then 0 else p.timeAt h (p.start + length - 1) }

/-- The method `sliceTimeFront(time)`: the sliced shard and the number of records cut. -/
def sliceTimeFront (h : Heap) (p : PartialEventData) (time : Int) :
    Except Err (PartialEventData × Nat) :=
  let index := p.iteratorAtTime h time
  match p.sliceFront h index with
  | .error e => .error e
  | .ok q => .ok (q, index)

/-- The method `sliceTimeBack(time)`: the sliced shard and the number of records cut.
`index` is a position of `begin() .. end()`, so `length_ - index` does not wrap. -/
def sliceTimeBack (h : Heap) (p : PartialEventData) (time : Int) :
    Except Err (PartialEventData × Nat) :=
  let index := p.iteratorAtTime h time
  let cutAmount := p.length - index
  match p.sliceBack h cutAmount with
  | .error e => .error e
  | .ok q => .ok (q, cutAmount)

/-- The method `_unsafe_addEvent(event)` (and `_unsafe_moveEvent`). -/
def _unsafe_addEvent (h : Heap) (p : PartialEventData) (event : Event) : Heap × PartialEventData :=
  (h.append p.data [event],
   { p with
      highestTime := event.timestamp
      lowestTime := if p.length = 0 then event.timestamp else p.lowestTime
      length := p.length + 1 })

/-- The method `canStoreMoreEvents()`. -/
def canStoreMoreEvents (h : Heap) (p : PartialEventData) : Bool :=
  !p.referencesConstData
    && (decide ((p.elements h).length < p.capacity)
        && decide (p.start + p.length = (p.elements h).length))

/-- The method `availableCapacity()`.  `merge` evaluates it only behind `canStoreMoreEvents()`,
where `elements.size() < capacity_`, so the unsigned subtraction does not wrap there. -/
def availableCapacity (h : Heap) (p : PartialEventData) : Nat :=
  if p.referencesConstData then 0 else p.capacity - (p.elements h).length

/-- The method `merge(other)`: the heap and the shard afterwards, and the returned flag. -/
def merge (h : Heap) (p other : PartialEventData) : Heap × PartialEventData × Bool :=
  if !p.canStoreMoreEvents h || decide (p.availableCapacity h < other.length) then (h, p, false)
  else if other.length = 0 then (h, p, true)
  else
    let h1 := h.append p.data (other.window h)
    let length := p.length + other.length
    let q := { p with length := length }
    (h1, { q with highestTime := q.timeAt h1 (q.start + q.length - 1) }, true)

end PartialEventData

/-- The comparison `PartialEventDataTimeComparator(lower)(shard, time)`. -/
def PartialEventDataTimeComparator (lower : Bool) (p : PartialEventData) (time : Int) : Bool :=
  if lower then decide (p.lowestTime < time) else decide (p.highestTime < time)

/-- `PartialEventDataTimeComparator(lower)` applied to the shard at position `i` of a shard
list, as `std::lower_bound` calls it. -/
def compareAt (lower : Bool) (v : List PartialEventData) (time : Int) (i : Nat) : Bool :=
  match v[i]? with
  | some p => PartialEventDataTimeComparator lower p time
  | none => false

/-! ## `AddressableEventStorage`: the event store -/

/-- The event store `AddressableEventStorage`. -/
structure EventStore where
  dataPartials : List PartialEventData
  partialOffsets : List Nat
  totalLength : Nat
  shardCapacity : Nat
  deriving DecidableEq, Repr

/-- What a mutating member leaves behind: the exception it threw, if any, and the heap and
the store (`*this`) at that moment. -/
structure Effect where
  thrown : Option Err
  heap : Heap
  store : EventStore

namespace EventStore

/-- The default constructor `AddressableEventStorage()`. -/
def empty : EventStore := ⟨[], [], 0, 10000⟩

/-- The loop of the constructor from a shard list: one offset per shard, then the total. -/
def buildOffsets : List PartialEventData → Nat → List Nat × Nat
  | [], total => ([], total)
  | p :: ps, total =>
    let r := buildOffsets ps (total + p.length)
    (total :: r.1, r.2)

/-- The constructor `AddressableEventStorage(const std::vector<PartialEventDataType> &)`. -/
def fromPartials (dataPartials : List PartialEventData) : EventStore :=
  let r := buildOffsets dataPartials 0
  ⟨dataPartials, r.1, r.2, 10000⟩

/-- The records of the store in iteration order: the windows of its shards, one after another. -/
def events (h : Heap) (s : EventStore) : List Event :=
  s.dataPartials.flatMap (PartialEventData.window h)

/-- The method `size()`. -/
def size (s : EventStore) : Nat := s.totalLength

/-- The method `isEmpty()`. -/
def isEmpty (s : EventStore) : Bool := decide (s.totalLength = 0)

/-- The method `getLowestTime()`; `dataPartials_.front()` of an empty vector is undefined. -/
def getLowestTime (s : EventStore) : Except Err Int :=
  if s.isEmpty then .ok 0
  else
    match s.dataPartials.head? with
    | some p => .ok p.lowestTime
    | none => .error .undefinedBehaviour

/-- The method `getHighestTime()`; `dataPartials_.back()` of an empty vector is undefined. -/
def getHighestTime (s : EventStore) : Except Err Int :=
  if s.isEmpty then .ok 0
  else
    match s.dataPartials.getLast? with
    | some p => .ok p.highestTime
    | none => .error .undefinedBehaviour

/-- The method `setShardCapacity(shardCapacity)`. -/
def setShardCapacity (s : EventStore) (shardCapacity : Nat) : EventStore :=
  { s with shardCapacity := max 1 shardCapacity }

/-- The method `_getLastNonFullPartial()`: the heap, the shards before the returned one, the
returned shard (the last of the store) and the offsets afterwards. -/
def _getLastNonFullPartial (h : Heap) (s : EventStore) :
    Heap × List PartialEventData × PartialEventData × List Nat :=
  let fresh :=
    let r := PartialEventData.create h s.shardCapacity
    (r.1, s.dataPartials, r.2, s.partialOffsets ++ [s.totalLength])
  match s.dataPartials.getLast? with
  | some p => if p.canStoreMoreEvents h then (h, s.dataPartials.dropLast, p, s.partialOffsets) else fresh
  | none => fresh

/-- The method `push_back(event)` (and `emplace_back`). -/
def push_back (h : Heap) (s : EventStore) (event : Event) : Effect :=
  match s.getHighestTime with
  | .error u => ⟨some u, h, s⟩
  | .ok highest =>
    if highest > event.timestamp then ⟨some .orderViolation, h, s⟩
    else
      let (h1, before, target, offsets) := s._getLastNonFullPartial h
      let (h2, target2) := target._unsafe_addEvent h1 event
      ⟨none, h2,
        { s with
          dataPartials := before ++ [target2]
          partialOffsets := offsets
          totalLength := s.totalLength + 1 }⟩

/-- One round of the loop of `add(store)`, for the shard `other` of the added store. -/
def addPartial : Heap × EventStore → PartialEventData → Heap × EventStore
  | (h, s), other =>
  match s.dataPartials.getLast? with
  | none =>
    (h, { s with
          dataPartials := s.dataPartials ++ [other]
          partialOffsets := s.partialOffsets ++ [s.totalLength]
          totalLength := s.totalLength + other.length })
  | some last =>
    let (h1, last1, merged) := last.merge h other
    if merged then
      (h1, { s with
            dataPartials := s.dataPartials.dropLast ++ [last1]
            totalLength := s.totalLength + other.length })
    else
      (h1, { s with
            dataPartials := s.dataPartials ++ [other]
            partialOffsets := s.partialOffsets ++ [s.totalLength]
            totalLength := s.totalLength + other.length })

/-- The method `add(store)`, for a `store` that is another object than `*this`. -/
def add (h : Heap) (s store : EventStore) : Effect :=
  if store.isEmpty then ⟨none, h, s⟩
  else
    match s.getHighestTime, store.getLowestTime with
    | .error u, _ => ⟨some u, h, s⟩
    | .ok _, .error u => ⟨some u, h, s⟩
    | .ok highest, .ok lowest =>
      if highest > lowest then ⟨some .orderViolation, h, s⟩
      else
        let r := store.dataPartials.foldl addPartial (h, s)
        ⟨none, r.1, r.2⟩

/-- The method `slice(start, length)`. -/
def slice (h : Heap) (s : EventStore) (start length : Nat) : Except Err EventStore := do
  if addSz start length > s.totalLength then throw Err.rangeError
  if length = 0 then return empty
  let lowerPartial := upper_bound s.partialOffsets start
  let upperPartial := lower_bound_nat s.partialOffsets (addSz start length)
  let lowIndex := subSz lowerPartial 1
  let highIndex := upperPartial
  let newPartials ← copyRange s.dataPartials lowIndex highIndex
  let offLow ← vecGet s.partialOffsets lowIndex
  let frontSliceAmount := subSz start offLow
  let offHigh ← vecGet s.partialOffsets (subSz highIndex 1)
  let back ← vecBack newPartials
  let backSliceAmount := subSz (addSz offHigh back.length) (addSz start length)
  let front ← vecGet newPartials 0
  let front1 ← front.sliceFront h frontSliceAmount
  let newPartials := front1 :: newPartials.tail
  let back ← vecBack newPartials
  let back1 ← back.sliceBack h backSliceAmount
  let newPartials := newPartials.dropLast ++ [back1]
  let front ← vecGet newPartials 0
  let newPartials := if front.length = 0 then newPartials.tail else newPartials
  let back ← vecBack newPartials
  let newPartials := if back.length = 0 then newPartials.dropLast else newPartials
  return fromPartials newPartials

/-- The method `sliceTime(startTime, endTime, retStart, retEnd)`: the slice, `retStart` and
`retEnd`. -/
def sliceTime (h : Heap) (s : EventStore) (startTime endTime : Int) :
    Except Err (EventStore × Nat × Nat) := do
  let n := s.dataPartials.length
  let lowerPartial := lower_bound (compareAt false s.dataPartials startTime) n
  let upperPartial := lower_bound (compareAt true s.dataPartials endTime) n
  let newPartials := (s.dataPartials.drop lowerPartial).take (upperPartial - lowerPartial)
  let newLength := (newPartials.map PartialEventData.length).sum
  if newLength = 0 then return (empty, 0, 0)
  let front ← vecGet newPartials 0
  let (front1, cutFront) ← front.sliceTimeFront h startTime
  let newPartials := front1 :: newPartials.tail
  let back ← vecBack newPartials
  let (back1, cutBack) ← back.sliceTimeBack h endTime
  let newPartials := newPartials.dropLast ++ [back1]
  let newLength := subSz (subSz newLength cutFront) cutBack
  let front ← vecGet newPartials 0
  let newPartials := if front.length = 0 then newPartials.tail else newPartials
  let newPartials :=
    match newPartials.getLast? with
    | some back => if back.length = 0 then newPartials.dropLast else newPartials
    | none => newPartials
  let offLow ← vecGet s.partialOffsets lowerPartial
  let retStart := addSz offLow cutFront
  let retEnd := addSz retStart newLength
  return (fromPartials newPartials, retStart, retEnd)

/-- The loop at the end of `erase`: for every shard from `dataIter` on, add its length to the
total and append the total to the offsets. -/
def rebuildOffsets : List PartialEventData → List Nat → Nat → List Nat × Nat
  | [], offsets, total => (offsets, total)
  | p :: ps, offsets, total => rebuildOffsets ps (offsets ++ [total + p.length]) (total + p.length)

/-- The body of `erase(start, length)`: the store afterwards.  `lowerIter`, `upperIter`,
`lowerPartial`, `upperPartial` and `dataIter` are positions. -/
def eraseCore (h : Heap) (s : EventStore) (start length : Nat) : Except Err EventStore := do
  if start > s.totalLength then throw Err.outOfRange
  if addSz start length > s.totalLength then throw Err.outOfRange
  if length = 0 then return s
  let lowerPartial := upper_bound s.partialOffsets start
  let upperPartial := lower_bound_nat s.partialOffsets (addSz start length)
  let lowIndex := subSz lowerPartial 1
  let highIndex := upperPartial
  let (partials, lowerIter, upperIter) ←
    if subSz highIndex lowIndex = 1 then do
      -- changes within a single shard
      let highLimit :=
        if highIndex < s.partialOffsets.length then s.partialOffsets.getD highIndex 0
        else s.totalLength
      let offLow ← vecGet s.partialOffsets lowIndex
      let lower ← vecGet s.dataPartials lowIndex
      let (partials, upperIter) ←
        if start = offLow then do
          let lower1 ← lower.sliceFront h (min length lower.length)
          pure (s.dataPartials.set lowIndex lower1, highIndex)
        else if addSz start length = highLimit then do
          let lower1 ← lower.sliceBack h (min length lower.length)
          pure (s.dataPartials.set lowIndex lower1, highIndex)
        else if addSz start length < highLimit then do
          let correctedStart := subSz start offLow
          let copy ← lower.sliceFront h (addSz correctedStart length)
          let lower1 ← lower.sliceBack h (subSz lower.length correctedStart)
          let partials := s.dataPartials.set lowIndex lower1
          pure (partials.take (lowIndex + 1) ++ copy :: partials.drop (lowIndex + 1), lowIndex + 1)
        else pure (s.dataPartials, highIndex)
      let lower ← vecGet partials lowIndex
      if lower.length = 0 then pure (partials.eraseIdx lowIndex, lowIndex, upperIter)
      else pure (partials, lowIndex + 1, upperIter)
    else do
      -- events spanning several shards
      let offLow ← vecGet s.partialOffsets lowIndex
      let (partials, lowerIter) ←
        if start > offLow then do
          let lower ← vecGet s.dataPartials lowIndex
          let lower1 ← lower.sliceBack h (subSz lower.length (subSz start offLow))
          pure (s.dataPartials.set lowIndex lower1, lowIndex + 1)
        else pure (s.dataPartials, lowIndex)
      if highIndex = 0 then throw Err.undefinedBehaviour
      let upperIter := highIndex - 1
      let offUp ← vecGet s.partialOffsets (highIndex - 1)
      let upper ← vecGet partials upperIter
      let upperBackSliceAmount := min (subSz (addSz start length) offUp) upper.length
      let upper1 ← upper.sliceFront h upperBackSliceAmount
      let partials := partials.set upperIter upper1
      if upper1.length = 0 then pure (partials.eraseIdx upperIter, lowerIter, upperIter)
      else pure (partials, lowerIter, upperIter)
  -- erase the shards in between the bounds
  let partials ←
    if !partials.isEmpty && decide (lowerIter ≠ upperIter) then
      if lowerIter ≤ upperIter ∧ upperIter ≤ partials.length then
        pure (partials.take lowerIter ++ partials.drop upperIter)
      else throw Err.undefinedBehaviour
    else pure partials
  -- rebuild the offsets
  let offsets := s.partialOffsets.take lowerPartial
  let total ← vecBack offsets
  let dataIter := offsets.length - 1
  if dataIter > partials.length then throw Err.undefinedBehaviour
  let r := rebuildOffsets (partials.drop dataIter) offsets total
  return { s with dataPartials := partials, partialOffsets := r.1, totalLength := r.2 }

/-- The method `erase(start, length)`.  Every exception in it is thrown before the first
write to the store, so a failed call leaves the store as it was. -/
def erase (h : Heap) (s : EventStore) (start length : Nat) : Effect :=
  match eraseCore h s start length with
  | .ok s1 => ⟨none, h, s1⟩
  | .error e => ⟨some e, h, s⟩

/-- The method `at(index)` (`operator[]` of the shard reads `elements[start_ + offset]`). -/
def at_ (h : Heap) (s : EventStore) (index : Nat) : Except Err Event := do
  if index ≥ s.totalLength then throw Err.outOfRange
  let lowerPartial := upper_bound s.partialOffsets index
  let lowIndex := subSz lowerPartial 1
  let p ← vecGet s.dataPartials lowIndex
  let off ← vecGet s.partialOffsets lowIndex
  vecGet (p.elements h) (addSz p.start (subSz index off))

/-- The method `retainDuration(duration)`, `duration` in microseconds. -/
def retainDuration (h : Heap) (s : EventStore) (duration : Int) : Effect :=
  match s.getHighestTime with
  | .error u => ⟨some u, h, s⟩
  | .ok highest =>
    let startTime := highest - duration
    let lowerPartial := lower_bound (compareAt false s.dataPartials startTime) s.dataPartials.length
    if lowerPartial ≠ 0 then
      let partials := s.dataPartials.drop (lowerPartial - 1)
      let r := buildOffsets partials 0
      ⟨none, h, { s with dataPartials := partials, partialOffsets := r.1, totalLength := r.2 }⟩
    else ⟨none, h, s⟩

end EventStore

/-! ## Programs over several stores -/

/-- The state of a program that holds several event stores: the heap of packets and the store
variables. -/
structure World where
  heap : Heap
  stores : List EventStore

/-- A call a program makes on its store variables, named by index. -/
inductive Call where
  /-- Declare a new variable `EventStore S;`. -/
  | create
  /-- The call `stores[i].setShardCapacity(capacity)`. -/
  | setShardCapacity (i capacity : Nat)
  /-- The assignment `stores[dst] = stores[src]`. -/
  | copy (dst src : Nat)
  /-- The call `stores[i].push_back(event)`. -/
  | push_back (i : Nat) (event : Event)
  /-- The call `stores[i].add(stores[j])`. -/
  | add (i j : Nat)
  /-- The assignment `stores[dst] = stores[src].slice(start, length)`. -/
  | slice (dst src start length : Nat)
  /-- The assignment `stores[dst] = stores[src].sliceTime(startTime, endTime)`. -/
  | sliceTime (dst src : Nat) (startTime endTime : Int)
  /-- The call `stores[i].erase(start, length)`. -/
  | erase (i start length : Nat)
  /-- The call `stores[i].retainDuration(duration)`. -/
  | retainDuration (i : Nat) (duration : Int)

namespace World

/-- The state of a program before it declares any store. -/
def init : World := ⟨Heap.empty, []⟩

/-- The state after a call of a mutating member on variable `i`, if the call succeeded. -/
def commit (w : World) (i : Nat) (r : Effect) : Option World :=
  match r.thrown with
  | none => some ⟨r.heap, w.stores.set i r.store⟩
  | some _ => none

/-- The state after one successful call; `none` when the call names a variable that does not
exist, throws, or has undefined behaviour. -/
def step (w : World) : Call → Option World
  | .create => some ⟨w.heap, w.stores ++ [EventStore.empty]⟩
  | .setShardCapacity i capacity =>
    match w.stores[i]? with
    | some s => some ⟨w.heap, w.stores.set i (s.setShardCapacity capacity)⟩
    | none => none
  | .copy dst src =>
    match w.stores[dst]?, w.stores[src]? with
    | some _, some s => some ⟨w.heap, w.stores.set dst s⟩
    | _, _ => none
  | .push_back i event =>
    match w.stores[i]? with
    | some s => w.commit i (s.push_back w.heap event)
    | none => none
  | .add i j =>
    match w.stores[i]?, w.stores[j]? with
    | some s, some t => w.commit i (s.add w.heap t)
    | _, _ => none
  | .slice dst src start length =>
    match w.stores[dst]?, w.stores[src]? with
    | some _, some s =>
      match s.slice w.heap start length with
      | .ok t => some ⟨w.heap, w.stores.set dst t⟩
      | .error _ => none
    | _, _ => none
  | .sliceTime dst src startTime endTime =>
    match w.stores[dst]?, w.stores[src]? with
    | some _, some s =>
      match s.sliceTime w.heap startTime endTime with
      | .ok t => some ⟨w.heap, w.stores.set dst t.1⟩
      | .error _ => none
    | _, _ => none
  | .erase i start length =>
    match w.stores[i]? with
    | some s => w.commit i (s.erase w.heap start length)
    | none => none
  | .retainDuration i duration =>
    match w.stores[i]? with
    | some s => w.commit i (s.retainDuration w.heap duration)
    | none => none

/-- The state after a sequence of calls, all of them successful. -/
def run (w : World) : List Call → Option World
  | [] => some w
  | c :: cs =>
    match w.step c with
    | some w1 => run w1 cs
    | none => none

/-- The timestamps of store `i` in iteration order. -/
def timestamps (w : World) (i : Nat) : Option (List Int) :=
  (w.stores[i]?).map (fun s => (s.events w.heap).map Event.timestamp)

end World

/-- An event with timestamp `t` at the origin. -/
def ev (t : Int) : Event := ⟨t, 0, 0, true⟩

/-! ## Invariants of the representation -/

/-- The window of the shard lies inside a packet that has been allocated. -/
def PartialEventData.Valid (h : Heap) (p : PartialEventData) : Prop :=
  p.data < h.next ∧ p.start + p.length ≤ (h.packets p.data).length

/-- Every shard of the store is valid. -/
def EventStore.Valid (h : Heap) (s : EventStore) : Prop :=
  ∀ p ∈ s.dataPartials, p.Valid h

/-- The offset list is parallel to the shard list: entry `i` is the number of records before
shard `i`, and the total length is the number of records of all shards. -/
def EventStore.Indexed (s : EventStore) : Prop :=
  EventStore.buildOffsets s.dataPartials 0 = (s.partialOffsets, s.totalLength)

/-- The second heap is the first one after some packets grew at their end and some packets
were allocated. -/
def Heap.Extends (h h1 : Heap) : Prop :=
  h.next ≤ h1.next ∧ ∀ b, b < h.next → ∃ es, h1.packets b = h.packets b ++ es

/-! ## Sample stores and auxiliary definitions -/

/-- Three shards of capacity 2 with the timestamps `[1,2]`, `[3,4]`, `[5,6]`: the packets
0, 1, 2; and a packet 3 with the timestamps `[0,1]`. -/
def demoHeap : Heap :=
  ⟨fun b => if b = 0 then [ev 1, ev 2] else if b = 1 then [ev 3, ev 4]
    else if b = 2 then [ev 5, ev 6] else if b = 3 then [ev 0, ev 1] else [], 4⟩

/-- Three shards of capacity 2 with the timestamps `[1,2]`, `[3,4]`, `[5,6]`: the store. -/
def demoStore : EventStore :=
  ⟨[⟨false, 0, 2, 2, 1, 2, 0⟩, ⟨false, 0, 2, 2, 3, 4, 1⟩, ⟨false, 0, 2, 2, 5, 6, 2⟩], [0, 2, 4], 6, 2⟩

/-- A store with one shard `[0,1]` that can still store events, in packet 3 of `demoHeap`. -/
def demoTarget : EventStore := ⟨[⟨false, 0, 2, 10000, 0, 1, 3⟩], [0], 2, 10000⟩

/-- The statements of `slice` that follow the copy of the shards: narrow the first shard by
`frontSliceAmount`, the last by `backSliceAmount`, drop them when empty, build the store. -/
def EventStore.narrowEnds (h : Heap) (newPartials : List PartialEventData)
    (frontSliceAmount backSliceAmount : Nat) : Except Err EventStore := do
  let front ← vecGet newPartials 0
  let front1 ← front.sliceFront h frontSliceAmount
  let newPartials := front1 :: newPartials.tail
  let back ← vecBack newPartials
  let back1 ← back.sliceBack h backSliceAmount
  let newPartials := newPartials.dropLast ++ [back1]
  let front ← vecGet newPartials 0
  let newPartials := if front.length = 0 then newPartials.tail else newPartials
  let back ← vecBack newPartials
  let newPartials := if back.length = 0 then newPartials.dropLast else newPartials
  return fromPartials newPartials

/-- Number of records in the first `i` shards. -/
def EventStore.offsetOf (ps : List PartialEventData) (i : Nat) : Nat :=
  ((ps.take i).map PartialEventData.length).sum

/-- The sizes of the store fit `size_t`. -/
def EventStore.Fits (s : EventStore) : Prop :=
  s.dataPartials.length < SIZE_MOD ∧ s.totalLength < SIZE_MOD

/-- The records of the store have non-decreasing timestamps in iteration order. -/
def EventStore.TimeOrdered (h : Heap) (s : EventStore) : Prop :=
  (s.events h).Pairwise (fun a b => a.timestamp ≤ b.timestamp)

/-- No shard of the store is empty, and every shard caches the timestamps of its first and of
its last record. -/
def EventStore.Tight (h : Heap) (s : EventStore) : Prop :=
  ∀ p ∈ s.dataPartials, p.length ≠ 0 ∧ p.lowestTime = p.timeAt h p.start
    ∧ p.highestTime = p.timeAt h (p.start + p.length - 1)

/-- The records in the window `[startTime, endTime)`. -/
def inWindow (startTime endTime : Int) (e : Event) : Bool :=
  decide (startTime ≤ e.timestamp) && decide (e.timestamp < endTime)

/-- The calls that build the store of the specification's scenario: shard capacity 2 and the
timestamps 1 to 6, which fills three shards `[1,2]`, `[3,4]`, `[5,6]`. -/
def demoCalls : List Call :=
  [.create, .setShardCapacity 0 2, .push_back 0 (ev 1), .push_back 0 (ev 2), .push_back 0 (ev 3),
   .push_back 0 (ev 4), .push_back 0 (ev 5), .push_back 0 (ev 6)]

/-- An `erase` followed by a `push_back`. -/
def eraseThenPush : List Call :=
  [.create, .push_back 0 (ev 1), .push_back 0 (ev 2), .erase 0 0 1, .push_back 0 (ev 3)]

/-- Calls of `push_back`, `slice`, `add` and `erase` only, all of them successful: store 0 is
`[5,6,7,8]`, stores 1 to 3 are its slices `[5,6]`, `[7]`, `[8]`, store 4 is emptied by an
`erase`, merged with the three slices, erased again and pushed to, and store 5 is an empty
store that store 4 is added to. -/
def unorderedCalls : List Call :=
  [.create, .push_back 0 (ev 5), .push_back 0 (ev 6), .push_back 0 (ev 7), .push_back 0 (ev 8),
   .create, .slice 1 0 0 2, .create, .slice 2 0 2 1, .create, .slice 3 0 3 1,
   .create, .push_back 4 (ev 5), .erase 4 0 1, .add 4 1, .add 4 2, .add 4 3,
   .erase 4 0 3, .push_back 4 (ev 1), .create, .add 5 4]

/-- The call declares a variable, or assigns a copy, a `slice` or a `sliceTime` to a variable
other than `i`, or erases from a variable other than `i`. -/
def Call.sparesStore (i : Nat) : Call → Bool
  | .create => true
  | .copy dst _ => decide (dst ≠ i)
  | .slice dst _ _ _ => decide (dst ≠ i)
  | .sliceTime dst _ _ _ => decide (dst ≠ i)
  | .erase j _ _ => decide (j ≠ i)
  | _ => false

/-- The three-shard store and an empty store variable. -/
def demoWorld : World := ⟨demoHeap, [demoStore, EventStore.empty]⟩

/-- Store `[3, 5]`: `demoStore.slice(1, 4).slice(1, 3)` after `erase(1, 1)`. -/
def demoSliced : EventStore :=
  ⟨[⟨false, 0, 1, 2, 3, 3, 1⟩, ⟨false, 0, 1, 2, 5, 5, 2⟩], [0, 1, 2], 2, 10000⟩

/-- The constructor `PartialEventData(std::shared_ptr<const EventPacketType> data)` for the
packet with handle `data`; `front()` and `back()` of an empty buffer are undefined. -/
def PartialEventData.fromPacket (h : Heap) (data : Nat) : Except Err PartialEventData :=
  match (h.packets data).head?, (h.packets data).getLast? with
  | some first, some last =>
    .ok ⟨true, 0, (h.packets data).length, (h.packets data).length, first.timestamp,
      last.timestamp, data⟩
  | _, _ => .error .undefinedBehaviour

/-- The constructor `AddressableEventStorage(std::shared_ptr<const EventPacketType> packet)`
for the packet with handle `packet`.  The members start from their defaults: no shard, no
offset, total length 0. -/
def EventStore.fromPacket (h : Heap) (packet : Nat) : Except Err EventStore := do
  let s := EventStore.empty
  if (h.packets packet).isEmpty then return s
  match s.dataPartials.getLast?, (h.packets packet).head? with
  | some last, some front =>
    if last.highestTime > front.timestamp then throw Err.orderViolation
  | _, _ => pure ()
  let p ← PartialEventData.fromPacket h packet
  return { s with
    dataPartials := s.dataPartials ++ [p]
    partialOffsets := s.partialOffsets ++ [s.totalLength]
    totalLength := s.totalLength + p.length }

/-- The operator `operator+(other)`: `add(other)` on a copy of the store; the heap afterwards
and the returned store. -/
def EventStore.plus (h : Heap) (s other : EventStore) : Except Err (Heap × EventStore) :=
  let r := s.add h other
  match r.thrown with
  | some e => .error e
  | none => .ok (r.heap, r.store)

/-- The method `eraseTime(startTime, endTime)`: the store afterwards and the returned count.
`lowerPartial` and `upperPartial` are positions of the shard vector; stepping back from
`begin()` and dereferencing `end()` are undefined. -/
def EventStore.eraseTime (h : Heap) (s : EventStore) (startTime endTime : Int) :
    Except Err (EventStore × Nat) := do
  if startTime > endTime then throw Err.invalidArgument
  let n := s.dataPartials.length
  let lowerPartial := lower_bound (compareAt false s.dataPartials startTime) n
  let upperPartial := lower_bound (compareAt true s.dataPartials endTime) n
  if upperPartial = n ∧ n = 0 then throw Err.undefinedBehaviour
  let upperPartial := if upperPartial = n then upperPartial - 1 else upperPartial
  let lower ← vecGet s.dataPartials lowerPartial
  let cutFront := lower.iteratorAtTime h startTime
  let upper ← vecGet s.dataPartials upperPartial
  let cutBack := upper.iteratorAtTime h endTime
  let offStart ← vecGet s.partialOffsets lowerPartial
  let offEnd ← vecGet s.partialOffsets upperPartial
  let eraseIndexStart := addSz offStart cutFront
  let eraseLength := subSz (addSz offEnd cutBack) eraseIndexStart
  let r := s.erase h eraseIndexStart eraseLength
  match r.thrown with
  | some e => throw e
  | none => return (r.store, eraseLength)

/-- The first shard of `demoStore`: the records `[1,2]` of packet 0. -/
def demoShard : PartialEventData := ⟨false, 0, 2, 2, 1, 2, 0⟩

/-- A heap with one packet whose timestamps are `[5,3]`, and one with `[1,5]`. -/
def packetHeap : Heap :=
  ⟨fun b => if b = 0 then [ev 5, ev 3] else if b = 1 then [ev 1, ev 5] else [], 2⟩

/-- A store with the single shard `[1,5]`, in packet 1 of `packetHeap`. -/
def straddleStore : EventStore := ⟨[⟨true, 0, 2, 2, 1, 5, 1⟩], [0], 2, 10000⟩

/-- The variable that a call assigns to, or on which it calls a mutating member. -/
def Call.target : Call → Option Nat
  | .create => none
  | .setShardCapacity i _ => some i
  | .copy dst _ => some dst
  | .push_back i _ => some i
  | .add i _ => some i
  | .slice dst _ _ _ => some dst
  | .sliceTime dst _ _ _ => some dst
  | .erase i _ _ => some i
  | .retainDuration i _ => some i

/-- The call declares a variable, sets a shard capacity, assigns a copy, or appends with
`push_back` or `add`. -/
def Call.appends : Call → Bool
  | .create => true
  | .setShardCapacity _ _ => true
  | .copy _ _ => true
  | .push_back _ _ => true
  | .add _ _ => true
  | _ => false

/-- Every store variable of the program has valid shards. -/
def World.Valid (w : World) : Prop := ∀ s ∈ w.stores, s.Valid w.heap

/-- Two variables that hold the same store `[0,1]`, whose last shard can still store events:
the second is a copy of the first. -/
def sharedWorld : World := ⟨demoHeap, [demoTarget, demoTarget]⟩

/-- The program state `sharedWorld` after `push_back` of timestamp 7 on the copy (variable 1):
the shared packet has grown, variable 0 is untouched. -/
def sharedAfterPush : World :=
  ⟨(demoTarget.push_back demoHeap (ev 7)).heap,
   [demoTarget, (demoTarget.push_back demoHeap (ev 7)).store]⟩

/-- The program state `sharedAfterPush` after `push_back` of timestamp 9 on the original
(variable 0). -/
def sharedAfterBoth : World :=
  ⟨(demoTarget.push_back sharedAfterPush.heap (ev 9)).heap,
   [(demoTarget.push_back sharedAfterPush.heap (ev 9)).store,
    (demoTarget.push_back demoHeap (ev 7)).store]⟩

/-- The shard is not empty and caches the timestamps of its first and of its last record. -/
def PartialEventData.Tight (h : Heap) (p : PartialEventData) : Prop :=
  p.length ≠ 0 ∧ p.lowestTime = p.timeAt h p.start
    ∧ p.highestTime = p.timeAt h (p.start + p.length - 1)

/-- The store has valid, non-empty shards that cache their first and last timestamps, and its
total length is the number of its records. -/
def EventStore.Sound (h : Heap) (s : EventStore) : Prop :=
  s.Valid h ∧ s.Tight h ∧ s.totalLength = (s.dataPartials.map PartialEventData.length).sum

/-- The store with the single full shard `[1,2]` of `demoHeap`. -/
def demoHead : EventStore := ⟨[demoShard], [0], 2, 2⟩

/-- The store with the two full shards `[3,4]`, `[5,6]` of `demoHeap`. -/
def demoTail : EventStore :=
  ⟨[⟨false, 0, 2, 2, 3, 4, 1⟩, ⟨false, 0, 2, 2, 5, 6, 2⟩], [0, 2], 4, 2⟩

/-- A mutable shard with room: the records `[5,6]` of packet 2 of `demoHeap`, capacity 10000. -/
def roomyShard : PartialEventData := ⟨false, 0, 2, 10000, 5, 6, 2⟩

/-! ## Integral types of the machine -/

/-- An integral type of C++: its width in bits and its signedness. -/
structure IntegralType where
  bits : Nat
  signed : Bool
  deriving DecidableEq, Repr

namespace IntegralType

/-- The value `std::numeric_limits<T>::min()`. -/
def min (T : IntegralType) : Int := if T.signed then -(2 ^ (T.bits - 1)) else 0

/-- The value `std::numeric_limits<T>::max()`. -/
def max (T : IntegralType) : Int := if T.signed then 2 ^ (T.bits - 1) - 1 else 2 ^ T.bits - 1

/-- The conversion `static_cast<T>(v)` of an integer: the value of `T` congruent to `v` modulo
`2 ^ bits`. -/
def static_cast (T : IntegralType) (v : Int) : Int := T.min + (v - T.min) % 2 ^ T.bits

/-- The expression `-s` for `s` of type `T`: a type narrower than `int` is promoted to `int`
first, a type of the width of `int` or wider is negated in `T` itself, which wraps when `T` is
unsigned. -/
def negate (T : IntegralType) (s : Int) : Int := if T.bits < 32 then -s else T.static_cast (-s)

end IntegralType

/-- The type `int16_t` of the coordinates. -/
def int16_t : IntegralType := ⟨16, true⟩

/-- The type `int32_t` (`int`). -/
def int32_t : IntegralType := ⟨32, true⟩

/-- The type `int64_t` of the timestamps. -/
def int64_t : IntegralType := ⟨64, true⟩

/-- The type `uint8_t`. -/
def uint8_t : IntegralType := ⟨8, false⟩

/-- The type `uint32_t` (`unsigned int`). -/
def uint32_t : IntegralType := ⟨32, false⟩

/-! ## `TimeSurfaceBase`: the time surface -/

/-- The time surface `TimeSurfaceBase`: the matrix `mData` with `rows × cols` cells; `data r c`
is the cell in row `r` and column `c`, and is read only inside the matrix. -/
structure TimeSurface where
  rows : Nat
  cols : Nat
  data : Nat → Nat → Int

namespace TimeSurface

/-- The constructor `TimeSurfaceBase(rows, cols)`: a zero matrix. -/
def create (rows cols : Nat) : TimeSurface := ⟨rows, cols, fun _ _ => 0⟩

/-- The method `rows()`: `static_cast<int16_t>(mData.rows())`. -/
def rows16 (t : TimeSurface) : Int := int16_t.static_cast t.rows

/-- The method `cols()`: `static_cast<int16_t>(mData.cols())`. -/
def cols16 (t : TimeSurface) : Int := int16_t.static_cast t.cols

/-- The test `y >= 0 && y < rows() && x >= 0 && x < cols()` of `at` and `operator()`. -/
def inRange (t : TimeSurface) (y x : Int) : Bool :=
  decide (y ≥ 0) && decide (y < t.rows16) && decide (x ≥ 0) && decide (x < t.cols16)

/-- The method `at(y, x)`, read. -/
def at_ (t : TimeSurface) (y x : Int) : Except Err Int :=
  if !t.inRange y x then .error .rangeError else .ok (t.data y.toNat x.toNat)

/-- The assignment `mData(y, x) = v`. -/
def set (t : TimeSurface) (y x : Nat) (v : Int) : TimeSurface :=
  { t with data := fun r c => if r = y ∧ c = x then v else t.data r c }

/-- The method `accept(event)`: `at(event.y(), event.x()) = event.timestamp()`. -/
def accept (t : TimeSurface) (event : Event) : Except Err TimeSurface :=
  if !t.inRange event.y event.x then .error .rangeError
  else .ok (t.set event.y.toNat event.x.toNat event.timestamp)

/-- The method `addImpl(a, target)`: `target.mData = (mData.array() + a).max(0)`; the
assignment gives `target` the size of the matrix on the right. -/
def addImpl (t : TimeSurface) (a : Int) (_target : TimeSurface) : TimeSurface :=
  ⟨t.rows, t.cols, fun r c => Max.max (t.data r c + a) 0⟩

/-- The operator `operator+(s)` for a constant `s` of the integral type `T`. -/
def plus (t : TimeSurface) (_T : IntegralType) (s : Int) : TimeSurface :=
  let tm := create t.rows t.cols
  t.addImpl (int64_t.static_cast s) tm

/-- The operator `operator+=(s)` for a constant `s` of the integral type `T`. -/
def plusAssign (t : TimeSurface) (_T : IntegralType) (s : Int) : TimeSurface :=
  t.addImpl (int64_t.static_cast s) t

/-- The operator `operator-(s)` for a constant `s` of the integral type `T`:
`static_cast<ScalarType>(-s)` is added. -/
def minus (t : TimeSurface) (T : IntegralType) (s : Int) : TimeSurface :=
  let tm := create t.rows t.cols
  t.addImpl (int64_t.static_cast (T.negate s)) tm

/-- The operator `operator-=(s)` for a constant `s` of the integral type `T`. -/
def minusAssign (t : TimeSurface) (T : IntegralType) (s : Int) : TimeSurface :=
  t.addImpl (int64_t.static_cast (T.negate s)) t

/-- The cells `mData.data() .. mData.data() + mData.size()` in storage order (column after
column). -/
def cells (t : TimeSurface) : List Int :=
  (List.range t.cols).flatMap (fun c => (List.range t.rows).map (fun r => t.data r c))

/-- The `std::accumulate` of `getOCVMat`: the lowest and the highest non-zero cell, from
`(INT64_MAX, INT64_MIN)`. -/
def minMaxNonZero (t : TimeSurface) : Int × Int :=
  t.cells.foldl
    (fun prev next =>
      (if next ≠ 0 ∧ next < prev.1 then next else prev.1,
       if next ≠ 0 ∧ next > prev.2 then next else prev.2))
    (int64_t.max, int64_t.min)

/-- The method `getOCVMat<T>()`: the exported matrix and the offset. -/
def getOCVMat (t : TimeSurface) (T : IntegralType) : TimeSurface × Int :=
  let maxTimestamp := t.minMaxNonZero.2
  let offset := maxTimestamp - T.max
  (⟨t.rows, t.cols, fun r c => T.static_cast (Max.max (t.data r c - offset) T.min)⟩, offset)

end TimeSurface

/-- An event at `(x, y)` with timestamp `t`. -/
def evAt (y x t : Int) : Event := ⟨t, x, y, true⟩

/-- A surface with one cell of value 10. -/
def oneCell : TimeSurface := (TimeSurface.create 1 1).set 0 0 10

/-- A surface of `1 × 3` cells with the values 1000, 900 and 0. -/
def twoCells : TimeSurface := ((TimeSurface.create 1 3).set 0 0 1000).set 0 1 900

/-! ## `SpeedInvariantTimeSurfaceBase`: the speed invariant time surface -/

/-- The surface `SpeedInvariantTimeSurfaceBase<EventStoreType, patchDiameter, uint8_t>`: the
template parameter `patchDiameter`, the cells of the base class and `mLatestPixelValue`. -/
structure SpeedInvariantTimeSurface where
  patchDiameter : Nat
  surface : TimeSurface
  mLatestPixelValue : Int

namespace SpeedInvariantTimeSurface

/-- The constructor `SpeedInvariantTimeSurfaceBase(shape)` for a shape of `height × width`. -/
def create (patchDiameter height width : Nat) : SpeedInvariantTimeSurface :=
  ⟨patchDiameter, TimeSurface.create height width, (patchDiameter + 1) * (patchDiameter + 1)⟩

/-- The statement `value -= value > currentPixel` on the cell `(row, col)`, where
`currentPixel` refers to the cell `(y, x)`. -/
def decrementCell (t : TimeSurface) (y x : Nat) (cell : Nat × Nat) : TimeSurface :=
  let value := t.data cell.1 cell.2
  let currentPixel := t.data y x
  t.set cell.1 cell.2 (uint8_t.static_cast (value - if value > currentPixel then 1 else 0))

/-- The positions `lo, lo + 1, .., hi` that `for (int16_t i = lo; i <= hi; i++)` visits. -/
def closedRange (lo hi : Int) : List Nat :=
  (List.range (hi + 1 - lo).toNat).map (fun i => (lo + i).toNat)

/-- The bulk update of the interior: `area -= (area.array() > currentPixel)` on the block of
`height × width` cells whose first cell is `(top, left)`. -/
def blockUpdate (t : TimeSurface) (top left height width : Nat) (currentPixel : Int) :
    TimeSurface :=
  { t with data := fun r c =>
      if top ≤ r ∧ r < top + height ∧ left ≤ c ∧ c < left + width then
        uint8_t.static_cast (t.data r c - if t.data r c > currentPixel then 1 else 0)
      else t.data r c }

/-- The method `accept(event)`.  The fixed-size block of the interior branch has to lie inside
the matrix; Eigen checks that by an assertion only. -/
def accept (s : SpeedInvariantTimeSurface) (event : Event) :
    Except Err SpeedInvariantTimeSurface := do
  let t := s.surface
  let mHalfPatchWidth : Int := (s.patchDiameter / 2 : Nat)
  if !t.inRange event.y event.x then throw Err.rangeError
  let y := event.y.toNat
  let x := event.x.toNat
  let t1 ←
    if event.x > mHalfPatchWidth ∧ event.x < t.cols16 - mHalfPatchWidth
        ∧ event.y > mHalfPatchWidth ∧ event.y < t.cols16 - mHalfPatchWidth then
      -- safe to apply batch update
      let top := (event.y - mHalfPatchWidth).toNat
      let left := (event.x - mHalfPatchWidth).toNat
      if top + s.patchDiameter ≤ t.rows ∧ left + s.patchDiameter ≤ t.cols then
        pure (blockUpdate t top left s.patchDiameter s.patchDiameter (t.data y x))
      else throw Err.undefinedBehaviour
    else
      -- close to an edge
      let rowStart := Max.max 0 (event.y - mHalfPatchWidth)
      let rowEnd := Min.min (t.rows16 - 1) (event.y + mHalfPatchWidth)
      let colStart := Max.max 0 (event.x - mHalfPatchWidth)
      let colEnd := Min.min (t.cols16 - 1) (event.x + mHalfPatchWidth)
      pure (((closedRange rowStart rowEnd).flatMap
        (fun row => (closedRange colStart colEnd).map (fun col => (row, col)))).foldl
        (fun acc cell => decrementCell acc y x cell) t)
  return { s with surface := t1.set y x (uint8_t.static_cast s.mLatestPixelValue) }

end SpeedInvariantTimeSurface

/-- A speed invariant surface of `height × width` cells with patch diameter `d` in which
every cell holds 9, except the cell `(y, x)`, which holds 0. -/
def flatSurface (d height width y x : Nat) : SpeedInvariantTimeSurface :=
  { SpeedInvariantTimeSurface.create d height width with
    surface := ⟨height, width, fun r c => if r = y ∧ c = x then 0 else 9⟩ }

/-- The cells of the rows `0 .. rows` and columns `0 .. cols` of a surface, row by row. -/
def TimeSurface.table (t : TimeSurface) (rows cols : Nat) : List (List Int) :=
  (List.range rows).map (fun r => (List.range cols).map (fun c => t.data r c))

/-! ## `MultiStreamSlicer`: packets of the stream buffers -/

/-- The packet and vector types of the variant `InputType` that store their elements in
place: `dv::EventPacket`, `dv::IMUPacket`, `dv::TriggerPacket`, `dv::cvector<dv::Frame>`,
`dv::cvector<dv::IMU>`, `dv::cvector<dv::Trigger>`. -/
inductive VectorKind where
  | eventPacket
  | imuPacket
  | triggerPacket
  | frames
  | imus
  | triggers
  deriving DecidableEq, Repr

/-- A value of the variant `InputType`: the placeholder `std::monostate`, an event store, or
a packet or vector of timestamped elements.  The slicer reads the timestamp of an element
only (`dv::packets::getTimestamp`); the rest of an element is payload, so elements of every
kind are written as events. -/
inductive Packet where
  | monostate
  | store (s : EventStore)
  | samples (kind : VectorKind) (v : List Event)
  deriving DecidableEq, Repr

/-- The method `sliceBack(length)` of the event store; `slice(0)` returns a copy of the
store. -/
def EventStore.sliceBack (h : Heap) (s : EventStore) (length : Nat) : Except Err EventStore :=
  if length ≥ s.totalLength then .ok s
  else s.slice h (subSz s.totalLength length) length

/-- The comparison `getTimestamp(elem) < time` of `std::lower_bound` on the element at
position `i` of a vector. -/
def stampBelow (v : List Event) (time : Int) (i : Nat) : Bool :=
  match v[i]? with
  | some e => decide (e.timestamp < time)
  | none => false

namespace Packet

/-- The records of a packet, in order. -/
def records (h : Heap) : Packet → List Event
  | .monostate => []
  | .store s => s.events h
  | .samples _ v => v

/-- The function `isPacketEmpty(packet)`. -/
def isPacketEmpty : Packet → Bool
  | .monostate => true
  | .store s => s.isEmpty
  | .samples _ v => v.isEmpty

/-- The function `getPacketTimeWindow(packet)`: start and end time; on an empty vector
`*begin()` is undefined. -/
def getPacketTimeWindow : Packet → Except Err (Int × Int)
  | .monostate => .ok (0, 0)
  | .store s =>
    match s.getLowestTime, s.getHighestTime with
    | .ok lowest, .ok highest => .ok (lowest, highest)
    | .error e, _ => .error e
    | _, .error e => .error e
  | .samples _ v =>
    match v.head?, v.getLast? with
    | some first, some last => .ok (first.timestamp, last.timestamp)
    | _, _ => .error .undefinedBehaviour

/-- The function `sliceVector(start, end, packet)`. -/
def sliceVector (start «end» : Int) (packet : List Event) : List Event :=
  let lowerBound := lower_bound (stampBelow packet start) packet.length
  if lowerBound = packet.length then []
  else
    let upperBound :=
      lowerBound + lower_bound (stampBelow (packet.drop lowerBound) «end»)
        (packet.length - lowerBound)
    (packet.drop lowerBound).take (upperBound - lowerBound)

/-- The function `slicePacketSpecific(start, end, packet)` (and `slicePacket`, which visits
the variant). -/
def slicePacketSpecific (h : Heap) (start «end» : Int) : Packet → Except Err Packet
  | .monostate => .ok .monostate
  | .store s =>
    match s.sliceTime h start «end» with
    | .ok r => .ok (.store r.1)
    | .error e => .error e
  | .samples kind v => .ok (.samples kind (sliceVector start «end» v))

/-- The function `eraseUpToIterable(timeLimit, minimumSize, packet)`.  `sizeBoundIndex` is
computed in `size_t` and converted to `int64_t`. -/
def eraseUpToIterable (timeLimit : Int) (minimumSize : Nat) (packet : List Event) :
    Except Err (List Event) :=
  if packet.length = 0 then .ok packet
  else
    let lowerBound := lower_bound (stampBelow packet timeLimit) packet.length
    if minimumSize = 0 ∨ packet.length - lowerBound ≥ minimumSize then
      .ok (packet.drop lowerBound)
    else
      let sizeBoundIndex := int64_t.static_cast (subSz (subSz packet.length minimumSize) 1)
      if sizeBoundIndex < 0 then .ok packet
      else
        match packet[sizeBoundIndex.toNat]? with
        | none => .error .undefinedBehaviour
        | some sizeBound =>
          if sizeBound.timestamp < timeLimit then .ok (packet.drop sizeBoundIndex.toNat)
          else .ok packet

/-- The function `eraseUpTo(timeLimit, minimumSize, packet)`: the packet afterwards. -/
def eraseUpTo (h : Heap) (timeLimit : Int) (minimumSize : Nat) : Packet → Except Err Packet
  | .monostate => .ok .monostate
  | .store s => do
    let highest ← s.getHighestTime
    let sliced ← s.sliceTime h timeLimit (highest + 1)
    if minimumSize = 0 ∨ sliced.1.size ≥ minimumSize then pure (.store sliced.1)
    else
      let slicedBySize ← s.sliceBack h minimumSize
      let lowest ← slicedBySize.getLowestTime
      if lowest < timeLimit then pure (.store slicedBySize) else pure (.store s)
  | .samples kind v => do
    let v1 ← eraseUpToIterable timeLimit minimumSize v
    pure (.samples kind v1)

/-- The call `mergePackets(data, std::get<DataType>(buffer))`: the heap and the buffer
afterwards.  `std::get` throws `std::bad_variant_access` when the buffer holds another type
than `data`; `accept` rethrows it as `RuntimeError`. -/
def mergePackets (h : Heap) : Packet → Packet → Except Err (Heap × Packet)
  | .monostate, .monostate => .ok (h, .monostate)
  | .store «from», .store into =>
    let r := into.add h «from»
    match r.thrown with
    | some e => .error e
    | none => .ok (r.heap, .store r.store)
  | .samples kind «from», .samples kind1 into =>
    if kind = kind1 then .ok (h, .samples kind1 (into ++ «from»)) else .error .runtimeError
  | _, _ => .error .runtimeError

/-- The number of records of a packet (`size()`). -/
def size : Packet → Nat
  | .monostate => 0
  | .store s => s.size
  | .samples _ v => v.length

/-- The `length` records of a packet from position `start` on: `slice(start, length)` of a
store, the range `begin() + start .. begin() + start + length` of a vector. -/
def sliceCount (h : Heap) (start length : Nat) : Packet → Except Err Packet
  | .monostate => .ok .monostate
  | .store s =>
    match s.slice h start length with
    | .ok r => .ok (.store r)
    | .error e => .error e
  | .samples kind v => .ok (.samples kind ((v.drop start).take length))

end Packet

/-! ## `MultiStreamSlicer`: the slicer -/

/-- An invocation of a callback that `MultiStreamSlicer` registered in the main slicer: of a
time-interval job with its time window and packet, or of a number-of-elements job with its
packet. -/
inductive Firing where
  | interval (job : Int) (startTime endTime : Int) (packet : Packet)
  | number (job : Int) (packet : Packet)

/-- The main slicer `mMainSlicer` of type `dv::StreamSlicer<MainStreamType>`, a class that is
not among the sources: a parameter.  `accept` takes the heap, the state of the slicer and the
packet, and gives the heap and the state afterwards and the callbacks it invokes, in order,
or the exception it throws; the two registrations give the state afterwards and the id of the
job; `modifyTimeInterval`, `modifyNumberInterval` and `removeJob` give the state afterwards
or the exception thrown. -/
structure StreamSlicer (σ : Type) where
  accept : Heap → σ → Packet → Except Err (Heap × σ × List Firing)
  doEveryTimeInterval : σ → Int → σ × Int
  doEveryNumberOfElements : σ → Nat → σ × Int
  modifyTimeInterval : σ → Int → Int → Except Err σ
  modifyNumberInterval : σ → Int → Nat → Except Err σ
  removeJob : σ → Int → σ

/-- The state that a lambda `internalCallback` carries: none for a time-interval job,
`lastTime` for a `BACKWARD` job, `lastSlice` for a `FORWARD` job. -/
inductive Closure where
  | interval
  | backward (lastTime : Int)
  | forward (lastSlice : Packet)

/-- A call of a callback of the user: the job, the time window and the data per stream. -/
structure Delivery where
  job : Int
  startTime : Int
  endTime : Int
  data : List (String × Packet)

/-- The enumeration `SliceJob::SliceType`. -/
inductive SliceType where
  | NUMBER
  | TIME
  deriving DecidableEq, Repr

/-- The class `MultiStreamSlicer::SliceJob` without its callback: `mInterval` is -1 and
`mNumberOfElements` is 0 unless the constructor sets it; `backward` tells whether
`mTimeSlicing` is `BACKWARD`. -/
structure SliceJob where
  mType : SliceType
  mInterval : Int
  mNumberOfElements : Nat
  backward : Bool
  deriving DecidableEq, Repr

/-- The constructor `SliceJob(intervalUS, callback)`. -/
def SliceJob.ofInterval (intervalUS : Int) : SliceJob := ⟨.TIME, intervalUS, 0, true⟩

/-- The constructor `SliceJob(number, slicing, callback)`. -/
def SliceJob.ofNumber (number : Nat) (backward : Bool) : SliceJob := ⟨.NUMBER, -1, number, backward⟩

/-- The members of `MultiStreamSlicer`; `closures` are the lambdas that the registrations
handed to the main slicer, by job id.  The maps are lists of pairs in the order of their
keys. -/
structure MultiStreamSlicer (σ : Type) where
  mRetainDuration : Int
  mRetainSize : Nat
  mSeekTime : Int
  mMainBufferSeekTime : Int
  mConfig : List (Int × SliceJob)
  mBuffer : List (String × Packet)
  mSeekTimestamps : List (String × Int)
  mMainStreamName : String
  mMainSlicer : σ
  closures : List (Int × Closure)

/-- What a call leaves behind when it returns: the heap, the slicer, the packets handed to
`mMainSlicer.accept` and the calls of user callbacks, both in order. -/
structure Evaluation (σ : Type) where
  heap : Heap
  slicer : MultiStreamSlicer σ
  fed : List Packet
  deliveries : List Delivery

/-- The place of a new key in a map kept in key order (`std::map<std::string, _>`). -/
def mapInsert {β : Type} (key : String) (value : β) : List (String × β) → List (String × β)
  | [] => [(key, value)]
  | (k, v) :: rest =>
    if key.data < k.data then (key, value) :: (k, v) :: rest
    else (k, v) :: mapInsert key value rest

/-- The call `map.emplace(key, value)` on a `std::map<int, _>`: a key of the map keeps its
value, a new key is inserted in key order. -/
def mapEmplace {β : Type} (key : Int) (value : β) : List (Int × β) → List (Int × β)
  | [] => [(key, value)]
  | (k, v) :: rest =>
    if key = k then (k, v) :: rest
    else if key < k then (key, value) :: (k, v) :: rest
    else (k, v) :: mapEmplace key value rest

/-- The lookup `map.at(key)`. -/
def mapGet {α β : Type} [DecidableEq α] (key : α) : List (α × β) → Option β
  | [] => none
  | (k, v) :: rest => if key = k then some v else mapGet key rest

/-- The assignment `map[key] = value`: the value of a key of the map is replaced, a new key is
inserted. -/
def mapSet {β : Type} (key : String) (value : β) (map : List (String × β)) :
    List (String × β) :=
  if (mapGet key map).isSome then map.map (fun c => if c.1 = key then (key, value) else c)
  else mapInsert key value map

/-- The element types of the packets and vectors: `dv::Event`, `dv::IMU`, `dv::Trigger`,
`dv::Frame`. -/
inductive ElementKind where
  | event
  | imu
  | trigger
  | frame
  deriving DecidableEq, Repr

/-- The element type of a packet or vector type (`iterable_element_type`). -/
def VectorKind.element : VectorKind → ElementKind
  | .eventPacket => .event
  | .imuPacket => .imu
  | .triggerPacket => .trigger
  | .frames => .frame
  | .imus => .imu
  | .triggers => .trigger

/-- The type `size_t`. -/
def size_t : IntegralType := ⟨64, false⟩

namespace MultiStreamSlicer

/-- The constructor `MultiStreamSlicer(mainStreamName)`, with the empty buffer
`MainStreamType()` of the main stream and a main slicer in its initial state. -/
def create {σ : Type} (mainStreamName : String) (mainBuffer : Packet) (slicer : σ) :
    MultiStreamSlicer σ :=
  ⟨-1, 0, -1, -1, [], [(mainStreamName, mainBuffer)], [(mainStreamName, -1)], mainStreamName,
    slicer, []⟩

/-- The method `addStream<DataType>(streamName)`, with the empty buffer `DataType()`. -/
def addStream {σ : Type} (m : MultiStreamSlicer σ) (streamName : String) (buffer : Packet) :
    MultiStreamSlicer σ :=
  { m with
    mBuffer := mapSet streamName buffer m.mBuffer
    mSeekTimestamps := mapSet streamName (-1) m.mSeekTimestamps }

/-- The first loop of `evaluate`: `minHighestTime` after the streams, or `none` when a stream
is empty without a seek time (`success` is false). -/
def scanStreams (seek : List (String × Int)) :
    List (String × Packet) → Int → Except Err (Option Int)
  | [], minHighestTime => .ok (some minHighestTime)
  | (stream, packet) :: rest, minHighestTime =>
    match mapGet stream seek with
    | none => .error .outOfRange
    | some streamSeek =>
      if packet.isPacketEmpty then
        if streamSeek ≥ 0 then scanStreams seek rest (Min.min minHighestTime streamSeek)
        else .ok none
      else
        match packet.getPacketTimeWindow with
        | .error e => .error e
        | .ok window => scanStreams seek rest (Min.min window.2 minHighestTime)

/-- The loop `for (const auto &[stream, streamBuffer] : mBuffer)` of the internal callbacks:
the slice `[start, end)` of every stream but the main one. -/
def sliceSecondaries (h : Heap) (mainStreamName : String) (start «end» : Int) :
    List (String × Packet) → Except Err (List (String × Packet))
  | [] => .ok []
  | (stream, streamBuffer) :: rest =>
    if stream = mainStreamName then sliceSecondaries h mainStreamName start «end» rest
    else
      match streamBuffer.slicePacketSpecific h start «end» with
      | .error e => .error e
      | .ok sliced =>
        match sliceSecondaries h mainStreamName start «end» rest with
        | .error e => .error e
        | .ok others => .ok ((stream, sliced) :: others)

/-- One invocation of an `internalCallback`: the slicer afterwards and the call of the user's
callback, if there is one.  A failing `dv::runtime_assert` is reported as `RuntimeError`; a
job id without a lambda of its kind does not occur with a main slicer that invokes what was
registered. -/
def fire {σ : Type} (h : Heap) (m : MultiStreamSlicer σ) :
    Firing → Except Err (MultiStreamSlicer σ × Option Delivery)
  | .interval job startTime endTime packet =>
    match mapGet job m.closures with
    | some .interval =>
      match sliceSecondaries h m.mMainStreamName startTime endTime m.mBuffer with
      | .error e => .error e
      | .ok others =>
        .ok ({ m with mSeekTime := endTime },
          some ⟨job, startTime, endTime, (m.mMainStreamName, packet) :: others⟩)
    | _ => .error .undefinedBehaviour
  | .number job packet =>
    match mapGet job m.closures with
    | some (.backward lastTime) =>
      if packet.isPacketEmpty then .error .runtimeError
      else
      match packet.getPacketTimeWindow with
      | .error e => .error e
      | .ok timeWindow =>
        match sliceSecondaries h m.mMainStreamName (lastTime + 1) (timeWindow.2 + 1)
            m.mBuffer with
        | .error e => .error e
        | .ok others =>
          .ok ({ m with
                closures := m.closures.map
                  (fun c => if c.1 = job then (job, Closure.backward timeWindow.2) else c) },
            some ⟨job, timeWindow.1, timeWindow.2, (m.mMainStreamName, packet) :: others⟩)
    | some (.forward lastSlice) =>
      if packet.isPacketEmpty then .error .runtimeError
      else if lastSlice.isPacketEmpty then
        .ok ({ m with
              closures := m.closures.map
                (fun c => if c.1 = job then (job, Closure.forward packet) else c) }, none)
      else
        match lastSlice.getPacketTimeWindow, packet.getPacketTimeWindow with
        | .ok timeWindowLast, .ok timeWindowCurrent =>
          match sliceSecondaries h m.mMainStreamName timeWindowLast.1 timeWindowCurrent.1
              m.mBuffer with
          | .error e => .error e
          | .ok others =>
            .ok ({ m with
                  closures := m.closures.map
                    (fun c => if c.1 = job then (job, Closure.forward packet) else c) },
              some ⟨job, timeWindowLast.1, timeWindowCurrent.1,
                (m.mMainStreamName, lastSlice) :: others⟩)
        | .error e, _ => .error e
        | _, .error e => .error e
    | _ => .error .undefinedBehaviour

/-- The invocations of one call of `mMainSlicer.accept`, in order. -/
def fireAll {σ : Type} (h : Heap) :
    MultiStreamSlicer σ → List Firing → Except Err (MultiStreamSlicer σ × List Delivery)
  | m, [] => .ok (m, [])
  | m, f :: rest =>
    match fire h m f with
    | .error e => .error e
    | .ok (m1, d) =>
      match fireAll h m1 rest with
      | .error e => .error e
      | .ok (m2, ds) => .ok (m2, d.toList ++ ds)

/-- The last loop of `evaluate`: `eraseUpTo(eraseLimit, mRetainSize, packet)` on every stream
but the main one. -/
def trimSecondaries (h : Heap) (mainStreamName : String) (eraseLimit : Int) (retainSize : Nat) :
    List (String × Packet) → Except Err (List (String × Packet))
  | [] => .ok []
  | (stream, container) :: rest =>
    match (if stream = mainStreamName then .ok container
      else container.eraseUpTo h eraseLimit retainSize) with
    | .error e => .error e
    | .ok trimmed =>
      match trimSecondaries h mainStreamName eraseLimit retainSize rest with
      | .error e => .error e
      | .ok others => .ok ((stream, trimmed) :: others)

/-- The call `mMainSlicer.accept(packet)` with the internal callbacks that it invokes: the
heap, the slicer and the calls of user callbacks afterwards. -/
def feed {σ : Type} (S : StreamSlicer σ) (h : Heap) (m : MultiStreamSlicer σ) (packet : Packet) :
    Except Err (Heap × MultiStreamSlicer σ × List Delivery) :=
  match S.accept h m.mMainSlicer packet with
  | .error e => .error e
  | .ok r =>
    match fireAll r.1 { m with mMainSlicer := r.2.1 } r.2.2 with
    | .error e => .error e
    | .ok (m1, deliveries) => .ok (r.1, m1, deliveries)

/-- The method `evaluate()`.  `mBuffer[mMainStreamName]` holds the main buffer since the
constructor; `timeLimit` is not wrapped. -/
def evaluate {σ : Type} (S : StreamSlicer σ) (h : Heap) (m : MultiStreamSlicer σ) :
    Except Err (Evaluation σ) :=
  match scanStreams m.mSeekTimestamps m.mBuffer int64_t.max with
  | .error e => .error e
  | .ok none => .ok ⟨h, m, [], []⟩
  | .ok (some minHighestTime) =>
    let timeLimit := minHighestTime + 1
    -- if the seek did not progress, skip evaluation
    if m.mMainBufferSeekTime = timeLimit then .ok ⟨h, m, [], []⟩
    else
      match mapGet m.mMainStreamName m.mBuffer with
      | none => .error .undefinedBehaviour
      | some mainBuffer =>
        match mainBuffer.slicePacketSpecific h 0 timeLimit with
        | .error e => .error e
        | .ok sliced =>
          match feed S h m sliced with
          | .error e => .error e
          | .ok (h1, m1, deliveries) =>
            match mainBuffer.eraseUpTo h1 timeLimit 0 with
            | .error e => .error e
            | .ok mainBuffer1 =>
              let eraseLimit : Int :=
                if m1.mRetainDuration ≥ 0 then m1.mSeekTime - m1.mRetainDuration else timeLimit
              match trimSecondaries h1 m1.mMainStreamName eraseLimit m1.mRetainSize
                  (mapSet m1.mMainStreamName mainBuffer1 m1.mBuffer) with
              | .error e => .error e
              | .ok buffers =>
                .ok ⟨h1, { m1 with mBuffer := buffers, mMainBufferSeekTime := timeLimit },
                  [sliced], deliveries⟩

/-- The method `accept(streamName, data)` for a packet `data`: `mergePackets` into the buffer
of the stream (`mBuffer.at` throws `std::out_of_range` for an unknown stream), then
`evaluate()`. -/
def accept {σ : Type} (S : StreamSlicer σ) (h : Heap) (m : MultiStreamSlicer σ)
    (streamName : String) (data : Packet) : Except Err (Evaluation σ) :=
  match mapGet streamName m.mBuffer with
  | none => .error .outOfRange
  | some buffer =>
    match data.mergePackets h buffer with
    | .error e => .error e
    | .ok (h1, merged) => evaluate S h1 { m with mBuffer := mapSet streamName merged m.mBuffer }

/-- The method `setStreamSeekTime(streamName, seekTimestamp)`. -/
def setStreamSeekTime {σ : Type} (S : StreamSlicer σ) (h : Heap) (m : MultiStreamSlicer σ)
    (streamName : String) (seekTimestamp : Int) : Except Err (Evaluation σ) :=
  evaluate S h { m with mSeekTimestamps := mapSet streamName seekTimestamp m.mSeekTimestamps }

/-- The method `doEveryTimeInterval(interval, callback)`, `interval` in microseconds: the
slicer afterwards and the id of the job. -/
def doEveryTimeInterval {σ : Type} (S : StreamSlicer σ) (m : MultiStreamSlicer σ)
    (interval : Int) : MultiStreamSlicer σ × Int :=
  let r := S.doEveryTimeInterval m.mMainSlicer interval
  ({ m with
      mRetainDuration := Max.max m.mRetainDuration interval
      mMainSlicer := r.1
      mConfig := mapEmplace r.2 (SliceJob.ofInterval interval) m.mConfig
      closures := m.closures ++ [(r.2, Closure.interval)] }, r.2)

/-- The method `doEveryNumberOfElements(n, callback, timeSlicingApproach)`; `backward` tells
whether the approach is `BACKWARD`.  The `lastSlice` of a `FORWARD` lambda starts as an empty
packet. -/
def doEveryNumberOfElements {σ : Type} (S : StreamSlicer σ) (m : MultiStreamSlicer σ)
    (n : Nat) (backward : Bool) : MultiStreamSlicer σ × Int :=
  let r := S.doEveryNumberOfElements m.mMainSlicer n
  ({ m with
      mRetainSize := Max.max m.mRetainSize n
      mMainSlicer := r.1
      mConfig := mapEmplace r.2 (SliceJob.ofNumber n backward) m.mConfig
      closures := m.closures ++
        [(r.2, if backward then Closure.backward (-1) else Closure.forward .monostate)] }, r.2)

/-- The method `accept(streamName, data)` for a single timestamped element `data` of the type
`kind`: the visit pushes the element into a buffer whose element type is that of `data`
(a packet, a vector, or the event store, which is iterable over events) and does nothing for
a buffer of another type; then `evaluate()`. -/
def acceptElement {σ : Type} (S : StreamSlicer σ) (h : Heap) (m : MultiStreamSlicer σ)
    (streamName : String) (kind : ElementKind) (data : Event) : Except Err (Evaluation σ) :=
  match mapGet streamName m.mBuffer with
  | none => .error .outOfRange
  | some .monostate => evaluate S h m
  | some (.store streamBuffer) =>
    if kind = .event then
      let r := streamBuffer.push_back h data
      match r.thrown with
      | some e => .error e
      | none => evaluate S r.heap { m with mBuffer := mapSet streamName (.store r.store) m.mBuffer }
    else evaluate S h m
  | some (.samples vectorKind streamBuffer) =>
    if vectorKind.element = kind then
      evaluate S h
        { m with mBuffer := mapSet streamName (.samples vectorKind (streamBuffer ++ [data])) m.mBuffer }
    else evaluate S h m

/-- The method `hasJob(jobId)`. -/
def hasJob {σ : Type} (m : MultiStreamSlicer σ) (jobId : Int) : Bool :=
  (mapGet jobId m.mConfig).isSome

/-- The method `modifyTimeInterval(jobId, timeInterval)`, `timeInterval` in microseconds. -/
def modifyTimeInterval {σ : Type} (S : StreamSlicer σ) (m : MultiStreamSlicer σ) (jobId : Int)
    (timeInterval : Int) : Except Err (MultiStreamSlicer σ) :=
  if !m.hasJob jobId then .ok m
  else
    match S.modifyTimeInterval m.mMainSlicer jobId timeInterval with
    | .error e => .error e
    | .ok slicer =>
      let mConfig := m.mConfig.map
        (fun c => if c.1 = jobId then (c.1, { c.2 with mInterval := timeInterval }) else c)
      let maxInterval : Int := mConfig.foldl
        (fun maxInterval c =>
          if c.2.mType = .TIME ∧ c.2.mInterval > maxInterval then c.2.mInterval
          else maxInterval) (-1)
      .ok { m with
        mMainSlicer := slicer
        mConfig := mConfig
        mRetainDuration := if maxInterval > -1 then maxInterval else m.mRetainDuration }

/-- The method `modifyNumberInterval(jobId, n)`.  The loop assigns `job.mInterval`, an
`int64_t`, to the `size_t` `maxNumOfElements`. -/
def modifyNumberInterval {σ : Type} (S : StreamSlicer σ) (m : MultiStreamSlicer σ) (jobId : Int)
    (n : Nat) : Except Err (MultiStreamSlicer σ) :=
  if !m.hasJob jobId then .ok m
  else
    match S.modifyNumberInterval m.mMainSlicer jobId n with
    | .error e => .error e
    | .ok slicer =>
      let mConfig := m.mConfig.map
        (fun c => if c.1 = jobId then (c.1, { c.2 with mNumberOfElements := n }) else c)
      let maxNumOfElements : Nat := mConfig.foldl
        (fun maxNumOfElements c =>
          if c.2.mType = .NUMBER ∧ c.2.mNumberOfElements > maxNumOfElements then
            (size_t.static_cast c.2.mInterval).toNat
          else maxNumOfElements) 0
      .ok { m with
        mMainSlicer := slicer
        mConfig := mConfig
        mRetainSize := if maxNumOfElements > 0 then maxNumOfElements else m.mRetainSize }

/-- The method `removeJob(jobId)`; the main slicer drops the lambda of the job with the
job. -/
def removeJob {σ : Type} (S : StreamSlicer σ) (m : MultiStreamSlicer σ) (jobId : Int) :
    MultiStreamSlicer σ :=
  if !m.hasJob jobId then m
  else
    { m with
      mConfig := m.mConfig.filter (fun c => c.1 ≠ jobId)
      mMainSlicer := S.removeJob m.mMainSlicer jobId
      closures := m.closures.filter (fun c => c.1 ≠ jobId) }

end MultiStreamSlicer

/-! ## The main slicer, from the specification -/

/-- Modelled from the spec: a job of `dv::StreamSlicer` (`stream_slicer.hpp` is not among the
sources).  A time-interval job has its interval and an internal cursor, the end of the last
window fired; a count job has its number of records and the number of records consumed; a
removed job leaves its handle behind. -/
inductive SlicerJob where
  | interval (interval : Int) (lastFireEnd : Option Int)
  | count (n : Nat) (consumed : Nat)
  | removed
  deriving DecidableEq, Repr

/-- Modelled from the spec: the state of `dv::StreamSlicer`, which "holds one growing buffer of
a record-sequence type" and its jobs in registration order; the handle of a job is its
position. -/
structure SlicerState where
  buffer : Packet
  jobs : List SlicerJob
  deriving DecidableEq, Repr

/-- Modelled from the spec: the firings of a time-interval job of `dv::StreamSlicer`, which
"fires once enough buffered data covers `[lastFireEnd, lastFireEnd + interval)`; callback
receives the exact time-window plus the buffered slice for that window; advances an internal
cursor".  The window is covered when a record at or after its end is buffered. -/
def intervalFirings (h : Heap) (job : Int) (buffer : Packet) (interval highest : Int) :
    Nat → Int → Except Err (List Firing × Int)
  | 0, cursor => .ok ([], cursor)
  | fuel + 1, cursor =>
    if cursor + interval ≤ highest then
      match buffer.slicePacketSpecific h cursor (cursor + interval) with
      | .error e => .error e
      | .ok slice =>
        match intervalFirings h job buffer interval highest fuel (cursor + interval) with
        | .error e => .error e
        | .ok (firings, last) =>
          .ok (Firing.interval job cursor (cursor + interval) slice :: firings, last)
    else .ok ([], cursor)

/-- Modelled from the spec: the firings of a count job of `dv::StreamSlicer`, which "fires once
≥ N new unconsumed records are buffered; callback receives the time window spanned by exactly
those N records plus the slice itself; the remainder stays buffered for the next firing". -/
def countFirings (h : Heap) (job : Int) (buffer : Packet) (n : Nat) :
    Nat → Nat → Except Err (List Firing × Nat)
  | 0, consumed => .ok ([], consumed)
  | fuel + 1, consumed =>
    if consumed + n ≤ buffer.size then
      match buffer.sliceCount h consumed n with
      | .error e => .error e
      | .ok slice =>
        match countFirings h job buffer n fuel (consumed + n) with
        | .error e => .error e
        | .ok (firings, last) => .ok (Firing.number job slice :: firings, last)
    else .ok ([], consumed)

/-- Modelled from the spec: the evaluation of one job of `dv::StreamSlicer` on the buffer: the
callbacks invoked and the job afterwards.  The cursor of a time-interval job starts at the
first buffered timestamp. -/
def SlicerJob.run (h : Heap) (buffer : Packet) (job : Int) :
    SlicerJob → Except Err (List Firing × SlicerJob)
  | .interval period lastFireEnd =>
    if buffer.isPacketEmpty ∨ period ≤ 0 then .ok ([], .interval period lastFireEnd)
    else
      match buffer.getPacketTimeWindow with
      | .error e => .error e
      | .ok window =>
        let cursor := lastFireEnd.getD window.1
        match intervalFirings h job buffer period window.2
            ((window.2 - cursor) / period).toNat cursor with
        | .error e => .error e
        | .ok (firings, last) => .ok (firings, .interval period (some last))
  | .count n consumed =>
    if n = 0 then .ok ([], .count n consumed)
    else
      match countFirings h job buffer n buffer.size consumed with
      | .error e => .error e
      | .ok (firings, last) => .ok (firings, .count n last)
  | .removed => .ok ([], .removed)

/-- Modelled from the spec: `dv::StreamSlicer` "evaluates all registered jobs in registration
order"; `job` is the handle of the first job of the list. -/
def runJobs (h : Heap) (buffer : Packet) : Nat → List SlicerJob →
    Except Err (List Firing × List SlicerJob)
  | _, [] => .ok ([], [])
  | job, j :: rest =>
    match j.run h buffer job with
    | .error e => .error e
    | .ok (firings, j1) =>
      match runJobs h buffer (job + 1) rest with
      | .error e => .error e
      | .ok (others, rest1) => .ok (firings ++ others, j1 :: rest1)

/-- Modelled from the spec: the class `dv::StreamSlicer`, whose `accept(newData)` "merges
incoming data into the buffer, then evaluates all registered jobs in registration order", whose
registrations return "a job handle (integer)" and whose `removeJob`, `modifyTimeInterval`,
`modifyNumberInterval` "mutate/cancel by handle"; a modification of a job of the other kind
throws `std::invalid_argument`. -/
def specSlicer : StreamSlicer SlicerState where
  accept := fun h σ newData =>
    match newData.mergePackets h σ.buffer with
    | .error e => .error e
    | .ok (h1, buffer) =>
      match runJobs h1 buffer 0 σ.jobs with
      | .error e => .error e
      | .ok (firings, jobs) => .ok (h1, ⟨buffer, jobs⟩, firings)
  doEveryTimeInterval := fun σ interval =>
    ({ σ with jobs := σ.jobs ++ [.interval interval none] }, σ.jobs.length)
  doEveryNumberOfElements := fun σ n =>
    ({ σ with jobs := σ.jobs ++ [.count n 0] }, σ.jobs.length)
  modifyTimeInterval := fun σ jobId timeInterval =>
    match (if jobId < 0 then none else σ.jobs[jobId.toNat]?) with
    | some (.interval _ lastFireEnd) =>
      .ok { σ with jobs := σ.jobs.set jobId.toNat (.interval timeInterval lastFireEnd) }
    | some (.count _ _) => .error .invalidArgument
    | _ => .ok σ
  modifyNumberInterval := fun σ jobId n =>
    match (if jobId < 0 then none else σ.jobs[jobId.toNat]?) with
    | some (.count _ consumed) => .ok { σ with jobs := σ.jobs.set jobId.toNat (.count n consumed) }
    | some (.interval _ _) => .error .invalidArgument
    | _ => .ok σ
  removeJob := fun σ jobId =>
    if jobId < 0 then σ else { σ with jobs := σ.jobs.set jobId.toNat .removed }

/-! ## Invariants and sample slicers -/

/-- The packet is well formed on the heap: a store has valid, indexed, non-empty shards with
exact time caches, records in time order and sizes that are values of `size_t`; a vector has
its elements in time order and a size that is a value of `ptrdiff_t`. -/
def Packet.Ordered (h : Heap) : Packet → Prop
  | .monostate => True
  | .store s =>
    s.Valid h ∧ s.Indexed ∧ s.Tight h ∧ s.TimeOrdered h
      ∧ s.dataPartials.length < SIZE_MOD ∧ s.totalLength < SIZE_MOD
  | .samples _ v => v.Pairwise (fun a b => a.timestamp ≤ b.timestamp) ∧ v.length < 2 ^ 63

/-- The slicer is well formed on the heap: every stream has a seek timestamp (`addStream` and the constructor set both),
the packets are well formed and the timestamps are below the largest `int64_t`. -/
structure MultiStreamSlicer.Ready {σ : Type} (h : Heap) (m : MultiStreamSlicer σ) : Prop where
  seeks : ∀ c ∈ m.mBuffer, ∃ t, mapGet c.1 m.mSeekTimestamps = some t ∧ t < int64_t.max
  ordered : ∀ c ∈ m.mBuffer, c.2.Ordered h
  stamps : ∀ c ∈ m.mBuffer, ∀ e ∈ c.2.records h, e.timestamp < int64_t.max

/-- The highest timestamp of a list of records; 0 for no record. -/
def highestStamp : List Event → Int
  | [] => 0
  | e :: l => l.foldl (fun a x => Max.max a x.timestamp) e.timestamp

/-- The lowest of a list of numbers; 0 for no number. -/
def lowestOf : List Int → Int
  | [] => 0
  | a :: l => l.foldl Min.min a

/-- The time up to which a stream is known: the highest buffered timestamp if the stream has
records, otherwise its seek timestamp. -/
def streamTime (h : Heap) (seek : List (String × Int)) (c : String × Packet) : Int :=
  if (c.2.records h).isEmpty then (mapGet c.1 seek).getD (-1) else highestStamp (c.2.records h)

/-- One more than the lowest of the times up to which the streams are known. -/
def timeLimitOf {σ : Type} (h : Heap) (m : MultiStreamSlicer σ) : Int :=
  1 + lowestOf (m.mBuffer.map (streamTime h m.mSeekTimestamps))

/-- A record of a packet or vector with the timestamp `t`. -/
def stamp (t : Int) : Event := ⟨t, 0, 0, true⟩

/-- A slicer with the main stream `events` (a `dv::EventPacket`) and the secondary stream
`frames`, and a main slicer without a job. -/
def twoStreams : MultiStreamSlicer SlicerState :=
  (MultiStreamSlicer.create "events" (.samples .eventPacket []) ⟨.samples .eventPacket [], []⟩).addStream
    "frames" (.samples .frames [])

/-- What a call leaves in the buffers and in `mMainBufferSeekTime`, and what it fed to the
main slicer. -/
def Evaluation.summary {σ : Type} (ev : Evaluation σ) :
    List (String × Packet) × Int × List Packet :=
  (ev.slicer.mBuffer, ev.slicer.mMainBufferSeekTime, ev.fed)

/-- A call of the user on the slicer. -/
inductive SlicerCall where
  | accept (streamName : String) (data : Packet)
  | setStreamSeekTime (streamName : String) (seekTimestamp : Int)
  | acceptElement (streamName : String) (kind : ElementKind) (data : Event)

/-- The outcome of one call. -/
def MultiStreamSlicer.call {σ : Type} (S : StreamSlicer σ) (h : Heap) (m : MultiStreamSlicer σ) :
    SlicerCall → Except Err (Evaluation σ)
  | .accept streamName data => m.accept S h streamName data
  | .setStreamSeekTime streamName seekTimestamp => m.setStreamSeekTime S h streamName seekTimestamp
  | .acceptElement streamName kind data => m.acceptElement S h streamName kind data

/-- The outcomes of a sequence of calls that all return, in order. -/
def MultiStreamSlicer.calls {σ : Type} (S : StreamSlicer σ) :
    Heap → MultiStreamSlicer σ → List SlicerCall → Except Err (List (Evaluation σ))
  | _, _, [] => .ok []
  | h, m, c :: rest =>
    match m.call S h c with
    | .error e => .error e
    | .ok ev =>
      match calls S ev.heap ev.slicer rest with
      | .error e => .error e
      | .ok evs => .ok (ev :: evs)

/-- The packet of the stream `events` with the given timestamps. -/
def eventsAt (ts : List Int) : Packet := .samples .eventPacket (ts.map stamp)

/-- The vector of the stream `frames` with the given timestamps. -/
def framesAt (ts : List Int) : Packet := .samples .frames (ts.map stamp)

/-- The slicer `twoStreams` with a frame at 10 buffered and no event yet. -/
def waitingStreams : MultiStreamSlicer SlicerState :=
  { twoStreams with mBuffer := [("events", eventsAt []), ("frames", framesAt [10])] }

/-- The slicer `twoStreams` with a `BACKWARD` job on every event (job 0), the events 5 and 20
and the frames 1, 3 and 10 buffered. -/
def fedStreams : MultiStreamSlicer SlicerState :=
  { (twoStreams.doEveryNumberOfElements specSlicer 1 true).1 with
    mBuffer := [("events", eventsAt [5, 20]), ("frames", framesAt [1, 3, 10])] }

/-- What feeding the event 5 to the main slicer of `fedStreams` leaves: job 0 fired once, with
the event 5 and the frames 1 and 3. -/
def fedOutcome : Heap × MultiStreamSlicer SlicerState × List Delivery :=
  (demoHeap,
   { fedStreams with
      mMainSlicer := ⟨eventsAt [5], [.count 1 1]⟩
      closures := [(0, .backward 5)] },
   [⟨0, 5, 5, [("events", eventsAt [5]), ("frames", framesAt [1, 3])]⟩])

/-- The firings of one number-of-elements job over time, each with the heap and the buffers of
its moment and the packet that the main slicer passes: the slicer afterwards and, firing by
firing, the call of the user's callback if there is one.  Between two firings of a job nothing
but the buffers changes for its lambda. -/
def MultiStreamSlicer.fireEach {σ : Type} (job : Int) :
    MultiStreamSlicer σ → List (Heap × List (String × Packet) × Packet) →
      Except Err (MultiStreamSlicer σ × List (Option Delivery))
  | m, [] => .ok (m, [])
  | m, (h, buffers, packet) :: rest =>
    match fire h { m with mBuffer := buffers } (.number job packet) with
    | .error e => .error e
    | .ok (m1, d) =>
      match fireEach job m1 rest with
      | .error e => .error e
      | .ok (m2, ds) => .ok (m2, d :: ds)

/-- The times `e_0, e_1, ...`: `e_0` is the state of the lambda before the first firing and
`e_k` the highest timestamp of the main slice of firing `k`. -/
def sliceEnds (lastTime : Int) (rounds : List (Heap × List (String × Packet) × Packet)) :
    List Int :=
  lastTime :: rounds.map (fun r => highestStamp (r.2.2.records r.1))

/-- Two firings of job 0 of `fedStreams`: the event 5 with the frames 1, 3, 10 buffered, then
the event 20 with the frames 3, 10, 15, 20, 30 buffered. -/
def twoFirings : List (Heap × List (String × Packet) × Packet) :=
  [(demoHeap, [("events", eventsAt [5, 20]), ("frames", framesAt [1, 3, 10])], eventsAt [5]),
   (demoHeap, [("events", eventsAt [20]), ("frames", framesAt [3, 10, 15, 20, 30])],
     eventsAt [20])]

/-- The largest interval of the time-interval jobs of a configuration, -1 without such a job,
and the largest number of elements of its count jobs, 0 without such a job. -/
def retentionOf (config : List (Int × SliceJob)) : Int × Nat :=
  (config.foldl (fun a c => if c.2.mType = .TIME then Max.max a c.2.mInterval else a) (-1),
   config.foldl (fun a c => if c.2.mType = .NUMBER then Max.max a c.2.mNumberOfElements else a) 0)

/-- The slicer `twoStreams` with two `BACKWARD` count jobs, of 2 and of 5 records (jobs 0 and
1). -/
def countJobs : MultiStreamSlicer SlicerState :=
  ((twoStreams.doEveryNumberOfElements specSlicer 2 true).1.doEveryNumberOfElements
    specSlicer 5 true).1

/-- The slicer `twoStreams` with two time-interval jobs, of 1000 µs and of 5000 µs (jobs 0 and
1). -/
def intervalJobs : MultiStreamSlicer SlicerState :=
  ((twoStreams.doEveryTimeInterval specSlicer 1000).1.doEveryTimeInterval specSlicer 5000).1

namespace SpeedInvariantTimeSurface

/-- The interior branch of `accept(event)` ("safe to apply batch update"): the cells after the
update of the block of `patchDiameter × patchDiameter` cells. -/
def batchUpdate (s : SpeedInvariantTimeSurface) (event : Event) : Except Err TimeSurface :=
  let t := s.surface
  let mHalfPatchWidth : Int := (s.patchDiameter / 2 : Nat)
  let top := (event.y - mHalfPatchWidth).toNat
  let left := (event.x - mHalfPatchWidth).toNat
  if top + s.patchDiameter ≤ t.rows ∧ left + s.patchDiameter ≤ t.cols then
    .ok (blockUpdate t top left s.patchDiameter s.patchDiameter
      (t.data event.y.toNat event.x.toNat))
  else .error .undefinedBehaviour

/-- The border branch of `accept(event)` ("close to an edge, resort to a safe, dynamically
indexed loop"): the cells after the loop. -/
def clampedLoop (s : SpeedInvariantTimeSurface) (event : Event) : TimeSurface :=
  let t := s.surface
  let mHalfPatchWidth : Int := (s.patchDiameter / 2 : Nat)
  let rowStart := Max.max 0 (event.y - mHalfPatchWidth)
  let rowEnd := Min.min (t.rows16 - 1) (event.y + mHalfPatchWidth)
  let colStart := Max.max 0 (event.x - mHalfPatchWidth)
  let colEnd := Min.min (t.cols16 - 1) (event.x + mHalfPatchWidth)
  ((closedRange rowStart rowEnd).flatMap
    (fun row => (closedRange colStart colEnd).map (fun col => (row, col)))).foldl
    (fun acc cell => decrementCell acc event.y.toNat event.x.toNat cell) t

/-- No edge of the grid clips the loop of the border branch: its rows
`y - mHalfPatchWidth .. y + mHalfPatchWidth` and its columns lie inside the grid. -/
def unclipped (s : SpeedInvariantTimeSurface) (event : Event) : Bool :=
  let mHalfPatchWidth : Int := (s.patchDiameter / 2 : Nat)
  decide (0 ≤ event.y - mHalfPatchWidth)
    && decide (event.y + mHalfPatchWidth ≤ s.surface.rows16 - 1)
    && decide (0 ≤ event.x - mHalfPatchWidth)
    && decide (event.x + mHalfPatchWidth ≤ s.surface.cols16 - 1)

end SpeedInvariantTimeSurface

/-- A fresh shard of capacity 10 on `demoHeap`. -/
def freshShard : Heap × PartialEventData := PartialEventData.create demoHeap 10

/-- The merge of the shard `[5,6]` of `demoHeap` into the fresh shard. -/
def mergedFresh : Heap × PartialEventData × Bool :=
  freshShard.2.merge freshShard.1 ⟨false, 0, 2, 2, 5, 6, 2⟩

/-- The lowest timestamp of a list of records; 0 for no record. -/
def lowestStamp : List Event → Int
  | [] => 0
  | e :: l => l.foldl (fun a x => Min.min a x.timestamp) e.timestamp

/-- The times `s_1, s_2, ...`: `s_1` is given and the later ones are the lowest timestamps of
the main slices of the firings that follow. -/
def sliceStarts (first : Int) (rounds : List (Heap × List (String × Packet) × Packet)) :
    List Int :=
  first :: rounds.map (fun r => lowestStamp (r.2.2.records r.1))

/-- The slicer `twoStreams` with a `FORWARD` job on every event (job 0). -/
def forwardStreams : MultiStreamSlicer SlicerState :=
  (twoStreams.doEveryNumberOfElements specSlicer 1 false).1

/-- The slicer `twoStreams` with a `BACKWARD` count job of `n` records (job 0). -/
def countStreams (n : Nat) : MultiStreamSlicer SlicerState :=
  (twoStreams.doEveryNumberOfElements specSlicer n true).1

/-- The data of the callbacks of a call, and the buffers it leaves. -/
def Evaluation.report {σ : Type} (ev : Evaluation σ) :
    List (List (String × Packet)) × List (String × Packet) × List Packet :=
  (ev.deliveries.map Delivery.data, ev.slicer.mBuffer, ev.fed)

/-! ## The time round trip at the largest timestamp -/

/-- The expression `a + b` for `a` and `b` of type `int64_t`: a sum that is no value of
`int64_t` is a signed overflow, which is undefined behaviour. -/
def int64_add (a b : Int) : Except Err Int :=
  if int64_t.min ≤ a + b ∧ a + b ≤ int64_t.max then .ok (a + b) else .error .undefinedBehaviour

/-- A default-constructed store after `push_back` of one record with the largest `int64_t`
timestamp: the exception thrown, the heap and the store. -/
def maxStamped : Effect := EventStore.empty.push_back Heap.empty (ev int64_t.max)

/-! ## Shards and the heap -/

theorem Heap.extends_refl (h : Heap) : h.Extends h :=
  ⟨Nat.le_refl _, fun b _ => ⟨[], by simp⟩⟩

theorem Heap.extends_trans {h h1 h2 : Heap} (a : h.Extends h1) (b : h1.Extends h2) :
    h.Extends h2 := by
  refine ⟨Nat.le_trans a.1 b.1, fun k hk => ?_⟩
  obtain ⟨es, he⟩ := a.2 k hk
  obtain ⟨fs, hf⟩ := b.2 k (Nat.lt_of_lt_of_le hk a.1)
  exact ⟨es ++ fs, by rw [hf, he, List.append_assoc]⟩

theorem Heap.extends_append (h : Heap) (b : Nat) (es : List Event) : h.Extends (h.append b es) := by
  refine ⟨Nat.le_refl _, fun k _ => ?_⟩
  by_cases hk : k = b
  · exact ⟨es, by simp [Heap.append, hk]⟩
  · exact ⟨[], by simp [Heap.append, hk]⟩

theorem Heap.extends_alloc (h : Heap) : h.Extends h.alloc.2 := by
  refine ⟨Nat.le_succ _, fun k hk => ⟨[], ?_⟩⟩
  have : k ≠ h.next := Nat.ne_of_lt hk
  simp [Heap.alloc, this]

theorem PartialEventData.window_length {h : Heap} {p : PartialEventData} (hv : p.Valid h) :
    (p.window h).length = p.length := by
  have := hv.2
  simp only [window, elements, List.length_take, List.length_drop]
  omega

theorem PartialEventData.window_extends {h h1 : Heap} {p : PartialEventData} (hv : p.Valid h)
    (hx : h.Extends h1) : p.window h1 = p.window h := by
  obtain ⟨es, he⟩ := hx.2 p.data hv.1
  have h2 := hv.2
  simp only [window, elements, he]
  rw [List.drop_append_of_le_length (by omega), List.take_append_of_le_length]
  simp only [List.length_drop]
  omega

theorem PartialEventData.shard_valid_extends {h h1 : Heap} {p : PartialEventData} (hv : p.Valid h)
    (hx : h.Extends h1) : p.Valid h1 := by
  obtain ⟨es, he⟩ := hx.2 p.data hv.1
  refine ⟨Nat.lt_of_lt_of_le hv.1 hx.1, ?_⟩
  rw [he, List.length_append]
  exact Nat.le_trans hv.2 (Nat.le_add_right _ _)

theorem EventStore.valid_extends {h h1 : Heap} {s : EventStore} (hv : s.Valid h)
    (hx : h.Extends h1) : s.Valid h1 :=
  fun p hp => PartialEventData.shard_valid_extends (hv p hp) hx

theorem EventStore.events_extends {h h1 : Heap} {s : EventStore} (hv : s.Valid h)
    (hx : h.Extends h1) : s.events h1 = s.events h := by
  unfold EventStore.events
  apply List.flatMap_congr
  intro p hp
  exact PartialEventData.window_extends (hv p hp) hx


/-! ## Appending one record -/

theorem PartialEventData.window_unsafe_addEvent (h : Heap) (p : PartialEventData) (e : Event)
    (hfull : p.start + p.length = (h.packets p.data).length) :
    (p._unsafe_addEvent h e).2.window (p._unsafe_addEvent h e).1 = p.window h ++ [e] := by
  simp only [_unsafe_addEvent, window, elements, Heap.append, if_true]
  rw [List.drop_append_of_le_length (by omega)]
  have hl : ((h.packets p.data).drop p.start).length = p.length := by
    simp only [List.length_drop]; omega
  rw [List.take_of_length_le (by simp only [List.length_append, List.length_singleton]; omega),
    List.take_of_length_le (by omega)]

theorem EventStore.getHighestTime_error {s : EventStore} {u : Err}
    (hg : s.getHighestTime = .error u) : u = Err.undefinedBehaviour := by
  unfold EventStore.getHighestTime at hg
  split at hg
  · cases hg
  · split at hg
    · cases hg
    · cases hg; rfl

/-- C2: `push_back(e)` fails with the ordering error exactly when `e.timestamp()` is below
`getHighestTime()` (an equal timestamp is accepted); a failed call leaves the store, its size
and its records as they were; and `getHighestTime()` of an empty store is 0. -/
theorem push_back_order (h : Heap) (s : EventStore) (e : Event) :
    ((s.push_back h e).thrown = some Err.orderViolation
        ↔ ∃ t, s.getHighestTime = .ok t ∧ e.timestamp < t)
    ∧ ((s.push_back h e).thrown ≠ none
        → (s.push_back h e).store = s ∧ (s.push_back h e).store.size = s.size
          ∧ (s.push_back h e).store.events (s.push_back h e).heap = s.events h)
    ∧ (s.isEmpty = true → s.getHighestTime = .ok 0) := by
  refine ⟨?_, ?_, ?_⟩
  · unfold EventStore.push_back
    cases hg : s.getHighestTime with
    | error u =>
      have := EventStore.getHighestTime_error hg
      simp [this]
    | ok t =>
      by_cases hlt : t > e.timestamp
      · simp [hlt]
      · simp [hlt]
  · unfold EventStore.push_back
    cases hg : s.getHighestTime with
    | error u => simp
    | ok t =>
      by_cases hlt : t > e.timestamp
      · simp [hlt]
      · simp [hlt]
  · intro he
    simp [EventStore.getHighestTime, he]

/-- C3: on a store whose shards are valid, for whatever shard capacity and fill of the last
shard, `push_back(e)` with `e.timestamp() >= getHighestTime()` succeeds, the records afterwards
are the old records followed by `e`, the size grows by one, and a last shard that cannot store
more events makes the store allocate one more shard. -/
theorem push_back_appends (h : Heap) (s : EventStore) (e : Event) (t : Int)
    (hv : s.Valid h) (ht : s.getHighestTime = .ok t) (hle : t ≤ e.timestamp) :
    (s.push_back h e).thrown = none
    ∧ (s.push_back h e).store.events (s.push_back h e).heap = s.events h ++ [e]
    ∧ (s.push_back h e).store.size = s.size + 1
    ∧ (∀ p, s.dataPartials.getLast? = some p → p.canStoreMoreEvents h = false →
        (s.push_back h e).store.dataPartials.length = s.dataPartials.length + 1) := by
  have hnlt : ¬ t > e.timestamp := by omega
  unfold EventStore.push_back
  simp only [ht, hnlt, if_false]
  unfold EventStore._getLastNonFullPartial
  cases hl : s.dataPartials.getLast? with
  | none =>
    have hnil : s.dataPartials = [] := List.getLast?_eq_none_iff.mp hl
    simp [PartialEventData.create, Heap.alloc, PartialEventData._unsafe_addEvent, EventStore.events,
      PartialEventData.window, PartialEventData.elements, Heap.append, hnil, EventStore.size]
  | some p =>
    have hsplit : s.dataPartials.dropLast ++ [p] = s.dataPartials :=
      List.dropLast_append_getLast? p hl
    have hpv : p.Valid h := hv p (by rw [← hsplit]; simp)
    by_cases hc : p.canStoreMoreEvents h = true
    · have hfull : p.start + p.length = (h.packets p.data).length := by
        simp only [PartialEventData.canStoreMoreEvents, PartialEventData.elements,
          Bool.and_eq_true, decide_eq_true_eq] at hc
        exact hc.2.2
      have hx : h.Extends (p._unsafe_addEvent h e).1 := Heap.extends_append h p.data [e]
      have hw := PartialEventData.window_unsafe_addEvent h p e hfull
      simp only [hc, if_true, EventStore.size]
      refine ⟨trivial, ?_, trivial, fun q hq hq2 => ?_⟩
      · simp only [EventStore.events, List.flatMap_append, List.flatMap_singleton,
          List.flatMap_nil, List.append_nil]
        have hev : s.dataPartials.flatMap (PartialEventData.window h)
            = s.dataPartials.dropLast.flatMap (PartialEventData.window h) ++ p.window h := by
          conv_lhs => rw [← hsplit]
          simp
        rw [hw, hev, List.append_assoc]
        congr 1
        apply List.flatMap_congr
        intro q hq
        exact PartialEventData.window_extends (hv q (by rw [← hsplit]; simp [hq])) hx
      · cases hq
        rw [hq2] at hc
        cases hc
    · have hc2 : p.canStoreMoreEvents h = false := by simpa using hc
      have hx : h.Extends (h.alloc.2.append h.next [e]) :=
        Heap.extends_trans (Heap.extends_alloc h) (Heap.extends_append _ _ _)
      simp only [hc2, EventStore.size, PartialEventData.create, Heap.alloc,
        PartialEventData._unsafe_addEvent]
      refine ⟨trivial, ?_, trivial, fun q _ _ => by simp⟩
      simp only [EventStore.events, List.flatMap_append, List.flatMap_singleton,
        List.flatMap_nil, List.append_nil]
      congr 1
      · apply List.flatMap_congr
        intro q hq
        exact PartialEventData.window_extends (hv q hq) hx
      · simp [PartialEventData.window, PartialEventData.elements, Heap.append]

theorem demoStore_valid : demoStore.Valid demoHeap := by
  intro p hp
  simp only [demoStore, List.mem_cons, List.mem_singleton, List.not_mem_nil, or_false] at hp
  rcases hp with rfl | rfl | rfl <;> exact ⟨by decide, by decide⟩

/-- C3 at the full three-shard store: pushing timestamp 6 allocates a fourth shard. -/
theorem push_back_appends_witness :
    (demoStore.push_back demoHeap (ev 6)).thrown = none
    ∧ (demoStore.push_back demoHeap (ev 6)).store.events (demoStore.push_back demoHeap (ev 6)).heap
        = demoStore.events demoHeap ++ [ev 6]
    ∧ (demoStore.push_back demoHeap (ev 6)).store.size = demoStore.size + 1
    ∧ (∀ p, demoStore.dataPartials.getLast? = some p → p.canStoreMoreEvents demoHeap = false →
        (demoStore.push_back demoHeap (ev 6)).store.dataPartials.length
          = demoStore.dataPartials.length + 1) :=
  push_back_appends demoHeap demoStore (ev 6) 6 demoStore_valid rfl (by decide)

/-! ## Merging a store -/

theorem PartialEventData.merge_spec (h : Heap) (p other : PartialEventData)
    (hp : p.Valid h) (ho : other.Valid h) :
    h.Extends (p.merge h other).1
    ∧ (p.merge h other).2.1.Valid (p.merge h other).1
    ∧ ((p.merge h other).2.2 = true →
        (p.merge h other).2.1.window (p.merge h other).1 = p.window h ++ other.window h)
    ∧ ((p.merge h other).2.2 = false → (p.merge h other).1 = h) := by
  unfold merge
  by_cases hc : (!p.canStoreMoreEvents h || decide (p.availableCapacity h < other.length)) = true
  · rw [if_pos hc]
    refine ⟨Heap.extends_refl h, hp, fun hf => ?_, fun _ => rfl⟩
    exact absurd hf (by simp)
  · rw [if_neg hc]
    by_cases hz : other.length = 0
    · rw [if_pos hz]
      refine ⟨Heap.extends_refl h, hp, fun _ => ?_, fun hf => ?_⟩
      · simp [window, hz]
      · exact absurd hf (by simp)
    · rw [if_neg hz]
      have hcan : p.canStoreMoreEvents h = true := by
        cases hcs : p.canStoreMoreEvents h
        · simp [hcs] at hc
        · rfl
      have hfull : p.start + p.length = (h.packets p.data).length := by
        simp only [canStoreMoreEvents, elements, Bool.and_eq_true, decide_eq_true_eq] at hcan
        exact hcan.2.2
      have hwl := PartialEventData.window_length ho
      generalize other.window h = w at hwl ⊢
      refine ⟨Heap.extends_append _ _ _, ⟨hp.1, ?_⟩, fun _ => ?_, fun hf => ?_⟩
      · simp only [Heap.append, if_true, List.length_append, hwl]
        omega
      · simp only [window, elements, Heap.append, if_true]
        rw [List.drop_append_of_le_length (by omega)]
        have hl : ((h.packets p.data).drop p.start).length = p.length := by
          simp only [List.length_drop]; omega
        rw [List.take_of_length_le (by simp only [List.length_append, hl, hwl]; omega),
          List.take_of_length_le (by omega)]
      · exact absurd hf (by simp)

theorem EventStore.addPartial_spec (h : Heap) (s : EventStore) (other : PartialEventData)
    (hs : s.Valid h) (ho : other.Valid h) :
    h.Extends (addPartial (h, s) other).1
    ∧ (addPartial (h, s) other).2.Valid (addPartial (h, s) other).1
    ∧ (addPartial (h, s) other).2.events (addPartial (h, s) other).1
        = s.events h ++ other.window h
    ∧ (addPartial (h, s) other).2.totalLength = s.totalLength + other.length := by
  simp only [addPartial]
  cases hl : s.dataPartials.getLast? with
  | none =>
    have hnil : s.dataPartials = [] := List.getLast?_eq_none_iff.mp hl
    refine ⟨Heap.extends_refl h, ?_, ?_, rfl⟩
    · intro q hq
      simp only [hnil, List.nil_append, List.mem_singleton] at hq
      exact hq ▸ ho
    · simp [events, hnil]
  | some last =>
    have hsplit : s.dataPartials.dropLast ++ [last] = s.dataPartials :=
      List.dropLast_append_getLast? last hl
    have hlast : last.Valid h := hs last (by rw [← hsplit]; simp)
    obtain ⟨hx, hv1, hw, hf⟩ := PartialEventData.merge_spec h last other hlast ho
    rcases hmr : last.merge h other with ⟨h1, last1, merged⟩
    rw [hmr] at hx hv1 hw hf
    simp only at hx hv1 hw hf ⊢
    cases merged with
    | true =>
      simp only [hmr, if_true]
      refine ⟨hx, ?_, ?_, trivial⟩
      · intro q hq
        simp only [List.mem_append, List.mem_singleton] at hq
        rcases hq with hq | hq
        · exact PartialEventData.shard_valid_extends
            (hs q (by rw [← hsplit]; simp [hq])) hx
        · exact hq ▸ hv1
      · have hev : s.dataPartials.flatMap (PartialEventData.window h)
            = s.dataPartials.dropLast.flatMap (PartialEventData.window h) ++ last.window h := by
          conv_lhs => rw [← hsplit]
          simp
        simp only [events, List.flatMap_append, List.flatMap_singleton, List.flatMap_nil,
          List.append_nil]
        rw [hw rfl, hev, List.append_assoc]
        congr 1
        apply List.flatMap_congr
        intro q hq
        exact PartialEventData.window_extends (hs q (by rw [← hsplit]; simp [hq])) hx
    | false =>
      have hh := hf rfl
      subst hh
      simp only [hmr, Bool.false_eq_true, if_false]
      refine ⟨Heap.extends_refl _, ?_, ?_, trivial⟩
      · intro q hq
        simp only [List.mem_append, List.mem_singleton] at hq
        rcases hq with hq | hq
        · exact hs q hq
        · exact hq ▸ ho
      · simp [events]

theorem EventStore.foldl_addPartial_spec (bs : List PartialEventData) :
    ∀ (h : Heap) (s : EventStore), s.Valid h → (∀ p ∈ bs, p.Valid h) →
      h.Extends (bs.foldl addPartial (h, s)).1
      ∧ (bs.foldl addPartial (h, s)).2.Valid (bs.foldl addPartial (h, s)).1
      ∧ (bs.foldl addPartial (h, s)).2.events (bs.foldl addPartial (h, s)).1
          = s.events h ++ bs.flatMap (PartialEventData.window h)
      ∧ (bs.foldl addPartial (h, s)).2.totalLength
          = s.totalLength + (bs.map PartialEventData.length).sum := by
  induction bs with
  | nil =>
    intro h s hs _
    exact ⟨Heap.extends_refl h, hs, by simp, by simp⟩
  | cons b bs ih =>
    intro h s hs hb
    obtain ⟨hx, hv1, he, ht⟩ := addPartial_spec h s b hs (hb b (by simp))
    have hrest : ∀ p ∈ bs, p.Valid (addPartial (h, s) b).1 :=
      fun p hp => PartialEventData.shard_valid_extends (hb p (by simp [hp])) hx
    obtain ⟨hx2, hv2, he2, ht2⟩ := ih (addPartial (h, s) b).1 (addPartial (h, s) b).2 hv1 hrest
    simp only [List.foldl_cons]
    refine ⟨Heap.extends_trans hx hx2, hv2, ?_, ?_⟩
    · rw [he2, he, List.flatMap_cons, List.append_assoc]
      congr 2
      apply List.flatMap_congr
      intro q hq
      exact PartialEventData.window_extends (hb q (by simp [hq])) hx
    · rw [ht2, ht, List.map_cons, List.sum_cons, Nat.add_assoc]

theorem EventStore.buildOffsets_snd (ps : List PartialEventData) :
    ∀ t, (buildOffsets ps t).2 = t + (ps.map PartialEventData.length).sum := by
  induction ps with
  | nil => intro t; simp [buildOffsets]
  | cons p ps ih => intro t; simp [buildOffsets, ih, Nat.add_assoc]

theorem EventStore.Indexed.total {s : EventStore} (hi : s.Indexed) :
    s.totalLength = (s.dataPartials.map PartialEventData.length).sum := by
  have := buildOffsets_snd s.dataPartials 0
  rw [hi] at this
  simpa using this

/-- C4: for stores `A` and `B` with valid shards, `B` non-empty with a total length that is
the number of its records,
`A.add(B)` fails with the ordering error exactly when `B.getLowestTime() < A.getHighestTime()`;
when it succeeds the records of `A` are the old records of `A` followed by those of `B`
(whether a shard of `B` was merged by copy or appended by reference), the size is the sum of
the sizes, and the records of `B` are unchanged. -/
theorem add_appends (h : Heap) (A B : EventStore) (hi lo : Int)
    (hA : A.Valid h) (hB : B.Valid h)
    (hBt : B.totalLength = (B.dataPartials.map PartialEventData.length).sum)
    (hne : B.isEmpty = false)
    (hhi : A.getHighestTime = .ok hi) (hlo : B.getLowestTime = .ok lo) :
    ((A.add h B).thrown = some Err.orderViolation ↔ lo < hi)
    ∧ (¬ lo < hi →
        (A.add h B).thrown = none
        ∧ (A.add h B).store.events (A.add h B).heap = A.events h ++ B.events h
        ∧ (A.add h B).store.size = A.size + B.size
        ∧ B.events (A.add h B).heap = B.events h) := by
  unfold EventStore.add
  simp only [hne, hhi, hlo, Bool.false_eq_true, if_false]
  by_cases hlt : lo < hi
  · have : hi > lo := hlt
    simp [this, hlt]
  · have hn : ¬ hi > lo := hlt
    simp only [hn, if_false, hlt, false_iff, not_false_eq_true, true_implies]
    obtain ⟨hx, _, he, ht⟩ := EventStore.foldl_addPartial_spec B.dataPartials h A hA hB
    refine ⟨by simp, trivial, he, ?_, EventStore.events_extends hB hx⟩
    simp only [EventStore.size]
    rw [ht, hBt]

theorem demoTarget_valid : demoTarget.Valid demoHeap := by
  intro p hp
  simp only [demoTarget, List.mem_singleton] at hp
  subst hp
  exact ⟨by decide, by decide⟩

/-- C4 at the store `[0,1]` and the three-shard store `[1,2],[3,4],[5,6]`. -/
theorem add_appends_witness :
    ((demoTarget.add demoHeap demoStore).thrown = some Err.orderViolation ↔ (1 : Int) < 1)
    ∧ (¬ (1 : Int) < 1 →
        (demoTarget.add demoHeap demoStore).thrown = none
        ∧ (demoTarget.add demoHeap demoStore).store.events (demoTarget.add demoHeap demoStore).heap
            = demoTarget.events demoHeap ++ demoStore.events demoHeap
        ∧ (demoTarget.add demoHeap demoStore).store.size = demoTarget.size + demoStore.size
        ∧ demoStore.events (demoTarget.add demoHeap demoStore).heap = demoStore.events demoHeap) :=
  add_appends demoHeap demoTarget demoStore 1 1 demoTarget_valid demoStore_valid rfl rfl rfl rfl

/-! ## Arithmetic of `size_t`, binary search -/

theorem addSz_eq {a b : Nat} (hb : a + b < SIZE_MOD) : addSz a b = a + b :=
  Nat.mod_eq_of_lt hb

theorem subSz_eq {a b : Nat} (hba : b ≤ a) (ha : a < SIZE_MOD) : subSz a b = a - b := by
  unfold subSz
  have hb : b % SIZE_MOD = b := Nat.mod_eq_of_lt (by omega)
  rw [hb]
  have h1 : a + (SIZE_MOD - b) = (a - b) + SIZE_MOD := by omega
  rw [h1, Nat.add_mod_right]
  exact Nat.mod_eq_of_lt (by omega)

theorem boundLoop_spec (pred : Nat → Bool) :
    ∀ (fuel first len : Nat), len ≤ fuel →
      (∀ i j, first ≤ i → i ≤ j → j < first + len → pred j = true → pred i = true) →
      first ≤ boundLoop pred fuel first len
      ∧ boundLoop pred fuel first len ≤ first + len
      ∧ (∀ i, first ≤ i → i < boundLoop pred fuel first len → pred i = true)
      ∧ (∀ i, boundLoop pred fuel first len ≤ i → i < first + len → pred i = false) := by
  intro fuel
  induction fuel with
  | zero =>
    intro first len hlen _
    have : len = 0 := by omega
    subst this
    refine ⟨Nat.le_refl _, Nat.le_refl _, ?_, ?_⟩ <;> intro i h1 h2 <;>
      simp only [boundLoop] at * <;> omega
  | succ fuel ih =>
    intro first len hlen hmono
    by_cases hz : len = 0
    · subst hz
      refine ⟨?_, ?_, ?_, ?_⟩ <;> simp only [boundLoop, if_true] <;> intros <;> omega
    · have hhalf : len / 2 < len := Nat.div_lt_self (by omega) (by decide)
      by_cases hp : pred (first + len / 2) = true
      · have hrec := ih (first + len / 2 + 1) (len - len / 2 - 1) (by omega)
          (fun i j h1 h2 h3 h4 => hmono i j (by omega) h2 (by omega) h4)
        simp only [boundLoop, hz, if_false, hp, if_true]
        obtain ⟨r1, r2, r3, r4⟩ := hrec
        refine ⟨by omega, by omega, fun i h1 h2 => ?_, fun i h1 h2 => r4 i h1 (by omega)⟩
        by_cases hi : first + len / 2 + 1 ≤ i
        · exact r3 i hi h2
        · exact hmono i (first + len / 2) h1 (by omega) (by omega) hp
      · have hrec := ih first (len / 2) (by omega)
          (fun i j h1 h2 h3 h4 => hmono i j h1 h2 (by omega) h4)
        have hp2 : pred (first + len / 2) = false := by simpa using hp
        simp only [boundLoop, hz, if_false, hp2, Bool.false_eq_true]
        obtain ⟨r1, r2, r3, r4⟩ := hrec
        refine ⟨r1, by omega, r3, fun i h1 h2 => ?_⟩
        by_cases hi : i < first + len / 2
        · exact r4 i h1 hi
        · cases hpi : pred i with
          | false => rfl
          | true => exact absurd (hmono (first + len / 2) i (by omega) (by omega) h2 hpi) hp

theorem lower_bound_spec (pred : Nat → Bool) (n : Nat)
    (hmono : ∀ i j, i ≤ j → j < n → pred j = true → pred i = true) :
    lower_bound pred n ≤ n
    ∧ (∀ i, i < lower_bound pred n → pred i = true)
    ∧ (∀ i, lower_bound pred n ≤ i → i < n → pred i = false) := by
  obtain ⟨_, r2, r3, r4⟩ := boundLoop_spec pred n 0 n (Nat.le_refl _)
    (fun i j _ h2 h3 h4 => hmono i j h2 (by omega) h4)
  exact ⟨by simpa using r2, fun i hi => r3 i (Nat.zero_le _) hi,
    fun i h1 h2 => r4 i h1 (by omega)⟩

/-! ## Narrowing a shard -/

theorem PartialEventData.sliceFront_ok (h : Heap) (p : PartialEventData) (n : Nat)
    (hn : n ≤ p.length) :
    ∃ q, p.sliceFront h n = .ok q ∧ q.length = p.length - n ∧ q.start = p.start + n
      ∧ q.data = p.data ∧ q.window h = (p.window h).drop n := by
  refine ⟨{ p with
      start := p.start + n
      length := p.length - n
      lowestTime := if p.length - n = 0 then 0 else p.timeAt h (p.start + n) },
    by simp only [sliceFront, if_neg (Nat.not_lt.mpr hn)], rfl, rfl, rfl, ?_⟩
  simp only [window, elements, List.drop_take, List.drop_drop]

theorem PartialEventData.sliceBack_ok (h : Heap) (p : PartialEventData) (n : Nat)
    (hn : n ≤ p.length) :
    ∃ q, p.sliceBack h n = .ok q ∧ q.length = p.length - n ∧ q.start = p.start
      ∧ q.data = p.data ∧ q.window h = (p.window h).take (p.length - n) := by
  refine ⟨{ p with
      length := p.length - n
      highestTime := if p.length - n = 0 then 0 else p.timeAt h (p.start + (p.length - n) - 1) },
    by simp only [sliceBack, if_neg (Nat.not_lt.mpr hn)], rfl, rfl, rfl, ?_⟩
  simp only [window, elements, List.take_take]
  congr 1
  omega

theorem PartialEventData.valid_of_narrow {h : Heap} {p q : PartialEventData} (hp : p.Valid h)
    (hd : q.data = p.data)
    (he : q.start + q.length ≤ p.start + p.length) : q.Valid h := by
  unfold PartialEventData.Valid at *
  rw [hd]
  exact ⟨hp.1, by omega⟩

/-! ## Narrowing the first and the last shard of a run -/

theorem EventStore.fromPartials_indexed (ps : List PartialEventData) : (fromPartials ps).Indexed := by
  simp [Indexed, fromPartials]

theorem EventStore.narrowEnds_single (h : Heap) (p : PartialEventData) (f b : Nat)
    (hfb : f + b < p.length) :
    ∃ q, narrowEnds h [p] f b = .ok (fromPartials [q])
      ∧ q.window h = ((p.window h).drop f).take (p.length - f - b)
      ∧ q.data = p.data ∧ p.start ≤ q.start ∧ q.start + q.length ≤ p.start + p.length
      ∧ q.length = p.length - f - b := by
  obtain ⟨q1, h1, l1, s1, d1, w1⟩ := PartialEventData.sliceFront_ok h p f (by omega)
  obtain ⟨q2, h2, l2, s2, d2, w2⟩ := PartialEventData.sliceBack_ok h q1 b (by omega)
  refine ⟨q2, ?_, by rw [w2, w1, l1], by rw [d2, d1], by omega, by omega, by omega⟩
  have hne : ¬ q2.length = 0 := by omega
  simp [narrowEnds, vecGet, vecBack, bind, Except.bind, h1, h2, hne, pure, Except.pure]

theorem EventStore.narrowEnds_multi (h : Heap) (front back : PartialEventData)
    (mid : List PartialEventData) (f b : Nat) (hf : f < front.length) (hb : b < back.length) :
    ∃ q1 q2, narrowEnds h (front :: (mid ++ [back])) f b = .ok (fromPartials (q1 :: (mid ++ [q2])))
      ∧ q1.window h = (front.window h).drop f
      ∧ q2.window h = (back.window h).take (back.length - b)
      ∧ q1.data = front.data ∧ front.start ≤ q1.start
      ∧ q1.start + q1.length ≤ front.start + front.length
      ∧ q2.data = back.data ∧ back.start ≤ q2.start
      ∧ q2.start + q2.length ≤ back.start + back.length
      ∧ q1.length = front.length - f ∧ q2.length = back.length - b := by
  obtain ⟨q1, h1, l1, s1, d1, w1⟩ := PartialEventData.sliceFront_ok h front f (by omega)
  obtain ⟨q2, h2, l2, s2, d2, w2⟩ := PartialEventData.sliceBack_ok h back b (by omega)
  refine ⟨q1, q2, ?_, w1, w2, d1, by omega, by omega, d2, by omega, by omega, l1, l2⟩
  have hne1 : ¬ q1.length = 0 := by omega
  have hne2 : ¬ q2.length = 0 := by omega
  have hlast : (q1 :: (mid ++ [back])).getLast? = some back := by
    rw [← List.cons_append, List.getLast?_append]; simp
  have hdl : (q1 :: (mid ++ [back])).dropLast = q1 :: mid := by
    rw [← List.cons_append, List.dropLast_concat]
  have hlast2 : (q1 :: (mid ++ [q2])).getLast? = some q2 := by
    rw [← List.cons_append, List.getLast?_append]; simp
  simp [narrowEnds, vecGet, vecBack, bind, Except.bind, h1, h2, hne1, hne2, pure, Except.pure,
    hlast, hdl, hlast2]

theorem EventStore.length_flatMap_window (h : Heap) (ps : List PartialEventData)
    (hv : ∀ p ∈ ps, p.Valid h) :
    (ps.flatMap (PartialEventData.window h)).length = (ps.map PartialEventData.length).sum := by
  induction ps with
  | nil => simp
  | cons p ps ih =>
    simp only [List.flatMap_cons, List.length_append, List.map_cons, List.sum_cons]
    rw [PartialEventData.window_length (hv p (by simp)), ih (fun q hq => hv q (by simp [hq]))]

theorem EventStore.narrowEnds_spec (h : Heap) (np : List PartialEventData)
    (hv : ∀ p ∈ np, p.Valid h) (front back : PartialEventData) (f b : Nat)
    (hfront : np.head? = some front) (hback : np.getLast? = some back)
    (hf : f < front.length) (hb : b < back.length)
    (hfb : f + b < (np.map PartialEventData.length).sum) :
    ∃ R, narrowEnds h np f b = .ok (fromPartials R)
      ∧ R.flatMap (PartialEventData.window h)
          = ((np.flatMap (PartialEventData.window h)).drop f).take
              ((np.map PartialEventData.length).sum - f - b)
      ∧ (∀ q ∈ R, q.Valid h)
      ∧ (R.map PartialEventData.length).sum = (np.map PartialEventData.length).sum - f - b := by
  cases np with
  | nil => simp at hfront
  | cons p rest =>
    simp only [List.head?_cons, Option.some.injEq] at hfront
    subst hfront
    rcases List.eq_nil_or_concat rest with hr | ⟨mid, last, hr⟩
    · subst hr
      simp only [List.getLast?_singleton, Option.some.injEq] at hback
      subst hback
      simp only [List.map_cons, List.map_nil, List.sum_cons, List.sum_nil, Nat.add_zero] at hfb ⊢
      obtain ⟨q, hq, hw, hd, hs, he, hl⟩ := narrowEnds_single h p f b hfb
      refine ⟨[q], hq, ?_, ?_, by simp [hl]⟩
      · simp [hw]
      · intro q2 hq2
        simp only [List.mem_singleton] at hq2
        subst hq2
        exact PartialEventData.valid_of_narrow (hv p (by simp)) hd he
    · rw [List.concat_eq_append] at hr
      subst hr
      have hlast : (p :: (mid ++ [last])).getLast? = some last := by
        rw [← List.cons_append, List.getLast?_append]; simp
      rw [hlast] at hback
      simp only [Option.some.injEq] at hback
      subst hback
      obtain ⟨q1, q2, hq, w1, w2, d1, s1, e1, d2, s2, e2, l1, l2⟩ :=
        narrowEnds_multi h p last mid f b hf hb
      have hvp : p.Valid h := hv p (by simp)
      have hvl : last.Valid h := hv last (by simp)
      have hvm : ∀ q ∈ mid, q.Valid h := fun q hq => hv q (by simp [hq])
      have hwp := PartialEventData.window_length hvp
      have hwl := PartialEventData.window_length hvl
      have hwm := length_flatMap_window h mid hvm
      refine ⟨q1 :: (mid ++ [q2]), hq, ?_, ?_, ?_⟩
      · simp only [List.flatMap_cons, List.flatMap_append, List.flatMap_singleton,
          List.flatMap_nil, List.append_nil, List.map_cons, List.map_append, List.sum_cons,
          List.sum_append, List.map_nil, List.sum_nil, Nat.add_zero, w1, w2]
        rw [List.drop_append_of_le_length (by omega)]
        have hlen : (List.drop f (p.window h)
            ++ mid.flatMap (PartialEventData.window h)).length
            = p.length - f + (mid.map PartialEventData.length).sum := by
          simp only [List.length_append, List.length_drop, hwp, hwm]
        have hk : p.length + ((mid.map PartialEventData.length).sum + last.length) - f - b
            = (List.drop f (p.window h) ++ mid.flatMap (PartialEventData.window h)).length
              + (last.length - b) := by
          rw [hlen]; omega
        rw [hk, ← List.append_assoc _ _ (PartialEventData.window h last), List.take_append,
          List.append_assoc]
      · intro q hq
        simp only [List.mem_cons, List.mem_append, List.mem_singleton, List.not_mem_nil,
          or_false] at hq
        rcases hq with rfl | hq | rfl
        · exact PartialEventData.valid_of_narrow hvp d1 e1
        · exact hvm q hq
        · exact PartialEventData.valid_of_narrow hvl d2 e2
      · simp only [List.map_cons, List.map_append, List.sum_cons, List.sum_append, List.map_nil,
          List.sum_nil, Nat.add_zero, l1, l2]
        omega

/-! ## The offset index -/

theorem EventStore.offsetOf_zero (ps : List PartialEventData) : offsetOf ps 0 = 0 := by
  simp [offsetOf]

theorem EventStore.offsetOf_cons (p : PartialEventData) (ps : List PartialEventData) (i : Nat) :
    offsetOf (p :: ps) (i + 1) = p.length + offsetOf ps i := by
  simp [offsetOf]

theorem EventStore.offsetOf_succ (ps : List PartialEventData) :
    ∀ (i : Nat) (p : PartialEventData), ps[i]? = some p →
      offsetOf ps (i + 1) = offsetOf ps i + p.length := by
  induction ps with
  | nil => intro i p hp; simp at hp
  | cons q ps ih =>
    intro i p hp
    cases i with
    | zero =>
      simp only [List.getElem?_cons_zero, Option.some.injEq] at hp
      subst hp
      simp [offsetOf]
    | succ i =>
      simp only [List.getElem?_cons_succ] at hp
      rw [offsetOf_cons, offsetOf_cons, ih i p hp, Nat.add_assoc]

theorem EventStore.offsetOf_le_succ (ps : List PartialEventData) (i : Nat) :
    offsetOf ps i ≤ offsetOf ps (i + 1) := by
  cases hp : ps[i]? with
  | some p => rw [offsetOf_succ ps i p hp]; exact Nat.le_add_right _ _
  | none =>
    have hlen : ps.length ≤ i := by simpa using hp
    simp [offsetOf, List.take_of_length_le hlen, List.take_of_length_le (Nat.le_succ_of_le hlen)]

theorem EventStore.offsetOf_mono (ps : List PartialEventData) {i j : Nat} (hij : i ≤ j) :
    offsetOf ps i ≤ offsetOf ps j := by
  induction j with
  | zero =>
    have : i = 0 := by omega
    subst this
    exact Nat.le_refl _
  | succ j ih =>
    by_cases h : i = j + 1
    · subst h; exact Nat.le_refl _
    · exact Nat.le_trans (ih (by omega)) (offsetOf_le_succ ps j)

theorem EventStore.offsetOf_run (ps : List PartialEventData) (L H : Nat) (hLH : L ≤ H) :
    offsetOf ps H
      = offsetOf ps L + (((ps.drop L).take (H - L)).map PartialEventData.length).sum := by
  unfold offsetOf
  have : ps.take H = ps.take L ++ (ps.drop L).take (H - L) := by
    have h1 : H = L + (H - L) := by omega
    conv_lhs => rw [h1]
    exact List.take_add ps L (H - L)
  rw [this, List.map_append, List.sum_append]

theorem EventStore.buildOffsets_getElem? (ps : List PartialEventData) :
    ∀ (t i : Nat), (buildOffsets ps t).1[i]?
      = if i < ps.length then some (t + offsetOf ps i) else none := by
  induction ps with
  | nil => intro t i; simp [buildOffsets]
  | cons p ps ih =>
    intro t i
    cases i with
    | zero => simp [buildOffsets, offsetOf]
    | succ i =>
      simp only [buildOffsets, List.getElem?_cons_succ, ih, List.length_cons,
        Nat.add_lt_add_iff_right, offsetOf_cons, Nat.add_assoc]

theorem EventStore.buildOffsets_length (ps : List PartialEventData) :
    ∀ t, (buildOffsets ps t).1.length = ps.length := by
  induction ps with
  | nil => intro t; simp [buildOffsets]
  | cons p ps ih => intro t; simp [buildOffsets, ih]

theorem EventStore.Indexed.offsets_length {s : EventStore} (hi : s.Indexed) :
    s.partialOffsets.length = s.dataPartials.length := by
  have := buildOffsets_length s.dataPartials 0
  rw [hi] at this
  exact this

theorem EventStore.Indexed.offsets_get {s : EventStore} (hi : s.Indexed) (i : Nat)
    (hlt : i < s.dataPartials.length) :
    s.partialOffsets[i]? = some (offsetOf s.dataPartials i) := by
  have := buildOffsets_getElem? s.dataPartials 0 i
  rw [hi] at this
  simpa [hlt] using this

theorem EventStore.Indexed.total_offsetOf {s : EventStore} (hi : s.Indexed) :
    s.totalLength = offsetOf s.dataPartials s.dataPartials.length := by
  rw [hi.total, offsetOf, List.take_length]

theorem EventStore.Indexed.offsets_getD {s : EventStore} (hi : s.Indexed) (i : Nat)
    (hlt : i < s.dataPartials.length) :
    s.partialOffsets.getD i 0 = offsetOf s.dataPartials i := by
  rw [List.getD_eq_getElem?_getD, hi.offsets_get i hlt]
  rfl

theorem EventStore.upper_bound_offsets {s : EventStore} (hi : s.Indexed) (start : Nat)
    (hlt : start < s.totalLength) :
    1 ≤ upper_bound s.partialOffsets start
    ∧ upper_bound s.partialOffsets start ≤ s.dataPartials.length
    ∧ offsetOf s.dataPartials (upper_bound s.partialOffsets start - 1) ≤ start
    ∧ start < offsetOf s.dataPartials (upper_bound s.partialOffsets start) := by
  have hlen := hi.offsets_length
  have hspec := lower_bound_spec (fun i => !decide (start < s.partialOffsets.getD i 0))
    s.partialOffsets.length (by
      intro i j hij hj hp
      rw [hlen] at hj
      simp only [Bool.not_eq_true', decide_eq_false_iff_not, Nat.not_lt] at hp ⊢
      rw [hi.offsets_getD i (by omega)]
      rw [hi.offsets_getD j hj] at hp
      exact Nat.le_trans (offsetOf_mono _ hij) hp)
  have hU : upper_bound s.partialOffsets start
      = lower_bound (fun i => !decide (start < s.partialOffsets.getD i 0))
          s.partialOffsets.length := rfl
  rw [← hU, hlen] at hspec
  obtain ⟨h1, h2, h3⟩ := hspec
  have hpos : 0 < s.dataPartials.length := by
    rcases Nat.eq_zero_or_pos s.dataPartials.length with hz | hz
    · have := hi.total_offsetOf
      rw [hz, offsetOf_zero] at this
      omega
    · exact hz
  have hge : 1 ≤ upper_bound s.partialOffsets start := by
    rcases Nat.eq_zero_or_pos (upper_bound s.partialOffsets start) with hz | hz
    · have := h3 0 (by omega) hpos
      simp only [Bool.not_eq_false', decide_eq_true_eq] at this
      rw [hi.offsets_getD 0 hpos, offsetOf_zero] at this
      omega
    · exact hz
  refine ⟨hge, h1, ?_, ?_⟩
  · have := h2 (upper_bound s.partialOffsets start - 1) (by omega)
    simp only [Bool.not_eq_true', decide_eq_false_iff_not, Nat.not_lt] at this
    rw [hi.offsets_getD _ (by omega)] at this
    exact this
  · rcases Nat.lt_or_ge (upper_bound s.partialOffsets start) s.dataPartials.length with hc | hc
    · have := h3 _ (Nat.le_refl _) hc
      simp only [Bool.not_eq_false', decide_eq_true_eq] at this
      rw [hi.offsets_getD _ hc] at this
      exact this
    · have : upper_bound s.partialOffsets start = s.dataPartials.length := by omega
      rw [this, ← hi.total_offsetOf]
      exact hlt

theorem EventStore.lower_bound_offsets {s : EventStore} (hi : s.Indexed) (e : Nat)
    (hpos : 0 < e) (hle : e ≤ s.totalLength) :
    1 ≤ lower_bound_nat s.partialOffsets e
    ∧ lower_bound_nat s.partialOffsets e ≤ s.dataPartials.length
    ∧ offsetOf s.dataPartials (lower_bound_nat s.partialOffsets e - 1) < e
    ∧ e ≤ offsetOf s.dataPartials (lower_bound_nat s.partialOffsets e) := by
  have hlen := hi.offsets_length
  have hspec := lower_bound_spec (fun i => decide (s.partialOffsets.getD i 0 < e))
    s.partialOffsets.length (by
      intro i j hij hj hp
      rw [hlen] at hj
      simp only [decide_eq_true_eq] at hp ⊢
      rw [hi.offsets_getD i (by omega)]
      rw [hi.offsets_getD j hj] at hp
      exact Nat.lt_of_le_of_lt (offsetOf_mono _ hij) hp)
  have hH : lower_bound_nat s.partialOffsets e
      = lower_bound (fun i => decide (s.partialOffsets.getD i 0 < e))
          s.partialOffsets.length := rfl
  rw [← hH, hlen] at hspec
  obtain ⟨h1, h2, h3⟩ := hspec
  have hn : 0 < s.dataPartials.length := by
    rcases Nat.eq_zero_or_pos s.dataPartials.length with hz | hz
    · have := hi.total_offsetOf
      rw [hz, offsetOf_zero] at this
      omega
    · exact hz
  have hge : 1 ≤ lower_bound_nat s.partialOffsets e := by
    rcases Nat.eq_zero_or_pos (lower_bound_nat s.partialOffsets e) with hz | hz
    · have := h3 0 (by omega) hn
      simp only [decide_eq_false_iff_not, Nat.not_lt] at this
      rw [hi.offsets_getD 0 hn, offsetOf_zero] at this
      omega
    · exact hz
  refine ⟨hge, h1, ?_, ?_⟩
  · have := h2 (lower_bound_nat s.partialOffsets e - 1) (by omega)
    simp only [decide_eq_true_eq] at this
    rw [hi.offsets_getD _ (by omega)] at this
    exact this
  · rcases Nat.lt_or_ge (lower_bound_nat s.partialOffsets e) s.dataPartials.length with hc | hc
    · have := h3 _ (Nat.le_refl _) hc
      simp only [decide_eq_false_iff_not, Nat.not_lt] at this
      rw [hi.offsets_getD _ hc] at this
      exact this
    · have : lower_bound_nat s.partialOffsets e = s.dataPartials.length := by omega
      rw [this, ← hi.total_offsetOf]
      exact hle

/-! ## `slice` -/

theorem exists_getElem?_of_lt {α : Type} (l : List α) (i : Nat) (hlt : i < l.length) :
    ∃ a, l[i]? = some a :=
  ⟨l.get ⟨i, hlt⟩, by simp [List.getElem?_eq_getElem hlt]⟩

theorem EventStore.slice_ok (h : Heap) (s : EventStore) (start length : Nat)
    (hv : s.Valid h) (hi : s.Indexed) (hn : s.dataPartials.length < SIZE_MOD)
    (ht : s.totalLength < SIZE_MOD) (hpos : 0 < length) (hle : start + length ≤ s.totalLength) :
    ∃ r, s.slice h start length = .ok r
      ∧ r.events h = ((s.events h).drop start).take length
      ∧ r.Indexed ∧ r.Valid h ∧ r.size = length := by
  obtain ⟨hU1, hU2, hU3, hU4⟩ := upper_bound_offsets hi start (by omega)
  obtain ⟨hH1, hH2, hH3, hH4⟩ := lower_bound_offsets hi (start + length) (by omega) hle
  generalize hUdef : upper_bound s.partialOffsets start = U at hU1 hU2 hU3 hU4
  generalize hHdef : lower_bound_nat s.partialOffsets (start + length) = H at hH1 hH2 hH3 hH4
  have hLH : U - 1 < H := by
    by_contra hc
    have := offsetOf_mono s.dataPartials (Nat.le_of_not_lt hc)
    omega
  obtain ⟨front, hfront⟩ := exists_getElem?_of_lt s.dataPartials (U - 1) (by omega)
  obtain ⟨back, hback⟩ := exists_getElem?_of_lt s.dataPartials (H - 1) (by omega)
  have hsuccL := offsetOf_succ s.dataPartials (U - 1) front hfront
  have hsuccH := offsetOf_succ s.dataPartials (H - 1) back hback
  rw [show U - 1 + 1 = U by omega] at hsuccL
  rw [show H - 1 + 1 = H by omega] at hsuccH
  have hrun := offsetOf_run s.dataPartials (U - 1) H (by omega)
  have htot := hi.total_offsetOf
  have hHle : offsetOf s.dataPartials H ≤ s.totalLength := by
    rw [htot]; exact offsetOf_mono _ hH2
  generalize hnp : (s.dataPartials.drop (U - 1)).take (H - (U - 1)) = np at hrun
  have hnplen : np.length = H - (U - 1) := by
    rw [← hnp, List.length_take, List.length_drop]; omega
  have hhead : np.head? = some front := by
    rw [← hnp, List.head?_take, if_neg (by omega), List.head?_drop, hfront]
  have hlast : np.getLast? = some back := by
    rw [List.getLast?_eq_getElem?, hnplen, ← hnp, List.getElem?_take, if_pos (by omega),
      List.getElem?_drop, ← hback]
    congr 1
    omega
  have hvnp : ∀ p ∈ np, p.Valid h := by
    intro p hp
    rw [← hnp] at hp
    exact hv p (List.mem_of_mem_drop (List.mem_of_mem_take hp))
  have hcopy : copyRange s.dataPartials (U - 1) H = .ok np := by
    simp only [copyRange, if_neg (Nat.not_le.mpr hLH), if_pos hH2, hnp]
  have hoffL : vecGet s.partialOffsets (U - 1) = .ok (offsetOf s.dataPartials (U - 1)) := by
    simp only [vecGet, hi.offsets_get (U - 1) (by omega)]
  have hoffH : vecGet s.partialOffsets (H - 1) = .ok (offsetOf s.dataPartials (H - 1)) := by
    simp only [vecGet, hi.offsets_get (H - 1) (by omega)]
  have hvb : vecBack np = .ok back := by simp only [vecBack, hlast]
  have ha1 : addSz start length = start + length := addSz_eq (by omega)
  have hs1 : subSz U 1 = U - 1 := subSz_eq hU1 (by omega)
  have hs2 : subSz H 1 = H - 1 := subSz_eq hH1 (by omega)
  have hs3 : subSz start (offsetOf s.dataPartials (U - 1))
      = start - offsetOf s.dataPartials (U - 1) := subSz_eq hU3 (by omega)
  have ha2 : addSz (offsetOf s.dataPartials (H - 1)) back.length = offsetOf s.dataPartials H := by
    rw [addSz_eq (by omega), hsuccH]
  have hs4 : subSz (offsetOf s.dataPartials H) (start + length)
      = offsetOf s.dataPartials H - (start + length) := subSz_eq hH4 (by omega)
  obtain ⟨R, hR, hRw, hRv, hRl⟩ := narrowEnds_spec h np hvnp front back
    (start - offsetOf s.dataPartials (U - 1))
    (offsetOf s.dataPartials H - (start + length)) hhead hlast (by omega) (by omega) (by omega)
  have hslice : s.slice h start length = .ok (fromPartials R) := by
    rw [← hR]
    simp only [slice, narrowEnds, ha1, if_neg (Nat.not_lt.mpr hle), if_neg (Nat.pos_iff_ne_zero.mp hpos),
      hUdef, hHdef, hs1, hs2, hcopy, hoffL, hoffH, hvb, hs3, ha2, hs4, bind, Except.bind, pure,
      Except.pure]
  have hM : (np.map PartialEventData.length).sum - (start - offsetOf s.dataPartials (U - 1))
      - (offsetOf s.dataPartials H - (start + length)) = length := by omega
  rw [hM] at hRw hRl
  refine ⟨fromPartials R, hslice, ?_, fromPartials_indexed R, hRv, ?_⟩
  · have hsplit : s.dataPartials
        = s.dataPartials.take (U - 1) ++ (np ++ (s.dataPartials.drop (U - 1)).drop (H - (U - 1))) := by
      rw [← hnp, List.take_append_drop, List.take_append_drop]
    have hpre : ((s.dataPartials.take (U - 1)).flatMap (PartialEventData.window h)).length
        = offsetOf s.dataPartials (U - 1) :=
      length_flatMap_window h _ (fun p hp => hv p (List.mem_of_mem_take hp))
    have hmid := length_flatMap_window h np hvnp
    have hev : s.events h
        = (s.dataPartials.take (U - 1)).flatMap (PartialEventData.window h)
          ++ (np.flatMap (PartialEventData.window h)
            ++ ((s.dataPartials.drop (U - 1)).drop (H - (U - 1))).flatMap
                (PartialEventData.window h)) := by
      unfold events
      conv_lhs => rw [hsplit]
      simp only [List.flatMap_append]
    have hstart : start = ((s.dataPartials.take (U - 1)).flatMap (PartialEventData.window h)).length
        + (start - offsetOf s.dataPartials (U - 1)) := by
      rw [hpre]; omega
    show R.flatMap (PartialEventData.window h) = _
    rw [hRw, hev]
    conv_rhs => rw [hstart, List.drop_append]
    rw [List.drop_append_of_le_length (by omega), List.take_append_of_le_length]
    simp only [List.length_drop]
    omega
  · show (buildOffsets R 0).2 = length
    rw [buildOffsets_snd, hRl, Nat.zero_add]

theorem EventStore.length_events {h : Heap} {s : EventStore} (hv : s.Valid h) (hi : s.Indexed) :
    (s.events h).length = s.totalLength := by
  rw [hi.total]
  exact length_flatMap_window h s.dataPartials hv

/-- Amended C5: on a store with valid shards and a parallel offset index, for `start` and
`length` whose sum does not wrap in `size_t`, `slice(start, length)` fails with the range error
exactly when `start + length > size()`; otherwise it returns the records at positions
`start .. start + length` in order, and `slice(0, size())` returns all records. -/
theorem slice_in_range (h : Heap) (s : EventStore) (start length : Nat)
    (hv : s.Valid h) (hi : s.Indexed) (hfit : s.Fits) (hsum : start + length < SIZE_MOD) :
    (s.slice h start length = .error Err.rangeError ↔ start + length > s.size)
    ∧ (start + length ≤ s.size →
        ∃ r, s.slice h start length = .ok r
          ∧ r.events h = ((s.events h).drop start).take length
          ∧ (start = 0 → length = s.size → r.events h = s.events h)) := by
  have ha : addSz start length = start + length := addSz_eq hsum
  by_cases hgt : start + length > s.size
  · have hgt2 : start + length > s.totalLength := hgt
    have herr : s.slice h start length = .error Err.rangeError := by
      simp [EventStore.slice, ha, hgt2, bind, Except.bind, throw, throwThe, MonadExceptOf.throw]
    exact ⟨⟨fun _ => hgt, fun _ => herr⟩, fun hle => absurd hgt (Nat.not_lt.mpr hle)⟩
  · have hle : start + length ≤ s.totalLength := Nat.le_of_not_lt hgt
    have hmain : ∃ r, s.slice h start length = .ok r
        ∧ r.events h = ((s.events h).drop start).take length := by
      by_cases hz : length = 0
      · refine ⟨EventStore.empty, ?_, ?_⟩
        · subst hz
          simp [EventStore.slice, ha, bind, Except.bind, pure, Except.pure]
          simpa using hle
        · simp [hz, EventStore.events, EventStore.empty]
      · obtain ⟨r, hr, he, _⟩ := EventStore.slice_ok h s start length hv hi hfit.1 hfit.2
          (Nat.pos_of_ne_zero hz) hle
        exact ⟨r, hr, he⟩
    obtain ⟨r, hr, he⟩ := hmain
    refine ⟨⟨fun hc => ?_, fun hc => absurd hc hgt⟩, fun _ => ⟨r, hr, he, fun h0 hl => ?_⟩⟩
    · rw [hr] at hc
      cases hc
    · rw [he, h0, hl, List.drop_zero, List.take_of_length_le]
      rw [EventStore.length_events hv hi]
      exact Nat.le_refl _

theorem demoStore_indexed : demoStore.Indexed := by
  simp [EventStore.Indexed, demoStore, EventStore.buildOffsets]

theorem demoStore_fits : demoStore.Fits := by
  constructor <;> decide

/-- Amended C5 at the three-shard store: `slice(2, 3)`. -/
theorem slice_in_range_witness :
    (demoStore.slice demoHeap 2 3 = .error Err.rangeError ↔ 2 + 3 > demoStore.size)
    ∧ (2 + 3 ≤ demoStore.size →
        ∃ r, demoStore.slice demoHeap 2 3 = .ok r
          ∧ r.events demoHeap = ((demoStore.events demoHeap).drop 2).take 3
          ∧ (2 = 0 → 3 = demoStore.size → r.events demoHeap = demoStore.events demoHeap)) :=
  slice_in_range demoHeap demoStore 2 3 demoStore_valid demoStore_indexed demoStore_fits
    (by decide)

/-- The scenario of the specification: `slice(2, 3)` of `[1,2],[3,4],[5,6]` is `[3,4,5]`. -/
theorem slice_scenario :
    (demoStore.slice demoHeap 2 3).map (fun r => (r.events demoHeap).map Event.timestamp)
      = .ok [3, 4, 5] := by
  rfl

/-- C5 fails on the code: `start = SIZE_MAX`, `length = 1` exceed the size of the three-shard
store, but `start + length` wraps to 0 in `size_t`, the range check passes and the call goes on
to read `partialOffsets_[highIndex - 1]` and `newPartials.back()` outside their vectors. -/
theorem slice_wraps :
    18446744073709551615 + 1 > demoStore.size
    ∧ demoStore.slice demoHeap 18446744073709551615 1 = .error Err.undefinedBehaviour
    ∧ demoStore.slice demoHeap 18446744073709551615 1 ≠ .error Err.rangeError := by
  refine ⟨by decide, rfl, ?_⟩
  intro hc
  have h1 : demoStore.slice demoHeap 18446744073709551615 1 = .error Err.undefinedBehaviour := rfl
  rw [h1] at hc
  cases hc

/-! ## Time order -/

theorem lower_bound_partition {α : Type} (l : List α) (key : α → Int)
    (hs : l.Pairwise (fun a b => key a ≤ key b)) (t : Int) (pred : Nat → Bool)
    (hpred : ∀ i a, l[i]? = some a → pred i = decide (key a < t)) :
    lower_bound pred l.length ≤ l.length
    ∧ (∀ a ∈ l.take (lower_bound pred l.length), key a < t)
    ∧ (∀ a ∈ l.drop (lower_bound pred l.length), t ≤ key a) := by
  have hspec := lower_bound_spec pred l.length (by
    intro i j hij hj hp
    obtain ⟨a, ha⟩ := exists_getElem?_of_lt l i (by omega)
    obtain ⟨b, hb⟩ := exists_getElem?_of_lt l j hj
    rw [hpred i a ha]
    rw [hpred j b hb] at hp
    simp only [decide_eq_true_eq] at hp ⊢
    rcases Nat.eq_or_lt_of_le hij with heq | hlt
    · subst heq
      rw [ha] at hb
      cases hb
      exact hp
    · have hi : i < l.length := by omega
      have := List.pairwise_iff_getElem.mp hs i j hi hj hlt
      rw [List.getElem?_eq_getElem hi] at ha
      rw [List.getElem?_eq_getElem hj] at hb
      cases ha
      cases hb
      omega)
  obtain ⟨h1, h2, h3⟩ := hspec
  refine ⟨h1, ?_, ?_⟩
  · intro a ha
    obtain ⟨i, hi⟩ := List.mem_iff_getElem?.mp ha
    rw [List.getElem?_take] at hi
    split at hi
    · rename_i hlt
      have := h2 i hlt
      rw [hpred i a hi] at this
      simpa using this
    · cases hi
  · intro a ha
    obtain ⟨i, hi⟩ := List.mem_iff_getElem?.mp ha
    rw [List.getElem?_drop] at hi
    have hlt : lower_bound pred l.length + i < l.length := by
      by_contra hc
      rw [List.getElem?_eq_none (by omega)] at hi
      cases hi
    have := h3 _ (Nat.le_add_right _ i) hlt
    rw [hpred _ a hi] at this
    simpa using this

theorem filter_eq_take {α : Type} (l : List α) (k : Nat) (P : α → Bool)
    (h1 : ∀ a ∈ l.take k, P a = true) (h2 : ∀ a ∈ l.drop k, P a = false) :
    l.filter P = l.take k := by
  conv_lhs => rw [← List.take_append_drop k l]
  rw [List.filter_append, List.filter_eq_self.mpr h1, List.filter_eq_nil_iff.mpr, List.append_nil]
  intro a ha
  simp [h2 a ha]

theorem filter_eq_drop {α : Type} (l : List α) (k : Nat) (P : α → Bool)
    (h1 : ∀ a ∈ l.take k, P a = false) (h2 : ∀ a ∈ l.drop k, P a = true) :
    l.filter P = l.drop k := by
  conv_lhs => rw [← List.take_append_drop k l]
  rw [List.filter_append, List.filter_eq_nil_iff.mpr, List.filter_eq_self.mpr h2, List.nil_append]
  intro a ha
  simp [h1 a ha]

theorem PartialEventData.window_getElem? {h : Heap} {p : PartialEventData} (i : Nat)
    (hlt : i < p.length) : (p.window h)[i]? = (p.elements h)[p.start + i]? := by
  simp only [window, List.getElem?_take, if_pos hlt, List.getElem?_drop]

theorem PartialEventData.timeAt_window {h : Heap} {p : PartialEventData} (i : Nat) (a : Event)
    (ha : (p.window h)[i]? = some a) : p.timeAt h (p.start + i) = a.timestamp := by
  have hlt : i < p.length := by
    by_contra hc
    simp only [window, List.getElem?_take, if_neg hc] at ha
    cases ha
  rw [window_getElem? i hlt] at ha
  simp only [timeAt, ha]

theorem PartialEventData.iteratorAtTime_spec (h : Heap) (p : PartialEventData) (t : Int)
    (hv : p.Valid h) (hs : (p.window h).Pairwise (fun a b => a.timestamp ≤ b.timestamp)) :
    p.iteratorAtTime h t ≤ p.length
    ∧ (p.window h).take (p.iteratorAtTime h t)
        = (p.window h).filter (fun e => decide (e.timestamp < t))
    ∧ (p.window h).drop (p.iteratorAtTime h t)
        = (p.window h).filter (fun e => decide (t ≤ e.timestamp)) := by
  have hlen := window_length hv
  have hpart := lower_bound_partition (p.window h) Event.timestamp hs t
    (fun i => decide (p.timeAt h (p.start + i) < t))
    (fun i a ha => by simp only [timeAt_window i a ha])
  rw [hlen] at hpart
  obtain ⟨h1, h2, h3⟩ := hpart
  refine ⟨h1, ?_, ?_⟩
  · exact (filter_eq_take _ _ _ (fun a ha => by simpa using h2 a ha)
      (fun a ha => by simpa using h3 a ha)).symm
  · exact (filter_eq_drop _ _ _ (fun a ha => by simpa using h2 a ha)
      (fun a ha => by simpa using h3 a ha)).symm

theorem PartialEventData.sliceTimeFront_spec (h : Heap) (p : PartialEventData) (t : Int)
    (hv : p.Valid h) (hs : (p.window h).Pairwise (fun a b => a.timestamp ≤ b.timestamp)) :
    ∃ q k, p.sliceTimeFront h t = .ok (q, k)
      ∧ q.window h = (p.window h).filter (fun e => decide (t ≤ e.timestamp))
      ∧ q.Valid h := by
  obtain ⟨hk, _, hd⟩ := iteratorAtTime_spec h p t hv hs
  obtain ⟨q, hq, hl, hst, hdat, hw⟩ := sliceFront_ok h p (p.iteratorAtTime h t) hk
  refine ⟨q, p.iteratorAtTime h t, ?_, by rw [hw, hd], valid_of_narrow hv hdat (by omega)⟩
  simp only [sliceTimeFront, hq]

theorem PartialEventData.sliceTimeBack_spec (h : Heap) (p : PartialEventData) (t : Int)
    (hv : p.Valid h) (hs : (p.window h).Pairwise (fun a b => a.timestamp ≤ b.timestamp)) :
    ∃ q k, p.sliceTimeBack h t = .ok (q, k)
      ∧ q.window h = (p.window h).filter (fun e => decide (e.timestamp < t))
      ∧ q.Valid h := by
  obtain ⟨hk, ht, _⟩ := iteratorAtTime_spec h p t hv hs
  obtain ⟨q, hq, hl, hst, hdat, hw⟩ :=
    sliceBack_ok h p (p.length - p.iteratorAtTime h t) (Nat.sub_le _ _)
  refine ⟨q, p.length - p.iteratorAtTime h t, ?_, ?_, valid_of_narrow hv hdat (by omega)⟩
  · simp only [sliceTimeBack, hq]
  · rw [hw, ← ht]
    congr 1
    omega

theorem PartialEventData.bounds (h : Heap) (p : PartialEventData) (hv : p.Valid h)
    (hne : p.length ≠ 0) (hlo : p.lowestTime = p.timeAt h p.start)
    (hhi : p.highestTime = p.timeAt h (p.start + p.length - 1))
    (hs : (p.window h).Pairwise (fun a b => a.timestamp ≤ b.timestamp)) :
    (∃ x ∈ p.window h, x.timestamp = p.lowestTime)
    ∧ (∃ y ∈ p.window h, y.timestamp = p.highestTime)
    ∧ ∀ e ∈ p.window h, p.lowestTime ≤ e.timestamp ∧ e.timestamp ≤ p.highestTime := by
  have hlen := window_length hv
  obtain ⟨x, hx⟩ := exists_getElem?_of_lt (p.window h) 0 (by omega)
  obtain ⟨y, hy⟩ := exists_getElem?_of_lt (p.window h) (p.length - 1) (by omega)
  have hxt : x.timestamp = p.lowestTime := by
    rw [hlo, ← timeAt_window 0 x hx, Nat.add_zero]
  have hyt : y.timestamp = p.highestTime := by
    rw [hhi, ← timeAt_window (p.length - 1) y hy]
    congr 1
    omega
  refine ⟨⟨x, List.getElem?_mem hx, hxt⟩, ⟨y, List.getElem?_mem hy, hyt⟩, ?_⟩
  intro e he
  obtain ⟨i, hi⟩ := List.mem_iff_getElem?.mp he
  have hilt : i < (p.window h).length := by
    by_contra hc
    rw [List.getElem?_eq_none (by omega)] at hi
    cases hi
  have h0lt : 0 < (p.window h).length := by omega
  have hllt : p.length - 1 < (p.window h).length := by omega
  rw [List.getElem?_eq_getElem hilt] at hi
  rw [List.getElem?_eq_getElem h0lt] at hx
  rw [List.getElem?_eq_getElem hllt] at hy
  cases hi
  cases hx
  cases hy
  rw [← hxt, ← hyt]
  constructor
  · rcases Nat.eq_zero_or_pos i with hz | hz
    · subst hz; exact Int.le_refl _
    · exact List.pairwise_iff_getElem.mp hs 0 i h0lt hilt hz
  · rcases Nat.eq_or_lt_of_le (show i ≤ p.length - 1 by omega) with hz | hz
    · subst hz; exact Int.le_refl _
    · exact List.pairwise_iff_getElem.mp hs i (p.length - 1) hilt hllt hz

/-! ## `sliceTime` -/

theorem EventStore.order_facts (h : Heap) (s : EventStore) (hv : s.Valid h) (hT : s.Tight h)
    (hs : s.TimeOrdered h) :
    (∀ p ∈ s.dataPartials, (p.window h).Pairwise (fun a b => a.timestamp ≤ b.timestamp))
    ∧ s.dataPartials.Pairwise
        (fun a b => ∀ x ∈ a.window h, ∀ y ∈ b.window h, x.timestamp ≤ y.timestamp)
    ∧ (∀ p ∈ s.dataPartials,
        (∃ x ∈ p.window h, x.timestamp = p.lowestTime)
        ∧ (∃ y ∈ p.window h, y.timestamp = p.highestTime)
        ∧ ∀ e ∈ p.window h, p.lowestTime ≤ e.timestamp ∧ e.timestamp ≤ p.highestTime) := by
  obtain ⟨h1, h2⟩ := List.pairwise_flatMap.mp hs
  exact ⟨h1, h2, fun p hp =>
    PartialEventData.bounds h p (hv p hp) (hT p hp).1 (hT p hp).2.1 (hT p hp).2.2 (h1 p hp)⟩

theorem EventStore.lower_bound_highest (h : Heap) (s : EventStore) (hv : s.Valid h)
    (hT : s.Tight h) (hs : s.TimeOrdered h) (t : Int) :
    lower_bound (compareAt false s.dataPartials t) s.dataPartials.length ≤ s.dataPartials.length
    ∧ (∀ p ∈ s.dataPartials.take
          (lower_bound (compareAt false s.dataPartials t) s.dataPartials.length),
        p.highestTime < t)
    ∧ (∀ p ∈ s.dataPartials.drop
          (lower_bound (compareAt false s.dataPartials t) s.dataPartials.length),
        t ≤ p.highestTime) := by
  obtain ⟨_, h2, h3⟩ := order_facts h s hv hT hs
  apply lower_bound_partition s.dataPartials PartialEventData.highestTime
  · refine List.Pairwise.imp_of_mem ?_ h2
    intro a b ha hb hab
    obtain ⟨_, ⟨y, hy, hyt⟩, _⟩ := h3 a ha
    obtain ⟨_, ⟨z, hz, hzt⟩, _⟩ := h3 b hb
    rw [← hyt, ← hzt]
    exact hab y hy z hz
  · intro i a ha
    simp [compareAt, ha, PartialEventDataTimeComparator]

theorem EventStore.lower_bound_lowest (h : Heap) (s : EventStore) (hv : s.Valid h)
    (hT : s.Tight h) (hs : s.TimeOrdered h) (t : Int) :
    lower_bound (compareAt true s.dataPartials t) s.dataPartials.length ≤ s.dataPartials.length
    ∧ (∀ p ∈ s.dataPartials.take
          (lower_bound (compareAt true s.dataPartials t) s.dataPartials.length),
        p.lowestTime < t)
    ∧ (∀ p ∈ s.dataPartials.drop
          (lower_bound (compareAt true s.dataPartials t) s.dataPartials.length),
        t ≤ p.lowestTime) := by
  obtain ⟨_, h2, h3⟩ := order_facts h s hv hT hs
  apply lower_bound_partition s.dataPartials PartialEventData.lowestTime
  · refine List.Pairwise.imp_of_mem ?_ h2
    intro a b ha hb hab
    obtain ⟨⟨y, hy, hyt⟩, _, _⟩ := h3 a ha
    obtain ⟨⟨z, hz, hzt⟩, _, _⟩ := h3 b hb
    rw [← hyt, ← hzt]
    exact hab y hy z hz
  · intro i a ha
    simp [compareAt, ha, PartialEventDataTimeComparator]

theorem EventStore.filter_flat_nil (h : Heap) (ps : List PartialEventData) (P : Event → Bool)
    (hP : ∀ p ∈ ps, ∀ e ∈ p.window h, P e = false) :
    (ps.flatMap (PartialEventData.window h)).filter P = [] := by
  rw [List.filter_eq_nil_iff]
  intro e he
  obtain ⟨p, hp, hep⟩ := List.mem_flatMap.mp he
  simp [hP p hp e hep]

theorem EventStore.sliceTime_ok (h : Heap) (s : EventStore) (startTime endTime : Int)
    (hv : s.Valid h) (hi : s.dataPartials.length ≤ s.partialOffsets.length) (hT : s.Tight h)
    (hs : s.TimeOrdered h) :
    ∃ r, s.sliceTime h startTime endTime = .ok r
      ∧ r.1.events h = (s.events h).filter (inWindow startTime endTime)
      ∧ r.1.Valid h ∧ r.1.Indexed := by
  obtain ⟨hsorted, hcross, hbounds⟩ := order_facts h s hv hT hs
  obtain ⟨hLo1, hLo2, hLo3⟩ := lower_bound_highest h s hv hT hs startTime
  obtain ⟨hHi1, hHi2, hHi3⟩ := lower_bound_lowest h s hv hT hs endTime
  generalize hLodef :
    lower_bound (compareAt false s.dataPartials startTime) s.dataPartials.length = Lo
    at hLo1 hLo2 hLo3
  generalize hHidef :
    lower_bound (compareAt true s.dataPartials endTime) s.dataPartials.length = Hi
    at hHi1 hHi2 hHi3
  -- shards before `Lo` and from `Hi` on hold no record of the window
  have hpre : ((s.dataPartials.take Lo).flatMap (PartialEventData.window h)).filter
      (inWindow startTime endTime) = [] := by
    apply filter_flat_nil
    intro p hp e he
    have hb := (hbounds p (List.mem_of_mem_take hp)).2.2 e he
    have := hLo2 p hp
    simp only [inWindow, Bool.and_eq_false_iff, decide_eq_false_iff_not]
    left; omega
  have hpost : ((s.dataPartials.drop Hi).flatMap (PartialEventData.window h)).filter
      (inWindow startTime endTime) = [] := by
    apply filter_flat_nil
    intro p hp e he
    have hb := (hbounds p (List.mem_of_mem_drop hp)).2.2 e he
    have := hHi3 p hp
    simp only [inWindow, Bool.and_eq_false_iff, decide_eq_false_iff_not]
    right; omega
  rcases Nat.lt_or_ge Lo Hi with hlt | hge
  · -- the shards `Lo .. Hi` are selected
    generalize hnp : (s.dataPartials.drop Lo).take (Hi - Lo) = np
    have hnplen : np.length = Hi - Lo := by
      rw [← hnp, List.length_take, List.length_drop]; omega
    have hsub : np.Sublist s.dataPartials := by
      rw [← hnp]
      exact (List.take_sublist _ _).trans (List.drop_sublist _ _)
    have hmem : ∀ p ∈ np, p ∈ s.dataPartials := fun p hp => hsub.subset hp
    have hinLo : ∀ p ∈ np, startTime ≤ p.highestTime := by
      intro p hp
      rw [← hnp] at hp
      exact hLo3 p (List.mem_of_mem_take hp)
    have hinHi : ∀ p ∈ np, p.lowestTime < endTime := by
      intro p hp
      rw [← hnp, List.take_drop, show Lo + (Hi - Lo) = Hi by omega] at hp
      exact hHi2 p (List.mem_of_mem_drop hp)
    have hcrossnp := List.Pairwise.sublist hsub hcross
    obtain ⟨offLow, hoff⟩ := exists_getElem?_of_lt s.partialOffsets Lo (by omega)
    have hfilter : (s.events h).filter (inWindow startTime endTime)
        = np.flatMap (fun p => (p.window h).filter (inWindow startTime endTime)) := by
      have hsplit : s.dataPartials
          = s.dataPartials.take Lo ++ (np ++ s.dataPartials.drop Hi) := by
        rw [← hnp]
        have : s.dataPartials.drop Hi = (s.dataPartials.drop Lo).drop (Hi - Lo) := by
          rw [List.drop_drop]; congr 1; omega
        rw [this, List.take_append_drop, List.take_append_drop]
      unfold events
      conv_lhs => rw [hsplit]
      rw [List.flatMap_append, List.flatMap_append, List.filter_append, List.filter_append,
        hpre, hpost, List.nil_append, List.append_nil, List.filter_flatMap]
    rw [hfilter]
    cases np with
    | nil => simp at hnplen; omega
    | cons front rest =>
      have hfv : front.Valid h := hv front (hmem front (by simp))
      have hfs := hsorted front (hmem front (by simp))
      obtain ⟨q1, k1, hq1, hw1, hv1⟩ :=
        PartialEventData.sliceTimeFront_spec h front startTime hfv hfs
      have hfne : front.length ≠ 0 := (hT front (hmem front (by simp))).1
      have hsum : ¬ (List.map PartialEventData.length (front :: rest)).sum = 0 := by
        simp only [List.map_cons, List.sum_cons]
        omega
      rcases List.eq_nil_or_concat rest with hr | ⟨mid, back, hr⟩
      · -- one shard
        subst hr
        have hs1 : (q1.window h).Pairwise (fun a b => a.timestamp ≤ b.timestamp) := by
          rw [hw1]; exact List.Pairwise.filter _ hfs
        obtain ⟨q2, k2, hq2, hw2, hv2⟩ :=
          PartialEventData.sliceTimeBack_spec h q1 endTime hv1 hs1
        have hw : q2.window h = (front.window h).filter (inWindow startTime endTime) := by
          rw [hw2, hw1, List.filter_filter]
          apply List.filter_congr
          intro e _
          simp only [inWindow, Bool.and_comm]
        by_cases hz : q2.length = 0
        · have hst : ∃ x y, s.sliceTime h startTime endTime = .ok (fromPartials [], x, y) := by
            simp [sliceTime, hLodef, hHidef, hnp, hsum, vecGet, vecBack, bind, Except.bind,
              pure, Except.pure, hq1, hq2, hz, hoff, hfne]
          obtain ⟨x, y, hst⟩ := hst
          refine ⟨(fromPartials [], x, y), hst, ?_, ?_, fromPartials_indexed _⟩
          · have : q2.window h = [] := by
              apply List.eq_nil_of_length_eq_zero
              rw [PartialEventData.window_length hv2, hz]
            simp [events, fromPartials, ← hw, this]
          · intro p hp
            simp [fromPartials] at hp
        · have hst : ∃ x y, s.sliceTime h startTime endTime = .ok (fromPartials [q2], x, y) := by
            simp [sliceTime, hLodef, hHidef, hnp, hsum, vecGet, vecBack, bind, Except.bind,
              pure, Except.pure, hq1, hq2, hz, hoff, hfne]
          obtain ⟨x, y, hst⟩ := hst
          refine ⟨(fromPartials [q2], x, y), hst, ?_, ?_, fromPartials_indexed _⟩
          · simp [events, fromPartials, hw]
          · intro p hp
            simp only [fromPartials, List.mem_singleton] at hp
            exact hp ▸ hv2
      · -- several shards
        rw [List.concat_eq_append] at hr
        subst hr
        have hbm : back ∈ front :: (mid ++ [back]) := by simp
        have hbv : back.Valid h := hv back (hmem back hbm)
        have hbs := hsorted back (hmem back hbm)
        obtain ⟨q2, k2, hq2, hw2, hv2⟩ :=
          PartialEventData.sliceTimeBack_spec h back endTime hbv hbs
        obtain ⟨hc1, hc2⟩ := List.pairwise_cons.mp hcrossnp
        obtain ⟨_, _, hc3⟩ := List.pairwise_append.mp hc2
        obtain ⟨_, ⟨yf, hyf, hyft⟩, hfb⟩ := hbounds front (hmem front (by simp))
        obtain ⟨⟨xb, hxb, hxbt⟩, _, hbb⟩ := hbounds back (hmem back hbm)
        have hflo := hinLo front (by simp)
        have hbhi := hinHi back hbm
        -- the first shard: every record is before `endTime`
        have hwf : q1.window h = (front.window h).filter (inWindow startTime endTime) := by
          rw [hw1]
          apply List.filter_congr
          intro e he
          have := hc1 back (by simp) e he xb hxb
          have hlt2 : e.timestamp < endTime := by omega
          simp [inWindow, hlt2]
        -- the last shard: every record is at or after `startTime`
        have hwb : q2.window h = (back.window h).filter (inWindow startTime endTime) := by
          rw [hw2]
          apply List.filter_congr
          intro e he
          have := hc1 back (by simp) yf hyf e he
          have hge2 : startTime ≤ e.timestamp := by omega
          simp [inWindow, hge2]
        -- the shards in between lie inside the window
        have hwm : ∀ m ∈ mid, (m.window h).filter (inWindow startTime endTime) = m.window h := by
          intro m hm
          rw [List.filter_eq_self]
          intro e he
          have h1 := hc1 m (by simp [hm]) yf hyf e he
          have h2 := hc3 m hm back (by simp) e he xb hxb
          have hge2 : startTime ≤ e.timestamp := by omega
          have hlt2 : e.timestamp < endTime := by omega
          simp [inWindow, hge2, hlt2]
        have hq1ne : q1.length ≠ 0 := by
          rw [← PartialEventData.window_length hv1, hwf]
          intro hc
          have hnil := List.eq_nil_of_length_eq_zero hc
          have hin : yf ∈ (front.window h).filter (inWindow startTime endTime) := by
            rw [List.mem_filter]
            have := hc1 back (by simp) yf hyf xb hxb
            have hge2 : startTime ≤ yf.timestamp := by omega
            have hlt2 : yf.timestamp < endTime := by omega
            exact ⟨hyf, by simp [inWindow, hge2, hlt2]⟩
          rw [hnil] at hin
          cases hin
        have hq2ne : q2.length ≠ 0 := by
          rw [← PartialEventData.window_length hv2, hwb]
          intro hc
          have hnil := List.eq_nil_of_length_eq_zero hc
          have hin : xb ∈ (back.window h).filter (inWindow startTime endTime) := by
            rw [List.mem_filter]
            have := hc1 back (by simp) yf hyf xb hxb
            have hge2 : startTime ≤ xb.timestamp := by omega
            have hlt2 : xb.timestamp < endTime := by omega
            exact ⟨hxb, by simp [inWindow, hge2, hlt2]⟩
          rw [hnil] at hin
          cases hin
        have hlast : (q1 :: (mid ++ [back])).getLast? = some back := by
          rw [← List.cons_append, List.getLast?_append]; simp
        have hdl : (q1 :: (mid ++ [back])).dropLast = q1 :: mid := by
          rw [← List.cons_append, List.dropLast_concat]
        have hlast2 : (q1 :: (mid ++ [q2])).getLast? = some q2 := by
          rw [← List.cons_append, List.getLast?_append]; simp
        have hst : ∃ x y, s.sliceTime h startTime endTime
            = .ok (fromPartials (q1 :: (mid ++ [q2])), x, y) := by
          simp [sliceTime, hLodef, hHidef, hnp, vecGet, vecBack, bind, Except.bind,
            pure, Except.pure, hq1, hq2, hoff, hfne, hq1ne, hq2ne, hlast, hdl, hlast2]
        obtain ⟨x, y, hst⟩ := hst
        refine ⟨(fromPartials (q1 :: (mid ++ [q2])), x, y), hst, ?_, ?_, fromPartials_indexed _⟩
        · simp only [events, fromPartials, List.flatMap_cons, List.flatMap_append,
            List.flatMap_singleton, List.flatMap_nil, List.append_nil, hwf, hwb]
          congr 2
          apply List.flatMap_congr
          intro m hm
          exact (hwm m hm).symm
        · intro p hp
          simp only [fromPartials, List.mem_cons, List.mem_append, List.mem_singleton,
            List.not_mem_nil, or_false] at hp
          rcases hp with rfl | hp | rfl
          · exact hv1
          · exact hv p (hmem p (by simp [hp]))
          · exact hv2
  · -- no shard is selected
    have hnp : (s.dataPartials.drop Lo).take (Hi - Lo) = [] := by
      rw [show Hi - Lo = 0 by omega, List.take_zero]
    refine ⟨(empty, 0, 0), ?_, ?_, ?_, ?_⟩
    · simp [sliceTime, hLodef, hHidef, hnp, bind, Except.bind, pure, Except.pure]
    · have hsplit : s.events h = (s.dataPartials.take Lo).flatMap (PartialEventData.window h)
          ++ (s.dataPartials.drop Lo).flatMap (PartialEventData.window h) := by
        unfold events
        conv_lhs => rw [← List.take_append_drop Lo s.dataPartials]
        rw [List.flatMap_append]
      have hrest : ((s.dataPartials.drop Lo).flatMap (PartialEventData.window h)).filter
          (inWindow startTime endTime) = [] := by
        apply filter_flat_nil
        intro p hp e he
        have hmem : p ∈ s.dataPartials.drop Hi := by
          have hd : s.dataPartials.drop Lo = (s.dataPartials.drop Hi).drop (Lo - Hi) := by
            rw [List.drop_drop]; congr 1; omega
          rw [hd] at hp
          exact List.mem_of_mem_drop hp
        have hb := (hbounds p (List.mem_of_mem_drop hmem)).2.2 e he
        have := hHi3 p hmem
        simp only [inWindow, Bool.and_eq_false_iff, decide_eq_false_iff_not]
        right; omega
      rw [hsplit, List.filter_append, hpre, hrest]
      simp [events, empty]
    · intro p hp
      simp [empty] at hp
    · simp [Indexed, empty, buildOffsets]

/-- C6: on a time-ordered store (valid shards, an offset for every shard, non-empty shards that
cache their first and last timestamps), `sliceTime(startTime, endTime)` returns exactly the
records `r` with `startTime <= r.timestamp() < endTime`, in their original order; the result is
empty when `startTime >= endTime`. -/
theorem sliceTime_window (h : Heap) (s : EventStore) (startTime endTime : Int)
    (hv : s.Valid h) (hi : s.dataPartials.length ≤ s.partialOffsets.length) (hT : s.Tight h)
    (hs : s.TimeOrdered h) :
    ∃ r, s.sliceTime h startTime endTime = .ok r
      ∧ r.1.events h
          = (s.events h).filter
              (fun e => decide (startTime ≤ e.timestamp) && decide (e.timestamp < endTime))
      ∧ (startTime ≥ endTime → r.1.events h = []) := by
  obtain ⟨r, hr, he, _, _⟩ := EventStore.sliceTime_ok h s startTime endTime hv hi hT hs
  refine ⟨r, hr, he, fun hge => ?_⟩
  rw [he, List.filter_eq_nil_iff]
  intro e _
  simp only [inWindow, Bool.and_eq_true, decide_eq_true_eq, not_and, Int.not_lt]
  intro h1
  omega

theorem demoStore_tight : demoStore.Tight demoHeap := by
  intro p hp
  simp only [demoStore, List.mem_cons, List.mem_singleton, List.not_mem_nil, or_false] at hp
  rcases hp with rfl | rfl | rfl <;> exact ⟨by decide, by rfl, by rfl⟩

theorem demoStore_ordered : demoStore.TimeOrdered demoHeap := by
  unfold EventStore.TimeOrdered
  decide

/-- C6 at the scenario of the specification: `sliceTime(3, 6)` of `[1,2],[3,4],[5,6]`. -/
theorem sliceTime_window_witness :
    ∃ r, demoStore.sliceTime demoHeap 3 6 = .ok r
      ∧ r.1.events demoHeap
          = (demoStore.events demoHeap).filter
              (fun e => decide ((3 : Int) ≤ e.timestamp) && decide (e.timestamp < 6))
      ∧ ((3 : Int) ≥ 6 → r.1.events demoHeap = []) :=
  sliceTime_window demoHeap demoStore 3 6 demoStore_valid (by decide) demoStore_tight
    demoStore_ordered

/-- The scenario of the specification: `sliceTime(3, 6)` of `[1,2],[3,4],[5,6]` is `[3,4,5]`. -/
theorem sliceTime_scenario :
    (demoStore.sliceTime demoHeap 3 6).map (fun r => (r.1.events demoHeap).map Event.timestamp)
      = .ok [3, 4, 5] := by
  rfl

/-! ## `erase` -/

/-- The three-shard store `demoStore` is the store the calls `demoCalls` build. -/
theorem demoStore_built :
    (World.init.run demoCalls).map (fun w => (w.stores, w.timestamps 0))
      = some ([demoStore], some [1, 2, 3, 4, 5, 6]) := by
  rfl

/-- The scenario of the specification: `erase(1, 3)` of `[1,2],[3,4],[5,6]` leaves `[1,5,6]`. -/
theorem erase_scenario :
    (demoStore.erase demoHeap 1 3).thrown = none
    ∧ ((demoStore.erase demoHeap 1 3).store.events demoHeap).map Event.timestamp = [1, 5, 6]
    ∧ (demoStore.erase demoHeap 1 3).store.size = 3 := by
  exact ⟨rfl, rfl, rfl⟩

/-- C7 fails on the code: `erase(2, 2)` of `[1,2],[3,4],[5,6]` covers exactly the middle shard.
After that shard is erased from the vector, `lowerIter` points at the shard `[5,6]` and the
stale `upperIter` one past it, so `dataPartials_.erase(lowerIter, upperIter)` removes `[5,6]`
as well: the call succeeds and leaves `[1,2]` with size 2, not `[1,2,5,6]` with size 4.
`erase(0, 2)` loses `[3,4]` in the same way, and `erase(4, 2)` (the last shard) erases a range
that ends outside the vector. -/
theorem erase_whole_shard :
    (demoStore.erase demoHeap 2 2).thrown = none
    ∧ ((demoStore.erase demoHeap 2 2).store.events demoHeap).map Event.timestamp = [1, 2]
    ∧ (demoStore.erase demoHeap 2 2).store.size = 2
    ∧ (((demoStore.events demoHeap).take 2 ++ (demoStore.events demoHeap).drop (2 + 2)).map
        Event.timestamp = [1, 2, 5, 6])
    ∧ ((demoStore.erase demoHeap 0 2).store.events demoHeap).map Event.timestamp = [5, 6]
    ∧ (demoStore.erase demoHeap 4 2).thrown = some Err.undefinedBehaviour := by
  exact ⟨rfl, rfl, rfl, rfl, rfl, rfl⟩

/-- C9 fails on the code: after `erase(0, 1)` of `[1,2],[3,4],[5,6]` the store has the three
shards `[2]`, `[3,4]`, `[5,6]` but four offsets `[0, 1, 3, 5]`: the rebuild loop of `erase`
appends the running total after adding each shard's length, so the list ends with the total
length.  Likewise `erase(1, 3)` leaves two shards and the three offsets `[0, 1, 3]`. -/
theorem erase_offsets :
    (demoStore.erase demoHeap 0 1).thrown = none
    ∧ ((demoStore.erase demoHeap 0 1).store.events demoHeap).map Event.timestamp = [2, 3, 4, 5, 6]
    ∧ (demoStore.erase demoHeap 0 1).store.dataPartials.length = 3
    ∧ (demoStore.erase demoHeap 0 1).store.partialOffsets = [0, 1, 3, 5]
    ∧ ¬ (demoStore.erase demoHeap 0 1).store.Indexed
    ∧ (demoStore.erase demoHeap 1 3).store.dataPartials.length = 2
    ∧ (demoStore.erase demoHeap 1 3).store.partialOffsets = [0, 1, 3] := by
  refine ⟨rfl, rfl, rfl, rfl, ?_, rfl, rfl⟩
  intro hc
  have hlen := hc.offsets_length
  have h1 : (demoStore.erase demoHeap 0 1).store.partialOffsets.length = 4 := rfl
  have h2 : (demoStore.erase demoHeap 0 1).store.dataPartials.length = 3 := rfl
  omega

/-- C8 fails on the code: after `push_back(1)`, `push_back(2)`, `erase(0, 1)`, `push_back(3)`
the store holds `[2, 3]` and has size 2, but its offsets are `[0, 1]` for a single shard, so
`at(1)` looks up `dataPartials_[1]`, outside the vector, instead of returning the record 3. -/
theorem at_after_erase :
    (World.init.run eraseThenPush).map (fun w => w.stores.map (fun s =>
        ((s.events w.heap).map Event.timestamp, s.size, s.partialOffsets, s.dataPartials.length,
          s.at_ w.heap 0, s.at_ w.heap 1)))
      = some [([2, 3], 2, [0, 1], 1, .ok (ev 2), .error Err.undefinedBehaviour)] := by
  rfl

/-- C1 fails on the code: every call of `unorderedCalls` succeeds, and stores 4 and 5 end
with the records `[5, 6, 1]`.  The first `erase` leaves the offset `[0]` behind in the emptied
store 4, the three `add` calls append further offsets (`[0,0,2,3]` for three shards), the second
`erase` therefore works on the wrong shards and rebuilds `totalLength_ = 0` while the shard
`[5,6]` stays; `getHighestTime()` then answers 0 and `push_back` accepts timestamp 1 after 6.
Store 5 receives these records by `add`: it has size 3, `at(1)` is 6 and `at(2)` is 1. -/
theorem monotonicity_broken :
    ∃ w s, World.init.run unorderedCalls = some w ∧ w.stores[5]? = some s
      ∧ (s.events w.heap).map Event.timestamp = [5, 6, 1]
      ∧ s.size = 3 ∧ s.at_ w.heap 1 = .ok (ev 6) ∧ s.at_ w.heap 2 = .ok (ev 1)
      ∧ w.timestamps 4 = some [5, 6, 1]
      ∧ ¬ s.TimeOrdered w.heap := by
  have hfact : (World.init.run unorderedCalls).bind (fun w => (w.stores[5]?).map (fun s =>
        ((s.events w.heap).map Event.timestamp, s.size, s.at_ w.heap 1, s.at_ w.heap 2,
          w.timestamps 4)))
      = some ([5, 6, 1], 3, .ok (ev 6), .ok (ev 1), some [5, 6, 1]) := rfl
  cases hrun : World.init.run unorderedCalls with
  | none => rw [hrun] at hfact; cases hfact
  | some w =>
    rw [hrun] at hfact
    change (w.stores[5]?).map (fun s =>
        ((s.events w.heap).map Event.timestamp, s.size, s.at_ w.heap 1, s.at_ w.heap 2,
          w.timestamps 4)) = _ at hfact
    cases hs : w.stores[5]? with
    | none => rw [hs] at hfact; cases hfact
    | some s =>
      rw [hs] at hfact
      have hfact2 := Option.some.inj hfact
      simp only [Prod.mk.injEq] at hfact2
      obtain ⟨h1, h2, h3, h4, h5⟩ := hfact2
      refine ⟨w, s, rfl, hs, h1, h2, h3, h4, h5, fun hord => ?_⟩
      have hp : ((s.events w.heap).map Event.timestamp).Pairwise (fun a b : Int => a ≤ b) :=
        List.pairwise_map.mpr hord
      rw [h1] at hp
      revert hp
      decide

/-! ## Slicing and erasing a copy -/

theorem EventStore.erase_heap (h : Heap) (s : EventStore) (start length : Nat) :
    (s.erase h start length).heap = h := by
  unfold erase
  split <;> rfl

theorem World.step_spares (w w1 : World) (i : Nat) (E : EventStore) (c : Call)
    (hE : w.stores[i]? = some E) (hc : c.sparesStore i = true) (hstep : w.step c = some w1) :
    w1.heap = w.heap ∧ w1.stores[i]? = some E := by
  have hlt : i < w.stores.length := by
    by_contra hn
    rw [List.getElem?_eq_none (by omega)] at hE
    cases hE
  cases c with
  | create =>
    simp only [step, Option.some.injEq] at hstep
    subst hstep
    exact ⟨rfl, by simp only [List.getElem?_append_left hlt, hE]⟩
  | setShardCapacity j capacity => simp [Call.sparesStore] at hc
  | push_back j event => simp [Call.sparesStore] at hc
  | add j k => simp [Call.sparesStore] at hc
  | retainDuration j d => simp [Call.sparesStore] at hc
  | copy dst src =>
    simp only [Call.sparesStore, decide_eq_true_eq] at hc
    simp only [step] at hstep
    split at hstep
    · simp only [Option.some.injEq] at hstep
      subst hstep
      exact ⟨rfl, by simp only [List.getElem?_set_ne hc, hE]⟩
    · cases hstep
  | slice dst src start length =>
    simp only [Call.sparesStore, decide_eq_true_eq] at hc
    simp only [step] at hstep
    split at hstep
    · split at hstep
      · simp only [Option.some.injEq] at hstep
        subst hstep
        exact ⟨rfl, by simp only [List.getElem?_set_ne hc, hE]⟩
      · cases hstep
    · cases hstep
  | sliceTime dst src startTime endTime =>
    simp only [Call.sparesStore, decide_eq_true_eq] at hc
    simp only [step] at hstep
    split at hstep
    · split at hstep
      · simp only [Option.some.injEq] at hstep
        subst hstep
        exact ⟨rfl, by simp only [List.getElem?_set_ne hc, hE]⟩
      · cases hstep
    · cases hstep
  | erase j start length =>
    simp only [Call.sparesStore, decide_eq_true_eq] at hc
    simp only [step] at hstep
    split at hstep
    · rename_i s hs
      simp only [commit] at hstep
      split at hstep
      · simp only [Option.some.injEq] at hstep
        subst hstep
        exact ⟨EventStore.erase_heap _ _ _ _, by simp only [List.getElem?_set_ne hc, hE]⟩
      · cases hstep
    · cases hstep

/-- C10: let `E` be store variable `i`.  After any sequence of successful calls that declare
variables, assign a copy, a `slice` or a `sliceTime` (of `E` or of any other store) to other
variables, and erase from other variables, `E` is the same store, no packet has changed, and
so the size and the records of `E` are what they were. -/
theorem slicing_spares_original (calls : List Call) :
    ∀ (w w1 : World) (i : Nat) (E : EventStore), w.stores[i]? = some E →
      (∀ c ∈ calls, c.sparesStore i = true) → w.run calls = some w1 →
      w1.stores[i]? = some E ∧ w1.heap = w.heap
        ∧ (w1.stores[i]?).map EventStore.size = some E.size
        ∧ (w1.stores[i]?).map (EventStore.events w1.heap) = some (E.events w.heap) := by
  induction calls with
  | nil =>
    intro w w1 i E hE _ hrun
    simp only [World.run, Option.some.injEq] at hrun
    subst hrun
    simp [hE]
  | cons c cs ih =>
    intro w w1 i E hE hall hrun
    simp only [World.run] at hrun
    split at hrun
    · rename_i w2 hstep
      obtain ⟨hh, hs⟩ := World.step_spares w w2 i E c hE (hall c (by simp)) hstep
      obtain ⟨r1, r2, r3, r4⟩ := ih w2 w1 i E hs (fun d hd => hall d (by simp [hd])) hrun
      refine ⟨r1, r2.trans hh, r3, ?_⟩
      rw [r4, hh]
    · cases hrun

/-- C10 at the three-shard store: a slice of it is sliced again and erased from. -/
theorem slicing_spares_original_witness :
    demoWorld.run [.slice 1 0 1 4, .slice 1 1 1 3, .erase 1 1 1]
        = some ⟨demoHeap, [demoStore, demoSliced]⟩
    ∧ (World.mk demoHeap [demoStore, demoSliced]).stores[0]? = some demoStore
    ∧ (World.mk demoHeap [demoStore, demoSliced]).heap = demoWorld.heap
    ∧ ((World.mk demoHeap [demoStore, demoSliced]).stores[0]?).map EventStore.size
        = some demoStore.size
    ∧ ((World.mk demoHeap [demoStore, demoSliced]).stores[0]?).map
        (EventStore.events (World.mk demoHeap [demoStore, demoSliced]).heap)
        = some (demoStore.events demoWorld.heap) :=
  ⟨rfl, slicing_spares_original [.slice 1 0 1 4, .slice 1 1 1 3, .erase 1 1 1] demoWorld
    ⟨demoHeap, [demoStore, demoSliced]⟩ 0 demoStore rfl (by decide) rfl⟩

/-! ## Cutting a shard by count and by time -/

/-- C19: `sliceFront(n)` and `sliceBack(n)` fail with a range error exactly when `n` exceeds
the length of the shard, and they have no other failure.  Otherwise the window loses its
first (its last) `n` records and keeps the others in order, and the shard still refers to the
same packet, which the call only reads. -/
theorem shard_slice_counts (h : Heap) (p : PartialEventData) (n : Nat) (hv : p.Valid h) :
    (p.sliceFront h n = .error .rangeError ↔ p.length < n)
    ∧ (p.sliceBack h n = .error .rangeError ↔ p.length < n)
    ∧ (n ≤ p.length →
        (∃ q, p.sliceFront h n = .ok q ∧ q.window h = (p.window h).drop n
          ∧ q.length = p.length - n ∧ q.data = p.data ∧ q.Valid h)
        ∧ (∃ q, p.sliceBack h n = .ok q
          ∧ q.window h = (p.window h).take ((p.window h).length - n)
          ∧ q.length = p.length - n ∧ q.data = p.data ∧ q.Valid h)) := by
  refine ⟨?_, ?_, ?_⟩
  · by_cases hn : p.length < n
    · simp [PartialEventData.sliceFront, hn]
    · simp [PartialEventData.sliceFront, hn]
  · by_cases hn : p.length < n
    · simp [PartialEventData.sliceBack, hn]
    · simp [PartialEventData.sliceBack, hn]
  · intro hn
    obtain ⟨q, hq, hl, hst, hd, hw⟩ := PartialEventData.sliceFront_ok h p n hn
    obtain ⟨q2, hq2, hl2, hst2, hd2, hw2⟩ := PartialEventData.sliceBack_ok h p n hn
    refine ⟨⟨q, hq, hw, hl, hd, PartialEventData.valid_of_narrow hv hd (by omega)⟩,
      ⟨q2, hq2, ?_, hl2, hd2, PartialEventData.valid_of_narrow hv hd2 (by omega)⟩⟩
    rw [hw2, PartialEventData.window_length hv]

theorem demoShard_valid : demoShard.Valid demoHeap := by
  unfold PartialEventData.Valid
  decide

theorem shard_slice_counts_witness :
    (demoShard.sliceFront demoHeap 1 = .error .rangeError ↔ demoShard.length < 1)
    ∧ (demoShard.sliceBack demoHeap 1 = .error .rangeError ↔ demoShard.length < 1)
    ∧ (1 ≤ demoShard.length →
        (∃ q, demoShard.sliceFront demoHeap 1 = .ok q
          ∧ q.window demoHeap = (demoShard.window demoHeap).drop 1
          ∧ q.length = demoShard.length - 1 ∧ q.data = demoShard.data ∧ q.Valid demoHeap)
        ∧ (∃ q, demoShard.sliceBack demoHeap 1 = .ok q
          ∧ q.window demoHeap
            = (demoShard.window demoHeap).take ((demoShard.window demoHeap).length - 1)
          ∧ q.length = demoShard.length - 1 ∧ q.data = demoShard.data ∧ q.Valid demoHeap)) :=
  shard_slice_counts demoHeap demoShard 1 demoShard_valid

/-- C20, as the code behaves: on the shard `[1,2]`, `iteratorAtTime(2)` is position 1, the
record with timestamp 2, although both records have a timestamp `<= 2`; `sliceTimeFront(2)`
cuts one record and leaves `[2]` with lowest time 2; `sliceTimeBack(2)` cuts the record with
timestamp 2 and leaves `[1]`. -/
theorem time_cut_at_equal_timestamp :
    demoShard.iteratorAtTime demoHeap 2 = 1
    ∧ ((demoShard.window demoHeap).filter (fun e => decide (e.timestamp ≤ 2))).length = 2
    ∧ (demoShard.sliceTimeFront demoHeap 2).map
        (fun r => ((r.1.window demoHeap).map Event.timestamp, r.1.lowestTime, r.2))
        = .ok ([2], 2, 1)
    ∧ (demoShard.sliceTimeBack demoHeap 2).map
        (fun r => ((r.1.window demoHeap).map Event.timestamp, r.2)) = .ok ([1], 1) :=
  ⟨rfl, rfl, rfl, rfl⟩

/-- C20, amended: on a time-ordered shard `iteratorAtTime(t)` is the position of the first
record whose timestamp is not below `t`, which is the number of records with a timestamp
below `t`; `sliceTimeFront(t)` removes exactly the records with timestamp `< t`, leaves a
lowest time `>= t` when a record remains, and returns the number of records removed;
`sliceTimeBack(t)` removes exactly the records with timestamp `>= t` and returns their
number. -/
theorem time_cut_lower_bound (h : Heap) (p : PartialEventData) (t : Int) (hv : p.Valid h)
    (hs : (p.window h).Pairwise (fun a b => a.timestamp ≤ b.timestamp)) :
    p.iteratorAtTime h t = ((p.window h).filter (fun e => decide (e.timestamp < t))).length
    ∧ (p.window h).take (p.iteratorAtTime h t)
        = (p.window h).filter (fun e => decide (e.timestamp < t))
    ∧ (p.window h).drop (p.iteratorAtTime h t)
        = (p.window h).filter (fun e => decide (t ≤ e.timestamp))
    ∧ (∃ q, p.sliceTimeFront h t
          = .ok (q, ((p.window h).filter (fun e => decide (e.timestamp < t))).length)
        ∧ q.window h = (p.window h).filter (fun e => decide (t ≤ e.timestamp))
        ∧ (q.length ≠ 0 → t ≤ q.lowestTime))
    ∧ (∃ q, p.sliceTimeBack h t
          = .ok (q, ((p.window h).filter (fun e => decide (t ≤ e.timestamp))).length)
        ∧ q.window h = (p.window h).filter (fun e => decide (e.timestamp < t))) := by
  obtain ⟨hk, ht, hd⟩ := PartialEventData.iteratorAtTime_spec h p t hv hs
  have hlen := PartialEventData.window_length hv
  have hk1 : p.iteratorAtTime h t
      = ((p.window h).filter (fun e => decide (e.timestamp < t))).length := by
    rw [← ht, List.length_take, hlen]
    omega
  have hk2 : p.length - p.iteratorAtTime h t
      = ((p.window h).filter (fun e => decide (t ≤ e.timestamp))).length := by
    rw [← hd, List.length_drop, hlen]
  refine ⟨hk1, ht, hd, ?_, ?_⟩
  · obtain ⟨q, hq, hl, hst, hdat, hw⟩ :=
      PartialEventData.sliceFront_ok h p (p.iteratorAtTime h t) hk
    refine ⟨q, ?_, by rw [hw, hd], ?_⟩
    · rw [← hk1]
      simp only [PartialEventData.sliceTimeFront, hq]
    · intro hne
      have hq2 := hq
      simp only [PartialEventData.sliceFront, if_neg (Nat.not_lt.mpr hk)] at hq2
      have hql : q.lowestTime = p.timeAt h (p.start + p.iteratorAtTime h t) := by
        have := Except.ok.inj hq2
        rw [← this]
        have hne2 : p.length - p.iteratorAtTime h t ≠ 0 := by omega
        simp only [if_neg hne2]
      obtain ⟨a, ha⟩ := exists_getElem?_of_lt (p.window h) (p.iteratorAtTime h t) (by omega)
      rw [hql, PartialEventData.timeAt_window _ a ha]
      have h0 : ((p.window h).drop (p.iteratorAtTime h t))[0]? = some a := by
        rw [List.getElem?_drop, Nat.add_zero]
        exact ha
      have hmem : a ∈ (p.window h).drop (p.iteratorAtTime h t) := List.getElem?_mem h0
      rw [hd] at hmem
      simpa using (List.mem_filter.mp hmem).2
  · obtain ⟨q, hq, hl, hst, hdat, hw⟩ :=
      PartialEventData.sliceBack_ok h p (p.length - p.iteratorAtTime h t) (Nat.sub_le _ _)
    refine ⟨q, ?_, ?_⟩
    · rw [← hk2]
      simp only [PartialEventData.sliceTimeBack, hq]
    · rw [hw, ← ht]
      congr 1
      omega

theorem time_cut_lower_bound_witness :
    demoShard.iteratorAtTime demoHeap 2
      = ((demoShard.window demoHeap).filter (fun e => decide (e.timestamp < 2))).length
    ∧ (demoShard.window demoHeap).take (demoShard.iteratorAtTime demoHeap 2)
        = (demoShard.window demoHeap).filter (fun e => decide (e.timestamp < 2))
    ∧ (demoShard.window demoHeap).drop (demoShard.iteratorAtTime demoHeap 2)
        = (demoShard.window demoHeap).filter (fun e => decide (2 ≤ e.timestamp))
    ∧ (∃ q, demoShard.sliceTimeFront demoHeap 2
          = .ok (q, ((demoShard.window demoHeap).filter
              (fun e => decide (e.timestamp < 2))).length)
        ∧ q.window demoHeap
          = (demoShard.window demoHeap).filter (fun e => decide (2 ≤ e.timestamp))
        ∧ (q.length ≠ 0 → 2 ≤ q.lowestTime))
    ∧ (∃ q, demoShard.sliceTimeBack demoHeap 2
          = .ok (q, ((demoShard.window demoHeap).filter
              (fun e => decide (2 ≤ e.timestamp))).length)
        ∧ q.window demoHeap
          = (demoShard.window demoHeap).filter (fun e => decide (e.timestamp < 2))) :=
  time_cut_lower_bound demoHeap demoShard 2 demoShard_valid (by decide)

/-! ## Construction from a packet -/

/-- C18, as the code behaves: the packet with the timestamps `[5,3]` is accepted, and the
store built from it iterates `5, 3`. -/
theorem fromPacket_unordered :
    (EventStore.fromPacket packetHeap 0).map
        (fun s => ((s.events packetHeap).map Event.timestamp, s.totalLength))
      = .ok ([5, 3], 2)
    ∧ ¬ (packetHeap.packets 0).Pairwise (fun a b => a.timestamp ≤ b.timestamp) :=
  ⟨rfl, by decide⟩

/-- C18, amended: the construction from a packet compares nothing and never fails on the
order of the records: for every live packet it returns a store with exactly the records of
the packet, in the order of the packet (the empty store for an empty packet), so the store
is time-ordered exactly when the packet is. -/
theorem fromPacket_unchecked (h : Heap) (packet : Nat) (hb : packet < h.next) :
    ∃ s, EventStore.fromPacket h packet = .ok s
      ∧ s.events h = h.packets packet
      ∧ s.size = (h.packets packet).length
      ∧ s.Valid h ∧ s.Indexed
      ∧ (s.TimeOrdered h
          ↔ (h.packets packet).Pairwise (fun a b => a.timestamp ≤ b.timestamp)) := by
  rcases hl : h.packets packet with _ | ⟨e, es⟩
  · refine ⟨EventStore.empty, ?_, rfl, rfl, ?_, rfl, ?_⟩
    · simp [EventStore.fromPacket, hl]
      rfl
    · intro p hp
      cases hp
    · simp [EventStore.TimeOrdered, EventStore.events, EventStore.empty]
  · obtain ⟨l, hlast⟩ : ∃ l, (e :: es).getLast? = some l :=
      ⟨(e :: es).getLast (by simp), List.getLast?_eq_getLast _ _⟩
    have hw : PartialEventData.window h
        ⟨true, 0, es.length + 1, es.length + 1, e.timestamp, l.timestamp, packet⟩
        = e :: es := by
      simp [PartialEventData.window, PartialEventData.elements, hl]
    refine ⟨⟨[⟨true, 0, es.length + 1, es.length + 1, e.timestamp, l.timestamp, packet⟩],
      [0], es.length + 1, 10000⟩, ?_, ?_, ?_, ?_, ?_, ?_⟩
    · simp [EventStore.fromPacket, PartialEventData.fromPacket, hl, hlast, EventStore.empty,
        bind, Except.bind, pure, Except.pure]
    · simp [EventStore.events, hw]
    · simp [EventStore.size]
    · intro p hp
      simp only [List.mem_singleton] at hp
      subst hp
      exact ⟨hb, by simp [hl]⟩
    · simp [EventStore.Indexed, EventStore.buildOffsets]
    · simp [EventStore.TimeOrdered, EventStore.events, hw]

theorem fromPacket_unchecked_witness :
    ∃ s, EventStore.fromPacket packetHeap 1 = .ok s
      ∧ s.events packetHeap = packetHeap.packets 1
      ∧ s.size = (packetHeap.packets 1).length
      ∧ s.Valid packetHeap ∧ s.Indexed
      ∧ (s.TimeOrdered packetHeap
          ↔ (packetHeap.packets 1).Pairwise (fun a b => a.timestamp ≤ b.timestamp)) :=
  fromPacket_unchecked packetHeap 1 (by decide)

/-! ## The returned indices of `sliceTime` -/

/-- C15: the store built from the packet `[1,5]` has one shard that straddles the window
`[2,4)` and no record in it; `sliceTime(2, 4, retStart, retEnd)` returns an empty store and
sets `retStart = retEnd = 1`. -/
theorem sliceTime_empty_indices :
    EventStore.fromPacket packetHeap 1 = .ok straddleStore
    ∧ (straddleStore.events packetHeap).filter (inWindow 2 4) = []
    ∧ (straddleStore.sliceTime packetHeap 2 4).map
        (fun r => (r.1.events packetHeap, r.1.size, r.2)) = .ok ([], 0, 1, 1) :=
  ⟨rfl, rfl, rfl⟩

/-! ## `eraseTime` -/

/-- C14: on the three shards `[1,2]`, `[3,4]`, `[5,6]`, `eraseTime(2, 4)` removes the records
2, 3 and 4 and returns 3, although the record with timestamp 4 is outside `[2,4)`;
`eraseTime(3, 5)` loses the shard `[5,6]` as well; and for a window after the last record, or
on the empty store, the call dereferences the end of the shard vector. -/
theorem eraseTime_overshoots :
    (demoStore.eraseTime demoHeap 2 4).map
        (fun r => ((r.1.events demoHeap).map Event.timestamp, r.2)) = .ok ([1, 5, 6], 3)
    ∧ ((demoStore.events demoHeap).filter (inWindow 2 4)).map Event.timestamp = [2, 3]
    ∧ (demoStore.eraseTime demoHeap 3 5).map
        (fun r => ((r.1.events demoHeap).map Event.timestamp, r.2)) = .ok ([1, 2], 2)
    ∧ demoStore.eraseTime demoHeap 7 9 = .error .undefinedBehaviour
    ∧ EventStore.empty.eraseTime demoHeap 0 1 = .error .undefinedBehaviour
    ∧ (demoStore.eraseTime demoHeap 4 2) = .error .invalidArgument :=
  ⟨rfl, rfl, rfl, rfl, rfl, rfl⟩

/-! ## `retainDuration` -/

theorem EventStore.sum_length_ne_zero {ps : List PartialEventData} {p : PartialEventData}
    (hp : p ∈ ps) (hne : p.length ≠ 0) : (ps.map PartialEventData.length).sum ≠ 0 := by
  intro h0
  have := (List.sum_eq_zero_iff.mp h0) p.length (List.mem_map_of_mem _ hp)
  exact hne this

theorem EventStore.getHighestTime_last {s : EventStore} {p : PartialEventData}
    (hne : s.totalLength ≠ 0) (hl : s.dataPartials.getLast? = some p) :
    s.getHighestTime = .ok p.highestTime := by
  simp [getHighestTime, isEmpty, hne, hl]

theorem EventStore.getLowestTime_head {s : EventStore} {p : PartialEventData}
    (hne : s.totalLength ≠ 0) (hl : s.dataPartials.head? = some p) :
    s.getLowestTime = .ok p.lowestTime := by
  simp [getLowestTime, isEmpty, hne, hl]

theorem EventStore.time_range (h : Heap) (s : EventStore) (hv : s.Valid h) (hT : s.Tight h)
    (hs : s.TimeOrdered h)
    (hl : s.totalLength = (s.dataPartials.map PartialEventData.length).sum) :
    ∃ lo hi, s.getLowestTime = .ok lo ∧ s.getHighestTime = .ok hi
      ∧ ∀ e ∈ s.events h, lo ≤ e.timestamp ∧ e.timestamp ≤ hi := by
  obtain ⟨_, hcross, hbounds⟩ := order_facts h s hv hT hs
  rcases hps : s.dataPartials with _ | ⟨first, rest⟩
  · refine ⟨0, 0, ?_, ?_, ?_⟩
    · simp [getLowestTime, isEmpty, hl, hps]
    · simp [getHighestTime, isEmpty, hl, hps]
    · simp [events, hps]
  · have hne : s.dataPartials ≠ [] := by simp [hps]
    obtain ⟨last, hlast⟩ : ∃ last, s.dataPartials.getLast? = some last :=
      ⟨_, List.getLast?_eq_getLast _ hne⟩
    have hfm : first ∈ s.dataPartials := by simp [hps]
    have hlm : last ∈ s.dataPartials := List.mem_of_mem_getLast? hlast
    have htot : s.totalLength ≠ 0 := by
      rw [hl]
      exact sum_length_ne_zero hfm (hT first hfm).1
    refine ⟨first.lowestTime, last.highestTime,
      getLowestTime_head htot (by simp [hps]), getHighestTime_last htot hlast, ?_⟩
    intro e he
    obtain ⟨p, hp, hep⟩ := List.mem_flatMap.mp he
    obtain ⟨⟨x, hx, hxt⟩, _, hbf⟩ := hbounds first hfm
    obtain ⟨_, ⟨y, hy, hyt⟩, hbl⟩ := hbounds last hlm
    constructor
    · rw [hps] at hp hcross
      rcases List.mem_cons.mp hp with hpf | hpr
      · subst hpf
        exact (hbf e hep).1
      · rw [← hxt]
        exact (List.pairwise_cons.mp hcross).1 p hpr x hx e hep
    · have hsplit : s.dataPartials.dropLast ++ [last] = s.dataPartials :=
        List.dropLast_append_getLast? last hlast
      rw [← hsplit] at hp hcross
      rcases List.mem_append.mp hp with hpi | hpl
      · rw [← hyt]
        exact (List.pairwise_append.mp hcross).2.2 p hpi last (by simp) e hep y hy
      · simp only [List.mem_singleton] at hpl
        subst hpl
        exact (hbl e hep).2

/-- C13, amended: on a time-ordered store whose size is the number of its records (valid,
non-empty shards that cache their first and last timestamps, an offset for every shard) and
whose highest time is an `int64_t` value below the largest one, `getLowestTime()` and
`getHighestTime()` return, `getHighestTime() + 1` does not overflow, and
`sliceTime(getLowestTime(), getHighestTime() + 1)` returns a store with the same record
sequence; this includes the empty store and stores whose records share one timestamp. -/
theorem sliceTime_round_trip (h : Heap) (s : EventStore) (hv : s.Valid h)
    (hi : s.dataPartials.length ≤ s.partialOffsets.length) (hT : s.Tight h)
    (hs : s.TimeOrdered h)
    (hl : s.totalLength = (s.dataPartials.map PartialEventData.length).sum)
    (hmax : ∀ highest, s.getHighestTime = .ok highest →
      int64_t.min ≤ highest ∧ highest < int64_t.max) :
    ∃ lowest highest endTime r, s.getLowestTime = .ok lowest
      ∧ s.getHighestTime = .ok highest
      ∧ int64_add highest 1 = .ok endTime
      ∧ s.sliceTime h lowest endTime = .ok r
      ∧ r.1.events h = s.events h := by
  obtain ⟨lo, hi2, hlo, hhi, hall⟩ := EventStore.time_range h s hv hT hs hl
  obtain ⟨r, hr, he, _, _⟩ := EventStore.sliceTime_ok h s lo (hi2 + 1) hv hi hT hs
  obtain ⟨hb1, hb2⟩ := hmax hi2 hhi
  refine ⟨lo, hi2, hi2 + 1, r, hlo, hhi, ?_, hr, ?_⟩
  · have hmin : int64_t.min = -(2 ^ 63) := by decide
    unfold int64_add
    rw [if_pos]
    constructor <;> omega
  · rw [he, List.filter_eq_self]
    intro e hmem
    obtain ⟨h1, h2⟩ := hall e hmem
    simp only [inWindow, Bool.and_eq_true, decide_eq_true_eq]
    omega

/-- C13 at the scenario `[1,2],[3,4],[5,6]`, whose highest time is 6. -/
theorem sliceTime_round_trip_witness :
    ∃ lowest highest endTime r, demoStore.getLowestTime = .ok lowest
      ∧ demoStore.getHighestTime = .ok highest
      ∧ int64_add highest 1 = .ok endTime
      ∧ demoStore.sliceTime demoHeap lowest endTime = .ok r
      ∧ r.1.events demoHeap = demoStore.events demoHeap :=
  sliceTime_round_trip demoHeap demoStore demoStore_valid (by decide) demoStore_tight
    demoStore_ordered rfl
    (fun highest hh => by
      have h6 : (Except.ok 6 : Except Err Int) = .ok highest := hh
      cases h6
      decide)

/-- C13 fails at the largest timestamp: `push_back` accepts a record with the timestamp
`INT64_MAX` on an empty store, which gives a valid, time-ordered one-record store whose lowest
and highest time are `INT64_MAX`; `getHighestTime() + 1` then overflows `int64_t`, and with
the value `INT64_MIN` that the wrapped sum has, `sliceTime(getLowestTime(), ..)` returns
an empty store, not the record. -/
theorem sliceTime_round_trip_overflow :
    maxStamped.thrown = none
    ∧ maxStamped.store.Valid maxStamped.heap
    ∧ maxStamped.store.dataPartials.length ≤ maxStamped.store.partialOffsets.length
    ∧ maxStamped.store.Tight maxStamped.heap
    ∧ maxStamped.store.TimeOrdered maxStamped.heap
    ∧ maxStamped.store.totalLength
        = (maxStamped.store.dataPartials.map PartialEventData.length).sum
    ∧ maxStamped.store.events maxStamped.heap = [ev 9223372036854775807]
    ∧ maxStamped.store.getLowestTime = .ok 9223372036854775807
    ∧ maxStamped.store.getHighestTime = .ok 9223372036854775807
    ∧ int64_t.max = 9223372036854775807
    ∧ int64_add 9223372036854775807 1 = .error .undefinedBehaviour
    ∧ int64_t.static_cast (9223372036854775807 + 1) = -9223372036854775808
    ∧ ∃ r, maxStamped.store.sliceTime maxStamped.heap 9223372036854775807 (-9223372036854775808)
          = .ok r
        ∧ r.1.events maxStamped.heap = []
        ∧ r.1.events maxStamped.heap ≠ maxStamped.store.events maxStamped.heap := by
  refine ⟨rfl, ?_, by decide, ?_, ?_, rfl, rfl, rfl, rfl, by decide, rfl, by decide, ?_⟩
  · intro p hp
    have hd : maxStamped.store.dataPartials
        = [⟨false, 0, 1, 10000, 9223372036854775807, 9223372036854775807, 0⟩] := rfl
    rw [hd] at hp
    have hp2 := List.mem_singleton.mp hp
    subst hp2
    exact ⟨by decide, by decide⟩
  · intro p hp
    have hd : maxStamped.store.dataPartials
        = [⟨false, 0, 1, 10000, 9223372036854775807, 9223372036854775807, 0⟩] := rfl
    rw [hd] at hp
    have hp2 := List.mem_singleton.mp hp
    subst hp2
    exact ⟨by decide, by rfl, by rfl⟩
  · unfold EventStore.TimeOrdered
    decide
  · exact ⟨_, rfl, rfl, by decide⟩

/-! ## Appending to a store that shares shards -/

theorem PartialEventData.merge_extends (h : Heap) (p other : PartialEventData) :
    h.Extends (p.merge h other).1 := by
  unfold merge
  split
  · exact Heap.extends_refl h
  · split
    · exact Heap.extends_refl h
    · exact Heap.extends_append h _ _

theorem EventStore.addPartial_extends (h : Heap) (s : EventStore) (other : PartialEventData) :
    h.Extends (addPartial (h, s) other).1 := by
  simp only [addPartial]
  split
  · exact Heap.extends_refl h
  · rename_i last _
    have := PartialEventData.merge_extends h last other
    rcases hmr : last.merge h other with ⟨h1, last1, merged⟩
    rw [hmr] at this
    simp only
    split <;> exact this

theorem EventStore.foldl_addPartial_extends (bs : List PartialEventData) :
    ∀ (h : Heap) (s : EventStore), h.Extends (bs.foldl addPartial (h, s)).1 := by
  induction bs with
  | nil => intro h s; exact Heap.extends_refl h
  | cons b bs ih =>
    intro h s
    simp only [List.foldl_cons]
    exact Heap.extends_trans (addPartial_extends h s b)
      (ih (addPartial (h, s) b).1 (addPartial (h, s) b).2)

theorem EventStore.add_extends (h : Heap) (s store : EventStore) :
    h.Extends (s.add h store).heap := by
  unfold add
  split
  · exact Heap.extends_refl h
  · split
    · exact Heap.extends_refl h
    · exact Heap.extends_refl h
    · split
      · exact Heap.extends_refl h
      · exact foldl_addPartial_extends _ h s

theorem EventStore.add_valid (h : Heap) (s store : EventStore) (hs : s.Valid h)
    (hst : store.Valid h) : (s.add h store).store.Valid (s.add h store).heap := by
  unfold add
  split
  · exact hs
  · split
    · exact hs
    · exact hs
    · split
      · exact hs
      · exact (foldl_addPartial_spec store.dataPartials h s hs hst).2.1

theorem EventStore.push_back_valid (h : Heap) (s : EventStore) (e : Event) (hv : s.Valid h) :
    h.Extends (s.push_back h e).heap ∧ (s.push_back h e).store.Valid (s.push_back h e).heap := by
  unfold push_back
  cases hg : s.getHighestTime with
  | error u => exact ⟨Heap.extends_refl h, hv⟩
  | ok t =>
    by_cases hlt : t > e.timestamp
    · simp only [hlt, if_true]
      exact ⟨Heap.extends_refl h, hv⟩
    · simp only [hlt, if_false]
      have hfresh : h.Extends (h.alloc.2.append h.next [e]) :=
        Heap.extends_trans (Heap.extends_alloc h) (Heap.extends_append _ _ _)
      have hnew : ∀ q ∈ s.dataPartials ++
            [(⟨false, 0, 0 + 1, s.shardCapacity, e.timestamp, e.timestamp, h.next⟩ :
              PartialEventData)],
          q.Valid (h.alloc.2.append h.next [e]) := by
        intro q hq
        rcases List.mem_append.mp hq with hq | hq
        · exact PartialEventData.shard_valid_extends (hv q hq) hfresh
        · simp only [List.mem_singleton] at hq
          subst hq
          simp [PartialEventData.Valid, Heap.append, Heap.alloc]
      unfold _getLastNonFullPartial
      cases hl : s.dataPartials.getLast? with
      | none =>
        simp only [PartialEventData.create, Heap.alloc, PartialEventData._unsafe_addEvent]
        exact ⟨hfresh, hnew⟩
      | some p =>
        have hsplit : s.dataPartials.dropLast ++ [p] = s.dataPartials :=
          List.dropLast_append_getLast? p hl
        have hpv : p.Valid h := hv p (by rw [← hsplit]; simp)
        by_cases hc : p.canStoreMoreEvents h = true
        · have hx : h.Extends (h.append p.data [e]) := Heap.extends_append h p.data [e]
          simp only [hc, if_true, PartialEventData._unsafe_addEvent]
          refine ⟨hx, ?_⟩
          intro q hq
          simp only [List.mem_append, List.mem_singleton] at hq
          rcases hq with hq | hq
          · exact PartialEventData.shard_valid_extends
              (hv q (by rw [← hsplit]; simp [hq])) hx
          · subst hq
            have h1 := hpv.1
            have h2 := hpv.2
            simp only [PartialEventData.Valid, Heap.append, if_true, List.length_append,
              List.length_singleton]
            exact ⟨h1, by omega⟩
        · have hc2 : p.canStoreMoreEvents h = false := by simpa using hc
          simp only [hc2, PartialEventData.create, Heap.alloc, PartialEventData._unsafe_addEvent]
          exact ⟨hfresh, hnew⟩

theorem EventStore.push_back_extends_any (h : Heap) (s : EventStore) (e : Event) :
    h.Extends (s.push_back h e).heap := by
  unfold push_back
  cases hg : s.getHighestTime with
  | error u => exact Heap.extends_refl h
  | ok t =>
    by_cases hlt : t > e.timestamp
    · simp only [hlt, if_true]
      exact Heap.extends_refl h
    · simp only [hlt, if_false]
      have hfresh : h.Extends (h.alloc.2.append h.next [e]) :=
        Heap.extends_trans (Heap.extends_alloc h) (Heap.extends_append _ _ _)
      unfold _getLastNonFullPartial
      cases hl : s.dataPartials.getLast? with
      | none =>
        simp only [PartialEventData.create, Heap.alloc, PartialEventData._unsafe_addEvent]
        exact hfresh
      | some p =>
        by_cases hc : p.canStoreMoreEvents h = true
        · simp only [hc, if_true, PartialEventData._unsafe_addEvent]
          exact Heap.extends_append h p.data [e]
        · have hc2 : p.canStoreMoreEvents h = false := by simpa using hc
          simp only [hc2, PartialEventData.create, Heap.alloc, PartialEventData._unsafe_addEvent]
          exact hfresh

theorem EventStore.retainDuration_heap (h : Heap) (s : EventStore) (d : Int) :
    (s.retainDuration h d).heap = h := by
  unfold retainDuration
  split
  · rfl
  · simp only
    split <;> rfl

theorem World.commit_facts (w w1 : World) (i : Nat) (r : Effect)
    (hc : w.commit i r = some w1) : w1.heap = r.heap ∧ w1.stores = w.stores.set i r.store := by
  simp only [commit] at hc
  split at hc
  · simp only [Option.some.injEq] at hc
    subst hc
    exact ⟨rfl, rfl⟩
  · cases hc

theorem World.step_extends (w w1 : World) (c : Call) (hstep : w.step c = some w1) :
    w.heap.Extends w1.heap := by
  cases c with
  | create =>
    simp only [step, Option.some.injEq] at hstep
    subst hstep
    exact Heap.extends_refl _
  | setShardCapacity j capacity =>
    simp only [step] at hstep
    split at hstep
    · simp only [Option.some.injEq] at hstep
      subst hstep
      exact Heap.extends_refl _
    · cases hstep
  | copy dst src =>
    simp only [step] at hstep
    split at hstep
    · simp only [Option.some.injEq] at hstep
      subst hstep
      exact Heap.extends_refl _
    · cases hstep
  | push_back j event =>
    simp only [step] at hstep
    split at hstep
    · rename_i s hs
      rw [(commit_facts _ _ _ _ hstep).1]
      exact (EventStore.push_back_extends_any w.heap s event)
    · cases hstep
  | add j k =>
    simp only [step] at hstep
    split at hstep
    · rename_i s t hs ht
      rw [(commit_facts _ _ _ _ hstep).1]
      exact EventStore.add_extends w.heap s t
    · cases hstep
  | slice dst src start length =>
    simp only [step] at hstep
    split at hstep
    · split at hstep
      · simp only [Option.some.injEq] at hstep
        subst hstep
        exact Heap.extends_refl _
      · cases hstep
    · cases hstep
  | sliceTime dst src startTime endTime =>
    simp only [step] at hstep
    split at hstep
    · split at hstep
      · simp only [Option.some.injEq] at hstep
        subst hstep
        exact Heap.extends_refl _
      · cases hstep
    · cases hstep
  | erase j start length =>
    simp only [step] at hstep
    split at hstep
    · rw [(commit_facts _ _ _ _ hstep).1, EventStore.erase_heap]
      exact Heap.extends_refl _
    · cases hstep
  | retainDuration j d =>
    simp only [step] at hstep
    split at hstep
    · rw [(commit_facts _ _ _ _ hstep).1, EventStore.retainDuration_heap]
      exact Heap.extends_refl _
    · cases hstep

theorem World.step_frame (w w1 : World) (c : Call) (i : Nat) (S : EventStore)
    (hstep : w.step c = some w1) (hS : w.stores[i]? = some S) (ht : c.target ≠ some i) :
    w1.stores[i]? = some S := by
  have hlt : i < w.stores.length := by
    by_contra hn
    rw [List.getElem?_eq_none (by omega)] at hS
    cases hS
  cases c with
  | create =>
    simp only [step, Option.some.injEq] at hstep
    subst hstep
    simp only [List.getElem?_append_left hlt, hS]
  | setShardCapacity j capacity =>
    have hji : j ≠ i := fun hh => ht (by rw [hh]; rfl)
    simp only [step] at hstep
    split at hstep
    · simp only [Option.some.injEq] at hstep
      subst hstep
      simp only [List.getElem?_set_ne hji, hS]
    · cases hstep
  | copy dst src =>
    have hji : dst ≠ i := fun hh => ht (by rw [hh]; rfl)
    simp only [step] at hstep
    split at hstep
    · simp only [Option.some.injEq] at hstep
      subst hstep
      simp only [List.getElem?_set_ne hji, hS]
    · cases hstep
  | push_back j event =>
    have hji : j ≠ i := fun hh => ht (by rw [hh]; rfl)
    simp only [step] at hstep
    split at hstep
    · rw [(commit_facts _ _ _ _ hstep).2, List.getElem?_set_ne hji, hS]
    · cases hstep
  | add j k =>
    have hji : j ≠ i := fun hh => ht (by rw [hh]; rfl)
    simp only [step] at hstep
    split at hstep
    · rw [(commit_facts _ _ _ _ hstep).2, List.getElem?_set_ne hji, hS]
    · cases hstep
  | slice dst src start length =>
    have hji : dst ≠ i := fun hh => ht (by rw [hh]; rfl)
    simp only [step] at hstep
    split at hstep
    · split at hstep
      · simp only [Option.some.injEq] at hstep
        subst hstep
        simp only [List.getElem?_set_ne hji, hS]
      · cases hstep
    · cases hstep
  | sliceTime dst src startTime endTime =>
    have hji : dst ≠ i := fun hh => ht (by rw [hh]; rfl)
    simp only [step] at hstep
    split at hstep
    · split at hstep
      · simp only [Option.some.injEq] at hstep
        subst hstep
        simp only [List.getElem?_set_ne hji, hS]
      · cases hstep
    · cases hstep
  | erase j start length =>
    have hji : j ≠ i := fun hh => ht (by rw [hh]; rfl)
    simp only [step] at hstep
    split at hstep
    · rw [(commit_facts _ _ _ _ hstep).2, List.getElem?_set_ne hji, hS]
    · cases hstep
  | retainDuration j d =>
    have hji : j ≠ i := fun hh => ht (by rw [hh]; rfl)
    simp only [step] at hstep
    split at hstep
    · rw [(commit_facts _ _ _ _ hstep).2, List.getElem?_set_ne hji, hS]
    · cases hstep

theorem World.run_frame (calls : List Call) :
    ∀ (w w1 : World) (i : Nat) (S : EventStore), w.run calls = some w1 →
      w.stores[i]? = some S → (∀ c ∈ calls, c.target ≠ some i) →
      w1.stores[i]? = some S ∧ w.heap.Extends w1.heap := by
  induction calls with
  | nil =>
    intro w w1 i S hrun hS _
    simp only [run, Option.some.injEq] at hrun
    subst hrun
    exact ⟨hS, Heap.extends_refl _⟩
  | cons c cs ih =>
    intro w w1 i S hrun hS hall
    simp only [run] at hrun
    split at hrun
    · rename_i w2 hstep
      have h1 := step_frame w w2 c i S hstep hS (hall c (by simp))
      obtain ⟨r1, r2⟩ := ih w2 w1 i S hrun h1 (fun d hd => hall d (by simp [hd]))
      exact ⟨r1, Heap.extends_trans (step_extends w w2 c hstep) r2⟩
    · cases hrun

theorem World.valid_set (w : World) (h1 : Heap) (i : Nat) (s : EventStore) (hw : w.Valid)
    (hx : w.heap.Extends h1) (hs : s.Valid h1) :
    World.Valid ⟨h1, w.stores.set i s⟩ := by
  intro t ht
  rcases List.mem_or_eq_of_mem_set ht with hm | he
  · exact EventStore.valid_extends (hw t hm) hx
  · exact he ▸ hs

theorem World.step_valid (w w1 : World) (c : Call) (hw : w.Valid) (hc : c.appends = true)
    (hstep : w.step c = some w1) : w1.Valid := by
  cases c with
  | create =>
    simp only [step, Option.some.injEq] at hstep
    subst hstep
    intro t ht
    rcases List.mem_append.mp ht with hm | he
    · exact hw t hm
    · simp only [List.mem_singleton] at he
      subst he
      intro p hp
      cases hp
  | setShardCapacity j capacity =>
    simp only [step] at hstep
    split at hstep
    · rename_i s hs
      simp only [Option.some.injEq] at hstep
      subst hstep
      exact valid_set w w.heap j _ hw (Heap.extends_refl _) (hw s (List.getElem?_mem hs))
    · cases hstep
  | copy dst src =>
    simp only [step] at hstep
    split at hstep
    · rename_i d s hd hs
      simp only [Option.some.injEq] at hstep
      subst hstep
      exact valid_set w w.heap dst _ hw (Heap.extends_refl _) (hw s (List.getElem?_mem hs))
    · cases hstep
  | push_back j event =>
    simp only [step] at hstep
    split at hstep
    · rename_i s hs
      obtain ⟨e1, e2⟩ := commit_facts _ _ _ _ hstep
      obtain ⟨hx, hv⟩ := EventStore.push_back_valid w.heap s event (hw s (List.getElem?_mem hs))
      have := valid_set w _ j _ hw hx hv
      rw [← e1, ← e2] at this
      exact this
    · cases hstep
  | add j k =>
    simp only [step] at hstep
    split at hstep
    · rename_i s t hs ht
      obtain ⟨e1, e2⟩ := commit_facts _ _ _ _ hstep
      have hx := EventStore.add_extends w.heap s t
      have hv := EventStore.add_valid w.heap s t (hw s (List.getElem?_mem hs))
        (hw t (List.getElem?_mem ht))
      have := valid_set w _ j _ hw hx hv
      rw [← e1, ← e2] at this
      exact this
    · cases hstep
  | slice dst src start length => cases hc
  | sliceTime dst src startTime endTime => cases hc
  | erase j start length => cases hc
  | retainDuration j d => cases hc

theorem World.run_valid (calls : List Call) :
    ∀ (w w1 : World), w.Valid → (∀ c ∈ calls, c.appends = true) → w.run calls = some w1 →
      w1.Valid := by
  induction calls with
  | nil =>
    intro w w1 hw _ hrun
    simp only [run, Option.some.injEq] at hrun
    subst hrun
    exact hw
  | cons c cs ih =>
    intro w w1 hw hall hrun
    simp only [run] at hrun
    split at hrun
    · rename_i w2 hstep
      exact ih w2 w1 (step_valid w w2 c hw (hall c (by simp)) hstep)
        (fun d hd => hall d (by simp [hd])) hrun
    · cases hrun

theorem EventStore.add_spec (h : Heap) (A B : EventStore) (hi lo : Int)
    (hA : A.Valid h) (hB : B.Valid h)
    (hBt : B.totalLength = (B.dataPartials.map PartialEventData.length).sum)
    (hhi : A.getHighestTime = .ok hi) (hlo : B.getLowestTime = .ok lo)
    (hok : B.isEmpty = true ∨ hi ≤ lo) :
    (A.add h B).thrown = none
    ∧ h.Extends (A.add h B).heap
    ∧ (A.add h B).store.Valid (A.add h B).heap
    ∧ (A.add h B).store.events (A.add h B).heap = A.events h ++ B.events h
    ∧ (A.add h B).store.totalLength = A.totalLength + B.totalLength := by
  refine ⟨?_, add_extends h A B, add_valid h A B hA hB, ?_⟩
  · unfold add
    by_cases he : B.isEmpty = true
    · simp [he]
    · have hle : hi ≤ lo := hok.resolve_left he
      have hn : ¬ hi > lo := by omega
      simp [he, hhi, hlo, hn]
  · unfold add
    by_cases he : B.isEmpty = true
    · have h0 : B.totalLength = 0 := by simpa [isEmpty] using he
      have hev : B.events h = [] := by
        apply List.eq_nil_of_length_eq_zero
        rw [events, length_flatMap_window h B.dataPartials hB, ← hBt, h0]
      simp [he, hev, h0]
    · have hle : hi ≤ lo := hok.resolve_left he
      have hn : ¬ hi > lo := by omega
      obtain ⟨_, _, hev, ht⟩ := foldl_addPartial_spec B.dataPartials h A hA hB
      simp only [he, hhi, hlo, hn, Bool.false_eq_true, if_false]
      exact ⟨hev, by rw [ht, hBt]⟩

/-- C11: appending stays local.  First, for stores `A` and `B` with valid shards whose times
allow the merge, `A + B` returns a store whose records are those of `A` followed by those of
`B`, and the records of `A` and of `B` are what they were.  Second, in a program whose stores
have valid shards and may share shards and packets in any way, after any calls that declare a
variable, assign a copy, set a shard capacity, `push_back` or `add`, every store variable
survives all further successful calls on other variables as the same store, with the same
size and the same records, although those calls may append to the packet of its last shard. -/
theorem appending_is_local (h : Heap) (A B : EventStore) (hi lo : Int)
    (hA : A.Valid h) (hB : B.Valid h)
    (hBt : B.totalLength = (B.dataPartials.map PartialEventData.length).sum)
    (hhi : A.getHighestTime = .ok hi) (hlo : B.getLowestTime = .ok lo)
    (hok : B.isEmpty = true ∨ hi ≤ lo)
    (w w1 w2 : World) (pre post : List Call) (i : Nat) (S : EventStore)
    (hw : w.Valid) (hpre : ∀ c ∈ pre, c.appends = true) (hrun1 : w.run pre = some w1)
    (hS : w1.stores[i]? = some S) (hpost : ∀ c ∈ post, c.target ≠ some i)
    (hrun2 : w1.run post = some w2) :
    (∃ h1 R, A.plus h B = .ok (h1, R)
        ∧ R.events h1 = A.events h ++ B.events h ∧ R.size = A.size + B.size
        ∧ A.events h1 = A.events h ∧ B.events h1 = B.events h)
    ∧ w2.stores[i]? = some S
    ∧ (w2.stores[i]?).map EventStore.size = (w1.stores[i]?).map EventStore.size
    ∧ S.events w2.heap = S.events w1.heap := by
  obtain ⟨a1, a2, _, a4, a5⟩ := EventStore.add_spec h A B hi lo hA hB hBt hhi hlo hok
  have hw1 : w1.Valid := World.run_valid pre w w1 hw hpre hrun1
  have hSv : S.Valid w1.heap := hw1 S (List.getElem?_mem hS)
  obtain ⟨f1, f2⟩ := World.run_frame post w1 w2 i S hrun2 hS hpost
  refine ⟨⟨(A.add h B).heap, (A.add h B).store, ?_, a4, a5,
    EventStore.events_extends hA a2, EventStore.events_extends hB a2⟩, f1, by rw [f1, hS],
    EventStore.events_extends hSv f2⟩
  simp only [EventStore.plus, a1]

theorem sharedWorld_valid : sharedWorld.Valid := by
  intro s hs
  simp only [sharedWorld, List.mem_cons, List.mem_singleton, List.not_mem_nil, or_false,
    or_self] at hs
  subst hs
  exact demoTarget_valid

/-- C11 at a store `[0,1]` and its copy, which share a packet with room: timestamp 7 is
pushed to the copy, then timestamp 9 to the original; the original is `[0,1]` after the first
call and the copy is `[0,1,7]` after the second.  And `[0,1] + [1,2][3,4][5,6]`. -/
theorem appending_is_local_witness :
    sharedWorld.run [.push_back 1 (ev 7)] = some sharedAfterPush
    ∧ sharedAfterPush.run [.push_back 0 (ev 9)] = some sharedAfterBoth
    ∧ sharedAfterPush.timestamps 0 = some [0, 1]
    ∧ sharedAfterBoth.timestamps 0 = some [0, 1, 9]
    ∧ sharedAfterBoth.timestamps 1 = some [0, 1, 7]
    ∧ ((∃ h1 R, demoTarget.plus demoHeap demoStore = .ok (h1, R)
        ∧ R.events h1 = demoTarget.events demoHeap ++ demoStore.events demoHeap
        ∧ R.size = demoTarget.size + demoStore.size
        ∧ demoTarget.events h1 = demoTarget.events demoHeap
        ∧ demoStore.events h1 = demoStore.events demoHeap)
      ∧ sharedAfterBoth.stores[1]? = some (demoTarget.push_back demoHeap (ev 7)).store
      ∧ (sharedAfterBoth.stores[1]?).map EventStore.size
          = (sharedAfterPush.stores[1]?).map EventStore.size
      ∧ (demoTarget.push_back demoHeap (ev 7)).store.events sharedAfterBoth.heap
          = (demoTarget.push_back demoHeap (ev 7)).store.events sharedAfterPush.heap) :=
  ⟨rfl, rfl, rfl, rfl, rfl,
    appending_is_local demoHeap demoTarget demoStore 1 1 demoTarget_valid demoStore_valid rfl
      rfl rfl (Or.inr (by decide))
      sharedWorld sharedAfterPush sharedAfterBoth [.push_back 1 (ev 7)] [.push_back 0 (ev 9)] 1
      (demoTarget.push_back demoHeap (ev 7)).store sharedWorld_valid (by decide) rfl rfl
      (by decide) rfl⟩

/-! ## Times of a merged store -/

theorem PartialEventData.timeAt_extends {h h1 : Heap} {p : PartialEventData} {i : Nat}
    (hx : h.Extends h1) (hd : p.data < h.next) (hi : i < (h.packets p.data).length) :
    p.timeAt h1 i = p.timeAt h i := by
  obtain ⟨es, hes⟩ := hx.2 p.data hd
  simp only [timeAt, elements, hes, List.getElem?_append_left hi]

theorem PartialEventData.shard_tight_extends {h h1 : Heap} {p : PartialEventData}
    (hv : p.Valid h) (ht : p.Tight h) (hx : h.Extends h1) : p.Tight h1 := by
  obtain ⟨t1, t2, t3⟩ := ht
  obtain ⟨v1, v2⟩ := hv
  refine ⟨t1, ?_, ?_⟩
  · rw [timeAt_extends hx v1 (by omega)]
    exact t2
  · rw [timeAt_extends hx v1 (by omega)]
    exact t3

theorem EventStore.sound_extends {h h1 : Heap} {s : EventStore} (hs : s.Sound h)
    (hx : h.Extends h1) : s.Sound h1 :=
  ⟨valid_extends hs.1 hx,
    fun p hp => PartialEventData.shard_tight_extends (hs.1 p hp) (hs.2.1 p hp) hx, hs.2.2⟩

theorem PartialEventData.merge_tight (h : Heap) (p other : PartialEventData)
    (hp : p.Valid h) (hpt : p.Tight h) (ho : other.Valid h) (hot : other.Tight h)
    (hm : (p.merge h other).2.2 = true) :
    (p.merge h other).2.1.Tight (p.merge h other).1
    ∧ (p.merge h other).2.1.lowestTime = p.lowestTime
    ∧ (p.merge h other).2.1.highestTime = other.highestTime := by
  unfold merge at hm ⊢
  by_cases hc : (!p.canStoreMoreEvents h || decide (p.availableCapacity h < other.length)) = true
  · rw [if_pos hc] at hm
    cases hm
  · rw [if_neg hc, if_neg hot.1]
    have hcan : p.canStoreMoreEvents h = true := by
      cases hcs : p.canStoreMoreEvents h
      · simp [hcs] at hc
      · rfl
    have hfull : p.start + p.length = (h.packets p.data).length := by
      simp only [canStoreMoreEvents, elements, Bool.and_eq_true, decide_eq_true_eq] at hcan
      exact hcan.2.2
    have hx : h.Extends (h.append p.data (other.window h)) := Heap.extends_append _ _ _
    have hwl := window_length ho
    obtain ⟨a, ha⟩ := exists_getElem?_of_lt (other.window h) (other.length - 1)
      (by have := hot.1; omega)
    have hhigh : timeAt (h.append p.data (other.window h)) p
        (p.start + (p.length + other.length) - 1) = other.highestTime := by
      have hidx : p.start + (p.length + other.length) - 1
          = (h.packets p.data).length + (other.length - 1) := by
        have := hot.1
        omega
      rw [hot.2.2, hidx]
      have h1 := timeAt_window (other.length - 1) a ha
      rw [show other.start + other.length - 1 = other.start + (other.length - 1) by
        have := hot.1
        omega, h1]
      simp only [timeAt, elements, Heap.append, if_true]
      rw [List.getElem?_append_right (Nat.le_add_right _ _), Nat.add_sub_cancel_left, ha]
    refine ⟨⟨?_, ?_, ?_⟩, rfl, ?_⟩
    · have := hot.1
      simp only [ne_eq]
      omega
    · have h2 : timeAt (h.append p.data (other.window h)) p p.start = timeAt h p p.start :=
        timeAt_extends hx hp.1 (by have := hpt.1; omega)
      exact hpt.2.1.trans h2.symm
    · rfl
    · exact hhigh

theorem EventStore.addPartial_tight (h : Heap) (s : EventStore) (other : PartialEventData)
    (hs : s.Valid h) (hst : s.Tight h) (ho : other.Valid h) (hot : other.Tight h) :
    (addPartial (h, s) other).2.Tight (addPartial (h, s) other).1
    ∧ (addPartial (h, s) other).2.dataPartials.getLast?.map PartialEventData.highestTime
        = some other.highestTime
    ∧ (addPartial (h, s) other).2.dataPartials.head?.map PartialEventData.lowestTime
        = (s.dataPartials ++ [other]).head?.map PartialEventData.lowestTime := by
  simp only [addPartial]
  cases hl : s.dataPartials.getLast? with
  | none =>
    have hnil : s.dataPartials = [] := List.getLast?_eq_none_iff.mp hl
    refine ⟨?_, by simp [hnil], by simp [hnil]⟩
    intro q hq
    simp only [hnil, List.nil_append, List.mem_singleton] at hq
    subst hq
    exact hot
  | some last =>
    have hsplit : s.dataPartials.dropLast ++ [last] = s.dataPartials :=
      List.dropLast_append_getLast? last hl
    have hlm : last ∈ s.dataPartials := by rw [← hsplit]; simp
    have hx := PartialEventData.merge_extends h last other
    have hmt := PartialEventData.merge_tight h last other (hs last hlm) (hst last hlm) ho hot
    have hmf := (PartialEventData.merge_spec h last other (hs last hlm) ho).2.2.2
    rcases hmr : last.merge h other with ⟨h1, last1, merged⟩
    rw [hmr] at hx hmt hmf
    simp only at hx hmt hmf ⊢
    cases merged with
    | true =>
      obtain ⟨m1, m2, m3⟩ := hmt rfl
      simp only [hmr, if_true]
      refine ⟨?_, by simp [m3], ?_⟩
      · intro q hq
        simp only [List.mem_append, List.mem_singleton] at hq
        rcases hq with hq | hq
        · have hqm : q ∈ s.dataPartials := List.mem_of_mem_dropLast hq
          exact PartialEventData.shard_tight_extends (hs q hqm) (hst q hqm) hx
        · exact hq ▸ m1
      · conv_rhs => rw [← hsplit]
        rcases hdl : s.dataPartials.dropLast with _ | ⟨d, ds⟩
        · simp [m2]
        · simp
    | false =>
      have hh := hmf rfl
      subst hh
      simp only [hmr, Bool.false_eq_true, if_false]
      refine ⟨?_, by simp, ?_⟩
      · intro q hq
        simp only [List.mem_append, List.mem_singleton] at hq
        rcases hq with hq | hq
        · exact hst q hq
        · exact hq ▸ hot
      · trivial

theorem getLast?_map_append {α β : Type} (f : α → β) (X Y bs : List α)
    (hxy : X.getLast?.map f = Y.getLast?.map f) :
    (X ++ bs).getLast?.map f = (Y ++ bs).getLast?.map f := by
  rw [List.getLast?_append, List.getLast?_append]
  cases bs.getLast? with
  | none => simpa using hxy
  | some b => simp

theorem head?_map_append {α β : Type} (f : α → β) (X Y bs : List α)
    (hxy : X.head?.map f = Y.head?.map f) :
    (X ++ bs).head?.map f = (Y ++ bs).head?.map f := by
  rw [List.head?_append, List.head?_append]
  cases hx : X.head? with
  | none =>
    cases hy : Y.head? with
    | none => rfl
    | some y => simp [hx, hy] at hxy
  | some x =>
    cases hy : Y.head? with
    | none => simp [hx, hy] at hxy
    | some y => simpa [hx, hy] using hxy

theorem EventStore.foldl_addPartial_tight (bs : List PartialEventData) :
    ∀ (h : Heap) (s : EventStore), s.Valid h → s.Tight h →
      (∀ p ∈ bs, p.Valid h ∧ p.Tight h) →
      (bs.foldl addPartial (h, s)).2.Tight (bs.foldl addPartial (h, s)).1
      ∧ (bs.foldl addPartial (h, s)).2.dataPartials.getLast?.map PartialEventData.highestTime
          = (s.dataPartials ++ bs).getLast?.map PartialEventData.highestTime
      ∧ (bs.foldl addPartial (h, s)).2.dataPartials.head?.map PartialEventData.lowestTime
          = (s.dataPartials ++ bs).head?.map PartialEventData.lowestTime := by
  induction bs with
  | nil =>
    intro h s _ hst _
    exact ⟨hst, by simp, by simp⟩
  | cons b bs ih =>
    intro h s hs hst hb
    obtain ⟨hbv, hbt⟩ := hb b (by simp)
    obtain ⟨t1, t2, t3⟩ := addPartial_tight h s b hs hst hbv hbt
    obtain ⟨hx, hv1, _, _⟩ := addPartial_spec h s b hs hbv
    have hrest : ∀ p ∈ bs, p.Valid (addPartial (h, s) b).1 ∧ p.Tight (addPartial (h, s) b).1 :=
      fun p hp => ⟨PartialEventData.shard_valid_extends (hb p (by simp [hp])).1 hx,
        PartialEventData.shard_tight_extends (hb p (by simp [hp])).1 (hb p (by simp [hp])).2 hx⟩
    obtain ⟨r1, r2, r3⟩ := ih (addPartial (h, s) b).1 (addPartial (h, s) b).2 hv1 t1 hrest
    simp only [List.foldl_cons]
    refine ⟨r1, ?_, ?_⟩
    · rw [r2, getLast?_map_append _ _ (s.dataPartials ++ [b]) bs (by rw [t2]; simp)]
      simp
    · rw [r3, head?_map_append _ _ (s.dataPartials ++ [b]) bs t3]
      simp

theorem EventStore.sound_nil_iff {h : Heap} {s : EventStore} (hs : s.Sound h) :
    s.isEmpty = true ↔ s.dataPartials = [] := by
  obtain ⟨_, ht, hl⟩ := hs
  constructor
  · intro he
    have h0 : s.totalLength = 0 := by simpa [isEmpty] using he
    rcases hps : s.dataPartials with _ | ⟨p, ps⟩
    · rfl
    · exfalso
      have hm : p ∈ s.dataPartials := by simp [hps]
      exact sum_length_ne_zero hm (ht p hm).1 (by rw [← hl, h0])
  · intro hn
    simp [isEmpty, hl, hn]

theorem EventStore.getHighestTime_sound {h : Heap} {s : EventStore} (hs : s.Sound h) :
    s.getHighestTime
      = .ok ((s.dataPartials.getLast?.map PartialEventData.highestTime).getD 0) := by
  by_cases he : s.isEmpty = true
  · have hn := (sound_nil_iff hs).mp he
    simp [getHighestTime, he, hn]
  · have hne : s.dataPartials ≠ [] := fun hn => he ((sound_nil_iff hs).mpr hn)
    obtain ⟨last, hlast⟩ : ∃ last, s.dataPartials.getLast? = some last :=
      ⟨_, List.getLast?_eq_getLast _ hne⟩
    simp [getHighestTime, he, hlast]

theorem EventStore.getLowestTime_sound {h : Heap} {s : EventStore} (hs : s.Sound h) :
    s.getLowestTime
      = .ok ((s.dataPartials.head?.map PartialEventData.lowestTime).getD 0) := by
  by_cases he : s.isEmpty = true
  · have hn := (sound_nil_iff hs).mp he
    simp [getLowestTime, he, hn]
  · have hne : s.dataPartials ≠ [] := fun hn => he ((sound_nil_iff hs).mpr hn)
    rcases hps : s.dataPartials with _ | ⟨p, ps⟩
    · exact absurd hps hne
    · simp [getLowestTime, he, hps]

theorem EventStore.add_sound (h : Heap) (A B : EventStore) (hi lo : Int)
    (hA : A.Sound h) (hB : B.Sound h)
    (hhi : A.getHighestTime = .ok hi) (hlo : B.getLowestTime = .ok lo)
    (hok : B.isEmpty = true ∨ hi ≤ lo) :
    (A.add h B).thrown = none
    ∧ h.Extends (A.add h B).heap
    ∧ (A.add h B).store.Sound (A.add h B).heap
    ∧ (A.add h B).store.events (A.add h B).heap = A.events h ++ B.events h
    ∧ (A.add h B).store.dataPartials.getLast?.map PartialEventData.highestTime
        = (A.dataPartials ++ B.dataPartials).getLast?.map PartialEventData.highestTime
    ∧ (A.add h B).store.dataPartials.head?.map PartialEventData.lowestTime
        = (A.dataPartials ++ B.dataPartials).head?.map PartialEventData.lowestTime := by
  obtain ⟨a1, a2, a3, a4, a5⟩ := add_spec h A B hi lo hA.1 hB.1 hB.2.2 hhi hlo hok
  have htl : (A.add h B).store.Tight (A.add h B).heap
      ∧ (A.add h B).store.dataPartials.getLast?.map PartialEventData.highestTime
          = (A.dataPartials ++ B.dataPartials).getLast?.map PartialEventData.highestTime
      ∧ (A.add h B).store.dataPartials.head?.map PartialEventData.lowestTime
          = (A.dataPartials ++ B.dataPartials).head?.map PartialEventData.lowestTime := by
    unfold add
    by_cases he : B.isEmpty = true
    · have hn := (sound_nil_iff hB).mp he
      simp only [he, if_true, hn, List.append_nil]
      exact ⟨hA.2.1, trivial, trivial⟩
    · have hle : hi ≤ lo := hok.resolve_left he
      have hn : ¬ hi > lo := by omega
      simp only [he, hhi, hlo, hn, Bool.false_eq_true, if_false]
      exact foldl_addPartial_tight B.dataPartials h A hA.1 hA.2.1
        (fun p hp => ⟨hB.1 p hp, hB.2.1 p hp⟩)
  refine ⟨a1, a2, ⟨a3, htl.1, ?_⟩, a4, htl.2.1, htl.2.2⟩
  have e1 := length_flatMap_window (A.add h B).heap (A.add h B).store.dataPartials a3
  have e2 := length_flatMap_window h A.dataPartials hA.1
  have e3 := length_flatMap_window h B.dataPartials hB.1
  have e4 := congrArg List.length a4
  simp only [events, List.length_append] at e4
  rw [a5, hA.2.2, hB.2.2, ← e1, e4, e2, e3]

/-- C12: for stores `A`, `B`, `C` with valid, non-empty, time-caching shards and consistent
sizes, whatever their shard layouts and capacities, and with `A.getHighestTime() <=
B.getLowestTime()` and `B.getHighestTime() <= C.getLowestTime()`: the four merges of
`A.add(B); A.add(C)` and of `B.add(C); A.add(B)` all succeed, and both orders leave `A` with
the same record sequence, the records of `A`, then of `B`, then of `C`. -/
theorem add_associative (h : Heap) (A B C : EventStore) (hiA loB hiB loC : Int)
    (hA : A.Sound h) (hB : B.Sound h) (hC : C.Sound h)
    (hhiA : A.getHighestTime = .ok hiA) (hloB : B.getLowestTime = .ok loB)
    (hhiB : B.getHighestTime = .ok hiB) (hloC : C.getLowestTime = .ok loC)
    (hAB : hiA ≤ loB) (hBC : hiB ≤ loC) :
    (A.add h B).thrown = none
    ∧ ((A.add h B).store.add (A.add h B).heap C).thrown = none
    ∧ (B.add h C).thrown = none
    ∧ (A.add (B.add h C).heap (B.add h C).store).thrown = none
    ∧ ((A.add h B).store.add (A.add h B).heap C).store.events
          ((A.add h B).store.add (A.add h B).heap C).heap
        = (A.add (B.add h C).heap (B.add h C).store).store.events
          (A.add (B.add h C).heap (B.add h C).store).heap
    ∧ ((A.add h B).store.add (A.add h B).heap C).store.events
          ((A.add h B).store.add (A.add h B).heap C).heap
        = A.events h ++ B.events h ++ C.events h := by
  have gA := EventStore.getHighestTime_sound hA
  have gB := EventStore.getHighestTime_sound hB
  have lB := EventStore.getLowestTime_sound hB
  have lC := EventStore.getLowestTime_sound hC
  rw [hhiA] at gA
  rw [hhiB] at gB
  rw [hloB] at lB
  rw [hloC] at lC
  have gA2 := Except.ok.inj gA
  have gB2 := Except.ok.inj gB
  have lB2 := Except.ok.inj lB
  have lC2 := Except.ok.inj lC
  -- first order: A.add(B), then A.add(C)
  obtain ⟨r1, r2, r3, r4, r5, _⟩ :=
    EventStore.add_sound h A B hiA loB hA hB hhiA hloB (Or.inr hAB)
  have hC1 : C.Sound (A.add h B).heap := EventStore.sound_extends hC r2
  have hhi1 := EventStore.getHighestTime_sound r3
  have hle1 : ((A.add h B).store.dataPartials.getLast?.map
      PartialEventData.highestTime).getD 0 ≤ loC := by
    rw [r5]
    rcases hbs : B.dataPartials with _ | ⟨b, bs⟩
    · rw [hbs] at gB2 lB2
      simp only [List.getLast?_nil, List.head?_nil, Option.map_none', Option.getD_none]
        at gB2 lB2
      rw [List.append_nil, ← gA2]
      omega
    · rw [List.getLast?_append, ← hbs]
      have hne : B.dataPartials ≠ [] := by simp [hbs]
      rw [List.getLast?_eq_getLast _ hne] at gB2 ⊢
      simp only [Option.map_some, Option.getD_some, Option.or_some] at gB2 ⊢
      omega
  obtain ⟨s1, s2, s3, s4, _, _⟩ :=
    EventStore.add_sound (A.add h B).heap (A.add h B).store C _ loC r3 hC1 hhi1 hloC
      (Or.inr hle1)
  -- second order: B.add(C), then A.add(B)
  obtain ⟨q1, q2, q3, q4, _, q6⟩ :=
    EventStore.add_sound h B C hiB loC hB hC hhiB hloC (Or.inr hBC)
  have hA1 : A.Sound (B.add h C).heap := EventStore.sound_extends hA q2
  have hlo1 := EventStore.getLowestTime_sound q3
  have hle2 : hiA ≤ ((B.add h C).store.dataPartials.head?.map
      PartialEventData.lowestTime).getD 0 := by
    rw [q6]
    rcases hbs : B.dataPartials with _ | ⟨b, bs⟩
    · rw [hbs] at gB2 lB2
      simp only [List.getLast?_nil, List.head?_nil, Option.map_none', Option.getD_none]
        at gB2 lB2
      rw [List.nil_append, ← lC2]
      omega
    · rw [hbs] at lB2
      simp only [List.head?_cons, Option.map_some, Option.getD_some] at lB2
      simp only [List.cons_append, List.head?_cons, Option.map_some, Option.getD_some]
      omega
  obtain ⟨p1, p2, p3, p4, _, _⟩ :=
    EventStore.add_sound (B.add h C).heap A (B.add h C).store hiA _ hA1 q3 hhiA hlo1
      (Or.inr hle2)
  have e1 : ((A.add h B).store.add (A.add h B).heap C).store.events
        ((A.add h B).store.add (A.add h B).heap C).heap
      = A.events h ++ B.events h ++ C.events h := by
    rw [s4, r4, EventStore.events_extends hC.1 r2]
  refine ⟨r1, s1, q1, p1, ?_, e1⟩
  rw [e1, p4, q4, EventStore.events_extends hA.1 q2, List.append_assoc]

theorem demoTarget_sound : demoTarget.Sound demoHeap := by
  refine ⟨demoTarget_valid, ?_, rfl⟩
  intro p hp
  simp only [demoTarget, List.mem_singleton] at hp
  subst hp
  exact ⟨by decide, by rfl, by rfl⟩

theorem demoHead_sound : demoHead.Sound demoHeap := by
  refine ⟨?_, ?_, rfl⟩
  · intro p hp
    simp only [demoHead, List.mem_singleton] at hp
    subst hp
    exact demoShard_valid
  · intro p hp
    simp only [demoHead, List.mem_singleton] at hp
    subst hp
    exact ⟨by decide, by rfl, by rfl⟩

theorem demoTail_sound : demoTail.Sound demoHeap := by
  refine ⟨?_, ?_, rfl⟩
  · intro p hp
    simp only [demoTail, List.mem_cons, List.mem_singleton, List.not_mem_nil, or_false] at hp
    rcases hp with rfl | rfl <;> exact ⟨by decide, by decide⟩
  · intro p hp
    simp only [demoTail, List.mem_cons, List.mem_singleton, List.not_mem_nil, or_false] at hp
    rcases hp with rfl | rfl <;> exact ⟨by decide, by rfl, by rfl⟩

/-- C12 at `A = [0,1]` (one shard with room), `B = [1,2]` (one full shard) and
`C = [3,4],[5,6]`: in the first order every shard is merged into the packet of `A` by copy,
in the second order `B` first takes the shards of `C` by reference. -/
theorem add_associative_witness :
    (demoTarget.add demoHeap demoHead).thrown = none
    ∧ ((demoTarget.add demoHeap demoHead).store.add (demoTarget.add demoHeap demoHead).heap
        demoTail).thrown = none
    ∧ (demoHead.add demoHeap demoTail).thrown = none
    ∧ (demoTarget.add (demoHead.add demoHeap demoTail).heap
        (demoHead.add demoHeap demoTail).store).thrown = none
    ∧ ((demoTarget.add demoHeap demoHead).store.add (demoTarget.add demoHeap demoHead).heap
          demoTail).store.events
          ((demoTarget.add demoHeap demoHead).store.add (demoTarget.add demoHeap demoHead).heap
            demoTail).heap
        = (demoTarget.add (demoHead.add demoHeap demoTail).heap
            (demoHead.add demoHeap demoTail).store).store.events
          (demoTarget.add (demoHead.add demoHeap demoTail).heap
            (demoHead.add demoHeap demoTail).store).heap
    ∧ ((demoTarget.add demoHeap demoHead).store.add (demoTarget.add demoHeap demoHead).heap
          demoTail).store.events
          ((demoTarget.add demoHeap demoHead).store.add (demoTarget.add demoHeap demoHead).heap
            demoTail).heap
        = demoTarget.events demoHeap ++ demoHead.events demoHeap ++ demoTail.events demoHeap :=
  add_associative demoHeap demoTarget demoHead demoTail 1 1 2 3 demoTarget_sound demoHead_sound
    demoTail_sound rfl rfl rfl rfl (by decide) (by decide)

/-! ## `merge` of two shards -/

theorem PartialEventData.merge_flag (h : Heap) (p other : PartialEventData) :
    ((p.merge h other).2.2 = true
      ↔ p.canStoreMoreEvents h = true ∧ other.length ≤ p.availableCapacity h)
    ∧ ((p.merge h other).2.2 = false → (p.merge h other).1 = h ∧ (p.merge h other).2.1 = p) := by
  unfold merge
  by_cases hc : p.canStoreMoreEvents h = true
  · by_cases ha : p.availableCapacity h < other.length
    · simp [hc, ha]
    · have ha2 : other.length ≤ p.availableCapacity h := Nat.le_of_not_lt ha
      by_cases hz : other.length = 0
      · simp [hc, hz]
      · simp [hc, ha, hz, ha2]
  · have hc2 : p.canStoreMoreEvents h = false := by simpa using hc
    simp [hc2]

/-- C21, as the code behaves: the mutable shard `[5,6]` with room merges the shard `[1,2]`,
whose lowest time 1 is below its highest time 6, and becomes `[5,6,1,2]`. -/
theorem merge_ignores_order :
    demoShard.lowestTime < roomyShard.highestTime
    ∧ (roomyShard.merge demoHeap demoShard).2.2 = true
    ∧ ((roomyShard.merge demoHeap demoShard).2.1.window
        (roomyShard.merge demoHeap demoShard).1).map Event.timestamp = [5, 6, 1, 2] :=
  ⟨by decide, rfl, rfl⟩

/-- C21, amended: `S.merge(O)` returns success exactly when `S` does not reference const
data, its buffer holds fewer records than its capacity, its window ends where the buffer
ends, and the remaining capacity is at least the length of `O`; the times of `O` are not
compared.  On success the records of `S` are the old ones followed by those of `O`; on
failure the heap and `S` are what they were. -/
theorem merge_capacity_only (h : Heap) (p other : PartialEventData) (hp : p.Valid h)
    (ho : other.Valid h) :
    ((p.merge h other).2.2 = true
      ↔ p.referencesConstData = false
        ∧ (h.packets p.data).length < p.capacity
        ∧ p.start + p.length = (h.packets p.data).length
        ∧ other.length ≤ p.capacity - (h.packets p.data).length)
    ∧ ((p.merge h other).2.2 = true →
        (p.merge h other).2.1.window (p.merge h other).1 = p.window h ++ other.window h)
    ∧ ((p.merge h other).2.2 = false →
        (p.merge h other).1 = h ∧ (p.merge h other).2.1 = p) := by
  obtain ⟨f1, f2⟩ := PartialEventData.merge_flag h p other
  obtain ⟨_, _, m3, _⟩ := PartialEventData.merge_spec h p other hp ho
  refine ⟨?_, m3, f2⟩
  rw [f1]
  by_cases hr : p.referencesConstData = true
  · simp [PartialEventData.canStoreMoreEvents, hr]
  · have hr2 : p.referencesConstData = false := by simpa using hr
    simp [PartialEventData.canStoreMoreEvents, PartialEventData.availableCapacity,
      PartialEventData.elements, hr2, and_assoc]

theorem roomyShard_valid : roomyShard.Valid demoHeap := by
  unfold PartialEventData.Valid
  decide

/-- C21, amended, at the shard `[5,6]` with room and the shard `[1,2]`. -/
theorem merge_capacity_only_witness :
    ((roomyShard.merge demoHeap demoShard).2.2 = true
      ↔ roomyShard.referencesConstData = false
        ∧ (demoHeap.packets roomyShard.data).length < roomyShard.capacity
        ∧ roomyShard.start + roomyShard.length = (demoHeap.packets roomyShard.data).length
        ∧ demoShard.length ≤ roomyShard.capacity - (demoHeap.packets roomyShard.data).length)
    ∧ ((roomyShard.merge demoHeap demoShard).2.2 = true →
        (roomyShard.merge demoHeap demoShard).2.1.window (roomyShard.merge demoHeap demoShard).1
          = roomyShard.window demoHeap ++ demoShard.window demoHeap)
    ∧ ((roomyShard.merge demoHeap demoShard).2.2 = false →
        (roomyShard.merge demoHeap demoShard).1 = demoHeap
          ∧ (roomyShard.merge demoHeap demoShard).2.1 = roomyShard) :=
  merge_capacity_only demoHeap roomyShard demoShard roomyShard_valid demoShard_valid

/-! ## The time surface -/

theorem IntegralType.max_sub_min (T : IntegralType) (hb : 0 < T.bits) :
    T.max - T.min = 2 ^ T.bits - 1 := by
  have hp : (2 : Int) ^ T.bits = 2 * 2 ^ (T.bits - 1) := by
    conv_lhs => rw [show T.bits = (T.bits - 1) + 1 by omega]
    rw [pow_succ]
    ring
  unfold max min
  cases T.signed
  · simp
  · simp only [if_true]
    omega

theorem IntegralType.static_cast_of_mem (T : IntegralType) (hb : 0 < T.bits) (v : Int)
    (h1 : T.min ≤ v) (h2 : v ≤ T.max) : T.static_cast v = v := by
  have := max_sub_min T hb
  unfold static_cast
  rw [Int.emod_eq_of_lt (by omega) (by omega)]
  omega

theorem TimeSurface.rows16_eq (t : TimeSurface) (hr : t.rows ≤ 32767) : t.rows16 = t.rows := by
  unfold rows16
  apply IntegralType.static_cast_of_mem _ (by decide)
  · have : int16_t.min = -32768 := by decide
    omega
  · have : int16_t.max = 32767 := by decide
    omega

theorem TimeSurface.cols16_eq (t : TimeSurface) (hc : t.cols ≤ 32767) : t.cols16 = t.cols := by
  unfold cols16
  apply IntegralType.static_cast_of_mem _ (by decide)
  · have : int16_t.min = -32768 := by decide
    omega
  · have : int16_t.max = 32767 := by decide
    omega

/-- C22, as the code behaves: on a surface of `32768 × 1` cells the position `(0, 0)` lies
inside the grid, and `accept` of a record at `(0, 0)` throws the range error, because
`rows()` is `-32768`. -/
theorem accept_on_tall_surface :
    (0 : Int) < (TimeSurface.create 32768 1).rows ∧ (0 : Int) < (TimeSurface.create 32768 1).cols
    ∧ (TimeSurface.create 32768 1).rows16 = -32768
    ∧ (TimeSurface.create 32768 1).accept (evAt 0 0 5) = .error .rangeError :=
  ⟨by decide, by decide, rfl, rfl⟩

/-- C22, amended: on a surface whose numbers of rows and columns are at most 32767 (the range
of the 16-bit coordinates), `accept(record)` throws the range error exactly when `(y, x)`
lies outside the grid, and nothing is written then; otherwise the surface afterwards has the
same size, `at(y, x)` is the timestamp of the record, and every other cell keeps its value. -/
theorem accept_writes_one_cell (t : TimeSurface) (e : Event) (hr : t.rows ≤ 32767)
    (hc : t.cols ≤ 32767) :
    (t.accept e = .error .rangeError
      ↔ ¬ (0 ≤ e.y ∧ e.y < t.rows ∧ 0 ≤ e.x ∧ e.x < t.cols))
    ∧ ((0 ≤ e.y ∧ e.y < t.rows ∧ 0 ≤ e.x ∧ e.x < t.cols) →
        ∃ t1, t.accept e = .ok t1 ∧ t1.rows = t.rows ∧ t1.cols = t.cols
          ∧ t1.at_ e.y e.x = .ok e.timestamp
          ∧ ∀ r c : Nat, ¬ ((r : Int) = e.y ∧ (c : Int) = e.x) → t1.data r c = t.data r c) := by
  have h1 := TimeSurface.rows16_eq t hr
  have h2 := TimeSurface.cols16_eq t hc
  have hin : t.inRange e.y e.x = true ↔ (0 ≤ e.y ∧ e.y < t.rows ∧ 0 ≤ e.x ∧ e.x < t.cols) := by
    simp [TimeSurface.inRange, h1, h2, and_assoc]
  constructor
  · by_cases hi : t.inRange e.y e.x = true
    · simp [TimeSurface.accept, hi, hin.mp hi]
    · have hi2 : t.inRange e.y e.x = false := by simpa using hi
      have := mt hin.mpr hi
      simp [TimeSurface.accept, hi2, this]
  · intro hins
    have hi := hin.mpr hins
    refine ⟨t.set e.y.toNat e.x.toNat e.timestamp, by simp [TimeSurface.accept, hi], rfl, rfl,
      ?_, ?_⟩
    · have hi2 : (t.set e.y.toNat e.x.toNat e.timestamp).inRange e.y e.x = true := hi
      simp only [TimeSurface.at_, hi2]
      simp [TimeSurface.set]
    · intro r c hne
      have : ¬ (r = e.y.toNat ∧ c = e.x.toNat) := by
        intro hh
        apply hne
        obtain ⟨a, b⟩ := hh
        subst a
        subst b
        exact ⟨Int.toNat_of_nonneg hins.1, Int.toNat_of_nonneg hins.2.2.1⟩
      simp [TimeSurface.set, this]

/-- C22, amended, at the scenario of the specification: a surface of `4 × 4` cells and a
record at `(0, 0)` with timestamp 5. -/
theorem accept_writes_one_cell_witness :
    ((TimeSurface.create 4 4).accept (evAt 0 0 5) = .error .rangeError
      ↔ ¬ (0 ≤ (evAt 0 0 5).y ∧ (evAt 0 0 5).y < (TimeSurface.create 4 4).rows
          ∧ 0 ≤ (evAt 0 0 5).x ∧ (evAt 0 0 5).x < (TimeSurface.create 4 4).cols))
    ∧ ((0 ≤ (evAt 0 0 5).y ∧ (evAt 0 0 5).y < (TimeSurface.create 4 4).rows
          ∧ 0 ≤ (evAt 0 0 5).x ∧ (evAt 0 0 5).x < (TimeSurface.create 4 4).cols) →
        ∃ t1, (TimeSurface.create 4 4).accept (evAt 0 0 5) = .ok t1
          ∧ t1.rows = (TimeSurface.create 4 4).rows ∧ t1.cols = (TimeSurface.create 4 4).cols
          ∧ t1.at_ (evAt 0 0 5).y (evAt 0 0 5).x = .ok (evAt 0 0 5).timestamp
          ∧ ∀ r c : Nat, ¬ ((r : Int) = (evAt 0 0 5).y ∧ (c : Int) = (evAt 0 0 5).x) →
              t1.data r c = (TimeSurface.create 4 4).data r c) :=
  accept_writes_one_cell (TimeSurface.create 4 4) (evAt 0 0 5) (by decide) (by decide)

/-- The scenario of the specification: on a surface of `4 × 4` cells, records at `(0, 0)` with
the timestamps 5 and then 9 leave `at(0, 0) == 9`; a record at `(4, 0)` is refused. -/
theorem accept_scenario :
    (((TimeSurface.create 4 4).accept (evAt 0 0 5)).bind
        (fun t => t.accept (evAt 0 0 9))).bind (fun t => t.at_ 0 0) = .ok 9
    ∧ (TimeSurface.create 4 4).accept (evAt 4 0 5) = .error .rangeError :=
  ⟨rfl, rfl⟩

/-! ## Adding a constant to a surface -/

/-- C24: for the constant `5u` of type `unsigned int`, `T - 5u` and `T -= 5u` add 4294967291
to every cell: a cell of value 10 becomes 4294967301, where the claim has `max(0, 10 - 5)`;
with the constant 5 of type `int` the cell becomes 5. -/
theorem minus_unsigned_wraps :
    uint32_t.negate 5 = 4294967291
    ∧ (oneCell.minus uint32_t 5).data 0 0 = 4294967301
    ∧ (oneCell.minusAssign uint32_t 5).data 0 0 = 4294967301
    ∧ (oneCell.minus int32_t 5).data 0 0 = 5
    ∧ (oneCell.plus uint32_t 5).data 0 0 = 15 :=
  ⟨rfl, rfl, rfl, rfl, rfl⟩

theorem IntegralType.min_le_zero (T : IntegralType) : T.min ≤ 0 := by
  unfold min
  split
  · have : (0 : Int) < 2 ^ (T.bits - 1) := by positivity
    omega
  · exact le_refl _

theorem IntegralType.signed_bounds (T : IntegralType) (hb : 0 < T.bits) (h64 : T.bits ≤ 64)
    (hs : T.signed = true) :
    int64_t.min ≤ T.min ∧ T.max ≤ int64_t.max ∧ T.min = -T.max - 1 := by
  have h1 : (2 : Int) ^ (T.bits - 1) ≤ 2 ^ 63 :=
    pow_le_pow_right₀ (by norm_num) (by omega)
  have h2 : int64_t.min = -(2 ^ 63) := by decide
  have h3 : int64_t.max = 2 ^ 63 - 1 := by decide
  have h4 : T.min = -(2 ^ (T.bits - 1)) := by simp only [min, hs, if_true]
  have h5 : T.max = 2 ^ (T.bits - 1) - 1 := by simp only [max, hs, if_true]
  rw [h2, h3, h4, h5]
  omega

theorem IntegralType.narrow_bounds (T : IntegralType) (h32 : T.bits < 32) :
    -(2 ^ 31) ≤ T.min ∧ T.max ≤ 2 ^ 32 := by
  have h1 : (2 : Int) ^ (T.bits - 1) ≤ 2 ^ 31 :=
    pow_le_pow_right₀ (by norm_num) (by omega)
  have h2 : (2 : Int) ^ T.bits ≤ 2 ^ 32 :=
    pow_le_pow_right₀ (by norm_num) (by omega)
  have h3 : (0 : Int) < 2 ^ (T.bits - 1) := by positivity
  unfold min max
  split <;> omega

/-- The claim of C24 for the constants on which the code keeps it: for a constant `s` of a
type narrower than `int`, or of a signed type of at most 64 bits other than its lowest value,
`T + s`, `T += s` have the cells `max(0, cell + s)` and `T - s`, `T -= s` the cells
`max(0, cell - s)`, at the size of `T`. -/
theorem surface_arithmetic (t : TimeSurface) (T : IntegralType) (s : Int) (hb : 0 < T.bits)
    (h64 : T.bits ≤ 64) (hs1 : T.min ≤ s) (hs2 : s ≤ T.max)
    (hT : T.bits < 32 ∨ (T.signed = true ∧ T.min < s)) :
    (∀ r c, (t.plus T s).data r c = Max.max (t.data r c + s) 0)
    ∧ (∀ r c, (t.plusAssign T s).data r c = Max.max (t.data r c + s) 0)
    ∧ (∀ r c, (t.minus T s).data r c = Max.max (t.data r c - s) 0)
    ∧ (∀ r c, (t.minusAssign T s).data r c = Max.max (t.data r c - s) 0)
    ∧ (t.plus T s).rows = t.rows ∧ (t.plus T s).cols = t.cols
    ∧ (t.minus T s).rows = t.rows ∧ (t.minus T s).cols = t.cols := by
  have h2 : int64_t.min = -(2 ^ 63) := by decide
  have h3 : int64_t.max = 2 ^ 63 - 1 := by decide
  have hneg : T.negate s = -s := by
    unfold IntegralType.negate
    split
    · rfl
    · rename_i hn
      rcases hT with hlt | ⟨hsg, hlt⟩
      · exact absurd hlt hn
      · have := IntegralType.signed_bounds T hb h64 hsg
        exact IntegralType.static_cast_of_mem T hb _ (by omega) (by omega)
  have hrange : int64_t.min ≤ s ∧ s ≤ int64_t.max ∧ int64_t.min ≤ -s ∧ -s ≤ int64_t.max := by
    rcases hT with hlt | ⟨hsg, hlt⟩
    · have := IntegralType.narrow_bounds T hlt
      have := IntegralType.min_le_zero T
      omega
    · have := IntegralType.signed_bounds T hb h64 hsg
      omega
  have c1 : int64_t.static_cast s = s :=
    IntegralType.static_cast_of_mem _ (by decide) _ hrange.1 hrange.2.1
  have c2 : int64_t.static_cast (-s) = -s :=
    IntegralType.static_cast_of_mem _ (by decide) _ hrange.2.2.1 hrange.2.2.2
  refine ⟨?_, ?_, ?_, ?_, rfl, rfl, rfl, rfl⟩
  · intro r c
    simp only [TimeSurface.plus, TimeSurface.addImpl, c1]
  · intro r c
    simp only [TimeSurface.plusAssign, TimeSurface.addImpl, c1]
  · intro r c
    simp only [TimeSurface.minus, TimeSurface.addImpl, hneg, c2]
    rfl
  · intro r c
    simp only [TimeSurface.minusAssign, TimeSurface.addImpl, hneg, c2]
    rfl

theorem surface_arithmetic_witness :
    (∀ r c, (oneCell.plus int32_t 5).data r c = Max.max (oneCell.data r c + 5) 0)
    ∧ (∀ r c, (oneCell.plusAssign int32_t 5).data r c = Max.max (oneCell.data r c + 5) 0)
    ∧ (∀ r c, (oneCell.minus int32_t 5).data r c = Max.max (oneCell.data r c - 5) 0)
    ∧ (∀ r c, (oneCell.minusAssign int32_t 5).data r c = Max.max (oneCell.data r c - 5) 0)
    ∧ (oneCell.plus int32_t 5).rows = oneCell.rows ∧ (oneCell.plus int32_t 5).cols = oneCell.cols
    ∧ (oneCell.minus int32_t 5).rows = oneCell.rows
    ∧ (oneCell.minus int32_t 5).cols = oneCell.cols :=
  surface_arithmetic oneCell int32_t 5 (by decide) (by decide) (by decide) (by decide)
    (Or.inr ⟨rfl, by decide⟩)

/-! ## Export of a surface with an offset -/

theorem TimeSurface.mem_cells (t : TimeSurface) (v : Int) :
    v ∈ t.cells ↔ ∃ r c, r < t.rows ∧ c < t.cols ∧ t.data r c = v := by
  simp only [cells, List.mem_flatMap, List.mem_map, List.mem_range]
  constructor
  · rintro ⟨c, hc, r, hr, hv⟩
    exact ⟨r, c, hr, hc, hv⟩
  · rintro ⟨r, c, hr, hc, hv⟩
    exact ⟨c, hc, r, hr, hv⟩

theorem TimeSurface.foldl_highest (l : List Int) (M : Int) (hM : M ≠ 0)
    (hall : ∀ v ∈ l, v ≤ M) :
    ∀ (acc : Int × Int), acc.2 ≤ M → (M ∈ l ∨ acc.2 = M) →
      (l.foldl
        (fun prev next =>
          (if next ≠ 0 ∧ next < prev.1 then next else prev.1,
           if next ≠ 0 ∧ next > prev.2 then next else prev.2)) acc).2 = M := by
  induction l with
  | nil =>
    intro acc _ h
    rcases h with h | h
    · cases h
    · simpa using h
  | cons x xs ih =>
    intro acc hacc h
    simp only [List.foldl_cons]
    have hx : x ≤ M := hall x (by simp)
    apply ih (fun v hv => hall v (by simp [hv]))
    · simp only
      split <;> omega
    · simp only
      rcases h with h | h
      · rcases List.mem_cons.mp h with h | h
        · right
          subst h
          by_cases hgt : M > acc.2
          · simp [hM, hgt]
          · have : acc.2 = M := by omega
            simp [this]
        · exact Or.inl h
      · right
        have : ¬ (x ≠ 0 ∧ x > acc.2) := by
          intro hh
          omega
        rw [if_neg this]
        exact h

/-- C25: for a surface with non-negative cells whose largest cell value `M` is not zero, and
an integral target type `T` of at most 32 bits, `getOCVMat<T>()` returns the offset
`M - max(T)` and a matrix of the same size in which a cell of value `v >= offset + min(T)` is
exported as `v - offset`, a cell of value `M` as `max(T)`, and every cell of a lower value as
`min(T)`. -/
theorem getOCVMat_offset (t : TimeSurface) (T : IntegralType) (M : Int) (hb : 0 < T.bits)
    (_h32 : T.bits ≤ 32)
    (hnn : ∀ r c, r < t.rows → c < t.cols → 0 ≤ t.data r c)
    (hmax : ∀ r c, r < t.rows → c < t.cols → t.data r c ≤ M)
    (hM : ∃ r c, r < t.rows ∧ c < t.cols ∧ t.data r c = M) (hnz : M ≠ 0) :
    (t.getOCVMat T).2 = M - T.max
    ∧ (t.getOCVMat T).1.rows = t.rows ∧ (t.getOCVMat T).1.cols = t.cols
    ∧ ∀ r c, r < t.rows → c < t.cols →
        (t.data r c ≥ (t.getOCVMat T).2 + T.min →
          (t.getOCVMat T).1.data r c = t.data r c - (t.getOCVMat T).2
          ∧ (t.getOCVMat T).1.data r c + (t.getOCVMat T).2 = t.data r c)
        ∧ (t.data r c = M → (t.getOCVMat T).1.data r c = T.max)
        ∧ (t.data r c < (t.getOCVMat T).2 + T.min → (t.getOCVMat T).1.data r c = T.min) := by
  have hpos : 0 < M := by
    obtain ⟨r, c, hr, hc, hv⟩ := hM
    have := hnn r c hr hc
    omega
  have hmm : t.minMaxNonZero.2 = M := by
    unfold TimeSurface.minMaxNonZero
    apply TimeSurface.foldl_highest t.cells M hnz
    · intro v hv
      obtain ⟨r, c, hr, hc, hd⟩ := (TimeSurface.mem_cells t v).mp hv
      rw [← hd]
      exact hmax r c hr hc
    · have : int64_t.min = -(2 ^ 63) := by decide
      simp only [this]
      omega
    · exact Or.inl ((TimeSurface.mem_cells t M).mpr hM)
  have hmm2 := IntegralType.max_sub_min T hb
  have hp : (0 : Int) < 2 ^ T.bits := by positivity
  have hoff : (t.getOCVMat T).2 = M - T.max := by
    simp only [TimeSurface.getOCVMat, hmm]
  refine ⟨hoff, rfl, rfl, ?_⟩
  intro r c hr hc
  have hle := hmax r c hr hc
  have hcell : (t.getOCVMat T).1.data r c
      = T.static_cast (Max.max (t.data r c - (M - T.max)) T.min) := by
    simp only [TimeSurface.getOCVMat, hmm]
  rw [hoff, hcell]
  refine ⟨fun hge => ?_, fun he => ?_, fun hlt => ?_⟩
  · have hm : Max.max (t.data r c - (M - T.max)) T.min = t.data r c - (M - T.max) :=
      max_eq_left (by omega)
    rw [hm, IntegralType.static_cast_of_mem T hb _ (by omega) (by omega)]
    exact ⟨rfl, by omega⟩
  · have hm : Max.max (t.data r c - (M - T.max)) T.min = T.max := by
      rw [he, max_eq_left (by omega)]
      omega
    rw [hm, IntegralType.static_cast_of_mem T hb _ (by omega) (by omega)]
  · have hm : Max.max (t.data r c - (M - T.max)) T.min = T.min := max_eq_right (by omega)
    rw [hm, IntegralType.static_cast_of_mem T hb _ (by omega) (by omega)]

/-- C25 at a surface of `1 × 3` cells with the values 1000, 900 and 0, exported to `uint8_t`:
the offset is 745, and the cells are exported as 255, 155 and 0. -/
theorem getOCVMat_offset_witness :
    (twoCells.getOCVMat uint8_t).2 = 1000 - uint8_t.max
    ∧ (twoCells.getOCVMat uint8_t).1.rows = twoCells.rows
    ∧ (twoCells.getOCVMat uint8_t).1.cols = twoCells.cols
    ∧ ∀ r c, r < twoCells.rows → c < twoCells.cols →
        (twoCells.data r c ≥ (twoCells.getOCVMat uint8_t).2 + uint8_t.min →
          (twoCells.getOCVMat uint8_t).1.data r c
            = twoCells.data r c - (twoCells.getOCVMat uint8_t).2
          ∧ (twoCells.getOCVMat uint8_t).1.data r c + (twoCells.getOCVMat uint8_t).2
            = twoCells.data r c)
        ∧ (twoCells.data r c = 1000 → (twoCells.getOCVMat uint8_t).1.data r c = uint8_t.max)
        ∧ (twoCells.data r c < (twoCells.getOCVMat uint8_t).2 + uint8_t.min →
            (twoCells.getOCVMat uint8_t).1.data r c = uint8_t.min) :=
  getOCVMat_offset twoCells uint8_t 1000 (by decide) (by decide)
    (fun r c hr hc => by
      have hr0 : r = 0 := by simpa [twoCells, TimeSurface.set, TimeSurface.create] using hr
      subst hr0
      simp only [twoCells, TimeSurface.set, TimeSurface.create]
      split <;> (try split) <;> decide)
    (fun r c hr hc => by
      have hr0 : r = 0 := by simpa [twoCells, TimeSurface.set, TimeSurface.create] using hr
      subst hr0
      simp only [twoCells, TimeSurface.set, TimeSurface.create]
      split <;> (try split) <;> decide)
    ⟨0, 0, by decide, by decide, rfl⟩ (by decide)

/-! ## The speed invariant surface -/

/-- C23: on a surface of `8 × 8` cells with patch diameter 2, all cells 9 and the cell of the
record 0, a record at `(1, 4)` (border branch) decrements the eight cells of the rows 0 to 2
and the columns 3 to 5 around it, which is more than the three other cells of a `2 × 2`
patch; a record at `(3, 4)` (interior branch) decrements only the cells `(2,3)`, `(2,4)`,
`(3,3)` of the block of the rows 2 to 3 and the columns 3 to 4.  On a surface of `6 × 12`
cells with patch diameter 4 a record at `(5, 6)` takes the interior branch, whose block of the
rows 3 to 6 leaves the matrix. -/
theorem speed_invariant_patch :
    ((flatSurface 2 8 8 1 4).accept (evAt 1 4 7)).map (fun s => s.surface.table 4 8)
      = .ok [[9, 9, 9, 8, 8, 8, 9, 9], [9, 9, 9, 8, 9, 8, 9, 9], [9, 9, 9, 8, 8, 8, 9, 9],
             [9, 9, 9, 9, 9, 9, 9, 9]]
    ∧ ((flatSurface 2 8 8 3 4).accept (evAt 3 4 7)).map (fun s => s.surface.table 6 8)
      = .ok [[9, 9, 9, 9, 9, 9, 9, 9], [9, 9, 9, 9, 9, 9, 9, 9], [9, 9, 9, 8, 8, 9, 9, 9],
             [9, 9, 9, 8, 9, 9, 9, 9], [9, 9, 9, 9, 9, 9, 9, 9], [9, 9, 9, 9, 9, 9, 9, 9]]
    ∧ ((flatSurface 4 6 12 5 6).accept (evAt 5 6 7)).map (fun s => s.surface.table 6 12)
      = .error .undefinedBehaviour :=
  ⟨rfl, rfl, rfl⟩

/-! ## Packets of the stream buffers -/

theorem stampBelow_spec (v : List Event) (t : Int) (i : Nat) (a : Event) (ha : v[i]? = some a) :
    stampBelow v t i = decide (a.timestamp < t) := by
  simp only [stampBelow, ha]

theorem Packet.sliceVector_spec (start «end» : Int) (v : List Event)
    (hs : v.Pairwise (fun a b => a.timestamp ≤ b.timestamp)) :
    sliceVector start «end» v = v.filter (inWindow start «end») := by
  obtain ⟨h1, h2, h3⟩ := lower_bound_partition v Event.timestamp hs start (stampBelow v start)
    (stampBelow_spec v start)
  generalize hlb : lower_bound (stampBelow v start) v.length = lb at h1 h2 h3
  have hsw : (v.drop lb).Pairwise (fun a b => a.timestamp ≤ b.timestamp) :=
    hs.sublist (List.drop_sublist _ _)
  obtain ⟨g1, g2, g3⟩ := lower_bound_partition (v.drop lb) Event.timestamp hsw «end»
    (stampBelow (v.drop lb) «end») (stampBelow_spec (v.drop lb) «end»)
  rw [List.length_drop] at g1 g2 g3
  generalize hub : lower_bound (stampBelow (v.drop lb) «end») (v.length - lb) = ub at g1 g2 g3
  have hpre : (v.take lb).filter (inWindow start «end») = [] := by
    apply List.filter_eq_nil_iff.mpr
    intro a ha
    have := h2 a ha
    simp only [inWindow, Bool.and_eq_true, decide_eq_true_eq]
    omega
  have hsplit : v.filter (inWindow start «end») = (v.drop lb).filter (inWindow start «end») := by
    conv_lhs => rw [← List.take_append_drop lb v]
    rw [List.filter_append, hpre, List.nil_append]
  have hmid : (v.drop lb).filter (inWindow start «end») = (v.drop lb).take ub := by
    apply filter_eq_take
    · intro a ha
      have ha1 := h3 a (List.mem_of_mem_take ha)
      have ha2 := g2 a ha
      simp only [inWindow, Bool.and_eq_true, decide_eq_true_eq]
      exact ⟨ha1, ha2⟩
    · intro a ha
      have := g3 a ha
      simp only [inWindow, Bool.and_eq_false_iff, decide_eq_false_iff_not]
      right
      omega
  unfold sliceVector
  simp only [hlb, hub]
  by_cases he : lb = v.length
  · rw [if_pos he, hsplit, he, List.drop_length]
    rfl
  · rw [if_neg he, hsplit, hmid]
    congr 1
    omega

theorem subSz_of_le (a b : Nat) (hb : b ≤ a) (ha : a < SIZE_MOD) : subSz a b = a - b := by
  unfold subSz
  have : b % SIZE_MOD = b := Nat.mod_eq_of_lt (by omega)
  rw [this]
  unfold SIZE_MOD at *
  omega

theorem sizeBoundIndex_nonneg (len n : Nat) (hn : n < len) (hl : len < 2 ^ 63) :
    int64_t.static_cast (subSz (subSz len n) 1) = ((len - n - 1 : Nat) : Int) := by
  have h64 : (2 : Nat) ^ 63 < SIZE_MOD := by unfold SIZE_MOD; norm_num
  rw [subSz_of_le len n (by omega) (by omega), subSz_of_le (len - n) 1 (by omega) (by omega)]
  apply IntegralType.static_cast_of_mem int64_t (by decide)
  · have : int64_t.min = -(2 ^ 63) := by decide
    rw [this]
    have : (0 : Int) ≤ ((len - n - 1 : Nat) : Int) := Int.ofNat_nonneg _
    omega
  · have : int64_t.max = 2 ^ 63 - 1 := by decide
    rw [this]
    have : ((len - n - 1 : Nat) : Int) < 2 ^ 63 := by
      have : len - n - 1 < 2 ^ 63 := by omega
      exact_mod_cast this
    omega

theorem sizeBoundIndex_neg (len n : Nat) (hn : len ≤ n) (hb : n < 2 ^ 63) :
    int64_t.static_cast (subSz (subSz len n) 1) < 0 := by
  have hmin : int64_t.min = -(2 ^ 63) := by decide
  have hbits : ((2 : Int) ^ int64_t.bits) = 18446744073709551616 := by decide
  have hv : subSz (subSz len n) 1 = 18446744073709551616 - (n - len) - 1 := by
    unfold subSz SIZE_MOD
    omega
  unfold IntegralType.static_cast
  rw [hmin, hbits, hv]
  have h63 : (2 : Nat) ^ 63 = 9223372036854775808 := by norm_num
  have h63i : (2 : Int) ^ 63 = 9223372036854775808 := by norm_num
  rw [h63] at hb
  rw [h63i]
  omega

theorem Packet.eraseUpToIterable_spec (t : Int) (n : Nat) (v : List Event)
    (hs : v.Pairwise (fun a b => a.timestamp ≤ b.timestamp)) (hl : v.length < 2 ^ 63)
    (hn : n < 2 ^ 63) :
    ∃ k, eraseUpToIterable t n v = .ok (v.drop k)
      ∧ (∀ e ∈ v.take k, e.timestamp < t)
      ∧ min n v.length ≤ v.length - k
      ∧ (n ≤ (v.filter (fun e => decide (t ≤ e.timestamp))).length →
          v.drop k = v.filter (fun e => decide (t ≤ e.timestamp))) := by
  obtain ⟨h1, h2, h3⟩ := lower_bound_partition v Event.timestamp hs t (stampBelow v t)
    (stampBelow_spec v t)
  have hf : v.filter (fun e => decide (t ≤ e.timestamp)) = v.drop (lower_bound (stampBelow v t) v.length) :=
    filter_eq_drop _ _ _ (fun a ha => by simpa using h2 a ha) (fun a ha => by simpa using h3 a ha)
  generalize hlb : lower_bound (stampBelow v t) v.length = lb at h1 h2 h3 hf
  have hfl : (v.filter (fun e => decide (t ≤ e.timestamp))).length = v.length - lb := by
    rw [hf, List.length_drop]
  unfold eraseUpToIterable
  by_cases h0 : v.length = 0
  · refine ⟨0, by simp [h0], by simp, by omega, ?_⟩
    intro _
    have : v = [] := List.eq_nil_of_length_eq_zero h0
    subst this
    rfl
  · rw [if_neg h0]
    simp only [hlb]
    by_cases hc : n = 0 ∨ v.length - lb ≥ n
    · rw [if_pos hc]
      refine ⟨lb, rfl, h2, by omega, fun _ => hf.symm⟩
    · rw [if_neg hc]
      have hc1 : n ≠ 0 := fun h => hc (Or.inl h)
      have hc2 : v.length - lb < n := by
        by_contra h
        exact hc (Or.inr (by omega))
      by_cases hle : v.length ≤ n
      · rw [if_pos (sizeBoundIndex_neg v.length n hle hn)]
        exact ⟨0, rfl, by simp, by omega, fun h => by omega⟩
      · have hlt : n < v.length := by omega
        have hidx := sizeBoundIndex_nonneg v.length n hlt hl
        rw [hidx, if_neg (by omega), Int.toNat_ofNat]
        obtain ⟨sb, hsb⟩ := exists_getElem?_of_lt v (v.length - n - 1) (by omega)
        have htake : ∀ e ∈ v.take (v.length - n - 1), e.timestamp < t := by
          intro e he
          apply h2 e
          have : v.take (v.length - n - 1) = (v.take lb).take (v.length - n - 1) := by
            rw [List.take_take, Nat.min_eq_left (by omega)]
          rw [this] at he
          exact List.mem_of_mem_take he
        have hsbt : sb.timestamp < t := by
          apply h2 sb
          rw [List.mem_take_iff_getElem]
          have hi : v.length - n - 1 < v.length := by omega
          refine ⟨v.length - n - 1, by rw [Nat.lt_min]; omega, ?_⟩
          rw [List.getElem?_eq_getElem hi] at hsb
          exact Option.some.inj hsb
        simp only [hsb, if_pos hsbt]
        exact ⟨v.length - n - 1, rfl, htake, by omega, fun h => by omega⟩

theorem EventStore.sliceBack_spec (h : Heap) (s : EventStore) (n : Nat) (hv : s.Valid h)
    (hi : s.Indexed) (hd : s.dataPartials.length < SIZE_MOD) (ht : s.totalLength < SIZE_MOD)
    (hn : n ≠ 0) :
    ∃ q lowest, s.sliceBack h n = .ok q ∧ q.getLowestTime = .ok lowest
      ∧ q.events h = (s.events h).drop ((s.events h).length - n) := by
  have hlen := length_events hv hi
  unfold sliceBack
  by_cases hge : n ≥ s.totalLength
  · rw [if_pos hge]
    have hlo : ∃ lowest, s.getLowestTime = .ok lowest := by
      unfold getLowestTime
      by_cases he : s.isEmpty = true
      · exact ⟨0, by rw [if_pos he]⟩
      · rw [if_neg he]
        have hne : s.totalLength ≠ 0 := by simpa [isEmpty] using he
        rcases hps : s.dataPartials with _ | ⟨p, rest⟩
        · have := hi.total
          rw [hps] at this
          simp at this
          exact absurd this hne
        · exact ⟨p.lowestTime, by simp⟩
    obtain ⟨lowest, hlo⟩ := hlo
    refine ⟨s, lowest, rfl, hlo, ?_⟩
    rw [hlen, Nat.sub_eq_zero_of_le hge, List.drop_zero]
  · rw [if_neg hge]
    have hlt : n < s.totalLength := by omega
    rw [subSz_of_le _ _ (by omega) ht]
    obtain ⟨r, hr, hev, hri, hrv, hrs⟩ :=
      slice_ok h s (s.totalLength - n) n hv hi hd ht (by omega) (by omega)
    have hne : r.totalLength ≠ 0 := by
      have : r.totalLength = n := hrs
      omega
    have hlo : ∃ lowest, r.getLowestTime = .ok lowest := by
      unfold getLowestTime
      have he : ¬ r.isEmpty = true := by simpa [isEmpty] using hne
      rw [if_neg he]
      rcases hps : r.dataPartials with _ | ⟨p, rest⟩
      · have := hri.total
        rw [hps] at this
        simp at this
        exact absurd this hne
      · exact ⟨p.lowestTime, by simp⟩
    obtain ⟨lowest, hlo⟩ := hlo
    refine ⟨r, lowest, hr, hlo, ?_⟩
    rw [hev, hlen, List.take_of_length_le]
    rw [List.length_drop]
    omega

theorem EventStore.eraseUpTo_store (h : Heap) (s : EventStore) (t : Int) (n : Nat)
    (ho : (Packet.store s).Ordered h) :
    ∃ q k, (Packet.store s).eraseUpTo h t n = .ok (.store q)
      ∧ q.events h = (s.events h).drop k
      ∧ (∀ e ∈ (s.events h).take k, e.timestamp < t)
      ∧ min n (s.events h).length ≤ (s.events h).length - k
      ∧ (n ≤ ((s.events h).filter (fun e => decide (t ≤ e.timestamp))).length →
          (s.events h).drop k = (s.events h).filter (fun e => decide (t ≤ e.timestamp))) := by
  obtain ⟨hv, hi, hT, hs, hd, ht⟩ := ho
  have hlen := length_events hv hi
  obtain ⟨lo, hi2, hlo, hhi, hall⟩ := time_range h s hv hT hs hi.total
  obtain ⟨r, hr, he, hrv, hri⟩ :=
    sliceTime_ok h s t (hi2 + 1) hv (by rw [hi.offsets_length]) hT hs
  obtain ⟨h1, h2, h3⟩ := lower_bound_partition (s.events h) Event.timestamp hs t
    (stampBelow (s.events h) t) (stampBelow_spec (s.events h) t)
  have hf : (s.events h).filter (fun e => decide (t ≤ e.timestamp))
      = (s.events h).drop (lower_bound (stampBelow (s.events h) t) (s.events h).length) :=
    filter_eq_drop _ _ _ (fun a ha => by simpa using h2 a ha) (fun a ha => by simpa using h3 a ha)
  generalize hlb : lower_bound (stampBelow (s.events h) t) (s.events h).length = c
    at h1 h2 h3 hf
  have hwin : (s.events h).filter (inWindow t (hi2 + 1))
      = (s.events h).filter (fun e => decide (t ≤ e.timestamp)) := by
    apply List.filter_congr
    intro e hmem
    have := (hall e hmem).2
    simp only [inWindow]
    have h5 : decide (e.timestamp < hi2 + 1) = true := by
      simp only [decide_eq_true_eq]
      omega
    rw [h5, Bool.and_true]
  rw [hwin] at he
  have hrsize : r.1.size = (s.events h).length - c := by
    have := length_events hrv hri
    rw [he, hf, List.length_drop] at this
    exact this.symm
  have hfl : ((s.events h).filter (fun e => decide (t ≤ e.timestamp))).length
      = (s.events h).length - c := by
    rw [hf, List.length_drop]
  simp only [Packet.eraseUpTo, hhi, hr, bind, Except.bind, pure, Except.pure]
  by_cases hc : n = 0 ∨ r.1.size ≥ n
  · rw [if_pos hc]
    refine ⟨r.1, c, rfl, by rw [he, hf], h2, ?_, fun _ => hf.symm⟩
    rcases hc with hc | hc <;> omega
  · rw [if_neg hc]
    have hc1 : n ≠ 0 := fun h => hc (Or.inl h)
    have hc2 : (s.events h).length - c < n := by
      by_contra hcon
      exact hc (Or.inr (by omega))
    obtain ⟨q, lowest, hq, hql, hqe⟩ := sliceBack_spec h s n hv hi hd ht hc1
    simp only [hq, hql]
    have hpre : ∀ k, k ≤ (s.events h).length - n →
        ∀ e ∈ (s.events h).take k, e.timestamp < t := by
      intro k hk e hmem
      apply h2 e
      have : (s.events h).take k = ((s.events h).take c).take k := by
        rw [List.take_take, Nat.min_eq_left (by omega)]
      rw [this] at hmem
      exact List.mem_of_mem_take hmem
    by_cases hlt : lowest < t
    · rw [if_pos hlt]
      exact ⟨q, (s.events h).length - n, rfl, hqe, hpre _ (Nat.le_refl _), by omega,
        fun hh => by omega⟩
    · rw [if_neg hlt]
      exact ⟨s, 0, rfl, rfl, by simp, by omega, fun hh => by omega⟩

theorem Packet.eraseUpTo_spec (h : Heap) (p : Packet) (t : Int) (n : Nat) (ho : p.Ordered h)
    (hn : n < 2 ^ 63) :
    ∃ q k, p.eraseUpTo h t n = .ok q
      ∧ q.records h = (p.records h).drop k
      ∧ (∀ e ∈ (p.records h).take k, e.timestamp < t)
      ∧ min n (p.records h).length ≤ (p.records h).length - k
      ∧ (n ≤ ((p.records h).filter (fun e => decide (t ≤ e.timestamp))).length →
          (p.records h).drop k = (p.records h).filter (fun e => decide (t ≤ e.timestamp))) := by
  cases p with
  | monostate => exact ⟨.monostate, 0, rfl, rfl, by simp [records], by simp [records], fun _ => rfl⟩
  | store s =>
    obtain ⟨q, k, h1, h2, h3, h4, h5⟩ := EventStore.eraseUpTo_store h s t n ho
    exact ⟨.store q, k, h1, h2, h3, h4, h5⟩
  | samples kind v =>
    obtain ⟨k, h1, h2, h3, h4⟩ := eraseUpToIterable_spec t n v ho.1 ho.2 hn
    refine ⟨.samples kind (v.drop k), k, ?_, rfl, h2, h3, h4⟩
    simp only [eraseUpTo, h1, bind, Except.bind, pure, Except.pure]

theorem Packet.slice_spec (h : Heap) (p : Packet) (a b : Int) (ho : p.Ordered h) :
    ∃ q, p.slicePacketSpecific h a b = .ok q
      ∧ q.records h = (p.records h).filter (inWindow a b) := by
  cases p with
  | monostate => exact ⟨.monostate, rfl, rfl⟩
  | store s =>
    obtain ⟨hv, hi, hT, hs, _, _⟩ := ho
    obtain ⟨r, hr, he, _, _⟩ :=
      EventStore.sliceTime_ok h s a b hv (by rw [hi.offsets_length]) hT hs
    refine ⟨.store r.1, ?_, he⟩
    simp only [slicePacketSpecific, hr]
  | samples kind v =>
    exact ⟨.samples kind (sliceVector a b v), rfl, sliceVector_spec a b v ho.1⟩

theorem Packet.isPacketEmpty_iff (h : Heap) (p : Packet) (ho : p.Ordered h) :
    p.isPacketEmpty = true ↔ p.records h = [] := by
  cases p with
  | monostate => simp [isPacketEmpty, records]
  | store s =>
    obtain ⟨hv, hi, _, _, _, _⟩ := ho
    have hlen := EventStore.length_events hv hi
    simp only [isPacketEmpty, records, EventStore.isEmpty, decide_eq_true_eq]
    rw [← hlen]
    exact List.length_eq_zero
  | samples kind v => simp [isPacketEmpty, records]

theorem foldl_highest_eq (l : List Event) (a hi : Int) (ha : a ≤ hi)
    (hall : ∀ e ∈ l, e.timestamp ≤ hi) (hex : a = hi ∨ ∃ e ∈ l, e.timestamp = hi) :
    l.foldl (fun a x => Max.max a x.timestamp) a = hi := by
  induction l generalizing a with
  | nil =>
    rcases hex with hex | ⟨e, he, _⟩
    · exact hex
    · cases he
  | cons x l ih =>
    rw [List.foldl_cons]
    have hx := hall x (List.mem_cons_self _ _)
    apply ih
    · exact max_le ha hx
    · intro e he
      exact hall e (List.mem_cons_of_mem _ he)
    · rcases hex with hex | ⟨e, he, het⟩
      · left
        rw [hex]
        exact max_eq_left hx
      · rcases List.mem_cons.mp he with rfl | he
        · left
          rw [het]
          exact max_eq_right ha
        · exact Or.inr ⟨e, he, het⟩

theorem highestStamp_eq (l : List Event) (hi : Int) (hex : ∃ e ∈ l, e.timestamp = hi)
    (hall : ∀ e ∈ l, e.timestamp ≤ hi) : highestStamp l = hi := by
  cases l with
  | nil =>
    obtain ⟨e, he, _⟩ := hex
    cases he
  | cons x l =>
    unfold highestStamp
    apply foldl_highest_eq
    · exact hall x (List.mem_cons_self _ _)
    · intro e he
      exact hall e (List.mem_cons_of_mem _ he)
    · obtain ⟨e, he, het⟩ := hex
      rcases List.mem_cons.mp he with rfl | he
      · exact Or.inl het
      · exact Or.inr ⟨e, he, het⟩

theorem Packet.timeWindow_spec (h : Heap) (p : Packet) (ho : p.Ordered h)
    (hne : p.isPacketEmpty = false) :
    ∃ w, p.getPacketTimeWindow = .ok w ∧ w.2 = highestStamp (p.records h) := by
  cases p with
  | monostate => cases hne
  | store s =>
    obtain ⟨hv, hi, hT, hs, _, _⟩ := ho
    obtain ⟨lo, hi2, hlo, hhi, hall⟩ := EventStore.time_range h s hv hT hs hi.total
    refine ⟨(lo, hi2), by simp only [getPacketTimeWindow, hlo, hhi], ?_⟩
    symm
    apply highestStamp_eq
    · have htot : s.totalLength ≠ 0 := by simpa [isPacketEmpty, EventStore.isEmpty] using hne
      have hnil : s.dataPartials ≠ [] := by
        intro hnil
        have := hi.total
        rw [hnil] at this
        simp at this
        exact htot this
      have hlast : s.dataPartials.getLast? = some (s.dataPartials.getLast hnil) :=
        List.getLast?_eq_getLast _ hnil
      have hmem : s.dataPartials.getLast hnil ∈ s.dataPartials := List.getLast_mem hnil
      obtain ⟨_, _, hb⟩ := EventStore.order_facts h s hv hT hs
      obtain ⟨_, ⟨y, hy, hyt⟩, _⟩ := hb _ hmem
      have hh := EventStore.getHighestTime_last htot hlast
      rw [hhi] at hh
      have : hi2 = (s.dataPartials.getLast hnil).highestTime := Except.ok.inj hh
      refine ⟨y, ?_, by rw [hyt, this]⟩
      exact List.mem_flatMap.mpr ⟨_, hmem, hy⟩
    · intro e he
      exact (hall e he).2
  | samples kind v =>
    have hnil : v ≠ [] := by
      intro hnil
      simp [isPacketEmpty, hnil] at hne
    obtain ⟨first, rest, rfl⟩ := List.exists_cons_of_ne_nil hnil
    have hlast : (first :: rest).getLast? = some ((first :: rest).getLast hnil) :=
      List.getLast?_eq_getLast _ hnil
    refine ⟨(first.timestamp, ((first :: rest).getLast hnil).timestamp), ?_, ?_⟩
    · simp only [getPacketTimeWindow, List.head?_cons, hlast]
    · symm
      apply highestStamp_eq
      · exact ⟨_, List.getLast_mem hnil, rfl⟩
      · intro e he
        have hsplit := List.dropLast_append_getLast hnil
        have hs := ho.1
        rw [← hsplit] at hs he
        rcases List.mem_append.mp he with he | he
        · exact (List.pairwise_append.mp hs).2.2 e he _ (List.mem_singleton_self _)
        · rw [List.mem_singleton.mp he]

theorem Packet.records_extends {h h1 : Heap} (p : Packet) (ho : p.Ordered h)
    (hx : h.Extends h1) : p.records h1 = p.records h := by
  cases p with
  | monostate => rfl
  | store s => exact EventStore.events_extends ho.1 hx
  | samples kind v => rfl

theorem Packet.ordered_extends {h h1 : Heap} (p : Packet) (ho : p.Ordered h)
    (hx : h.Extends h1) : p.Ordered h1 := by
  cases p with
  | monostate => trivial
  | store s =>
    obtain ⟨hv, hi, hT, hs, hd, ht⟩ := ho
    refine ⟨EventStore.valid_extends hv hx, hi,
      fun q hq => PartialEventData.shard_tight_extends (hv q hq) (hT q hq) hx, ?_, hd, ht⟩
    unfold EventStore.TimeOrdered
    rw [EventStore.events_extends hv hx]
    exact hs
  | samples kind v => exact ho

/-! ## `MultiStreamSlicer`: the evaluation -/

theorem MultiStreamSlicer.scanStreams_defers (h : Heap) (seek : List (String × Int))
    (l : List (String × Packet)) (acc : Int)
    (hseek : ∀ c ∈ l, ∃ t, mapGet c.1 seek = some t)
    (hord : ∀ c ∈ l, c.2.Ordered h)
    (hex : ∃ c ∈ l, c.2.isPacketEmpty = true ∧ ∃ t, mapGet c.1 seek = some t ∧ t < 0) :
    scanStreams seek l acc = .ok none := by
  induction l generalizing acc with
  | nil =>
    obtain ⟨c, hc, _⟩ := hex
    cases hc
  | cons c l ih =>
    obtain ⟨stream, packet⟩ := c
    obtain ⟨t, ht⟩ := hseek (stream, packet) (List.mem_cons_self _ _)
    have hrest : ∀ acc1, (¬ (packet.isPacketEmpty = true ∧ t < 0)) →
        scanStreams seek l acc1 = .ok none := by
      intro acc1 hnot
      apply ih acc1 (fun c hc => hseek c (List.mem_cons_of_mem _ hc))
        (fun c hc => hord c (List.mem_cons_of_mem _ hc))
      obtain ⟨c, hc, he, t1, ht1, hneg⟩ := hex
      rcases List.mem_cons.mp hc with rfl | hc
      · exfalso
        apply hnot
        simp only at ht1 he
        rw [ht] at ht1
        cases ht1
        exact ⟨he, hneg⟩
      · exact ⟨c, hc, he, t1, ht1, hneg⟩
    simp only [scanStreams, ht]
    by_cases he : packet.isPacketEmpty = true
    · rw [if_pos he]
      by_cases hs : t ≥ 0
      · rw [if_pos hs]
        exact hrest _ (fun hh => by omega)
      · rw [if_neg hs]
    · rw [if_neg he]
      have he2 : packet.isPacketEmpty = false := by simpa using he
      obtain ⟨w, hw, _⟩ := Packet.timeWindow_spec h packet
        (hord (stream, packet) (List.mem_cons_self _ _)) he2
      simp only [hw]
      exact hrest _ (fun hh => he hh.1)

theorem MultiStreamSlicer.scanStreams_min (h : Heap) (seek : List (String × Int))
    (l : List (String × Packet)) (acc : Int)
    (hord : ∀ c ∈ l, c.2.Ordered h)
    (hall : ∀ c ∈ l, c.2.isPacketEmpty = false ∨ ∃ t, mapGet c.1 seek = some t ∧ 0 ≤ t)
    (hseek : ∀ c ∈ l, ∃ t, mapGet c.1 seek = some t) :
    scanStreams seek l acc = .ok (some ((l.map (streamTime h seek)).foldl Min.min acc)) := by
  induction l generalizing acc with
  | nil => rfl
  | cons c l ih =>
    obtain ⟨stream, packet⟩ := c
    have ho := hord (stream, packet) (List.mem_cons_self _ _)
    obtain ⟨t, ht⟩ := hseek (stream, packet) (List.mem_cons_self _ _)
    have ih2 := fun acc1 => ih acc1 (fun c hc => hord c (List.mem_cons_of_mem _ hc))
      (fun c hc => hall c (List.mem_cons_of_mem _ hc))
      (fun c hc => hseek c (List.mem_cons_of_mem _ hc))
    simp only [scanStreams, ht, List.map_cons, List.foldl_cons]
    by_cases he : packet.isPacketEmpty = true
    · have hrec : packet.records h = [] := (Packet.isPacketEmpty_iff h packet ho).mp he
      have hst : streamTime h seek (stream, packet) = t := by
        simp [streamTime, hrec, ht]
      rw [if_pos he, hst]
      rcases hall (stream, packet) (List.mem_cons_self _ _) with hne | ⟨t1, ht1, hpos⟩
      · simp only at hne
        rw [he] at hne
        cases hne
      · simp only at ht1
        rw [ht] at ht1
        cases ht1
        rw [if_pos hpos]
        exact ih2 _
    · rw [if_neg he]
      have he2 : packet.isPacketEmpty = false := by simpa using he
      obtain ⟨w, hw, hw2⟩ := Packet.timeWindow_spec h packet ho he2
      have hrec : packet.records h ≠ [] := fun hh =>
        he ((Packet.isPacketEmpty_iff h packet ho).mpr hh)
      have hst : streamTime h seek (stream, packet) = w.2 := by
        simp [streamTime, hrec, hw2]
      simp only [hw]
      rw [hst, min_comm]
      exact ih2 _

theorem foldl_highest_le (l : List Event) (a B : Int) (ha : a ≤ B)
    (hall : ∀ e ∈ l, e.timestamp ≤ B) :
    l.foldl (fun a x => Max.max a x.timestamp) a ≤ B := by
  induction l generalizing a with
  | nil => exact ha
  | cons x l ih =>
    rw [List.foldl_cons]
    exact ih _ (max_le ha (hall x (List.mem_cons_self _ _)))
      (fun e he => hall e (List.mem_cons_of_mem _ he))

theorem MultiStreamSlicer.streamTime_le {σ : Type} (h : Heap) (m : MultiStreamSlicer σ)
    (hready : m.Ready h) (c : String × Packet) (hc : c ∈ m.mBuffer) :
    streamTime h m.mSeekTimestamps c ≤ int64_t.max := by
  unfold streamTime
  obtain ⟨t, ht, hlt⟩ := hready.seeks c hc
  split
  · rw [ht]
    exact Int.le_of_lt hlt
  · rcases hrec : c.2.records h with _ | ⟨e, l⟩
    · exact by decide
    · have hall := hready.stamps c hc
      rw [hrec] at hall
      unfold highestStamp
      exact foldl_highest_le l _ _ (Int.le_of_lt (hall e (List.mem_cons_self _ _)))
        (fun x hx => Int.le_of_lt (hall x (List.mem_cons_of_mem _ hx)))

theorem MultiStreamSlicer.scan_timeLimit {σ : Type} (h : Heap) (m : MultiStreamSlicer σ)
    (hready : m.Ready h) (hne : m.mBuffer ≠ [])
    (hall : ∀ c ∈ m.mBuffer,
      c.2.isPacketEmpty = false ∨ ∃ t, mapGet c.1 m.mSeekTimestamps = some t ∧ 0 ≤ t) :
    ∃ b, scanStreams m.mSeekTimestamps m.mBuffer int64_t.max = .ok (some b)
      ∧ b + 1 = timeLimitOf h m := by
  refine ⟨_, scanStreams_min h _ _ _ hready.ordered hall
    (fun c hc => (hready.seeks c hc).imp (fun _ ht => ht.1)), ?_⟩
  unfold timeLimitOf
  rcases hb : m.mBuffer with _ | ⟨c, l⟩
  · exact absurd hb hne
  · have hle := streamTime_le h m hready c (by rw [hb]; exact List.mem_cons_self _ _)
    simp only [List.map_cons, List.foldl_cons, lowestOf]
    rw [min_eq_right hle]
    omega

/-- What an internal callback leaves alone: everything but `mSeekTime`, the state of its
lambda and the main slicer. -/
theorem MultiStreamSlicer.fire_frame {σ : Type} (h : Heap) (m m1 : MultiStreamSlicer σ)
    (f : Firing) (d : Option Delivery) (hf : fire h m f = .ok (m1, d)) :
    m1.mBuffer = m.mBuffer ∧ m1.mRetainDuration = m.mRetainDuration
      ∧ m1.mRetainSize = m.mRetainSize ∧ m1.mMainStreamName = m.mMainStreamName
      ∧ m1.mSeekTimestamps = m.mSeekTimestamps
      ∧ m1.mMainBufferSeekTime = m.mMainBufferSeekTime := by
  cases f <;> simp only [fire] at hf <;> (repeat' split at hf) <;>
    first
    | (cases hf; exact ⟨rfl, rfl, rfl, rfl, rfl, rfl⟩)
    | cases hf

theorem MultiStreamSlicer.fireAll_frame {σ : Type} (h : Heap) (fs : List Firing) :
    ∀ (m m1 : MultiStreamSlicer σ) (ds : List Delivery), fireAll h m fs = .ok (m1, ds) →
      m1.mBuffer = m.mBuffer ∧ m1.mRetainDuration = m.mRetainDuration
      ∧ m1.mRetainSize = m.mRetainSize ∧ m1.mMainStreamName = m.mMainStreamName
      ∧ m1.mSeekTimestamps = m.mSeekTimestamps
      ∧ m1.mMainBufferSeekTime = m.mMainBufferSeekTime := by
  induction fs with
  | nil =>
    intro m m1 ds hf
    simp only [fireAll] at hf
    cases hf
    exact ⟨rfl, rfl, rfl, rfl, rfl, rfl⟩
  | cons f fs ih =>
    intro m m1 ds hf
    simp only [fireAll] at hf
    split at hf
    · cases hf
    · rename_i m2 d hfire
      split at hf
      · cases hf
      · rename_i m3 ds3 hall
        cases hf
        obtain ⟨a1, a2, a3, a4, a5, a6⟩ := fire_frame h m m2 f d hfire
        obtain ⟨b1, b2, b3, b4, b5, b6⟩ := ih m2 m1 ds3 hall
        exact ⟨b1.trans a1, b2.trans a2, b3.trans a3, b4.trans a4, b5.trans a5, b6.trans a6⟩

theorem MultiStreamSlicer.feed_frame {σ : Type} (S : StreamSlicer σ) (h : Heap)
    (m : MultiStreamSlicer σ) (p : Packet) (r : Heap × MultiStreamSlicer σ × List Delivery)
    (hf : feed S h m p = .ok r) :
    r.2.1.mBuffer = m.mBuffer ∧ r.2.1.mRetainDuration = m.mRetainDuration
      ∧ r.2.1.mRetainSize = m.mRetainSize ∧ r.2.1.mMainStreamName = m.mMainStreamName
      ∧ r.2.1.mSeekTimestamps = m.mSeekTimestamps
      ∧ r.2.1.mMainBufferSeekTime = m.mMainBufferSeekTime := by
  simp only [feed] at hf
  split at hf
  · cases hf
  · rename_i r0 hacc
    split at hf
    · cases hf
    · rename_i m1 ds hall
      cases hf
      exact fireAll_frame _ _ { m with mMainSlicer := r0.2.1 } m1 ds hall

theorem MultiStreamSlicer.trimSecondaries_spec (h : Heap) (main : String) (B : Int) (N : Nat)
    (l : List (String × Packet)) (hord : ∀ c ∈ l, c.1 ≠ main → c.2.Ordered h)
    (hN : N < 2 ^ 63) :
    ∃ l1, trimSecondaries h main B N l = .ok l1
      ∧ List.Forall₂ (fun c c1 => c1.1 = c.1
          ∧ (if c.1 = main then c1.2 = c.2 else c.2.eraseUpTo h B N = .ok c1.2)) l l1 := by
  induction l with
  | nil => exact ⟨[], rfl, List.Forall₂.nil⟩
  | cons c l ih =>
    obtain ⟨stream, container⟩ := c
    obtain ⟨l1, hl1, hrel⟩ := ih (fun c hc => hord c (List.mem_cons_of_mem _ hc))
    by_cases hm : stream = main
    · refine ⟨(stream, container) :: l1, ?_, List.Forall₂.cons ⟨rfl, ?_⟩ hrel⟩
      · simp only [trimSecondaries, if_pos hm, hl1]
      · simp only [if_pos hm]
    · obtain ⟨q, k, hq, _⟩ := Packet.eraseUpTo_spec h container B N
        (hord (stream, container) (List.mem_cons_self _ _) hm) hN
      refine ⟨(stream, q) :: l1, ?_, List.Forall₂.cons ⟨rfl, ?_⟩ hrel⟩
      · simp only [trimSecondaries, if_neg hm, hq, hl1]
      · simp only [if_neg hm]
        exact hq

theorem mapSet_present {β : Type} (key : String) (value old : β) (l : List (String × β))
    (hg : mapGet key l = some old) :
    mapSet key value l = l.map (fun c => if c.1 = key then (key, value) else c) := by
  unfold mapSet
  rw [hg]
  rfl

theorem mapGet_mem {β : Type} (key : String) (v : β) (l : List (String × β))
    (hg : mapGet key l = some v) : (key, v) ∈ l := by
  induction l with
  | nil => cases hg
  | cons c l ih =>
    obtain ⟨k, w⟩ := c
    simp only [mapGet] at hg
    split at hg
    · rename_i hk
      cases hg
      rw [hk]
      exact List.mem_cons_self _ _
    · exact List.mem_cons_of_mem _ (ih hg)

theorem mapGet_ne_nil {β : Type} (key : String) (v : β) (l : List (String × β))
    (hg : mapGet key l = some v) : l ≠ [] := by
  intro hnil
  rw [hnil] at hg
  cases hg

/-- A performed evaluation, step by step: the slice fed, the main buffer afterwards, and the
buffers afterwards stream by stream. -/
theorem MultiStreamSlicer.evaluate_performed {σ : Type} (S : StreamSlicer σ) (h : Heap)
    (m : MultiStreamSlicer σ) (main : Packet) (r : Heap × MultiStreamSlicer σ × List Delivery)
    (hready : m.Ready h) (hmain : mapGet m.mMainStreamName m.mBuffer = some main)
    (hsize : m.mRetainSize < 2 ^ 63)
    (hall : ∀ c ∈ m.mBuffer,
      c.2.isPacketEmpty = false ∨ ∃ t, mapGet c.1 m.mSeekTimestamps = some t ∧ 0 ≤ t)
    (hnew : m.mMainBufferSeekTime ≠ timeLimitOf h m)
    (hfeed : ∀ p, main.slicePacketSpecific h 0 (timeLimitOf h m) = .ok p →
      m.feed S h p = .ok r)
    (hx : h.Extends r.1) :
    ∃ sliced main1 buffers,
      main.slicePacketSpecific h 0 (timeLimitOf h m) = .ok sliced
      ∧ main.eraseUpTo r.1 (timeLimitOf h m) 0 = .ok main1
      ∧ m.evaluate S h = .ok ⟨r.1,
          { r.2.1 with mBuffer := buffers, mMainBufferSeekTime := timeLimitOf h m },
          [sliced], r.2.2⟩
      ∧ List.Forall₂ (fun c c1 => c1.1 = c.1
          ∧ (if c.1 = m.mMainStreamName then c1.2 = main1
             else c.2.eraseUpTo r.1
               (if r.2.1.mRetainDuration ≥ 0 then r.2.1.mSeekTime - r.2.1.mRetainDuration
                else timeLimitOf h m) m.mRetainSize = .ok c1.2)) m.mBuffer buffers := by
  obtain ⟨b, hscan, hb⟩ := scan_timeLimit h m hready (mapGet_ne_nil _ _ _ hmain) hall
  have hmo : main.Ordered h := hready.ordered _ (mapGet_mem _ _ _ hmain)
  obtain ⟨sliced, hsl, _⟩ := Packet.slice_spec h main 0 (timeLimitOf h m) hmo
  have hf := hfeed sliced hsl
  obtain ⟨f1, f2, f3, f4, f5, f6⟩ := feed_frame S h m sliced r hf
  obtain ⟨h1, m1, ds⟩ := r
  simp only at f1 f2 f3 f4 f5 f6 hx
  obtain ⟨main1, _, hm1, _⟩ := Packet.eraseUpTo_spec h1 main (timeLimitOf h m) 0
    (Packet.ordered_extends main hmo hx) (by norm_num)
  have hset : mapSet m.mMainStreamName main1 m.mBuffer
      = m.mBuffer.map (fun c => if c.1 = m.mMainStreamName then (m.mMainStreamName, main1) else c) :=
    mapSet_present _ _ _ _ hmain
  obtain ⟨l1, hl1, hrel⟩ := trimSecondaries_spec h1 m.mMainStreamName
    (if m1.mRetainDuration ≥ 0 then m1.mSeekTime - m1.mRetainDuration else timeLimitOf h m)
    m.mRetainSize
    (m.mBuffer.map (fun c => if c.1 = m.mMainStreamName then (m.mMainStreamName, main1) else c))
    (by
      intro c hc hne
      obtain ⟨c0, hc0, rfl⟩ := List.mem_map.mp hc
      by_cases hk : c0.1 = m.mMainStreamName
      · simp only [if_pos hk] at hne
        exact absurd rfl hne
      · simp only [if_neg hk]
        exact Packet.ordered_extends _ (hready.ordered c0 hc0) hx)
    hsize
  refine ⟨sliced, main1, l1, hsl, hm1, ?_, ?_⟩
  · simp only [evaluate, hscan, hb, if_neg hnew, hmain, hsl, hf, hm1, f1, f3, f4, hset, hl1]
  · rw [List.forall₂_map_left_iff] at hrel
    refine hrel.imp ?_
    intro c c1 hcc
    by_cases hk : c.1 = m.mMainStreamName
    · simp only [if_pos hk] at hcc ⊢
      exact ⟨hcc.1.trans hk.symm, hcc.2⟩
    · simp only [if_neg hk] at hcc ⊢
      exact hcc

/-- C26: on a well-formed slicer in which some stream has an empty buffer and a negative seek
timestamp, `evaluate()` returns without any effect: the heap and every member of the slicer
(the buffers, `mMainBufferSeekTime`) are as before, nothing is handed to the main slicer and
no callback is invoked. -/
theorem evaluate_deferred {σ : Type} (S : StreamSlicer σ) (h : Heap) (m : MultiStreamSlicer σ)
    (hready : m.Ready h)
    (hex : ∃ c ∈ m.mBuffer, c.2.isPacketEmpty = true
      ∧ ∃ t, mapGet c.1 m.mSeekTimestamps = some t ∧ t < 0) :
    m.evaluate S h = .ok ⟨h, m, [], []⟩ := by
  have hscan := MultiStreamSlicer.scanStreams_defers h m.mSeekTimestamps m.mBuffer int64_t.max
    (fun c hc => (hready.seeks c hc).imp (fun _ ht => ht.1)) hready.ordered hex
  simp only [MultiStreamSlicer.evaluate, hscan]

theorem mapGet_related {β : Type} (key : String) (v v1 : β) (R : String × β → String × β → Prop)
    (hR : ∀ c c1, R c c1 → c1.1 = c.1 ∧ (c.1 = key → c1.2 = v1))
    (l l1 : List (String × β)) (hrel : List.Forall₂ R l l1) (hg : mapGet key l = some v) :
    mapGet key l1 = some v1 := by
  induction l generalizing l1 with
  | nil => cases hg
  | cons c l ih =>
    cases hrel with
    | cons hc hrest =>
      rename_i c1 l2
      obtain ⟨k, w⟩ := c
      obtain ⟨k1, w1⟩ := c1
      obtain ⟨hk, hv⟩ := hR _ _ hc
      simp only at hk hv
      subst hk
      simp only [mapGet] at hg ⊢
      by_cases he : key = k1
      · rw [if_pos he]
        rw [hv he.symm]
      · rw [if_neg he] at hg ⊢
        exact ih l2 hrest hg

theorem forall₂_mem_left {α β : Type} (R : α → β → Prop) (l : List α) (l1 : List β)
    (hrel : List.Forall₂ R l l1) (a : α) (ha : a ∈ l) : ∃ b ∈ l1, R a b := by
  induction hrel with
  | nil => cases ha
  | cons hc _ ih =>
    rcases List.mem_cons.mp ha with rfl | ha
    · exact ⟨_, List.mem_cons_self _ _, hc⟩
    · obtain ⟨b, hb, hr⟩ := ih ha
      exact ⟨b, List.mem_cons_of_mem _ hb, hr⟩

/-- Amended C27: on a well-formed slicer in which every stream is non-empty or has its seek
timestamp set, let `timeLimit` be 1 + the minimum over all streams of the highest buffered
timestamp if the stream is non-empty, otherwise of its seek timestamp.  When `timeLimit`
differs from the stored `mMainBufferSeekTime` (and the main slicer accepts the slice, its
callbacks returning), `evaluate()` hands the main slicer exactly the main-stream records with
timestamps in `[0, timeLimit)`, afterwards the main buffer holds exactly its former records
with timestamps `≥ timeLimit`, and `mMainBufferSeekTime` is `timeLimit`. -/
theorem evaluate_feeds_main {σ : Type} (S : StreamSlicer σ) (h : Heap)
    (m : MultiStreamSlicer σ) (main : Packet) (r : Heap × MultiStreamSlicer σ × List Delivery)
    (hready : m.Ready h) (hmain : mapGet m.mMainStreamName m.mBuffer = some main)
    (hsize : m.mRetainSize < 2 ^ 63)
    (hall : ∀ c ∈ m.mBuffer,
      c.2.isPacketEmpty = false ∨ ∃ t, mapGet c.1 m.mSeekTimestamps = some t ∧ 0 ≤ t)
    (hnew : m.mMainBufferSeekTime ≠ timeLimitOf h m)
    (hfeed : ∀ p, main.slicePacketSpecific h 0 (timeLimitOf h m) = .ok p →
      m.feed S h p = .ok r)
    (hx : h.Extends r.1) :
    ∃ ev sliced main1, m.evaluate S h = .ok ev
      ∧ ev.fed = [sliced]
      ∧ sliced.records h = (main.records h).filter (inWindow 0 (timeLimitOf h m))
      ∧ mapGet m.mMainStreamName ev.slicer.mBuffer = some main1
      ∧ main1.records ev.heap
          = (main.records h).filter (fun e => decide (timeLimitOf h m ≤ e.timestamp))
      ∧ ev.slicer.mMainBufferSeekTime = timeLimitOf h m := by
  obtain ⟨sliced, main1, buffers, hsl, hm1, hev, hrel⟩ :=
    MultiStreamSlicer.evaluate_performed S h m main r hready hmain hsize hall hnew hfeed hx
  have hmo : main.Ordered h := hready.ordered _ (mapGet_mem _ _ _ hmain)
  obtain ⟨q, hq, hqr⟩ := Packet.slice_spec h main 0 (timeLimitOf h m) hmo
  rw [hsl] at hq
  cases hq
  obtain ⟨q1, k, hq1, hk1, _, _, hk4⟩ := Packet.eraseUpTo_spec r.1 main (timeLimitOf h m) 0
    (Packet.ordered_extends main hmo hx) (by norm_num)
  rw [hm1] at hq1
  cases hq1
  refine ⟨_, sliced, main1, hev, rfl, hqr, ?_, ?_, rfl⟩
  · exact mapGet_related m.mMainStreamName main main1 _
      (fun c c1 hcc => ⟨hcc.1, fun hk => by simpa [hk] using hcc.2⟩) _ _ hrel hmain
  · show main1.records r.1 = _
    rw [hk1, hk4 (Nat.zero_le _), Packet.records_extends main hmo hx]

/-- Amended C29: after a performed evaluation each secondary stream is trimmed with the bound
`lastJobEnd - maxRetainedInterval` when a time-interval job has been registered
(`maxRetainedInterval ≥ 0`), and with `timeLimit` otherwise, subject to the minimum retained
count: the buffer afterwards is a suffix of the buffer before, only records older than the
bound are removed, at least `min(mRetainSize, size)` records remain, and when at least
`mRetainSize` records are not older than the bound exactly those remain. -/
theorem evaluate_trims_secondaries {σ : Type} (S : StreamSlicer σ) (h : Heap)
    (m : MultiStreamSlicer σ) (main : Packet) (r : Heap × MultiStreamSlicer σ × List Delivery)
    (hready : m.Ready h) (hmain : mapGet m.mMainStreamName m.mBuffer = some main)
    (hsize : m.mRetainSize < 2 ^ 63)
    (hall : ∀ c ∈ m.mBuffer,
      c.2.isPacketEmpty = false ∨ ∃ t, mapGet c.1 m.mSeekTimestamps = some t ∧ 0 ≤ t)
    (hnew : m.mMainBufferSeekTime ≠ timeLimitOf h m)
    (hfeed : ∀ p, main.slicePacketSpecific h 0 (timeLimitOf h m) = .ok p →
      m.feed S h p = .ok r)
    (hx : h.Extends r.1) :
    ∃ ev eraseLimit, m.evaluate S h = .ok ev
      ∧ eraseLimit = (if ev.slicer.mRetainDuration ≥ 0
          then ev.slicer.mSeekTime - ev.slicer.mRetainDuration else timeLimitOf h m)
      ∧ ev.slicer.mRetainDuration = m.mRetainDuration
      ∧ ∀ c ∈ m.mBuffer, c.1 ≠ m.mMainStreamName →
        ∃ q k, (c.1, q) ∈ ev.slicer.mBuffer
          ∧ q.records ev.heap = (c.2.records h).drop k
          ∧ (∀ e ∈ (c.2.records h).take k, e.timestamp < eraseLimit)
          ∧ min m.mRetainSize (c.2.records h).length ≤ (c.2.records h).length - k
          ∧ (m.mRetainSize
              ≤ ((c.2.records h).filter (fun e => decide (eraseLimit ≤ e.timestamp))).length →
            q.records ev.heap
              = (c.2.records h).filter (fun e => decide (eraseLimit ≤ e.timestamp))) := by
  obtain ⟨sliced, main1, buffers, hsl, hm1, hev, hrel⟩ :=
    MultiStreamSlicer.evaluate_performed S h m main r hready hmain hsize hall hnew hfeed hx
  obtain ⟨_, f2, _, _, _, _⟩ := MultiStreamSlicer.feed_frame S h m sliced r (hfeed sliced hsl)
  refine ⟨_, _, hev, rfl, f2, ?_⟩
  intro c hc hne
  obtain ⟨c1, hc1, hk, hcc⟩ := forall₂_mem_left _ _ _ hrel c hc
  rw [if_neg hne] at hcc
  have hco := hready.ordered c hc
  obtain ⟨q, k, hq, hk1, hk2, hk3, hk4⟩ := Packet.eraseUpTo_spec r.1 c.2
    (if r.2.1.mRetainDuration ≥ 0 then r.2.1.mSeekTime - r.2.1.mRetainDuration
      else timeLimitOf h m) m.mRetainSize (Packet.ordered_extends c.2 hco hx) hsize
  rw [hcc] at hq
  cases hq
  rw [Packet.records_extends c.2 hco hx] at hk1 hk2 hk3 hk4
  refine ⟨c1.2, k, ?_, hk1, hk2, hk3, fun hh => ?_⟩
  · rw [← hk]
    exact hc1
  · show c1.2.records r.1 = _
    rw [hk1]
    exact hk4 hh

/-! ## Sample evaluations -/

theorem samples_ordered (kind : VectorKind) (ts : List Int)
    (hs : ts.Pairwise (fun a b => a ≤ b)) (hl : ts.length < 2 ^ 63) :
    (Packet.samples kind (ts.map stamp)).Ordered demoHeap := by
  refine ⟨?_, by rw [List.length_map]; exact hl⟩
  rw [List.pairwise_map]
  exact hs

theorem samples_stamps (kind : VectorKind) (ts : List Int) (hs : ∀ t ∈ ts, t < int64_t.max) :
    ∀ e ∈ (Packet.samples kind (ts.map stamp)).records demoHeap, e.timestamp < int64_t.max := by
  intro e he
  obtain ⟨t, ht, rfl⟩ := List.mem_map.mp he
  exact hs t ht

theorem waitingStreams_ready : waitingStreams.Ready demoHeap := by
  have hb : waitingStreams.mBuffer = [("events", eventsAt []), ("frames", framesAt [10])] := rfl
  refine ⟨?_, ?_, ?_⟩ <;> intro c hc <;> rw [hb] at hc <;>
    simp only [List.mem_cons, List.mem_singleton, List.not_mem_nil, or_false] at hc <;>
    rcases hc with rfl | rfl
  · exact ⟨-1, rfl, by decide⟩
  · exact ⟨-1, rfl, by decide⟩
  · exact samples_ordered _ [] (by decide) (by norm_num)
  · exact samples_ordered _ [10] (by decide) (by norm_num)
  · exact samples_stamps _ [] (by decide)
  · exact samples_stamps _ [10] (by decide)

theorem fedStreams_ready : fedStreams.Ready demoHeap := by
  have hb : fedStreams.mBuffer
      = [("events", eventsAt [5, 20]), ("frames", framesAt [1, 3, 10])] := rfl
  refine ⟨?_, ?_, ?_⟩ <;> intro c hc <;> rw [hb] at hc <;>
    simp only [List.mem_cons, List.mem_singleton, List.not_mem_nil, or_false] at hc <;>
    rcases hc with rfl | rfl
  · exact ⟨-1, rfl, by decide⟩
  · exact ⟨-1, rfl, by decide⟩
  · exact samples_ordered _ [5, 20] (by decide) (by norm_num)
  · exact samples_ordered _ [1, 3, 10] (by decide) (by norm_num)
  · exact samples_stamps _ [5, 20] (by decide)
  · exact samples_stamps _ [1, 3, 10] (by decide)

theorem fedStreams_all : ∀ c ∈ fedStreams.mBuffer,
    c.2.isPacketEmpty = false ∨ ∃ t, mapGet c.1 fedStreams.mSeekTimestamps = some t ∧ 0 ≤ t := by
  have hb : fedStreams.mBuffer
      = [("events", eventsAt [5, 20]), ("frames", framesAt [1, 3, 10])] := rfl
  intro c hc
  rw [hb] at hc
  simp only [List.mem_cons, List.mem_singleton, List.not_mem_nil, or_false] at hc
  rcases hc with rfl | rfl <;> exact Or.inl rfl

theorem fedStreams_feed : ∀ p,
    (eventsAt [5, 20]).slicePacketSpecific demoHeap 0 (timeLimitOf demoHeap fedStreams) = .ok p →
      fedStreams.feed specSlicer demoHeap p = .ok fedOutcome := by
  intro p hp
  have : (eventsAt [5, 20]).slicePacketSpecific demoHeap 0 (timeLimitOf demoHeap fedStreams)
      = .ok (eventsAt [5]) := rfl
  rw [this] at hp
  cases hp
  rfl

/-- C26 at the slicer with a frame at 10 buffered and no event yet: the main stream is empty
without a seek timestamp. -/
theorem evaluate_deferred_witness :
    waitingStreams.evaluate specSlicer demoHeap = .ok ⟨demoHeap, waitingStreams, [], []⟩ :=
  evaluate_deferred specSlicer demoHeap waitingStreams waitingStreams_ready
    ⟨("events", eventsAt []), List.mem_cons_self _ _, rfl, -1, rfl, by decide⟩

/-- C27, counterexample: after `accept("frames", [10])` and `accept("events", [5])`, which
feeds the event 5 and stores the limit 6, the call `accept("events", [5])` finds both streams
non-empty and computes `timeLimit = 1 + min(5, 10) = 6` again: it hands nothing to the main
slicer and the record 5, below 6, stays in the main buffer. -/
theorem accept_at_equal_limit :
    (MultiStreamSlicer.calls specSlicer demoHeap twoStreams
        [.accept "frames" (framesAt [10]), .accept "events" (eventsAt [5]),
         .accept "events" (eventsAt [5])]).map (List.map Evaluation.summary)
      = .ok [([("events", eventsAt []), ("frames", framesAt [10])], -1, []),
             ([("events", eventsAt []), ("frames", framesAt [10])], 6, [eventsAt [5]]),
             ([("events", eventsAt [5]), ("frames", framesAt [10])], 6, [])] := rfl

/-- Amended C27 at `fedStreams`: the limit is 11, the event 5 is fed and the event 20 stays. -/
theorem evaluate_feeds_main_witness :
    ∃ ev sliced main1, fedStreams.evaluate specSlicer demoHeap = .ok ev
      ∧ ev.fed = [sliced]
      ∧ sliced.records demoHeap
          = ((eventsAt [5, 20]).records demoHeap).filter
              (inWindow 0 (timeLimitOf demoHeap fedStreams))
      ∧ mapGet fedStreams.mMainStreamName ev.slicer.mBuffer = some main1
      ∧ main1.records ev.heap
          = ((eventsAt [5, 20]).records demoHeap).filter
              (fun e => decide (timeLimitOf demoHeap fedStreams ≤ e.timestamp))
      ∧ ev.slicer.mMainBufferSeekTime = timeLimitOf demoHeap fedStreams :=
  evaluate_feeds_main specSlicer demoHeap fedStreams (eventsAt [5, 20]) fedOutcome
    fedStreams_ready rfl (by norm_num [fedStreams, twoStreams, MultiStreamSlicer.doEveryNumberOfElements, MultiStreamSlicer.addStream, MultiStreamSlicer.create])
    fedStreams_all (by decide) fedStreams_feed (Heap.extends_refl demoHeap)

/-- C28: with the seek timestamp of `frames` set to 10, a frame at 100 and the events 50 and
200, the evaluation stores the limit 101 and empties `frames`; the next call,
`accept("events", [300])`, computes the limit 11 from the seek timestamp, is performed (an
empty packet is handed to the main slicer) and stores 11: the limit moved back. -/
theorem limit_moves_back :
    (MultiStreamSlicer.calls specSlicer demoHeap twoStreams
        [.setStreamSeekTime "frames" 10, .accept "frames" (framesAt [100]),
         .accept "events" (eventsAt [50, 200]), .accept "events" (eventsAt [300])]).map
          (List.map Evaluation.summary)
      = .ok [([("events", eventsAt []), ("frames", framesAt [])], -1, []),
             ([("events", eventsAt []), ("frames", framesAt [100])], -1, []),
             ([("events", eventsAt [200]), ("frames", framesAt [])], 101, [eventsAt [50]]),
             ([("events", eventsAt [200, 300]), ("frames", framesAt [])], 11, [eventsAt []])] :=
  rfl

/-- C29, counterexample: with a time-interval job of 1000 µs registered and not yet fired
(`mSeekTime = -1`), the evaluation with `timeLimit = 6` trims `frames` with the bound
`-1 - 1000`: the frame at 1 stays, which the bound `max(-1001, 6)` would remove. -/
theorem trim_below_limit :
    (MultiStreamSlicer.calls specSlicer demoHeap
        (twoStreams.doEveryTimeInterval specSlicer 1000).1
        [.accept "frames" (framesAt [1, 10]), .accept "events" (eventsAt [5])]).map
          (List.map (fun ev => (ev.summary, ev.slicer.mSeekTime, ev.slicer.mRetainDuration,
            ev.slicer.mRetainSize)))
      = .ok [(([("events", eventsAt []), ("frames", framesAt [1, 10])], -1, []), -1, 1000, 0),
             (([("events", eventsAt []), ("frames", framesAt [1, 10])], 6, [eventsAt [5]]),
               -1, 1000, 0)] := rfl

/-- Amended C29 at `fedStreams`, whose job keeps one record at least. -/
theorem evaluate_trims_secondaries_witness :
    ∃ ev eraseLimit, fedStreams.evaluate specSlicer demoHeap = .ok ev
      ∧ eraseLimit = (if ev.slicer.mRetainDuration ≥ 0
          then ev.slicer.mSeekTime - ev.slicer.mRetainDuration
          else timeLimitOf demoHeap fedStreams)
      ∧ ev.slicer.mRetainDuration = fedStreams.mRetainDuration
      ∧ ∀ c ∈ fedStreams.mBuffer, c.1 ≠ fedStreams.mMainStreamName →
        ∃ q k, (c.1, q) ∈ ev.slicer.mBuffer
          ∧ q.records ev.heap = (c.2.records demoHeap).drop k
          ∧ (∀ e ∈ (c.2.records demoHeap).take k, e.timestamp < eraseLimit)
          ∧ min fedStreams.mRetainSize (c.2.records demoHeap).length
              ≤ (c.2.records demoHeap).length - k
          ∧ (fedStreams.mRetainSize
              ≤ ((c.2.records demoHeap).filter
                  (fun e => decide (eraseLimit ≤ e.timestamp))).length →
            q.records ev.heap
              = (c.2.records demoHeap).filter (fun e => decide (eraseLimit ≤ e.timestamp))) :=
  evaluate_trims_secondaries specSlicer demoHeap fedStreams (eventsAt [5, 20]) fedOutcome
    fedStreams_ready rfl (by norm_num [fedStreams, twoStreams, MultiStreamSlicer.doEveryNumberOfElements, MultiStreamSlicer.addStream, MultiStreamSlicer.create])
    fedStreams_all (by decide) fedStreams_feed (Heap.extends_refl demoHeap)

/-! ## `MultiStreamSlicer`: the `BACKWARD` lambda -/

theorem MultiStreamSlicer.sliceSecondaries_spec (h : Heap) (main : String) (a b : Int)
    (l : List (String × Packet)) (hord : ∀ c ∈ l, c.1 ≠ main → c.2.Ordered h) :
    ∃ others, sliceSecondaries h main a b l = .ok others
      ∧ ∀ c ∈ l, c.1 ≠ main →
        ∃ q, (c.1, q) ∈ others ∧ q.records h = (c.2.records h).filter (inWindow a b) := by
  induction l with
  | nil => exact ⟨[], rfl, fun c hc => by cases hc⟩
  | cons c l ih =>
    obtain ⟨stream, streamBuffer⟩ := c
    obtain ⟨others, hl, hrel⟩ := ih (fun c hc => hord c (List.mem_cons_of_mem _ hc))
    by_cases hm : stream = main
    · refine ⟨others, by simp only [sliceSecondaries, if_pos hm, hl], ?_⟩
      intro c hc hne
      rcases List.mem_cons.mp hc with rfl | hc
      · exact absurd hm hne
      · exact hrel c hc hne
    · obtain ⟨q, hq, hqr⟩ := Packet.slice_spec h streamBuffer a b
        (hord (stream, streamBuffer) (List.mem_cons_self _ _) hm)
      refine ⟨(stream, q) :: others, by simp only [sliceSecondaries, if_neg hm, hq, hl], ?_⟩
      intro c hc hne
      rcases List.mem_cons.mp hc with rfl | hc
      · exact ⟨q, List.mem_cons_self _ _, hqr⟩
      · obtain ⟨q1, hq1, hq2⟩ := hrel c hc hne
        exact ⟨q1, List.mem_cons_of_mem _ hq1, hq2⟩

theorem mapGet_update {β : Type} (key : Int) (old new : β) (l : List (Int × β))
    (hg : mapGet key l = some old) :
    mapGet key (l.map (fun c => if c.1 = key then (key, new) else c)) = some new := by
  induction l with
  | nil => cases hg
  | cons c l ih =>
    obtain ⟨k, w⟩ := c
    rw [List.map_cons]
    by_cases hk : k = key
    · have hf : (if (k, w).1 = key then (key, new) else (k, w)) = (key, new) := if_pos hk
      rw [hf]
      simp only [mapGet, if_true]
    · have hf : (if (k, w).1 = key then (key, new) else (k, w)) = (k, w) := if_neg hk
      have hk2 : ¬ key = k := fun hh => hk hh.symm
      rw [hf]
      simp only [mapGet, if_neg hk2] at hg ⊢
      exact ih hg

theorem MultiStreamSlicer.fire_backward {σ : Type} (h : Heap) (m : MultiStreamSlicer σ)
    (job lastTime : Int) (p : Packet)
    (hjob : mapGet job m.closures = some (.backward lastTime))
    (hord : ∀ c ∈ m.mBuffer, c.1 ≠ m.mMainStreamName → c.2.Ordered h)
    (hne : p.isPacketEmpty = false) (hp : p.Ordered h) :
    ∃ start others,
      fire h m (.number job p)
        = .ok ({ m with
            closures := m.closures.map (fun c =>
              if c.1 = job then (job, Closure.backward (highestStamp (p.records h))) else c) },
          some ⟨job, start, highestStamp (p.records h), (m.mMainStreamName, p) :: others⟩)
      ∧ ∀ c ∈ m.mBuffer, c.1 ≠ m.mMainStreamName →
        ∃ q, (c.1, q) ∈ others
          ∧ q.records h = (c.2.records h).filter (fun e =>
              decide (lastTime < e.timestamp)
                && decide (e.timestamp ≤ highestStamp (p.records h))) := by
  obtain ⟨w, hw, hw2⟩ := Packet.timeWindow_spec h p hp hne
  obtain ⟨others, hsl, hrel⟩ := sliceSecondaries_spec h m.mMainStreamName (lastTime + 1)
    (w.2 + 1) m.mBuffer hord
  refine ⟨w.1, others, ?_, ?_⟩
  · rw [hw2] at hsl
    simp only [fire, hjob, hne, hw, hw2, hsl, Bool.false_eq_true, if_false]
  · intro c hc hn
    obtain ⟨q, hq, hqr⟩ := hrel c hc hn
    refine ⟨q, hq, ?_⟩
    rw [hqr, hw2]
    apply List.filter_congr
    intro e _
    have h1 : decide (lastTime + 1 ≤ e.timestamp) = decide (lastTime < e.timestamp) := by
      rw [decide_eq_decide]
      omega
    have h2 : decide (e.timestamp < highestStamp (p.records h) + 1)
        = decide (e.timestamp ≤ highestStamp (p.records h)) := by
      rw [decide_eq_decide]
      omega
    simp only [inWindow, h1, h2]

theorem MultiStreamSlicer.fireEach_backward {σ : Type} (job : Int)
    (rounds : List (Heap × List (String × Packet) × Packet)) :
    ∀ (m : MultiStreamSlicer σ) (lastTime : Int),
      mapGet job m.closures = some (.backward lastTime) →
      (∀ r ∈ rounds, ∀ c ∈ r.2.1, c.1 ≠ m.mMainStreamName → c.2.Ordered r.1) →
      (∀ r ∈ rounds, r.2.2.isPacketEmpty = false ∧ r.2.2.Ordered r.1) →
      ∃ m1 ds, fireEach job m rounds = .ok (m1, ds)
        ∧ ds.length = rounds.length
        ∧ mapGet job m1.closures
            = some (.backward ((sliceEnds lastTime rounds).getD rounds.length 0))
        ∧ ∀ k r, rounds[k]? = some r →
          ∃ d, ds[k]? = some (some d) ∧ d.job = job
            ∧ d.endTime = (sliceEnds lastTime rounds).getD (k + 1) 0
            ∧ d.data.head? = some (m.mMainStreamName, r.2.2)
            ∧ ∀ c ∈ r.2.1, c.1 ≠ m.mMainStreamName →
              ∃ q, (c.1, q) ∈ d.data.tail
                ∧ q.records r.1 = (c.2.records r.1).filter (fun e =>
                    decide ((sliceEnds lastTime rounds).getD k 0 < e.timestamp)
                      && decide (e.timestamp ≤ (sliceEnds lastTime rounds).getD (k + 1) 0)) := by
  induction rounds with
  | nil =>
    intro m lastTime hjob _ _
    exact ⟨m, [], rfl, rfl, by simpa [sliceEnds] using hjob, fun k r hk => by cases hk⟩
  | cons r rounds ih =>
    intro m lastTime hjob hord hps
    obtain ⟨h, buffers, p⟩ := r
    obtain ⟨hne, hp⟩ := hps _ (List.mem_cons_self _ _)
    obtain ⟨start, others, hfire, hrel⟩ := fire_backward h { m with mBuffer := buffers } job
      lastTime p hjob (hord _ (List.mem_cons_self _ _)) hne hp
    obtain ⟨m1, ds, hrest, hlen, hlam, hall⟩ := ih
      { m with
        mBuffer := buffers
        closures := m.closures.map (fun c =>
          if c.1 = job then (job, Closure.backward (highestStamp (p.records h))) else c) }
      (highestStamp (p.records h)) (mapGet_update job _ _ _ hjob)
      (fun r hr => hord r (List.mem_cons_of_mem _ hr))
      (fun r hr => hps r (List.mem_cons_of_mem _ hr))
    refine ⟨m1, some ⟨job, start, highestStamp (p.records h),
      (m.mMainStreamName, p) :: others⟩ :: ds, ?_, by simp only [List.length_cons, hlen], ?_,
      ?_⟩
    · simp only [fireEach, hfire, hrest]
    · rw [hlam]
      rfl
    · have hs : sliceEnds lastTime ((h, buffers, p) :: rounds)
          = lastTime :: sliceEnds (highestStamp (p.records h)) rounds := rfl
      intro k r hk
      rw [hs]
      cases k with
      | zero =>
        simp only [List.getElem?_cons_zero] at hk
        cases hk
        refine ⟨⟨job, start, highestStamp (p.records h), (m.mMainStreamName, p) :: others⟩,
          List.getElem?_cons_zero, rfl, ?_, rfl, ?_⟩
        · simp only [sliceEnds, List.getD_cons_succ, List.getD_cons_zero]
        · simp only [List.getD_cons_succ, List.getD_cons_zero, sliceEnds]
          exact hrel
      | succ k =>
        simp only [List.getElem?_cons_succ] at hk
        obtain ⟨d, hd, h1, h2, h3, h4⟩ := hall k r hk
        refine ⟨d, ?_, h1, ?_, h3, ?_⟩
        · rw [List.getElem?_cons_succ]
          exact hd
        · rw [List.getD_cons_succ]
          exact h2
        · simp only [List.getD_cons_succ]
          exact h4

/-- C30: a `BACKWARD` job is registered with a lambda whose `lastTime` is -1, and at its
firings `1, 2, ...` (each with the buffers of its moment) the k-th callback is invoked at the
k-th firing, with the main slice `k` and, for every secondary stream of whatever type, that
stream's buffered records with timestamps in `(e_{k-1}, e_k]`, where `e_k` is the highest
timestamp of the main slice `k` and `e_0` the `lastTime` before the first firing; the lambda
is left with `lastTime = e_k`, so successive windows are disjoint and leave no gap. -/
theorem backward_windows {σ : Type} (S : StreamSlicer σ) (m0 : MultiStreamSlicer σ) (n : Nat)
    (job : Int) (m : MultiStreamSlicer σ) (lastTime : Int)
    (rounds : List (Heap × List (String × Packet) × Packet))
    (hjob : mapGet job m.closures = some (.backward lastTime))
    (hord : ∀ r ∈ rounds, ∀ c ∈ r.2.1, c.1 ≠ m.mMainStreamName → c.2.Ordered r.1)
    (hps : ∀ r ∈ rounds, r.2.2.isPacketEmpty = false ∧ r.2.2.Ordered r.1) :
    (m0.doEveryNumberOfElements S n true).1.closures.getLast?
        = some ((m0.doEveryNumberOfElements S n true).2, Closure.backward (-1))
    ∧ ∃ m1 ds, m.fireEach job rounds = .ok (m1, ds)
      ∧ ds.length = rounds.length
      ∧ mapGet job m1.closures
          = some (.backward ((sliceEnds lastTime rounds).getD rounds.length 0))
      ∧ ∀ k r, rounds[k]? = some r →
        ∃ d, ds[k]? = some (some d) ∧ d.job = job
          ∧ d.endTime = (sliceEnds lastTime rounds).getD (k + 1) 0
          ∧ d.data.head? = some (m.mMainStreamName, r.2.2)
          ∧ ∀ c ∈ r.2.1, c.1 ≠ m.mMainStreamName →
            ∃ q, (c.1, q) ∈ d.data.tail
              ∧ q.records r.1 = (c.2.records r.1).filter (fun e =>
                  decide ((sliceEnds lastTime rounds).getD k 0 < e.timestamp)
                    && decide (e.timestamp ≤ (sliceEnds lastTime rounds).getD (k + 1) 0)) := by
  refine ⟨?_, MultiStreamSlicer.fireEach_backward job rounds m lastTime hjob hord hps⟩
  simp only [MultiStreamSlicer.doEveryNumberOfElements, if_true, List.getLast?_append,
    List.getLast?_singleton]
  rfl

theorem twoFirings_ordered : ∀ r ∈ twoFirings,
    (r.2.2.isPacketEmpty = false ∧ r.2.2.Ordered r.1) ∧ ∀ c ∈ r.2.1, c.2.Ordered r.1 := by
  intro r hr
  simp only [twoFirings, List.mem_cons, List.mem_singleton, List.not_mem_nil, or_false] at hr
  rcases hr with rfl | rfl
  · refine ⟨⟨rfl, samples_ordered _ [5] (by decide) (by norm_num)⟩, ?_⟩
    intro c hc
    simp only [List.mem_cons, List.mem_singleton, List.not_mem_nil, or_false] at hc
    rcases hc with rfl | rfl
    · exact samples_ordered _ [5, 20] (by decide) (by norm_num)
    · exact samples_ordered _ [1, 3, 10] (by decide) (by norm_num)
  · refine ⟨⟨rfl, samples_ordered _ [20] (by decide) (by norm_num)⟩, ?_⟩
    intro c hc
    simp only [List.mem_cons, List.mem_singleton, List.not_mem_nil, or_false] at hc
    rcases hc with rfl | rfl
    · exact samples_ordered _ [20] (by decide) (by norm_num)
    · exact samples_ordered _ [3, 10, 15, 20, 30] (by decide) (by norm_num)

/-- C30 at two firings of the job of `fedStreams`: the event 5 comes with the frames of
`(-1, 5]`, the event 20 with the frames of `(5, 20]`. -/
theorem backward_windows_witness :
    (twoStreams.doEveryNumberOfElements specSlicer 1 true).1.closures.getLast?
        = some ((twoStreams.doEveryNumberOfElements specSlicer 1 true).2, Closure.backward (-1))
    ∧ ∃ m1 ds, fedStreams.fireEach 0 twoFirings = .ok (m1, ds)
      ∧ ds.length = twoFirings.length
      ∧ mapGet 0 m1.closures
          = some (.backward ((sliceEnds (-1) twoFirings).getD twoFirings.length 0))
      ∧ ∀ k r, twoFirings[k]? = some r →
        ∃ d, ds[k]? = some (some d) ∧ d.job = 0
          ∧ d.endTime = (sliceEnds (-1) twoFirings).getD (k + 1) 0
          ∧ d.data.head? = some (fedStreams.mMainStreamName, r.2.2)
          ∧ ∀ c ∈ r.2.1, c.1 ≠ fedStreams.mMainStreamName →
            ∃ q, (c.1, q) ∈ d.data.tail
              ∧ q.records r.1 = (c.2.records r.1).filter (fun e =>
                  decide ((sliceEnds (-1) twoFirings).getD k 0 < e.timestamp)
                    && decide (e.timestamp ≤ (sliceEnds (-1) twoFirings).getD (k + 1) 0)) :=
  backward_windows specSlicer twoStreams 1 0 fedStreams (-1) twoFirings rfl
    (fun r hr c hc _ => (twoFirings_ordered r hr).2 c hc)
    (fun r hr => (twoFirings_ordered r hr).1)

/-- The two firings of `twoFirings` on `fedStreams`, evaluated. -/
theorem twoFirings_deliveries :
    (fedStreams.fireEach 0 twoFirings).map (fun r => r.2.map (Option.map Delivery.data))
      = .ok [some [("events", eventsAt [5]), ("frames", framesAt [1, 3])],
             some [("events", eventsAt [20]), ("frames", framesAt [10, 15, 20])]] := rfl

/-! ## The two branches of the speed invariant surface -/

/-- C38: on a surface of `8 × 8` cells with patch diameter 2, all cells 9 and the cell of the
record 0, a record at `(4, 4)` lies where no edge clips the loop; `accept` takes the interior
branch, whose block update decrements the three cells `(3,3)`, `(3,4)`, `(4,3)`, while the
clamped loop on the same input decrements the eight cells around `(4, 4)`. -/
theorem branches_differ :
    (flatSurface 2 8 8 4 4).unclipped (evAt 4 4 7) = true
    ∧ ((flatSurface 2 8 8 4 4).accept (evAt 4 4 7)).map (fun s => s.surface.table 7 8)
      = .ok [[9, 9, 9, 9, 9, 9, 9, 9], [9, 9, 9, 9, 9, 9, 9, 9], [9, 9, 9, 9, 9, 9, 9, 9],
             [9, 9, 9, 8, 8, 9, 9, 9], [9, 9, 9, 8, 9, 9, 9, 9], [9, 9, 9, 9, 9, 9, 9, 9],
             [9, 9, 9, 9, 9, 9, 9, 9]]
    ∧ ((flatSurface 2 8 8 4 4).batchUpdate (evAt 4 4 7)).map (fun t => t.table 7 8)
      = .ok [[9, 9, 9, 9, 9, 9, 9, 9], [9, 9, 9, 9, 9, 9, 9, 9], [9, 9, 9, 9, 9, 9, 9, 9],
             [9, 9, 9, 8, 8, 9, 9, 9], [9, 9, 9, 8, 0, 9, 9, 9], [9, 9, 9, 9, 9, 9, 9, 9],
             [9, 9, 9, 9, 9, 9, 9, 9]]
    ∧ ((flatSurface 2 8 8 4 4).clampedLoop (evAt 4 4 7)).table 7 8
      = [[9, 9, 9, 9, 9, 9, 9, 9], [9, 9, 9, 9, 9, 9, 9, 9], [9, 9, 9, 9, 9, 9, 9, 9],
         [9, 9, 9, 8, 8, 8, 9, 9], [9, 9, 9, 8, 0, 8, 9, 9], [9, 9, 9, 8, 8, 8, 9, 9],
         [9, 9, 9, 9, 9, 9, 9, 9]] :=
  ⟨rfl, rfl, rfl, rfl⟩

/-- C40: on a surface of 5 rows and 9 columns with patch diameter 4 a record at
`(y, x) = (4, 4)` is inside the grid, and `accept` takes the interior branch (its test compares
`y` with `cols()`), whose block of the rows 2 to 5 leaves the matrix of 5 rows. -/
theorem accept_leaves_grid :
    (flatSurface 4 5 9 4 4).surface.inRange 4 4 = true
    ∧ ((flatSurface 4 5 9 4 4).accept (evAt 4 4 7)).map (fun s => s.surface.table 5 9)
      = .error .undefinedBehaviour
    ∧ ((flatSurface 4 5 9 4 4).clampedLoop (evAt 4 4 7)).table 5 9
      = [[9, 9, 9, 9, 9, 9, 9, 9, 9], [9, 9, 9, 9, 9, 9, 9, 9, 9], [9, 9, 8, 8, 8, 8, 8, 9, 9],
         [9, 9, 8, 8, 8, 8, 8, 9, 9], [9, 9, 8, 8, 0, 8, 8, 9, 9]] :=
  ⟨rfl, rfl, rfl⟩

/-! ## The time cache of a merged shard -/

/-- C39: the merge of the shard `[5,6]` into a fresh shard (constructor
`PartialEventData(capacity)`, empty window) succeeds and leaves a shard of length 2 whose
window is `[5,6]` and whose `getHighestTime()` is 6, but whose `getLowestTime()` is 0, not the
timestamp 5 of its first record. -/
theorem merge_into_empty_shard :
    mergedFresh.2.2 = true
    ∧ mergedFresh.2.1.length = 2
    ∧ (mergedFresh.2.1.window mergedFresh.1).map Event.timestamp = [5, 6]
    ∧ mergedFresh.2.1.highestTime = 6
    ∧ mergedFresh.2.1.lowestTime = 0 :=
  ⟨rfl, rfl, rfl, rfl, rfl⟩

/-! ## Trimming with a minimum size beyond `int64_t` -/

/-- C37: on the vector with one record at 5, `eraseUpToIterable(10, 2^64 - 1, packet)`
computes `sizeBoundIndex = 1 - (2^64 - 1) - 1 = 1` in `size_t`, which is not negative, and
reads the element at position 1, outside the vector; `eraseUpTo` on the vector does the same,
and so does the evaluation of a slicer whose `mRetainSize` is `2^64 - 1`. -/
theorem eraseUpTo_reads_outside :
    Packet.eraseUpToIterable 10 (2 ^ 64 - 1) [stamp 5] = .error .undefinedBehaviour
    ∧ (framesAt [5]).eraseUpTo demoHeap 10 (2 ^ 64 - 1) = .error .undefinedBehaviour
    ∧ (MultiStreamSlicer.calls specSlicer demoHeap
        { twoStreams with mRetainSize := 2 ^ 64 - 1 }
        [.accept "frames" (framesAt [1]), .accept "events" (eventsAt [5])]).map
          (List.map Evaluation.summary) = .error .undefinedBehaviour :=
  ⟨rfl, rfl, rfl⟩

/-! ## `MultiStreamSlicer`: a datum of another type -/

/-- C33: a vector of triggers supplied to the stream `frames` is refused with `RuntimeError`,
but a single trigger supplied to it is not: on the fresh slicer the call returns with nothing
changed, and after `setStreamSeekTime("frames", 10)`, a frame at 100 and the events 50 and
200 (stored limit 101), the call with the single trigger returns, leaves the buffers as they
are and performs an evaluation, which hands an empty packet to the main slicer and stores the
limit 11. -/
theorem single_element_mismatch :
    (twoStreams.accept specSlicer demoHeap "frames" (.samples .triggers [stamp 7])).map
        Evaluation.summary = .error .runtimeError
    ∧ (twoStreams.acceptElement specSlicer demoHeap "frames" .trigger (stamp 7)).map
        Evaluation.summary
      = .ok ([("events", eventsAt []), ("frames", framesAt [])], -1, [])
    ∧ (MultiStreamSlicer.calls specSlicer demoHeap twoStreams
        [.setStreamSeekTime "frames" 10, .accept "frames" (framesAt [100]),
         .accept "events" (eventsAt [50, 200]),
         .acceptElement "frames" .trigger (stamp 150)]).map (List.map Evaluation.summary)
      = .ok [([("events", eventsAt []), ("frames", framesAt [])], -1, []),
             ([("events", eventsAt []), ("frames", framesAt [100])], -1, []),
             ([("events", eventsAt [200]), ("frames", framesAt [])], 101, [eventsAt [50]]),
             ([("events", eventsAt [200]), ("frames", framesAt [])], 11, [eventsAt []])] :=
  ⟨rfl, rfl, rfl⟩

/-- A single element of another type than the elements of a packet or vector buffer: the
call is the evaluation of the unchanged slicer. -/
theorem MultiStreamSlicer.acceptElement_mismatch {σ : Type} (S : StreamSlicer σ) (h : Heap)
    (m : MultiStreamSlicer σ) (streamName : String) (vectorKind : VectorKind)
    (streamBuffer : List Event) (kind : ElementKind) (data : Event)
    (hb : mapGet streamName m.mBuffer = some (.samples vectorKind streamBuffer))
    (hk : vectorKind.element ≠ kind) :
    m.acceptElement S h streamName kind data = m.evaluate S h := by
  simp only [acceptElement, hb, if_neg hk]

/-- A packet of another type than the buffer of the stream: `RuntimeError`, and nothing is
evaluated or changed, the exception leaving `accept` before `evaluate()`. -/
theorem MultiStreamSlicer.accept_mismatch {σ : Type} (S : StreamSlicer σ) (h : Heap)
    (m : MultiStreamSlicer σ) (streamName : String) (kind kind1 : VectorKind)
    (data buffer : List Event)
    (hb : mapGet streamName m.mBuffer = some (.samples kind1 buffer)) (hk : kind ≠ kind1) :
    m.accept S h streamName (.samples kind data) = .error .runtimeError := by
  simp only [accept, hb, Packet.mergePackets, if_neg hk]

/-! ## `MultiStreamSlicer`: the retention bounds after a change of the jobs -/

/-- C34: with two count jobs of 2 and of 5 records, `modifyNumberInterval(0, 3)` leaves the
configuration with the numbers 3 and 5, whose largest is 5, and sets `mRetainSize` to
`2^64 - 1`, the `mInterval = -1` of the count job converted to `size_t`. -/
theorem modifyNumberInterval_retains :
    (countJobs.modifyNumberInterval specSlicer 0 3).map
        (fun m => (m.mConfig.map (fun c => (c.1, c.2.mNumberOfElements)),
          (retentionOf m.mConfig).2, m.mRetainSize))
      = .ok ([(0, 3), (1, 5)], 5, 18446744073709551615) := rfl

/-- C35: with two time-interval jobs of 1000 µs and of 5000 µs, `removeJob(1)` leaves the job
of 1000 µs and `mRetainDuration = 5000`; with two count jobs of 2 and of 5 records,
`removeJob(1)` leaves the job of 2 records and `mRetainSize = 5`.  `modifyTimeInterval(1, 500)`
on the same jobs does recompute the bound, to 1000. -/
theorem removeJob_keeps_bounds :
    ((intervalJobs.removeJob specSlicer 1).mConfig.map (fun c => (c.1, c.2.mInterval)),
      retentionOf (intervalJobs.removeJob specSlicer 1).mConfig,
      (intervalJobs.removeJob specSlicer 1).mRetainDuration)
      = ([(0, 1000)], (1000, 0), 5000)
    ∧ ((countJobs.removeJob specSlicer 1).mConfig.map (fun c => (c.1, c.2.mNumberOfElements)),
      retentionOf (countJobs.removeJob specSlicer 1).mConfig,
      (countJobs.removeJob specSlicer 1).mRetainSize)
      = ([(0, 2)], (-1, 2), 5)
    ∧ (intervalJobs.modifyTimeInterval specSlicer 1 500).map
        (fun m => (retentionOf m.mConfig, m.mRetainDuration)) = .ok ((1000, 0), 1000) :=
  ⟨rfl, rfl, rfl⟩

/-! ## `MultiStreamSlicer`: the `FORWARD` lambda -/

theorem foldl_lowest_eq (l : List Event) (a lo : Int) (ha : lo ≤ a)
    (hall : ∀ e ∈ l, lo ≤ e.timestamp) (hex : a = lo ∨ ∃ e ∈ l, e.timestamp = lo) :
    l.foldl (fun a x => Min.min a x.timestamp) a = lo := by
  induction l generalizing a with
  | nil =>
    rcases hex with hex | ⟨e, he, _⟩
    · exact hex
    · cases he
  | cons x l ih =>
    rw [List.foldl_cons]
    have hx := hall x (List.mem_cons_self _ _)
    apply ih
    · exact le_min ha hx
    · intro e he
      exact hall e (List.mem_cons_of_mem _ he)
    · rcases hex with hex | ⟨e, he, het⟩
      · left
        rw [hex]
        exact min_eq_left hx
      · rcases List.mem_cons.mp he with rfl | he
        · left
          rw [het]
          exact min_eq_right ha
        · exact Or.inr ⟨e, he, het⟩

theorem lowestStamp_eq (l : List Event) (lo : Int) (hex : ∃ e ∈ l, e.timestamp = lo)
    (hall : ∀ e ∈ l, lo ≤ e.timestamp) : lowestStamp l = lo := by
  cases l with
  | nil =>
    obtain ⟨e, he, _⟩ := hex
    cases he
  | cons x l =>
    unfold lowestStamp
    apply foldl_lowest_eq
    · exact hall x (List.mem_cons_self _ _)
    · intro e he
      exact hall e (List.mem_cons_of_mem _ he)
    · obtain ⟨e, he, het⟩ := hex
      rcases List.mem_cons.mp he with rfl | he
      · exact Or.inl het
      · exact Or.inr ⟨e, he, het⟩

theorem Packet.timeWindow_start (h : Heap) (p : Packet) (ho : p.Ordered h)
    (hne : p.isPacketEmpty = false) :
    ∃ w, p.getPacketTimeWindow = .ok w ∧ w.1 = lowestStamp (p.records h) := by
  cases p with
  | monostate => cases hne
  | store s =>
    obtain ⟨hv, hi, hT, hs, _, _⟩ := ho
    obtain ⟨lo, hi2, hlo, hhi, hall⟩ := EventStore.time_range h s hv hT hs hi.total
    refine ⟨(lo, hi2), by simp only [getPacketTimeWindow, hlo, hhi], ?_⟩
    symm
    apply lowestStamp_eq
    · have htot : s.totalLength ≠ 0 := by simpa [isPacketEmpty, EventStore.isEmpty] using hne
      rcases hps : s.dataPartials with _ | ⟨first, rest⟩
      · have := hi.total
        rw [hps] at this
        simp at this
        exact absurd this htot
      · have hmem : first ∈ s.dataPartials := by
          rw [hps]
          exact List.mem_cons_self _ _
        obtain ⟨_, _, hb⟩ := EventStore.order_facts h s hv hT hs
        obtain ⟨⟨x, hx, hxt⟩, _, _⟩ := hb _ hmem
        have hh := EventStore.getLowestTime_head htot (show s.dataPartials.head? = some first by
          rw [hps]
          rfl)
        rw [hlo] at hh
        have : lo = first.lowestTime := Except.ok.inj hh
        refine ⟨x, ?_, by rw [hxt, this]⟩
        exact List.mem_flatMap.mpr ⟨_, hmem, hx⟩
    · intro e he
      exact (hall e he).1
  | samples kind v =>
    have hnil : v ≠ [] := by
      intro hnil
      simp [isPacketEmpty, hnil] at hne
    obtain ⟨first, rest, rfl⟩ := List.exists_cons_of_ne_nil hnil
    have hlast : (first :: rest).getLast? = some ((first :: rest).getLast hnil) :=
      List.getLast?_eq_getLast _ hnil
    refine ⟨(first.timestamp, ((first :: rest).getLast hnil).timestamp), ?_, ?_⟩
    · simp only [getPacketTimeWindow, List.head?_cons, hlast]
    · symm
      apply lowestStamp_eq
      · exact ⟨first, List.mem_cons_self _ _, rfl⟩
      · intro e he
        rcases List.mem_cons.mp he with rfl | he
        · exact le_refl _
        · exact (List.pairwise_cons.mp ho.1).1 e he

theorem MultiStreamSlicer.fire_forward_first {σ : Type} (h : Heap) (m : MultiStreamSlicer σ)
    (job : Int) (lastSlice p : Packet)
    (hjob : mapGet job m.closures = some (.forward lastSlice))
    (hl : lastSlice.isPacketEmpty = true) (hne : p.isPacketEmpty = false) :
    fire h m (.number job p)
      = .ok ({ m with
          closures := m.closures.map (fun c =>
            if c.1 = job then (job, Closure.forward p) else c) }, none) := by
  simp only [fire, hjob, hne, hl, Bool.false_eq_true, if_false, if_true]

theorem MultiStreamSlicer.fire_forward_next {σ : Type} (h : Heap) (m : MultiStreamSlicer σ)
    (job : Int) (lastSlice p : Packet) (w : Int × Int)
    (hjob : mapGet job m.closures = some (.forward lastSlice))
    (hl : lastSlice.isPacketEmpty = false) (hw : lastSlice.getPacketTimeWindow = .ok w)
    (hord : ∀ c ∈ m.mBuffer, c.1 ≠ m.mMainStreamName → c.2.Ordered h)
    (hne : p.isPacketEmpty = false) (hp : p.Ordered h) :
    ∃ others,
      fire h m (.number job p)
        = .ok ({ m with
            closures := m.closures.map (fun c =>
              if c.1 = job then (job, Closure.forward p) else c) },
          some ⟨job, w.1, lowestStamp (p.records h), (m.mMainStreamName, lastSlice) :: others⟩)
      ∧ ∀ c ∈ m.mBuffer, c.1 ≠ m.mMainStreamName →
        ∃ q, (c.1, q) ∈ others
          ∧ q.records h
            = (c.2.records h).filter (inWindow w.1 (lowestStamp (p.records h))) := by
  obtain ⟨wp, hwp, hwp2⟩ := Packet.timeWindow_start h p hp hne
  obtain ⟨others, hsl, hrel⟩ := sliceSecondaries_spec h m.mMainStreamName w.1 wp.1 m.mBuffer
    hord
  rw [hwp2] at hsl hrel
  refine ⟨others, ?_, hrel⟩
  simp only [fire, hjob, hne, hl, hw, hwp, hwp2, hsl, Bool.false_eq_true, if_false]

theorem MultiStreamSlicer.fireEach_forward {σ : Type} (job : Int)
    (rounds : List (Heap × List (String × Packet) × Packet)) :
    ∀ (m : MultiStreamSlicer σ) (lastSlice : Packet) (w : Int × Int),
      mapGet job m.closures = some (.forward lastSlice) →
      lastSlice.isPacketEmpty = false →
      lastSlice.getPacketTimeWindow = .ok w →
      (∀ r ∈ rounds, ∀ c ∈ r.2.1, c.1 ≠ m.mMainStreamName → c.2.Ordered r.1) →
      (∀ r ∈ rounds, r.2.2.isPacketEmpty = false ∧ r.2.2.Ordered r.1) →
      ∃ m1 ds, fireEach job m rounds = .ok (m1, ds)
        ∧ ds.length = rounds.length
        ∧ ∀ k r, rounds[k]? = some r →
          ∃ d prev, ds[k]? = some (some d) ∧ d.job = job
            ∧ (lastSlice :: rounds.map (fun r => r.2.2))[k]? = some prev
            ∧ d.data.head? = some (m.mMainStreamName, prev)
            ∧ d.startTime = (sliceStarts w.1 rounds).getD k 0
            ∧ d.endTime = (sliceStarts w.1 rounds).getD (k + 1) 0
            ∧ ∀ c ∈ r.2.1, c.1 ≠ m.mMainStreamName →
              ∃ q, (c.1, q) ∈ d.data.tail
                ∧ q.records r.1 = (c.2.records r.1).filter
                    (inWindow ((sliceStarts w.1 rounds).getD k 0)
                      ((sliceStarts w.1 rounds).getD (k + 1) 0)) := by
  induction rounds with
  | nil =>
    intro m lastSlice w _ _ _ _ _
    exact ⟨m, [], rfl, rfl, fun k r hk => by cases hk⟩
  | cons r rounds ih =>
    intro m lastSlice w hjob hl hw hord hps
    obtain ⟨h, buffers, p⟩ := r
    obtain ⟨hne, hp⟩ := hps _ (List.mem_cons_self _ _)
    obtain ⟨others, hfire, hrel⟩ := fire_forward_next h { m with mBuffer := buffers } job
      lastSlice p w hjob hl hw (hord _ (List.mem_cons_self _ _)) hne hp
    obtain ⟨wp, hwp, hwp2⟩ := Packet.timeWindow_start h p hp hne
    obtain ⟨m1, ds, hrest, hlen, hall⟩ := ih
      { m with
        mBuffer := buffers
        closures := m.closures.map (fun c =>
          if c.1 = job then (job, Closure.forward p) else c) }
      p wp (mapGet_update job _ _ _ hjob) hne hwp
      (fun r hr => hord r (List.mem_cons_of_mem _ hr))
      (fun r hr => hps r (List.mem_cons_of_mem _ hr))
    rw [hwp2] at hall
    refine ⟨m1, some ⟨job, w.1, lowestStamp (p.records h),
      (m.mMainStreamName, lastSlice) :: others⟩ :: ds, ?_,
      by simp only [List.length_cons, hlen], ?_⟩
    · simp only [fireEach, hfire, hrest]
    · have hs : sliceStarts w.1 ((h, buffers, p) :: rounds)
          = w.1 :: sliceStarts (lowestStamp (p.records h)) rounds := rfl
      intro k r hk
      rw [hs]
      cases k with
      | zero =>
        simp only [List.getElem?_cons_zero] at hk
        cases hk
        refine ⟨⟨job, w.1, lowestStamp (p.records h),
          (m.mMainStreamName, lastSlice) :: others⟩, lastSlice,
          List.getElem?_cons_zero, rfl, List.getElem?_cons_zero, rfl, ?_, ?_, ?_⟩
        · simp only [List.getD_cons_zero]
        · simp only [sliceStarts, List.getD_cons_succ, List.getD_cons_zero]
        · simp only [List.getD_cons_succ, List.getD_cons_zero, sliceStarts]
          exact hrel
      | succ k =>
        simp only [List.getElem?_cons_succ] at hk
        obtain ⟨d, prev, hd, h1, hprev, h2, h3, h4, h5⟩ := hall k r hk
        refine ⟨d, prev, ?_, h1, ?_, h2, ?_, ?_, ?_⟩
        · rw [List.getElem?_cons_succ]
          exact hd
        · rw [List.map_cons, List.getElem?_cons_succ]
          exact hprev
        · rw [List.getD_cons_succ]
          exact h3
        · rw [List.getD_cons_succ]
          exact h4
        · simp only [List.getD_cons_succ]
          exact h5

/-- C31: a `FORWARD` job is registered with a lambda whose `lastSlice` is empty. At its
firings (each with the buffers of its moment and a non-empty main slice) the first firing
invokes no user callback, and every later firing `k` invokes the callback once, with the main
slice `k - 1`, the time window `[s_{k-1}, s_k)` and, for every secondary stream, that stream's
buffered records with timestamps in `[s_{k-1}, s_k)`, `s_j` being the lowest timestamp of the
main slice `j`. -/
theorem forward_windows {σ : Type} (S : StreamSlicer σ) (m0 : MultiStreamSlicer σ) (n : Nat)
    (job : Int) (m : MultiStreamSlicer σ) (lastSlice : Packet)
    (first : Heap × List (String × Packet) × Packet)
    (rest : List (Heap × List (String × Packet) × Packet))
    (hjob : mapGet job m.closures = some (.forward lastSlice))
    (hl : lastSlice.isPacketEmpty = true)
    (hord : ∀ r ∈ rest, ∀ c ∈ r.2.1, c.1 ≠ m.mMainStreamName → c.2.Ordered r.1)
    (hps : ∀ r ∈ first :: rest, r.2.2.isPacketEmpty = false ∧ r.2.2.Ordered r.1) :
    (∃ empty, (m0.doEveryNumberOfElements S n false).1.closures.getLast?
        = some ((m0.doEveryNumberOfElements S n false).2, Closure.forward empty)
      ∧ empty.isPacketEmpty = true)
    ∧ ∃ m1 ds, m.fireEach job (first :: rest) = .ok (m1, ds)
      ∧ ds.length = rest.length + 1
      ∧ ds[0]? = some none
      ∧ ∀ k r, rest[k]? = some r →
        ∃ d prev, ds[k + 1]? = some (some d) ∧ d.job = job
          ∧ ((first :: rest).map (fun r => r.2.2))[k]? = some prev
          ∧ d.data.head? = some (m.mMainStreamName, prev)
          ∧ d.startTime
              = (sliceStarts (lowestStamp (first.2.2.records first.1)) rest).getD k 0
          ∧ d.endTime
              = (sliceStarts (lowestStamp (first.2.2.records first.1)) rest).getD (k + 1) 0
          ∧ ∀ c ∈ r.2.1, c.1 ≠ m.mMainStreamName →
            ∃ q, (c.1, q) ∈ d.data.tail
              ∧ q.records r.1 = (c.2.records r.1).filter
                  (inWindow
                    ((sliceStarts (lowestStamp (first.2.2.records first.1)) rest).getD k 0)
                    ((sliceStarts (lowestStamp (first.2.2.records first.1)) rest).getD
                      (k + 1) 0)) := by
  constructor
  · refine ⟨.monostate, ?_, rfl⟩
    simp only [MultiStreamSlicer.doEveryNumberOfElements, Bool.false_eq_true, if_false,
      List.getLast?_append, List.getLast?_singleton]
    rfl
  · obtain ⟨h, buffers, p⟩ := first
    obtain ⟨hne, hp⟩ := hps _ (List.mem_cons_self _ _)
    have hfire := MultiStreamSlicer.fire_forward_first h { m with mBuffer := buffers } job
      lastSlice p hjob hl hne
    obtain ⟨wp, hwp, hwp2⟩ := Packet.timeWindow_start h p hp hne
    obtain ⟨m1, ds, hrest, hlen, hall⟩ := MultiStreamSlicer.fireEach_forward job rest
      { m with
        mBuffer := buffers
        closures := m.closures.map (fun c =>
          if c.1 = job then (job, Closure.forward p) else c) }
      p wp (mapGet_update job _ _ _ hjob) hne hwp hord
      (fun r hr => hps r (List.mem_cons_of_mem _ hr))
    rw [hwp2] at hall
    refine ⟨m1, none :: ds, ?_, by simp only [List.length_cons, hlen],
      List.getElem?_cons_zero, ?_⟩
    · simp only [MultiStreamSlicer.fireEach, hfire, hrest]
    · intro k r hk
      obtain ⟨d, prev, hd, h1, hprev, h2, h3, h4, h5⟩ := hall k r hk
      exact ⟨d, prev, by rw [List.getElem?_cons_succ]; exact hd, h1, hprev, h2, h3, h4, h5⟩

/-- C31 at two firings of the `FORWARD` job of `forwardStreams`: the event 5 is held back,
and comes at the firing of the event 20 with the frames of `[5, 20)`. -/
theorem forward_windows_witness :
    (∃ empty, (twoStreams.doEveryNumberOfElements specSlicer 1 false).1.closures.getLast?
        = some ((twoStreams.doEveryNumberOfElements specSlicer 1 false).2,
            Closure.forward empty)
      ∧ empty.isPacketEmpty = true)
    ∧ ∃ m1 ds, forwardStreams.fireEach 0 twoFirings = .ok (m1, ds)
      ∧ ds.length = 1 + 1
      ∧ ds[0]? = some none
      ∧ ∀ k r, [(demoHeap, [("events", eventsAt [20]),
            ("frames", framesAt [3, 10, 15, 20, 30])], eventsAt [20])][k]? = some r →
        ∃ d prev, ds[k + 1]? = some (some d) ∧ d.job = 0
          ∧ (twoFirings.map (fun r => r.2.2))[k]? = some prev
          ∧ d.data.head? = some (forwardStreams.mMainStreamName, prev)
          ∧ d.startTime
              = (sliceStarts (lowestStamp ((eventsAt [5]).records demoHeap))
                  twoFirings.tail).getD k 0
          ∧ d.endTime
              = (sliceStarts (lowestStamp ((eventsAt [5]).records demoHeap))
                  twoFirings.tail).getD (k + 1) 0
          ∧ ∀ c ∈ r.2.1, c.1 ≠ forwardStreams.mMainStreamName →
            ∃ q, (c.1, q) ∈ d.data.tail
              ∧ q.records r.1 = (c.2.records r.1).filter
                  (inWindow
                    ((sliceStarts (lowestStamp ((eventsAt [5]).records demoHeap))
                      twoFirings.tail).getD k 0)
                    ((sliceStarts (lowestStamp ((eventsAt [5]).records demoHeap))
                      twoFirings.tail).getD (k + 1) 0)) :=
  forward_windows specSlicer twoStreams 1 0 forwardStreams .monostate
    (demoHeap, [("events", eventsAt [5, 20]), ("frames", framesAt [1, 3, 10])], eventsAt [5])
    [(demoHeap, [("events", eventsAt [20]), ("frames", framesAt [3, 10, 15, 20, 30])],
      eventsAt [20])]
    rfl rfl
    (fun r hr c hc _ => (twoFirings_ordered r (List.mem_cons_of_mem _ hr)).2 c hc)
    (fun r hr => (twoFirings_ordered r hr).1)

/-- The two firings of `twoFirings` on `forwardStreams`, evaluated. -/
theorem forward_deliveries :
    (forwardStreams.fireEach 0 twoFirings).map
        (fun r => r.2.map (Option.map (fun d => (d.startTime, d.endTime, d.data))))
      = .ok [none, some (5, 20, [("events", eventsAt [5]), ("frames", framesAt [10, 15])])] :=
  rfl

/-! ## `MultiStreamSlicer`: secondary records between two firings -/

/-- C32: with a `BACKWARD` count job of 2 events, the frames 1 to 10, then the events 5 and
20, then a frame at 30: the second call feeds the event 5 (no firing yet) and trims `frames`
to the frames 8, 9, 10; the third call feeds the event 20, and the only firing, of the main
slice `[5, 20]`, delivers the frames 8, 9, 10 of the window `(-1, 20]`: the frames 1 to 7,
ingested and inside the window, are delivered to no callback. -/
theorem frames_lost_before_firing :
    (MultiStreamSlicer.calls specSlicer demoHeap (countStreams 2)
        [.accept "frames" (framesAt [1, 2, 3, 4, 5, 6, 7, 8, 9, 10]),
         .accept "events" (eventsAt [5, 20]),
         .accept "frames" (framesAt [30])]).map (List.map Evaluation.report)
      = .ok [([], [("events", eventsAt []),
                ("frames", framesAt [1, 2, 3, 4, 5, 6, 7, 8, 9, 10])], []),
             ([], [("events", eventsAt [20]), ("frames", framesAt [8, 9, 10])],
               [eventsAt [5]]),
             ([[("events", eventsAt [5, 20]), ("frames", framesAt [8, 9, 10])]],
               [("events", eventsAt []), ("frames", framesAt [9, 10, 30])],
               [eventsAt [20]])] := rfl

set_option maxRecDepth 100000 in
/-- The scenario of the specification: a `BACKWARD` count job of 100 events, frames every 50
µs from 10 to 260 and the 250 events 1 to 250: two firings, with the frames 10 and 60 and
with the frames 110 and 160. -/
theorem two_firings_of_250 :
    (MultiStreamSlicer.calls specSlicer demoHeap (countStreams 100)
        [.accept "frames" (framesAt [10, 60, 110, 160, 210, 260]),
         .accept "events" (eventsAt ((List.range 250).map (fun i => Int.ofNat i + 1)))]).map
          (List.map (fun ev => ev.deliveries.map
            (fun d => (d.startTime, d.endTime, (d.data.drop 1)))))
      = .ok [[], [(1, 100, [("frames", framesAt [10, 60])]),
                  (101, 200, [("frames", framesAt [110, 160])])]] := rfl

/-! ## The indices that `sliceTime` returns -/

theorem PartialEventData.sliceTimeFront_full (h : Heap) (p : PartialEventData) (t : Int)
    (hv : p.Valid h) (hs : (p.window h).Pairwise (fun a b => a.timestamp ≤ b.timestamp)) :
    ∃ q, p.sliceTimeFront h t = .ok (q, p.iteratorAtTime h t)
      ∧ p.iteratorAtTime h t ≤ p.length
      ∧ q.length = p.length - p.iteratorAtTime h t
      ∧ q.window h = (p.window h).filter (fun e => decide (t ≤ e.timestamp))
      ∧ (p.window h).take (p.iteratorAtTime h t)
          = (p.window h).filter (fun e => decide (e.timestamp < t))
      ∧ q.Valid h := by
  obtain ⟨hk, ht, hd⟩ := iteratorAtTime_spec h p t hv hs
  obtain ⟨q, hq, hl, hst, hdat, hw⟩ := sliceFront_ok h p (p.iteratorAtTime h t) hk
  refine ⟨q, ?_, hk, hl, by rw [hw, hd], ht, valid_of_narrow hv hdat (by omega)⟩
  simp only [sliceTimeFront, hq]

theorem PartialEventData.sliceTimeBack_full (h : Heap) (p : PartialEventData) (t : Int)
    (hv : p.Valid h) (hs : (p.window h).Pairwise (fun a b => a.timestamp ≤ b.timestamp)) :
    ∃ q, p.sliceTimeBack h t = .ok (q, p.length - p.iteratorAtTime h t)
      ∧ q.length = p.iteratorAtTime h t
      ∧ p.iteratorAtTime h t ≤ p.length
      ∧ q.window h = (p.window h).filter (fun e => decide (e.timestamp < t))
      ∧ q.Valid h := by
  obtain ⟨hk, ht, _⟩ := iteratorAtTime_spec h p t hv hs
  obtain ⟨q, hq, hl, hst, hdat, hw⟩ :=
    sliceBack_ok h p (p.length - p.iteratorAtTime h t) (Nat.sub_le _ _)
  refine ⟨q, ?_, by omega, hk, ?_, valid_of_narrow hv hdat (by omega)⟩
  · simp only [sliceTimeBack, hq]
  · rw [hw, ← ht]
    congr 1
    omega

/-- The result of `sliceTime` with its indices: when the slice is not empty, `retStart` is the
offset of the first selected shard plus the number of records cut from its front, and `retEnd`
is `retStart` plus the size of the slice. -/
theorem EventStore.sliceTime_indices (h : Heap) (s : EventStore) (startTime endTime : Int)
    (hv : s.Valid h) (hi : s.Indexed) (hT : s.Tight h) (hs : s.TimeOrdered h)
    (hfit : s.Fits) :
    ∃ r, s.sliceTime h startTime endTime = .ok r
      ∧ r.1.events h = (s.events h).filter (inWindow startTime endTime)
      ∧ r.1.Valid h ∧ r.1.Indexed
      ∧ (r.1.events h ≠ [] →
          ∃ front, s.dataPartials[lower_bound (compareAt false s.dataPartials startTime)
              s.dataPartials.length]? = some front
            ∧ r.2.1 = addSz (offsetOf s.dataPartials
                (lower_bound (compareAt false s.dataPartials startTime) s.dataPartials.length))
                (front.iteratorAtTime h startTime)
            ∧ r.2.2 = addSz r.2.1 r.1.totalLength) := by
  obtain ⟨hsorted, hcross, hbounds⟩ := order_facts h s hv hT hs
  obtain ⟨hLo1, hLo2, hLo3⟩ := lower_bound_highest h s hv hT hs startTime
  obtain ⟨hHi1, hHi2, hHi3⟩ := lower_bound_lowest h s hv hT hs endTime
  obtain ⟨r, hr, hev, hrv, hri⟩ := sliceTime_ok h s startTime endTime hv
    (by rw [hi.offsets_length]) hT hs
  refine ⟨r, hr, hev, hrv, hri, ?_⟩
  intro hne
  generalize hLodef :
    lower_bound (compareAt false s.dataPartials startTime) s.dataPartials.length = Lo
    at hLo1 hLo2 hLo3
  generalize hHidef :
    lower_bound (compareAt true s.dataPartials endTime) s.dataPartials.length = Hi
    at hHi1 hHi2 hHi3
  have htotal := hi.total
  have hsumle : ∀ (a c : Nat),
      (((s.dataPartials.drop a).take c).map PartialEventData.length).sum ≤ s.totalLength := by
    intro a c
    rw [htotal]
    exact List.Sublist.sum_le_sum
      (((List.take_sublist _ _).trans (List.drop_sublist _ _)).map _) (fun _ _ => Nat.zero_le _)
  rcases Nat.lt_or_ge Lo Hi with hlt | hge
  · generalize hnp : (s.dataPartials.drop Lo).take (Hi - Lo) = np
    have hnplen : np.length = Hi - Lo := by
      rw [← hnp, List.length_take, List.length_drop]; omega
    have hsub : np.Sublist s.dataPartials := by
      rw [← hnp]
      exact (List.take_sublist _ _).trans (List.drop_sublist _ _)
    have hmem : ∀ p ∈ np, p ∈ s.dataPartials := fun p hp => hsub.subset hp
    have hS : (np.map PartialEventData.length).sum ≤ s.totalLength := by
      rw [← hnp]
      exact hsumle Lo (Hi - Lo)
    have hoff := hi.offsets_get Lo (by omega)
    cases np with
    | nil => simp at hnplen; omega
    | cons front rest =>
      have hfront : s.dataPartials[Lo]? = some front := by
        have h0 : ((s.dataPartials.drop Lo).take (Hi - Lo))[0]? = some front := by
          rw [hnp]
          exact List.getElem?_cons_zero
        rw [List.getElem?_take_of_lt (by omega), List.getElem?_drop, Nat.add_zero] at h0
        exact h0
      have hfv : front.Valid h := hv front (hmem front (by simp))
      have hfs := hsorted front (hmem front (by simp))
      obtain ⟨q1, hq1, hk1, hl1, hw1, _, hv1⟩ :=
        PartialEventData.sliceTimeFront_full h front startTime hfv hfs
      have hfne : front.length ≠ 0 := (hT front (hmem front (by simp))).1
      have hsum : ¬ (List.map PartialEventData.length (front :: rest)).sum = 0 := by
        simp only [List.map_cons, List.sum_cons]
        omega
      refine ⟨front, hfront, ?_⟩
      rcases List.eq_nil_or_concat rest with hrr | ⟨mid, back, hrr⟩
      · subst hrr
        have hs1 : (q1.window h).Pairwise (fun a b => a.timestamp ≤ b.timestamp) := by
          rw [hw1]; exact List.Pairwise.filter _ hfs
        obtain ⟨q2, hq2, hl2, hk2, hw2, hv2⟩ :=
          PartialEventData.sliceTimeBack_full h q1 endTime hv1 hs1
        simp only [List.map_cons, List.map_nil, List.sum_cons, List.sum_nil, Nat.add_zero] at hS
        have hnl : subSz (subSz front.length (front.iteratorAtTime h startTime))
            (q1.length - q1.iteratorAtTime h endTime) = q2.length := by
          have hf2 := hfit.2
          have h1 : subSz front.length (front.iteratorAtTime h startTime)
              = front.length - front.iteratorAtTime h startTime :=
            subSz_eq hk1 (by omega)
          rw [h1]
          have h2 : subSz (front.length - front.iteratorAtTime h startTime)
              (q1.length - q1.iteratorAtTime h endTime)
              = front.length - front.iteratorAtTime h startTime
                - (q1.length - q1.iteratorAtTime h endTime) :=
            subSz_eq (by omega) (by omega)
          rw [h2]
          omega
        by_cases hz : q2.length = 0
        · exfalso
          have hst : ∃ x y, s.sliceTime h startTime endTime = .ok (fromPartials [], x, y) := by
            simp [sliceTime, hLodef, hHidef, hnp, hsum, vecGet, vecBack, bind, Except.bind,
              pure, Except.pure, hq1, hq2, hz, hoff, hfne]
          obtain ⟨x, y, hst⟩ := hst
          rw [hr] at hst
          cases hst
          exact hne (by simp [events, fromPartials])
        · have hst : s.sliceTime h startTime endTime
              = .ok (fromPartials [q2],
                  addSz (offsetOf s.dataPartials Lo) (front.iteratorAtTime h startTime),
                  addSz (addSz (offsetOf s.dataPartials Lo) (front.iteratorAtTime h startTime))
                    (subSz (subSz front.length (front.iteratorAtTime h startTime))
                      (q1.length - q1.iteratorAtTime h endTime))) := by
            simp [sliceTime, hLodef, hHidef, hnp, hsum, vecGet, vecBack, bind, Except.bind,
              pure, Except.pure, hq1, hq2, hz, hoff, hfne]
          rw [hr] at hst
          cases hst
          refine ⟨rfl, ?_⟩
          rw [hnl]
          simp [fromPartials, buildOffsets]
      · rw [List.concat_eq_append] at hrr
        subst hrr
        have hbm : back ∈ front :: (mid ++ [back]) := by simp
        have hbv : back.Valid h := hv back (hmem back hbm)
        have hbs := hsorted back (hmem back hbm)
        obtain ⟨q2, hq2, hl2, hk2, hw2, hv2⟩ :=
          PartialEventData.sliceTimeBack_full h back endTime hbv hbs
        obtain ⟨hc1, hc2⟩ := List.pairwise_cons.mp (List.Pairwise.sublist hsub hcross)
        obtain ⟨_, ⟨yf, hyf, hyft⟩, hfb⟩ := hbounds front (hmem front (by simp))
        obtain ⟨⟨xb, hxb, hxbt⟩, _, hbb⟩ := hbounds back (hmem back hbm)
        have hflo : startTime ≤ front.highestTime := by
          apply hLo3 front
          have : front ∈ (s.dataPartials.drop Lo).take (Hi - Lo) := by
            rw [hnp]
            exact List.mem_cons_self _ _
          exact List.mem_of_mem_take this
        have hbhi : back.lowestTime < endTime := by
          apply hHi2 back
          have : back ∈ (s.dataPartials.drop Lo).take (Hi - Lo) := by
            rw [hnp]
            exact hbm
          rw [List.take_drop, show Lo + (Hi - Lo) = Hi by omega] at this
          exact List.mem_of_mem_drop this
        have hq1ne : q1.length ≠ 0 := by
          rw [← PartialEventData.window_length hv1, hw1]
          intro hc
          have hnil := List.eq_nil_of_length_eq_zero hc
          have hin : yf ∈ (front.window h).filter (fun e => decide (startTime ≤ e.timestamp)) := by
            rw [List.mem_filter]
            exact ⟨hyf, by simp only [decide_eq_true_eq]; omega⟩
          rw [hnil] at hin
          cases hin
        have hq2ne : q2.length ≠ 0 := by
          rw [← PartialEventData.window_length hv2, hw2]
          intro hc
          have hnil := List.eq_nil_of_length_eq_zero hc
          have hin : xb ∈ (back.window h).filter (fun e => decide (e.timestamp < endTime)) := by
            rw [List.mem_filter]
            exact ⟨hxb, by simp only [decide_eq_true_eq]; omega⟩
          rw [hnil] at hin
          cases hin
        have hlast : (q1 :: (mid ++ [back])).getLast? = some back := by
          rw [← List.cons_append, List.getLast?_append]; simp
        have hdl : (q1 :: (mid ++ [back])).dropLast = q1 :: mid := by
          rw [← List.cons_append, List.dropLast_concat]
        have hlast2 : (q1 :: (mid ++ [q2])).getLast? = some q2 := by
          rw [← List.cons_append, List.getLast?_append]; simp
        have hst : s.sliceTime h startTime endTime
            = .ok (fromPartials (q1 :: (mid ++ [q2])),
                addSz (offsetOf s.dataPartials Lo) (front.iteratorAtTime h startTime),
                addSz (addSz (offsetOf s.dataPartials Lo) (front.iteratorAtTime h startTime))
                  (subSz (subSz (front.length
                      + ((mid.map PartialEventData.length).sum + back.length))
                    (front.iteratorAtTime h startTime))
                    (back.length - back.iteratorAtTime h endTime))) := by
          simp [sliceTime, hLodef, hHidef, hnp, vecGet, vecBack, bind, Except.bind,
            pure, Except.pure, hq1, hq2, hoff, hfne, hq1ne, hq2ne, hlast, hdl, hlast2]
        rw [hr] at hst
        cases hst
        refine ⟨rfl, ?_⟩
        simp only [List.map_cons, List.map_append, List.map_nil, List.sum_cons, List.sum_append,
          List.sum_nil, Nat.add_zero] at hS
        have hnl : subSz (subSz (front.length
              + ((mid.map PartialEventData.length).sum + back.length))
              (front.iteratorAtTime h startTime))
            (back.length - back.iteratorAtTime h endTime)
            = q1.length + ((mid.map PartialEventData.length).sum + q2.length) := by
          have hf2 := hfit.2
          have h1 : subSz (front.length
                + ((mid.map PartialEventData.length).sum + back.length))
              (front.iteratorAtTime h startTime)
              = front.length + ((mid.map PartialEventData.length).sum + back.length)
                - front.iteratorAtTime h startTime :=
            subSz_eq (by omega) (by omega)
          rw [h1]
          have h2 : subSz (front.length
                + ((mid.map PartialEventData.length).sum + back.length)
                - front.iteratorAtTime h startTime)
              (back.length - back.iteratorAtTime h endTime)
              = front.length + ((mid.map PartialEventData.length).sum + back.length)
                - front.iteratorAtTime h startTime
                - (back.length - back.iteratorAtTime h endTime) :=
            subSz_eq (by omega) (by omega)
          rw [h2]
          omega
        rw [hnl]
        have htl : (fromPartials (q1 :: (mid ++ [q2]))).totalLength
            = q1.length + ((mid.map PartialEventData.length).sum + q2.length) := by
          have := (fromPartials_indexed (q1 :: (mid ++ [q2]))).total
          rw [this]
          simp [fromPartials]
        rw [htl]
  · exfalso
    have hnp : (s.dataPartials.drop Lo).take (Hi - Lo) = [] := by
      rw [show Hi - Lo = 0 by omega, List.take_zero]
    have hst : s.sliceTime h startTime endTime = .ok (empty, 0, 0) := by
      simp [sliceTime, hLodef, hHidef, hnp, bind, Except.bind, pure, Except.pure]
    rw [hr] at hst
    cases hst
    exact hne (by simp [events, empty])

theorem filter_window_run (l : List Event) (a b : Int) (A : Nat)
    (hs : l.Pairwise (fun x y => x.timestamp ≤ y.timestamp))
    (h1 : ∀ e ∈ l.take A, e.timestamp < a) (h2 : ∀ e ∈ l.drop A, a ≤ e.timestamp) :
    l.filter (inWindow a b) = (l.drop A).take (l.filter (inWindow a b)).length := by
  have hpre : (l.take A).filter (inWindow a b) = [] := by
    apply List.filter_eq_nil_iff.mpr
    intro e he
    have := h1 e he
    simp only [inWindow, Bool.and_eq_true, decide_eq_true_eq]
    omega
  have hsplit : l.filter (inWindow a b) = (l.drop A).filter (inWindow a b) := by
    conv_lhs => rw [← List.take_append_drop A l]
    rw [List.filter_append, hpre, List.nil_append]
  have hsd : (l.drop A).Pairwise (fun x y => x.timestamp ≤ y.timestamp) :=
    hs.sublist (List.drop_sublist _ _)
  obtain ⟨g1, g2, g3⟩ := lower_bound_partition (l.drop A) Event.timestamp hsd b
    (stampBelow (l.drop A) b) (stampBelow_spec (l.drop A) b)
  generalize lower_bound (stampBelow (l.drop A) b) (l.drop A).length = ub at g1 g2 g3
  have hmid : (l.drop A).filter (inWindow a b) = (l.drop A).take ub := by
    apply filter_eq_take
    · intro e he
      have ha1 := h2 e (List.mem_of_mem_take he)
      have ha2 := g2 e he
      simp only [inWindow, Bool.and_eq_true, decide_eq_true_eq]
      exact ⟨ha1, ha2⟩
    · intro e he
      have := g3 e he
      simp only [inWindow, Bool.and_eq_false_iff, decide_eq_false_iff_not]
      right
      omega
  rw [hsplit, hmid, List.length_take, Nat.min_eq_left g1]

theorem getElem?_split {α : Type} (l : List α) (i : Nat) (a : α) (hget : l[i]? = some a) :
    l = l.take i ++ a :: l.drop (i + 1) := by
  have hlt : i < l.length := by
    by_contra hc
    rw [List.getElem?_eq_none (by omega)] at hget
    cases hget
  rw [List.getElem?_eq_getElem hlt] at hget
  have hd := List.drop_eq_getElem_cons hlt
  rw [Option.some.inj hget] at hd
  rw [← hd, List.take_append_drop]

/-- The index `retStart` of a non-empty slice is the position of the first record at or after
`startTime`. -/
theorem EventStore.retStart_partition (h : Heap) (s : EventStore) (startTime : Int)
    (hv : s.Valid h) (hT : s.Tight h) (hs : s.TimeOrdered h) (front : PartialEventData)
    (hfront : s.dataPartials[lower_bound (compareAt false s.dataPartials startTime)
      s.dataPartials.length]? = some front) :
    offsetOf s.dataPartials
        (lower_bound (compareAt false s.dataPartials startTime) s.dataPartials.length)
      + front.iteratorAtTime h startTime ≤ (s.events h).length
    ∧ (∀ e ∈ (s.events h).take (offsetOf s.dataPartials
        (lower_bound (compareAt false s.dataPartials startTime) s.dataPartials.length)
          + front.iteratorAtTime h startTime), e.timestamp < startTime)
    ∧ (∀ e ∈ (s.events h).drop (offsetOf s.dataPartials
        (lower_bound (compareAt false s.dataPartials startTime) s.dataPartials.length)
          + front.iteratorAtTime h startTime), startTime ≤ e.timestamp) := by
  obtain ⟨hsorted, hcross, hbounds⟩ := order_facts h s hv hT hs
  obtain ⟨hLo1, hLo2, hLo3⟩ := lower_bound_highest h s hv hT hs startTime
  generalize lower_bound (compareAt false s.dataPartials startTime) s.dataPartials.length = Lo
    at hLo1 hLo2 hLo3 hfront
  have hsplit := getElem?_split s.dataPartials Lo front hfront
  have hfm : front ∈ s.dataPartials := List.getElem?_mem hfront
  have hfv := hv front hfm
  obtain ⟨hk, htake, hdrop⟩ := PartialEventData.iteratorAtTime_spec h front startTime hfv
    (hsorted front hfm)
  generalize front.iteratorAtTime h startTime = k at hk htake hdrop
  have hwl := PartialEventData.window_length hfv
  have hXlen : ((s.dataPartials.take Lo).flatMap (PartialEventData.window h)).length
      = offsetOf s.dataPartials Lo :=
    length_flatMap_window h _ (fun p hp => hv p (List.mem_of_mem_take hp))
  have hev : s.events h = (s.dataPartials.take Lo).flatMap (PartialEventData.window h)
      ++ (front.window h
        ++ (s.dataPartials.drop (Lo + 1)).flatMap (PartialEventData.window h)) := by
    unfold events
    conv_lhs => rw [hsplit]
    rw [List.flatMap_append, List.flatMap_cons]
  have htk : (s.events h).take (offsetOf s.dataPartials Lo + k)
      = (s.dataPartials.take Lo).flatMap (PartialEventData.window h)
        ++ (front.window h).take k := by
    rw [hev, ← hXlen, List.take_append, List.take_append_of_le_length (by omega)]
  have hdk : (s.events h).drop (offsetOf s.dataPartials Lo + k)
      = (front.window h).drop k
        ++ (s.dataPartials.drop (Lo + 1)).flatMap (PartialEventData.window h) := by
    rw [hev, ← hXlen, List.drop_append, List.drop_append_of_le_length (by omega)]
  have hflo : startTime ≤ front.highestTime := by
    apply hLo3 front
    rw [List.mem_iff_getElem?]
    exact ⟨0, by rw [List.getElem?_drop, Nat.add_zero]; exact hfront⟩
  obtain ⟨_, ⟨yf, hyf, hyft⟩, _⟩ := hbounds front hfm
  refine ⟨?_, ?_, ?_⟩
  · rw [hev, List.length_append, List.length_append, hXlen, hwl]
    omega
  · intro e he
    rw [htk] at he
    rcases List.mem_append.mp he with he | he
    · obtain ⟨p, hp, hep⟩ := List.mem_flatMap.mp he
      have := hLo2 p hp
      have := ((hbounds p (List.mem_of_mem_take hp)).2.2 e hep).2
      omega
    · rw [htake] at he
      simpa using (List.mem_filter.mp he).2
  · intro e he
    rw [hdk] at he
    rcases List.mem_append.mp he with he | he
    · rw [hdrop] at he
      simpa using (List.mem_filter.mp he).2
    · obtain ⟨p, hp, hep⟩ := List.mem_flatMap.mp he
      rw [hsplit] at hcross
      have hc := (List.pairwise_append.mp hcross).2.1
      have := (List.pairwise_cons.mp hc).1 p hp yf hyf e hep
      omega

/-- C36: on a time-ordered store with a consistent offset index (valid, non-empty shards with
exact time caches, sizes within `size_t`), for every `startTime` and `endTime`,
`sliceTime(startTime, endTime, retStart, retEnd)` returns, and when the slice `R` is not empty,
`retEnd - retStart == R.size()` and `slice(retStart, retEnd - retStart)` returns the record
sequence of `R`. -/
theorem sliceTime_indices_describe (h : Heap) (s : EventStore) (startTime endTime : Int)
    (hv : s.Valid h) (hi : s.Indexed) (hT : s.Tight h) (hs : s.TimeOrdered h)
    (hfit : s.Fits) :
    ∃ r, s.sliceTime h startTime endTime = .ok r
      ∧ (r.1.size ≠ 0 →
          subSz r.2.2 r.2.1 = r.1.size
          ∧ ∃ q, s.slice h r.2.1 (subSz r.2.2 r.2.1) = .ok q
            ∧ q.events h = r.1.events h) := by
  obtain ⟨r, hr, hev, hrv, hri, hidx⟩ :=
    EventStore.sliceTime_indices h s startTime endTime hv hi hT hs hfit
  refine ⟨r, hr, ?_⟩
  intro hsize
  have hrl := EventStore.length_events hrv hri
  have hsl := EventStore.length_events hv hi
  have hne : r.1.events h ≠ [] := by
    intro hnil
    rw [hnil] at hrl
    exact hsize hrl.symm
  obtain ⟨front, hfront, h1, h2⟩ := hidx hne
  obtain ⟨hA, htake, hdrop⟩ :=
    EventStore.retStart_partition h s startTime hv hT hs front hfront
  have hf2 := hfit.2
  have hr1 : r.2.1 = EventStore.offsetOf s.dataPartials
      (lower_bound (compareAt false s.dataPartials startTime) s.dataPartials.length)
    + front.iteratorAtTime h startTime := by
    rw [h1]
    exact addSz_eq (by omega)
  generalize EventStore.offsetOf s.dataPartials
      (lower_bound (compareAt false s.dataPartials startTime) s.dataPartials.length)
    + front.iteratorAtTime h startTime = A at hA htake hdrop hr1
  have hrun := filter_window_run (s.events h) startTime endTime A hs htake hdrop
  rw [← hev, hrl] at hrun
  have hL : r.1.totalLength ≤ (s.events h).length - A := by
    have := congrArg List.length hrun
    rw [hrl, List.length_take, List.length_drop] at this
    omega
  have hr2 : r.2.2 = A + r.1.totalLength := by
    rw [h2, hr1]
    exact addSz_eq (by omega)
  have hsub : subSz r.2.2 r.2.1 = r.1.totalLength := by
    rw [hr2, hr1, subSz_eq (by omega) (by omega)]
    omega
  refine ⟨hsub, ?_⟩
  rw [hsub, hr1]
  obtain ⟨q, hq, hqe, _⟩ := EventStore.slice_ok h s A r.1.totalLength hv hi hfit.1 hfit.2
    (Nat.pos_of_ne_zero hsize) (by omega)
  exact ⟨q, hq, by rw [hqe, ← hrun]⟩

/-- C36 at the scenario `[1,2],[3,4],[5,6]` with the window `[3, 6)`. -/
theorem sliceTime_indices_describe_witness :
    ∃ r, demoStore.sliceTime demoHeap 3 6 = .ok r
      ∧ (r.1.size ≠ 0 →
          subSz r.2.2 r.2.1 = r.1.size
          ∧ ∃ q, demoStore.slice demoHeap r.2.1 (subSz r.2.2 r.2.1) = .ok q
            ∧ q.events demoHeap = r.1.events demoHeap) :=
  sliceTime_indices_describe demoHeap demoStore 3 6 demoStore_valid demoStore_indexed
    demoStore_tight demoStore_ordered demoStore_fits
end dv
